import Mathlib

/-!
# A shallow embedding of the nanopb wire codec

The definitions below are translated function by function from
`usr_pb_encode.c`, `usr_pb_decode.c` and `usr_pb_common.c` in the default
build configuration (no `usr_PB_BUFFER_ONLY`, no `usr_PB_WITHOUT_64BIT`,
no `usr_PB_NO_ERRMSG`, 16-bit `usr_pb_size_t`, 64-bit `size_t`).

Conventions of the embedding:

* a C function `bool f(stream, ..., T *out)` becomes a function returning the
  stream after the call together with an `Option T`: `none` is the C result
  `false`, `some v` is the C result `true` with `*out = v`;
* unsigned machine integers are natural numbers, reduced explicitly modulo
  `2 ^ w` wherever the C arithmetic can leave the range; signed machine
  integers are integers in the range of their type;
* input and output streams are the memory-buffer streams created by
  `usr_pb_istream_from_buffer` and `usr_pb_ostream_from_buffer`; `state`, the
  C pointer into the buffer, is the list of bytes from the read position on
  (input) and the list of bytes stored so far (output);
* loops are structurally recursive functions on a fuel counter whose initial
  value is the loop's iteration bound (stated in the comment of each loop);
* the message structs live in a byte-addressed little-endian memory
  (`List usr_pb_byte_t`); a descriptor (`usr_pb_msgdesc_t`) is a finite tree, its
  `field_info` the array of 32-bit words that the macros `usr_PB_FIELDINFO_n`
  generate;
* the field decoders work on a `decode_state` and return
  `Option (Bool × decode_state)`: `some (b, st)` is the C result `b` with the
  state after the call, `none` marks a call that leaves the embedding (a user
  callback, a registered extension, a dereferenced null pointer) or a loop
  that ran out of fuel;
* `usr_pb_decode_inner` and `usr_pb_message_set_to_defaults` call each other
  through submessages; their bodies take the two functions as arguments and
  `decode_fns` ties the knot by recursion on the nesting depth.
-/

namespace Nanopb

/-! ## Machine types -/

/-- Bytes of the wire format, `usr_pb_byte_t`. -/
abbrev usr_pb_byte_t := Fin 256

/-- The cast `(usr_pb_byte_t)x` of an unsigned value. -/
def toByte (x : Nat) : usr_pb_byte_t := ⟨x % 256, Nat.mod_lt x (by decide)⟩

/-- The cast `(uint32_t)x`. -/
def toU32 (x : Nat) : Nat := x % 2 ^ 32

/-- The cast `(uint64_t)x` of an unsigned value. -/
def toU64 (x : Nat) : Nat := x % 2 ^ 64

/-- The cast `(size_t)x` of an unsigned value (64-bit host). -/
def toSize (x : Nat) : Nat := x % 2 ^ 64

/-- The cast `(uint64_t)x` of a signed 64-bit value (two's complement). -/
def i64ToU64 (x : Int) : Nat := (x % 2 ^ 64).toNat

/-- The cast `(int64_t)x` of an unsigned 64-bit value (two's complement). -/
def u64ToI64 (x : Nat) : Int := if x < 2 ^ 63 then (x : Int) else (x : Int) - 2 ^ 64

/-! ## Input streams (`usr_pb_decode.c`) -/

/-- The struct `usr_pb_istream_s` of a buffer stream: `state` holds the bytes
from the read pointer on, `errmsg = none` is the null pointer. -/
structure usr_pb_istream_t where
  state : List usr_pb_byte_t
  bytes_left : Nat
  errmsg : Option String
  deriving DecidableEq, Repr

/-- The macro `usr_PB_SET_ERROR`: the first message set on a stream is kept. -/
def istream_set_error (stream : usr_pb_istream_t) (msg : String) : usr_pb_istream_t :=
  { stream with errmsg := match stream.errmsg with
                          | some e => some e
                          | none => some msg }

/-- The function `usr_pb_istream_from_buffer(buf, msglen)` with `msglen` the
length of `buf`. -/
def usr_pb_istream_from_buffer (buf : List usr_pb_byte_t) : usr_pb_istream_t :=
  { state := buf, bytes_left := buf.length, errmsg := none }

/-- The callback `buf_read`: advances the read pointer by `count` and copies
the bytes passed over. -/
def buf_read (stream : usr_pb_istream_t) (count : Nat) :
    usr_pb_istream_t × List usr_pb_byte_t :=
  ({ stream with state := stream.state.drop count }, stream.state.take count)

/-- The function `usr_pb_read(stream, buf, count)` on a buffer stream. The
bytes copied to `buf` are returned; a caller passing `buf = NULL` ignores
them. -/
def usr_pb_read (stream : usr_pb_istream_t) (count : Nat) :
    usr_pb_istream_t × Option (List usr_pb_byte_t) :=
  if count = 0 then (stream, some [])
  else if stream.bytes_left < count then (istream_set_error stream "end-of-stream", none)
  else
    let r := buf_read stream count
    ({ r.1 with bytes_left := r.1.bytes_left - count }, some r.2)

/-- The function `usr_pb_readbyte(stream, buf)`. Reading behind the end of
the backing buffer, undefined in C, yields the byte 0. -/
def usr_pb_readbyte (stream : usr_pb_istream_t) :
    usr_pb_istream_t × Option usr_pb_byte_t :=
  if stream.bytes_left = 0 then (istream_set_error stream "end-of-stream", none)
  else
    let r := buf_read stream 1
    ({ r.1 with bytes_left := r.1.bytes_left - 1 }, some (r.2.headD 0))

/-! ## Output streams (`usr_pb_encode.c`) -/

/-- The struct `usr_pb_ostream_s`: `callback = false` is the null callback of
a sizing stream, `callback = true` is `buf_write`; `state` is the content of
the buffer up to the write pointer. -/
structure usr_pb_ostream_t where
  callback : Bool
  state : List usr_pb_byte_t
  max_size : Nat
  bytes_written : Nat
  errmsg : Option String
  deriving DecidableEq, Repr

/-- The macro `usr_PB_SET_ERROR` on an output stream. -/
def ostream_set_error (stream : usr_pb_ostream_t) (msg : String) : usr_pb_ostream_t :=
  { stream with errmsg := match stream.errmsg with
                          | some e => some e
                          | none => some msg }

/-- The constant `usr_PB_OSTREAM_SIZING`. -/
def usr_PB_OSTREAM_SIZING : usr_pb_ostream_t :=
  { callback := false, state := [], max_size := 0, bytes_written := 0, errmsg := none }

/-- The function `usr_pb_ostream_from_buffer(buf, bufsize)`. -/
def usr_pb_ostream_from_buffer (bufsize : Nat) : usr_pb_ostream_t :=
  { callback := true, state := [], max_size := bufsize, bytes_written := 0, errmsg := none }

/-- The callback `buf_write`: stores `count` bytes of `buf` at the write
pointer and advances it. -/
def buf_write (stream : usr_pb_ostream_t) (buf : List usr_pb_byte_t) (count : Nat) :
    usr_pb_ostream_t :=
  { stream with state := stream.state ++ buf.take count }

/-- The function `usr_pb_write(stream, buf, count)`; the result `false` of C
is the second component. -/
def usr_pb_write (stream : usr_pb_ostream_t) (buf : List usr_pb_byte_t) (count : Nat) :
    usr_pb_ostream_t × Bool :=
  if count > 0 ∧ stream.callback = true then
    if toSize (stream.bytes_written + count) < stream.bytes_written ∨
        toSize (stream.bytes_written + count) > stream.max_size then
      (ostream_set_error stream "stream full", false)
    else
      let s := buf_write stream buf count
      ({ s with bytes_written := toSize (s.bytes_written + count) }, true)
  else
    ({ stream with bytes_written := toSize (stream.bytes_written + count) }, true)

/-! ## Wire primitives, encoding side -/

/-- First loop of `usr_pb_encode_varint_32`:
`while (i < 4 && (low != 0 || high != 0))`. The state is the buffer filled so
far (its length is `i`), the pending `byte` and `low`. -/
def encode_varint_32_loop1 (high : Nat) :
    Nat → List usr_pb_byte_t → usr_pb_byte_t → Nat →
      List usr_pb_byte_t × usr_pb_byte_t × Nat
  | 0, buffer, byte, low => (buffer, byte, low)
  | fuel + 1, buffer, byte, low =>
    if buffer.length < 4 ∧ (low ≠ 0 ∨ high ≠ 0) then
      let byte := toByte (byte.val ||| 0x80)
      let buffer := buffer ++ [byte]
      let byte := toByte (low &&& 0x7F)
      let low := low >>> 7
      encode_varint_32_loop1 high fuel buffer byte low
    else (buffer, byte, low)

/-- Second loop of `usr_pb_encode_varint_32`: `while (high)`. -/
def encode_varint_32_loop2 :
    Nat → List usr_pb_byte_t → usr_pb_byte_t → Nat →
      List usr_pb_byte_t × usr_pb_byte_t × Nat
  | 0, buffer, byte, high => (buffer, byte, high)
  | fuel + 1, buffer, byte, high =>
    if high ≠ 0 then
      let byte := toByte (byte.val ||| 0x80)
      let buffer := buffer ++ [byte]
      let byte := toByte (high &&& 0x7F)
      let high := high >>> 7
      encode_varint_32_loop2 fuel buffer byte high
    else (buffer, byte, high)

/-- The bytes that `usr_pb_encode_varint_32(stream, low, high)` collects in its
local buffer before it calls `usr_pb_write`. The first loop runs at most 4
times, the second at most 5 times (`high >> 3` has 29 bits). -/
def encode_varint_32_buffer (low high : Nat) : List usr_pb_byte_t :=
  let byte := toByte (low &&& 0x7F)
  let low := low >>> 7
  let r1 := encode_varint_32_loop1 high 4 [] byte low
  let buffer := r1.1
  let byte := r1.2.1
  let r2 :=
    if high ≠ 0 then
      let byte := toByte (byte.val ||| ((high &&& 0x07) <<< 4))
      let high := high >>> 3
      encode_varint_32_loop2 5 buffer byte high
    else (buffer, byte, high)
  r2.1 ++ [r2.2.1]

/-- The function `usr_pb_encode_varint_32(stream, low, high)`. -/
def usr_pb_encode_varint_32 (stream : usr_pb_ostream_t) (low high : Nat) :
    usr_pb_ostream_t × Bool :=
  let buffer := encode_varint_32_buffer low high
  usr_pb_write stream buffer buffer.length

/-- The function `usr_pb_encode_varint(stream, value)`, `value` a `uint64_t`. -/
def usr_pb_encode_varint (stream : usr_pb_ostream_t) (value : Nat) :
    usr_pb_ostream_t × Bool :=
  if value ≤ 0x7F then
    usr_pb_write stream [toByte value] 1
  else
    usr_pb_encode_varint_32 stream (toU32 value) (toU32 (value >>> 32))

/-- The function `usr_pb_encode_svarint(stream, value)`, `value` an `int64_t`. -/
def usr_pb_encode_svarint (stream : usr_pb_ostream_t) (value : Int) :
    usr_pb_ostream_t × Bool :=
  let zigzagged :=
    if value < 0 then 2 ^ 64 - 1 - toU64 (i64ToU64 value <<< 1)
    else toU64 (i64ToU64 value <<< 1)
  usr_pb_encode_varint stream zigzagged

/-- The function `usr_pb_encode_fixed32(stream, value)`; `val` is the
`uint32_t` that `value` points to. -/
def usr_pb_encode_fixed32 (stream : usr_pb_ostream_t) (val : Nat) :
    usr_pb_ostream_t × Bool :=
  let bytes := [toByte (val &&& 0xFF), toByte ((val >>> 8) &&& 0xFF),
    toByte ((val >>> 16) &&& 0xFF), toByte ((val >>> 24) &&& 0xFF)]
  usr_pb_write stream bytes 4

/-- The function `usr_pb_encode_fixed64(stream, value)`; `val` is the
`uint64_t` that `value` points to. -/
def usr_pb_encode_fixed64 (stream : usr_pb_ostream_t) (val : Nat) :
    usr_pb_ostream_t × Bool :=
  let bytes := [toByte (val &&& 0xFF), toByte ((val >>> 8) &&& 0xFF),
    toByte ((val >>> 16) &&& 0xFF), toByte ((val >>> 24) &&& 0xFF),
    toByte ((val >>> 32) &&& 0xFF), toByte ((val >>> 40) &&& 0xFF),
    toByte ((val >>> 48) &&& 0xFF), toByte ((val >>> 56) &&& 0xFF)]
  usr_pb_write stream bytes 8

/-- The function `usr_pb_encode_tag(stream, wiretype, field_number)`,
`field_number` a `uint32_t`. -/
def usr_pb_encode_tag (stream : usr_pb_ostream_t) (wiretype field_number : Nat) :
    usr_pb_ostream_t × Bool :=
  let tag := toU64 (field_number <<< 3) ||| wiretype
  usr_pb_encode_varint stream tag

/-! ## Wire primitives, decoding side -/

/-- Body of the `do ... while (byte & 0x80)` loop of
`usr_pb_decode_varint32_eof`. On a normal exit of the loop the result carries
`result`, `bitpos` and the last `byte`, which the check after the loop reads. -/
def decode_varint32_loop :
    Nat → usr_pb_istream_t → Nat → Nat → usr_pb_istream_t × Option (Nat × Nat × usr_pb_byte_t)
  | 0, stream, _, _ => (stream, none)
  | fuel + 1, stream, bitpos, result =>
    match usr_pb_readbyte stream with
    | (stream, none) => (stream, none)
    | (stream, some byte) =>
      if bitpos ≥ 32 then
        let sign_extension : usr_pb_byte_t := if bitpos < 63 then 0xFF else 0x01
        let valid_extension : Bool :=
          ((byte.val &&& 0x7F) == 0x00) || ((result >>> 31) != 0 && byte == sign_extension)
        if bitpos ≥ 64 ∨ valid_extension = false then
          (istream_set_error stream "varint overflow", none)
        else
          let bitpos := (bitpos + 7) % 256
          if byte.val &&& 0x80 ≠ 0 then decode_varint32_loop fuel stream bitpos result
          else (stream, some (result, bitpos, byte))
      else
        let result := result ||| toU32 ((byte.val &&& 0x7F) <<< bitpos)
        let bitpos := (bitpos + 7) % 256
        if byte.val &&& 0x80 ≠ 0 then decode_varint32_loop fuel stream bitpos result
        else (stream, some (result, bitpos, byte))

/-- The function `usr_pb_decode_varint32_eof(stream, dest, eof)`. The middle
component is the value stored to `*eof` when the function sets it (`eof` is
`false` before the call). The loop is entered with `bitpos = 7` and leaves
with an error once `bitpos >= 64`, hence runs at most 10 times. -/
def usr_pb_decode_varint32_eof (stream : usr_pb_istream_t) :
    usr_pb_istream_t × Bool × Option Nat :=
  match usr_pb_readbyte stream with
  | (stream, none) => (stream, decide (stream.bytes_left = 0), none)
  | (stream, some byte) =>
    if byte.val &&& 0x80 = 0 then (stream, false, some byte.val)
    else
      match decode_varint32_loop 10 stream 7 (byte.val &&& 0x7F) with
      | (stream, none) => (stream, false, none)
      | (stream, some (result, bitpos, byte)) =>
        if bitpos = 35 ∧ (byte.val &&& 0x70) ≠ 0 then
          (istream_set_error stream "varint overflow", false, none)
        else (stream, false, some result)

/-- The function `usr_pb_decode_varint32(stream, dest)`. -/
def usr_pb_decode_varint32 (stream : usr_pb_istream_t) : usr_pb_istream_t × Option Nat :=
  let r := usr_pb_decode_varint32_eof stream
  (r.1, r.2.2)

/-- The `do ... while (byte & 0x80)` loop of `usr_pb_decode_varint`. -/
def decode_varint_loop :
    Nat → usr_pb_istream_t → Nat → Nat → usr_pb_istream_t × Option Nat
  | 0, stream, _, _ => (stream, none)
  | fuel + 1, stream, bitpos, result =>
    if bitpos ≥ 64 then (istream_set_error stream "varint overflow", none)
    else
      match usr_pb_readbyte stream with
      | (stream, none) => (stream, none)
      | (stream, some byte) =>
        let result := result ||| toU64 ((byte.val &&& 0x7F) <<< bitpos)
        let bitpos := (bitpos + 7) % 256
        if byte.val &&& 0x80 ≠ 0 then decode_varint_loop fuel stream bitpos result
        else (stream, some result)

/-- The function `usr_pb_decode_varint(stream, dest)`. The loop starts with
`bitpos = 0` and returns at its head once `bitpos >= 64`: at most 11 rounds. -/
def usr_pb_decode_varint (stream : usr_pb_istream_t) : usr_pb_istream_t × Option Nat :=
  decode_varint_loop 11 stream 0 0

/-- Result of `usr_pb_decode_tag`: the stream, the C return value and the
three output parameters. -/
structure decode_tag_result where
  stream : usr_pb_istream_t
  ok : Bool
  wire_type : Nat
  tag : Nat
  eof : Bool
  deriving DecidableEq, Repr

/-- The function `usr_pb_decode_tag(stream, wire_type, tag, eof)`. -/
def usr_pb_decode_tag (stream : usr_pb_istream_t) : decode_tag_result :=
  match usr_pb_decode_varint32_eof stream with
  | (stream, eof, none) =>
    { stream := stream, ok := false, wire_type := 0, tag := 0, eof := eof }
  | (stream, _, some temp) =>
    { stream := stream, ok := true, wire_type := temp &&& 7, tag := temp >>> 3, eof := false }

/-- The function `usr_pb_decode_svarint(stream, dest)`. -/
def usr_pb_decode_svarint (stream : usr_pb_istream_t) : usr_pb_istream_t × Option Int :=
  match usr_pb_decode_varint stream with
  | (stream, none) => (stream, none)
  | (stream, some value) =>
    if value &&& 1 ≠ 0 then (stream, some (u64ToI64 (2 ^ 64 - 1 - (value >>> 1))))
    else (stream, some (u64ToI64 (value >>> 1)))

/-- The function `usr_pb_decode_fixed32(stream, dest)` (the portable branch,
which the little-endian fast path agrees with). -/
def usr_pb_decode_fixed32 (stream : usr_pb_istream_t) : usr_pb_istream_t × Option Nat :=
  match usr_pb_read stream 4 with
  | (stream, none) => (stream, none)
  | (stream, some bytes) =>
    (stream, some (toU32 ((bytes.getD 0 0).val <<< 0) ||| toU32 ((bytes.getD 1 0).val <<< 8) |||
      toU32 ((bytes.getD 2 0).val <<< 16) ||| toU32 ((bytes.getD 3 0).val <<< 24)))

/-- The function `usr_pb_decode_fixed64(stream, dest)` (portable branch). -/
def usr_pb_decode_fixed64 (stream : usr_pb_istream_t) : usr_pb_istream_t × Option Nat :=
  match usr_pb_read stream 8 with
  | (stream, none) => (stream, none)
  | (stream, some bytes) =>
    (stream, some (toU64 ((bytes.getD 0 0).val <<< 0) ||| toU64 ((bytes.getD 1 0).val <<< 8) |||
      toU64 ((bytes.getD 2 0).val <<< 16) ||| toU64 ((bytes.getD 3 0).val <<< 24) |||
      toU64 ((bytes.getD 4 0).val <<< 32) ||| toU64 ((bytes.getD 5 0).val <<< 40) |||
      toU64 ((bytes.getD 6 0).val <<< 48) ||| toU64 ((bytes.getD 7 0).val <<< 56)))

/-! ## Reference encoding used in the proofs -/

/-- Reference base-128 little-endian encoding of a natural number, used to
state what the varint encoder writes. -/
def leb128 (x : Nat) : List usr_pb_byte_t :=
  if x < 128 then [toByte x] else toByte (x % 128 + 128) :: leb128 (x / 128)
termination_by x
decreasing_by omega

/-- The integer denoted by the bytes of a varint, as the wire format defines
it: the sum of `(b_i & 0x7F) * 2 ^ (7 * i)`. -/
def varint_value : List usr_pb_byte_t → Nat
  | [] => 0
  | b :: rest => (b.val &&& 0x7F) + 2 ^ 7 * varint_value rest

/-! ## Field types and descriptors (`usr_pb.h`) -/

def usr_PB_LTYPE_BOOL : Nat := 0x00
def usr_PB_LTYPE_VARINT : Nat := 0x01
def usr_PB_LTYPE_UVARINT : Nat := 0x02
def usr_PB_LTYPE_SVARINT : Nat := 0x03
def usr_PB_LTYPE_FIXED32 : Nat := 0x04
def usr_PB_LTYPE_FIXED64 : Nat := 0x05
def usr_PB_LTYPE_LAST_PACKABLE : Nat := 0x05
def usr_PB_LTYPE_BYTES : Nat := 0x06
def usr_PB_LTYPE_STRING : Nat := 0x07
def usr_PB_LTYPE_SUBMESSAGE : Nat := 0x08
def usr_PB_LTYPE_SUBMSG_W_CB : Nat := 0x09
def usr_PB_LTYPE_EXTENSION : Nat := 0x0A
def usr_PB_LTYPE_FIXED_LENGTH_BYTES : Nat := 0x0B
def usr_PB_LTYPE_MASK : Nat := 0x0F

def usr_PB_HTYPE_REQUIRED : Nat := 0x00
def usr_PB_HTYPE_OPTIONAL : Nat := 0x10
def usr_PB_HTYPE_REPEATED : Nat := 0x20
def usr_PB_HTYPE_ONEOF : Nat := 0x30
def usr_PB_HTYPE_MASK : Nat := 0x30

def usr_PB_ATYPE_STATIC : Nat := 0x00
def usr_PB_ATYPE_POINTER : Nat := 0x80
def usr_PB_ATYPE_CALLBACK : Nat := 0x40
def usr_PB_ATYPE_MASK : Nat := 0xC0

/-- The macro `usr_PB_ATYPE(x)`. -/
def usr_PB_ATYPE (x : Nat) : Nat := x &&& usr_PB_ATYPE_MASK

/-- The macro `usr_PB_HTYPE(x)`. -/
def usr_PB_HTYPE (x : Nat) : Nat := x &&& usr_PB_HTYPE_MASK

/-- The macro `usr_PB_LTYPE(x)`. -/
def usr_PB_LTYPE (x : Nat) : Nat := x &&& usr_PB_LTYPE_MASK

/-- The macro `usr_PB_LTYPE_IS_SUBMSG(x)`. -/
def usr_PB_LTYPE_IS_SUBMSG (x : Nat) : Bool :=
  usr_PB_LTYPE x == usr_PB_LTYPE_SUBMESSAGE || usr_PB_LTYPE x == usr_PB_LTYPE_SUBMSG_W_CB

/-- The cast `(usr_pb_size_t)x`; `usr_pb_size_t` is `uint_least16_t`. -/
def toPbSize (x : Nat) : Nat := x % 2 ^ 16

/-- The constant `usr_PB_SIZE_MAX`. -/
def usr_PB_SIZE_MAX : Nat := 2 ^ 16 - 1

/-- The constant `usr_PB_MAX_REQUIRED_FIELDS` (default value). -/
def usr_PB_MAX_REQUIRED_FIELDS : Nat := 64

def usr_PB_WT_VARINT : Nat := 0
def usr_PB_WT_64BIT : Nat := 1
def usr_PB_WT_STRING : Nat := 2
def usr_PB_WT_32BIT : Nat := 5

/-- The marker `usr_PB_WT_PACKED` of `usr_pb_decode.c`. -/
def usr_PB_WT_PACKED : Nat := 0xFF

def usr_PB_DECODE_NOINIT : Nat := 0x01
def usr_PB_DECODE_DELIMITED : Nat := 0x02
def usr_PB_DECODE_NULLTERMINATED : Nat := 0x04

/-- The struct `usr_pb_msgdesc_s`. The pointers of `submsg_info` are the
descriptors they point to (the terminating null entry is the end of the
list), `default_value = none` is the null pointer and `field_callback` tells
whether the function pointer is non-null. -/
inductive usr_pb_msgdesc_t where
  | mk (field_info : List Nat) (submsg_info : List usr_pb_msgdesc_t)
      (default_value : Option (List usr_pb_byte_t)) (field_callback : Bool)
      (field_count required_field_count largest_tag : Nat)

namespace usr_pb_msgdesc_t

def field_info : usr_pb_msgdesc_t → List Nat
  | mk a _ _ _ _ _ _ => a

def submsg_info : usr_pb_msgdesc_t → List usr_pb_msgdesc_t
  | mk _ a _ _ _ _ _ => a

def default_value : usr_pb_msgdesc_t → Option (List usr_pb_byte_t)
  | mk _ _ a _ _ _ _ => a

def field_callback : usr_pb_msgdesc_t → Bool
  | mk _ _ _ a _ _ _ => a

def field_count : usr_pb_msgdesc_t → Nat
  | mk _ _ _ _ a _ _ => a

def required_field_count : usr_pb_msgdesc_t → Nat
  | mk _ _ _ _ _ a _ => a

def largest_tag : usr_pb_msgdesc_t → Nat
  | mk _ _ _ _ _ _ a => a

mutual
/-- Nesting depth of a descriptor: 1 plus the largest depth of a submessage
descriptor. -/
def depth : usr_pb_msgdesc_t → Nat
  | mk _ subs _ _ _ _ _ => depth_list subs + 1
/-- Largest nesting depth in a list of descriptors. -/
def depth_list : List usr_pb_msgdesc_t → Nat
  | [] => 0
  | d :: ds => max (depth d) (depth_list ds)
end

end usr_pb_msgdesc_t

/-- The read `usr_PB_PROGMEM_READU32(desc->field_info[i])`; behind the end of
the array (undefined in C) the word read is 0. -/
def field_info_word (desc : usr_pb_msgdesc_t) (i : Nat) : Nat :=
  toU32 (desc.field_info.getD i 0)

/-- The macro `usr_PB_FIELDINFO_1`. -/
def usr_PB_FIELDINFO_1 (tag type data_offset data_size size_offset _array_size : Nat) :
    List Nat :=
  [0 ||| ((tag <<< 2) &&& 0xFF) ||| (type <<< 8) ||| ((toU32 data_offset &&& 0xFF) <<< 16) |||
    ((toU32 size_offset &&& 0x0F) <<< 24) ||| ((toU32 data_size &&& 0x0F) <<< 28)]

/-- The macro `usr_PB_FIELDINFO_2`. -/
def usr_PB_FIELDINFO_2 (tag type data_offset data_size size_offset array_size : Nat) :
    List Nat :=
  [1 ||| ((tag <<< 2) &&& 0xFF) ||| (type <<< 8) ||| ((toU32 array_size &&& 0xFFF) <<< 16) |||
    ((toU32 size_offset &&& 0x0F) <<< 28),
   (toU32 data_offset &&& 0xFFFF) ||| ((toU32 data_size &&& 0xFFF) <<< 16) |||
    ((toU32 tag &&& 0x3c0) <<< 22)]

/-! ## Memory holding the message structs -/

/-- The bytes `mem[addr .. addr + n)`; a byte outside the modelled memory
reads as 0. -/
def mem_read (mem : List usr_pb_byte_t) (addr n : Nat) : List usr_pb_byte_t :=
  (List.range n).map (fun i => mem.getD (addr + i) 0)

/-- Stores `bytes` at `mem[addr ..]`; stores outside the modelled memory are
dropped. -/
def mem_write (mem : List usr_pb_byte_t) (addr : Nat) : List usr_pb_byte_t → List usr_pb_byte_t
  | [] => mem
  | b :: bs => mem_write (mem.set addr b) (addr + 1) bs

/-- The `n` bytes of the unsigned value `v`, least significant first
(little-endian host). -/
def le_bytes : Nat → Nat → List usr_pb_byte_t
  | 0, _ => []
  | n + 1, v => toByte v :: le_bytes n (v / 256)

/-- The unsigned value of little-endian bytes. -/
def le_value : List usr_pb_byte_t → Nat
  | [] => 0
  | b :: bs => b.val + 256 * le_value bs

/-- Load of an `n`-byte unsigned integer. -/
def load_uint (mem : List usr_pb_byte_t) (addr n : Nat) : Nat :=
  le_value (mem_read mem addr n)

/-- Store of an `n`-byte unsigned integer (the value is truncated to `n`
bytes). -/
def store_uint (mem : List usr_pb_byte_t) (addr n v : Nat) : List usr_pb_byte_t :=
  mem_write mem addr (le_bytes n v)

/-- The call `memset(p, 0, n)`. -/
def mem_zero (mem : List usr_pb_byte_t) (addr n : Nat) : List usr_pb_byte_t :=
  mem_write mem addr (List.replicate n 0)

/-- The signed value of the low `8 * n` bits of `v` (two's complement): the
casts `(int8_t)`, `(int16_t)`, `(int32_t)`, `(int64_t)`. -/
def sign_extend (n : Nat) (v : Nat) : Int :=
  if v % 2 ^ (8 * n) < 2 ^ (8 * n - 1) then ((v % 2 ^ (8 * n) : Nat) : Int)
  else ((v % 2 ^ (8 * n) : Nat) : Int) - 2 ^ (8 * n)

/-- The two's complement representation in `8 * n` bits of a signed value. -/
def to_unsigned (n : Nat) (v : Int) : Nat := (v % 2 ^ (8 * n)).toNat

/-- Load of a pointer (8 bytes); the null pointer is stored as 0. -/
def load_ptr (mem : List usr_pb_byte_t) (addr : Nat) : Option Nat :=
  if load_uint mem addr 8 = 0 then none else some (load_uint mem addr 8)

/-! ## Field iterator (`usr_pb_common.c`) -/

/-- What the field `pSize` of an iterator can point to: nothing, a location
of the message memory, the iterator's own `array_size` (fixed count arrays) or
the local `fixed_count_size` of `usr_pb_decode_inner`. -/
inductive size_ptr where
  | null
  | mem (addr : Nat)
  | iter_array_size
  | fixed_count_size
  deriving DecidableEq, Repr

/-- The struct `usr_pb_field_iter_s`. Pointers into the message memory are
addresses, `none` is the null pointer. -/
structure usr_pb_field_iter_t where
  descriptor : usr_pb_msgdesc_t
  message : Option Nat
  index : Nat
  field_info_index : Nat
  required_field_index : Nat
  submessage_index : Nat
  tag : Nat
  data_size : Nat
  array_size : Nat
  type : Nat
  pField : Option Nat
  pData : Option Nat
  pSize : size_ptr
  submsg_desc : Option usr_pb_msgdesc_t

/-- The cast `(int_least8_t)x` of a value below 256. -/
def toInt8 (x : Nat) : Int := if x % 256 < 128 then ((x % 256 : Nat) : Int) else ((x % 256 : Nat) : Int) - 256

/-- The function `load_descriptor_values(iter)`. The message memory is read
only for a pointer field, where `pData = *(void**)pField`. -/
def load_descriptor_values (mem : List usr_pb_byte_t) (iter : usr_pb_field_iter_t) :
    usr_pb_field_iter_t × Bool :=
  if iter.index ≥ iter.descriptor.field_count then (iter, false)
  else
    let word0 := field_info_word iter.descriptor iter.field_info_index
    let word1 := field_info_word iter.descriptor (iter.field_info_index + 1)
    let word2 := field_info_word iter.descriptor (iter.field_info_index + 2)
    let word3 := field_info_word iter.descriptor (iter.field_info_index + 3)
    let word4 := field_info_word iter.descriptor (iter.field_info_index + 4)
    let type := (word0 >>> 8) &&& 0xFF
    -- the four record formats: array_size, tag, size_offset, data_offset, data_size
    let v : Nat × Nat × Int × Nat × Nat :=
      if word0 &&& 3 = 0 then
        (1, toPbSize ((word0 >>> 2) &&& 0x3F), toInt8 ((word0 >>> 24) &&& 0x0F),
          (word0 >>> 16) &&& 0xFF, toPbSize ((word0 >>> 28) &&& 0x0F))
      else if word0 &&& 3 = 1 then
        (toPbSize ((word0 >>> 16) &&& 0x0FFF),
          toPbSize (((word0 >>> 2) &&& 0x3F) ||| toU32 ((word1 >>> 28) <<< 6)),
          toInt8 ((word0 >>> 28) &&& 0x0F), word1 &&& 0xFFFF,
          toPbSize ((word1 >>> 16) &&& 0x0FFF))
      else if word0 &&& 3 = 2 then
        (toPbSize (word0 >>> 16),
          toPbSize (((word0 >>> 2) &&& 0x3F) ||| toU32 ((word1 >>> 8) <<< 6)),
          toInt8 (word1 &&& 0xFF), word2, toPbSize word3)
      else
        (toPbSize word4,
          toPbSize (((word0 >>> 2) &&& 0x3F) ||| toU32 ((word1 >>> 8) <<< 6)),
          toInt8 (word1 &&& 0xFF), word2, toPbSize word3)
    let size_offset := v.2.2.1
    let data_offset := v.2.2.2.1
    let pField : Option Nat :=
      match iter.message with
      | none => none
      | some message => some (message + data_offset)
    let pSize : size_ptr :=
      match pField with
      | none => size_ptr.null
      | some pField =>
        if size_offset ≠ 0 then size_ptr.mem ((pField : Int) - size_offset).toNat
        else if usr_PB_HTYPE type = usr_PB_HTYPE_REPEATED ∧
            (usr_PB_ATYPE type = usr_PB_ATYPE_STATIC ∨
              usr_PB_ATYPE type = usr_PB_ATYPE_POINTER) then
          size_ptr.iter_array_size
        else size_ptr.null
    let pData : Option Nat :=
      match pField with
      | none => iter.pData
      | some pField =>
        if usr_PB_ATYPE type = usr_PB_ATYPE_POINTER then load_ptr mem pField
        else some pField
    let submsg_desc : Option usr_pb_msgdesc_t :=
      if usr_PB_LTYPE_IS_SUBMSG type then iter.descriptor.submsg_info[iter.submessage_index]?
      else none
    ({ iter with type := type, array_size := v.1, tag := v.2.1, data_size := v.2.2.2.2,
                 pField := pField, pSize := pSize, pData := pData,
                 submsg_desc := submsg_desc }, true)

/-- The function `advance_iterator(iter)`. -/
def advance_iterator (iter : usr_pb_field_iter_t) : usr_pb_field_iter_t :=
  let iter := { iter with index := toPbSize (iter.index + 1) }
  if iter.index ≥ iter.descriptor.field_count then
    { iter with index := 0, field_info_index := 0, submessage_index := 0,
                required_field_index := 0 }
  else
    let prev_descriptor := field_info_word iter.descriptor iter.field_info_index
    let prev_type := (prev_descriptor >>> 8) &&& 0xFF
    let descriptor_len := toPbSize (1 <<< (prev_descriptor &&& 3))
    { iter with
        field_info_index := toPbSize (iter.field_info_index + descriptor_len),
        required_field_index := toPbSize (iter.required_field_index +
          (if usr_PB_HTYPE prev_type = usr_PB_HTYPE_REQUIRED then 1 else 0)),
        submessage_index := toPbSize (iter.submessage_index +
          (if usr_PB_LTYPE_IS_SUBMSG prev_type then 1 else 0)) }

/-- The function `usr_pb_field_iter_begin(iter, desc, message)`. -/
def usr_pb_field_iter_begin (mem : List usr_pb_byte_t) (desc : usr_pb_msgdesc_t)
    (message : Option Nat) : usr_pb_field_iter_t × Bool :=
  load_descriptor_values mem
    { descriptor := desc, message := message, index := 0, field_info_index := 0,
      required_field_index := 0, submessage_index := 0, tag := 0, data_size := 0,
      array_size := 0, type := 0, pField := none, pData := none, pSize := size_ptr.null,
      submsg_desc := none }

/-- The function `usr_pb_field_iter_next(iter)`. -/
def usr_pb_field_iter_next (mem : List usr_pb_byte_t) (iter : usr_pb_field_iter_t) :
    usr_pb_field_iter_t × Bool :=
  let iter := (load_descriptor_values mem (advance_iterator iter)).1
  (iter, decide (iter.index ≠ 0))

/-- The `do ... while (iter->index != start)` loop of
`usr_pb_field_iter_find`; the result `true` means that the function returned
`true` from inside the loop. -/
def field_iter_find_loop (mem : List usr_pb_byte_t) (tag start : Nat) :
    Nat → usr_pb_field_iter_t → usr_pb_field_iter_t × Bool
  | 0, iter => (iter, false)
  | fuel + 1, iter =>
    let iter := advance_iterator iter
    let fieldinfo := field_info_word iter.descriptor iter.field_info_index
    let r : usr_pb_field_iter_t × Bool :=
      if (fieldinfo >>> 2) &&& 0x3F = tag &&& 0x3F then
        let iter := (load_descriptor_values mem iter).1
        (iter, decide (iter.tag = tag ∧ usr_PB_LTYPE iter.type ≠ usr_PB_LTYPE_EXTENSION))
      else (iter, false)
    if r.2 then r
    else if r.1.index ≠ start then field_iter_find_loop mem tag start fuel r.1
    else (r.1, false)

/-- The function `usr_pb_field_iter_find(iter, tag)`. The loop visits every
field at most once before `index` is back at `start`: at most
`field_count + 1` rounds. -/
def usr_pb_field_iter_find (mem : List usr_pb_byte_t) (iter : usr_pb_field_iter_t)
    (tag : Nat) : usr_pb_field_iter_t × Bool :=
  if iter.tag = tag then (iter, true)
  else if tag > iter.descriptor.largest_tag then (iter, false)
  else
    let start := iter.index
    let iter :=
      if tag < iter.tag then { iter with index := iter.descriptor.field_count } else iter
    let r := field_iter_find_loop mem tag start (iter.descriptor.field_count + 1) iter
    if r.2 then r
    else ((load_descriptor_values mem r.1).1, false)

/-- The loop of `usr_pb_field_iter_find_extension`. -/
def field_iter_find_extension_loop (mem : List usr_pb_byte_t) (start : Nat) :
    Nat → usr_pb_field_iter_t → usr_pb_field_iter_t × Option Bool
  | 0, iter => (iter, none)
  | fuel + 1, iter =>
    let iter := advance_iterator iter
    let fieldinfo := field_info_word iter.descriptor iter.field_info_index
    if usr_PB_LTYPE ((fieldinfo >>> 8) &&& 0xFF) = usr_PB_LTYPE_EXTENSION then
      let r := load_descriptor_values mem iter
      (r.1, some r.2)
    else if iter.index ≠ start then field_iter_find_extension_loop mem start fuel iter
    else (iter, none)

/-- The function `usr_pb_field_iter_find_extension(iter)`. -/
def usr_pb_field_iter_find_extension (mem : List usr_pb_byte_t)
    (iter : usr_pb_field_iter_t) : usr_pb_field_iter_t × Bool :=
  if usr_PB_LTYPE iter.type = usr_PB_LTYPE_EXTENSION then (iter, true)
  else
    match field_iter_find_extension_loop mem iter.index (iter.descriptor.field_count + 1)
        iter with
    | (iter, some b) => (iter, b)
    | (iter, none) => ((load_descriptor_values mem iter).1, false)

/-! ## Stream helpers of the decoder (`usr_pb_decode.c`) -/

/-- The loop of `usr_pb_skip_varint`. Every round reads one byte, so the loop
runs at most `bytes_left + 1` times. -/
def skip_varint_loop : Nat → usr_pb_istream_t → usr_pb_istream_t × Bool
  | 0, stream => (stream, false)
  | fuel + 1, stream =>
    match usr_pb_read stream 1 with
    | (stream, none) => (stream, false)
    | (stream, some buf) =>
      if (buf.headD 0).val &&& 0x80 ≠ 0 then skip_varint_loop fuel stream
      else (stream, true)

/-- The function `usr_pb_skip_varint(stream)`. -/
def usr_pb_skip_varint (stream : usr_pb_istream_t) : usr_pb_istream_t × Bool :=
  skip_varint_loop (stream.bytes_left + 1) stream

/-- The function `usr_pb_skip_string(stream)`; the test
`(size_t)length != length` is false with a 64-bit `size_t`. -/
def usr_pb_skip_string (stream : usr_pb_istream_t) : usr_pb_istream_t × Bool :=
  match usr_pb_decode_varint32 stream with
  | (stream, none) => (stream, false)
  | (stream, some length) =>
    let r := usr_pb_read stream length
    (r.1, r.2.isSome)

/-- The function `usr_pb_skip_field(stream, wire_type)`. -/
def usr_pb_skip_field (stream : usr_pb_istream_t) (wire_type : Nat) :
    usr_pb_istream_t × Bool :=
  if wire_type = usr_PB_WT_VARINT then usr_pb_skip_varint stream
  else if wire_type = usr_PB_WT_64BIT then
    let r := usr_pb_read stream 8
    (r.1, r.2.isSome)
  else if wire_type = usr_PB_WT_STRING then usr_pb_skip_string stream
  else if wire_type = usr_PB_WT_32BIT then
    let r := usr_pb_read stream 4
    (r.1, r.2.isSome)
  else (istream_set_error stream "invalid wire_type", false)

/-- The function `usr_pb_make_string_substream(stream, substream)`: the parent
stream after the call and, on success, the substream. -/
def usr_pb_make_string_substream (stream : usr_pb_istream_t) :
    usr_pb_istream_t × Option usr_pb_istream_t :=
  match usr_pb_decode_varint32 stream with
  | (stream, none) => (stream, none)
  | (stream, some size) =>
    let substream := stream
    if substream.bytes_left < size then
      (istream_set_error stream "parent stream too short", none)
    else
      ({ stream with bytes_left := stream.bytes_left - size },
        some { substream with bytes_left := size })

/-- The function `usr_pb_close_string_substream(stream, substream)`: the parent
stream after the call and the C return value. -/
def usr_pb_close_string_substream (stream substream : usr_pb_istream_t) :
    usr_pb_istream_t × Bool :=
  let r : usr_pb_istream_t × Bool :=
    if substream.bytes_left ≠ 0 then
      let r := usr_pb_read substream substream.bytes_left
      (r.1, r.2.isSome)
    else (substream, true)
  if r.2 = false then (stream, false)
  else ({ stream with state := r.1.state, errmsg := r.1.errmsg }, true)

/-! ## Decoding of a single field -/

/-- What a field decoder works on: the stream, the iterator that `field`
points to, the memory holding the destination struct and the local variable
`fixed_count_size` of `usr_pb_decode_inner` (reachable through `pSize`). -/
structure decode_state where
  stream : usr_pb_istream_t
  field : usr_pb_field_iter_t
  mem : List usr_pb_byte_t
  fixed_count_size : Nat

/-- Result of a field decoder: `none` when the call leaves the embedding (see
the header of the file), else the C return value and the state after it. -/
abbrev dec_result := Option (Bool × decode_state)

/-- The statement `usr_PB_RETURN_ERROR(stream, msg)`. -/
def dec_error (st : decode_state) (msg : String) : dec_result :=
  some (false, { st with stream := istream_set_error st.stream msg })

/-- The read `*(usr_pb_size_t*)field->pSize`; `none` for a null `pSize`. -/
def load_size (st : decode_state) : Option Nat :=
  match st.field.pSize with
  | size_ptr.null => none
  | size_ptr.mem a => some (load_uint st.mem a 2)
  | size_ptr.iter_array_size => some st.field.array_size
  | size_ptr.fixed_count_size => some st.fixed_count_size

/-- The store `*(usr_pb_size_t*)field->pSize = v`. -/
def store_size (st : decode_state) (v : Nat) : Option decode_state :=
  match st.field.pSize with
  | size_ptr.null => none
  | size_ptr.mem a => some { st with mem := store_uint st.mem a 2 v }
  | size_ptr.iter_array_size => some { st with field := { st.field with array_size := toPbSize v } }
  | size_ptr.fixed_count_size => some { st with fixed_count_size := toPbSize v }

/-- The store `*(bool*)field->pSize = b`: one byte, the low byte of a 16-bit
target on the little-endian host. -/
def store_bool (st : decode_state) (b : Bool) : Option decode_state :=
  match st.field.pSize with
  | size_ptr.null => none
  | size_ptr.mem a => some { st with mem := store_uint st.mem a 1 (if b then 1 else 0) }
  | size_ptr.iter_array_size =>
    some { st with field := { st.field with
      array_size := st.field.array_size / 256 * 256 + (if b then 1 else 0) } }
  | size_ptr.fixed_count_size =>
    some { st with fixed_count_size := st.fixed_count_size / 256 * 256 + (if b then 1 else 0) }

/-- The function `usr_pb_dec_bool(stream, field)`. -/
def usr_pb_dec_bool (st : decode_state) : dec_result :=
  match usr_pb_decode_varint32 st.stream with
  | (stream, none) => some (false, { st with stream := stream })
  | (stream, some value) =>
    match st.field.pData with
    | none => none
    | some p =>
      some (true, { st with stream := stream,
                            mem := store_uint st.mem p 1 (if value ≠ 0 then 1 else 0) })

/-- The function `usr_pb_dec_varint(stream, field)`. -/
def usr_pb_dec_varint (st : decode_state) : dec_result :=
  if usr_PB_LTYPE st.field.type = usr_PB_LTYPE_UVARINT then
    match usr_pb_decode_varint st.stream with
    | (stream, none) => some (false, { st with stream := stream })
    | (stream, some value) =>
      let st := { st with stream := stream }
      if st.field.data_size = 8 ∨ st.field.data_size = 4 ∨ st.field.data_size = 2 ∨
          st.field.data_size = 1 then
        match st.field.pData with
        | none => none
        | some p =>
          let clamped := value % 2 ^ (8 * st.field.data_size)
          let st := { st with mem := store_uint st.mem p st.field.data_size clamped }
          if clamped ≠ value then dec_error st "integer too large"
          else some (true, st)
      else dec_error st "invalid data_size"
  else
    let r : usr_pb_istream_t × Option Int :=
      if usr_PB_LTYPE st.field.type = usr_PB_LTYPE_SVARINT then usr_pb_decode_svarint st.stream
      else
        match usr_pb_decode_varint st.stream with
        | (stream, none) => (stream, none)
        | (stream, some value) =>
          if st.field.data_size = 8 then (stream, some (u64ToI64 value))
          else (stream, some (sign_extend 4 value))
    match r with
    | (stream, none) => some (false, { st with stream := stream })
    | (stream, some svalue) =>
      let st := { st with stream := stream }
      if st.field.data_size = 8 ∨ st.field.data_size = 4 ∨ st.field.data_size = 2 ∨
          st.field.data_size = 1 then
        match st.field.pData with
        | none => none
        | some p =>
          let clamped := sign_extend st.field.data_size (to_unsigned 8 svalue)
          let st := { st with
            mem := store_uint st.mem p st.field.data_size (to_unsigned st.field.data_size clamped) }
          if clamped ≠ svalue then dec_error st "integer too large"
          else some (true, st)
      else dec_error st "invalid data_size"

/-- The function `usr_pb_dec_bytes(stream, field)`; `offsetof(usr_pb_bytes_array_t,
bytes)` is 2, the size of `usr_pb_size_t`. -/
def usr_pb_dec_bytes (st : decode_state) : dec_result :=
  match usr_pb_decode_varint32 st.stream with
  | (stream, none) => some (false, { st with stream := stream })
  | (stream, some size) =>
    let st := { st with stream := stream }
    if size > usr_PB_SIZE_MAX then dec_error st "bytes overflow"
    else
      let alloc_size := toSize (size + 2)
      if size > alloc_size then dec_error st "size too large"
      else if usr_PB_ATYPE st.field.type = usr_PB_ATYPE_POINTER then
        dec_error st "no malloc support"
      else if alloc_size > st.field.data_size then dec_error st "bytes overflow"
      else
        match st.field.pData with
        | none => none
        | some dest =>
          let st := { st with mem := store_uint st.mem dest 2 size }
          match usr_pb_read st.stream size with
          | (stream, none) => some (false, { st with stream := stream })
          | (stream, some bytes) =>
            some (true, { st with stream := stream, mem := mem_write st.mem (dest + 2) bytes })

/-- The function `usr_pb_dec_string(stream, field)` (without
`usr_PB_VALIDATE_UTF8`). -/
def usr_pb_dec_string (st : decode_state) : dec_result :=
  match usr_pb_decode_varint32 st.stream with
  | (stream, none) => some (false, { st with stream := stream })
  | (stream, some size) =>
    let st := { st with stream := stream }
    if size = 2 ^ 32 - 1 then dec_error st "size too large"
    else
      let alloc_size := toSize (toU32 (size + 1))
      if alloc_size < size then dec_error st "size too large"
      else if usr_PB_ATYPE st.field.type = usr_PB_ATYPE_POINTER then
        dec_error st "no malloc support"
      else if alloc_size > st.field.data_size then dec_error st "string overflow"
      else
        match st.field.pData with
        | none => none
        | some dest =>
          let st := { st with mem := store_uint st.mem (dest + size) 1 0 }
          match usr_pb_read st.stream size with
          | (stream, none) => some (false, { st with stream := stream })
          | (stream, some bytes) =>
            some (true, { st with stream := stream, mem := mem_write st.mem dest bytes })

/-- The function `usr_pb_dec_fixed_length_bytes(stream, field)`. -/
def usr_pb_dec_fixed_length_bytes (st : decode_state) : dec_result :=
  match usr_pb_decode_varint32 st.stream with
  | (stream, none) => some (false, { st with stream := stream })
  | (stream, some size) =>
    let st := { st with stream := stream }
    if size > usr_PB_SIZE_MAX then dec_error st "bytes overflow"
    else
      match st.field.pData with
      | none => none
      | some dest =>
        if size = 0 then
          some (true, { st with mem := mem_zero st.mem dest st.field.data_size })
        else if size ≠ st.field.data_size then
          dec_error st "incorrect fixed length bytes size"
        else
          match usr_pb_read st.stream st.field.data_size with
          | (stream, none) => some (false, { st with stream := stream })
          | (stream, some bytes) =>
            some (true, { st with stream := stream, mem := mem_write st.mem dest bytes })

/-- Type of `usr_pb_decode_inner(stream, fields, dest_struct, flags)` with the
message memory made explicit. -/
abbrev decode_inner_fn :=
  usr_pb_istream_t → usr_pb_msgdesc_t → Option Nat → Nat → List usr_pb_byte_t →
    Option (Bool × usr_pb_istream_t × List usr_pb_byte_t)

/-- Type of `usr_pb_message_set_to_defaults(iter)` with the message memory
made explicit. -/
abbrev set_to_defaults_fn :=
  usr_pb_field_iter_t → List usr_pb_byte_t →
    Option (Bool × usr_pb_field_iter_t × List usr_pb_byte_t)

/-- The function `usr_pb_dec_submessage(stream, field)`. A message callback
(`usr_PB_LTYPE_SUBMSG_W_CB` with a non-null `funcs.decode`, stored 16 bytes
before `pSize`) is user code and leaves the embedding. `inner` is the
recursive call of `usr_pb_decode_inner`. -/
def usr_pb_dec_submessage (inner : decode_inner_fn) (st : decode_state) : dec_result :=
  match usr_pb_make_string_substream st.stream with
  | (stream, none) => some (false, { st with stream := stream })
  | (stream, some substream) =>
    let st := { st with stream := stream }
    match st.field.submsg_desc with
    | none => dec_error st "invalid field descriptor"
    | some submsg_desc =>
      let callback_null : Option Bool :=
        if usr_PB_LTYPE st.field.type = usr_PB_LTYPE_SUBMSG_W_CB ∧
            st.field.pSize ≠ size_ptr.null then
          match st.field.pSize with
          | size_ptr.mem a => some (load_ptr st.mem (a - 16)).isNone
          | _ => none
        else some true
      match callback_null with
      | some true =>
        let flags :=
          if usr_PB_ATYPE st.field.type = usr_PB_ATYPE_STATIC ∧
              usr_PB_HTYPE st.field.type ≠ usr_PB_HTYPE_REPEATED then usr_PB_DECODE_NOINIT
          else 0
        match inner substream submsg_desc st.field.pData flags st.mem with
        | none => none
        | some (status, substream, mem) =>
          let st := { st with mem := mem }
          match usr_pb_close_string_substream st.stream substream with
          | (stream, false) => some (false, { st with stream := stream })
          | (stream, true) => some (status, { st with stream := stream })
      | _ => none

/-- The call `usr_pb_decode_fixed32(stream, field->pData)` resp.
`usr_pb_decode_fixed64`, storing `n` bytes. -/
def dec_fixed (n : Nat) (st : decode_state) : dec_result :=
  let r := if n = 4 then usr_pb_decode_fixed32 st.stream else usr_pb_decode_fixed64 st.stream
  match r with
  | (stream, none) => some (false, { st with stream := stream })
  | (stream, some v) =>
    match st.field.pData with
    | none => none
    | some p => some (true, { st with stream := stream, mem := store_uint st.mem p n v })

/-- The function `decode_basic_field(stream, wire_type, field)`. -/
def decode_basic_field (inner : decode_inner_fn) (st : decode_state) (wire_type : Nat) :
    dec_result :=
  let ltype := usr_PB_LTYPE st.field.type
  if ltype = usr_PB_LTYPE_BOOL then
    if wire_type ≠ usr_PB_WT_VARINT ∧ wire_type ≠ usr_PB_WT_PACKED then
      dec_error st "wrong wire type"
    else usr_pb_dec_bool st
  else if ltype = usr_PB_LTYPE_VARINT ∨ ltype = usr_PB_LTYPE_UVARINT ∨
      ltype = usr_PB_LTYPE_SVARINT then
    if wire_type ≠ usr_PB_WT_VARINT ∧ wire_type ≠ usr_PB_WT_PACKED then
      dec_error st "wrong wire type"
    else usr_pb_dec_varint st
  else if ltype = usr_PB_LTYPE_FIXED32 then
    if wire_type ≠ usr_PB_WT_32BIT ∧ wire_type ≠ usr_PB_WT_PACKED then
      dec_error st "wrong wire type"
    else dec_fixed 4 st
  else if ltype = usr_PB_LTYPE_FIXED64 then
    if wire_type ≠ usr_PB_WT_64BIT ∧ wire_type ≠ usr_PB_WT_PACKED then
      dec_error st "wrong wire type"
    else dec_fixed 8 st
  else if ltype = usr_PB_LTYPE_BYTES then
    if wire_type ≠ usr_PB_WT_STRING then dec_error st "wrong wire type"
    else usr_pb_dec_bytes st
  else if ltype = usr_PB_LTYPE_STRING then
    if wire_type ≠ usr_PB_WT_STRING then dec_error st "wrong wire type"
    else usr_pb_dec_string st
  else if ltype = usr_PB_LTYPE_SUBMESSAGE ∨ ltype = usr_PB_LTYPE_SUBMSG_W_CB then
    if wire_type ≠ usr_PB_WT_STRING then dec_error st "wrong wire type"
    else usr_pb_dec_submessage inner st
  else if ltype = usr_PB_LTYPE_FIXED_LENGTH_BYTES then
    if wire_type ≠ usr_PB_WT_STRING then dec_error st "wrong wire type"
    else usr_pb_dec_fixed_length_bytes st
  else dec_error st "invalid field type"

/-- The `while (substream.bytes_left > 0 && *size < field->array_size)` loop
of the packed-array branch of `decode_static_field`. The state carries the
substream as its stream; the result is `status` and the state at the exit.
Every round that continues has decoded an element of at least one byte, so
the loop runs at most `bytes_left` times. -/
def decode_packed_loop (inner : decode_inner_fn) : Nat → decode_state → dec_result
  | 0, _ => none
  | fuel + 1, st =>
    match load_size st with
    | none => none
    | some size =>
      if st.stream.bytes_left > 0 ∧ size < st.field.array_size then
        match decode_basic_field inner st usr_PB_WT_PACKED with
        | none => none
        | some (false, st) => some (false, st)
        | some (true, st) =>
          match load_size st, st.field.pData with
          | some size, some p =>
            match store_size st (size + 1) with
            | none => none
            | some st =>
              decode_packed_loop inner fuel
                { st with field := { st.field with pData := some (p + st.field.data_size) } }
          | _, _ => none
      else some (true, st)

/-- The first statement of the `usr_PB_HTYPE_ONEOF` case of
`decode_static_field`: when a submessage member other than the current one
(`which`) arrives, the union is zeroed and the member is set to its defaults.
`some (false, _)` is the `return false` of "failed to set defaults". -/
def oneof_clear_member (defaults : set_to_defaults_fn) (st : decode_state) (which : Nat) :
    dec_result :=
  if usr_PB_LTYPE_IS_SUBMSG st.field.type ∧ which ≠ st.field.tag then
    match st.field.pData, st.field.submsg_desc with
    | some p, some submsg_desc =>
      let st := { st with mem := mem_zero st.mem p st.field.data_size }
      if submsg_desc.default_value.isSome = true ∨ submsg_desc.field_callback = true ∨
          submsg_desc.submsg_info.isEmpty = false then
        let b := usr_pb_field_iter_begin st.mem submsg_desc st.field.pData
        if b.2 then
          match defaults b.1 st.mem with
          | none => none
          | some (false, _, mem) =>
            dec_error { st with mem := mem } "failed to set defaults"
          | some (true, _, mem) => some (true, { st with mem := mem })
        else some (true, st)
      else some (true, st)
    | _, _ => none
  else some (true, st)

/-- The function `decode_static_field(stream, wire_type, field)`. `defaults`
is the call of `usr_pb_message_set_to_defaults`. -/
def decode_static_field (inner : decode_inner_fn) (defaults : set_to_defaults_fn)
    (st : decode_state) (wire_type : Nat) : dec_result :=
  let htype := usr_PB_HTYPE st.field.type
  if htype = usr_PB_HTYPE_REQUIRED then decode_basic_field inner st wire_type
  else if htype = usr_PB_HTYPE_OPTIONAL then
    if st.field.pSize ≠ size_ptr.null then
      match store_bool st true with
      | none => none
      | some st => decode_basic_field inner st wire_type
    else decode_basic_field inner st wire_type
  else if htype = usr_PB_HTYPE_REPEATED then
    if wire_type = usr_PB_WT_STRING ∧
        usr_PB_LTYPE st.field.type ≤ usr_PB_LTYPE_LAST_PACKABLE then
      match load_size st, st.field.pField with
      | some size, some pField =>
        let st := { st with field := { st.field with
          pData := some (pField + st.field.data_size * size) } }
        match usr_pb_make_string_substream st.stream with
        | (stream, none) => some (false, { st with stream := stream })
        | (stream, some substream) =>
          match decode_packed_loop inner (substream.bytes_left + 1)
              { st with stream := substream } with
          | none => none
          | some (status, st') =>
            let substream := st'.stream
            let st := { st' with stream := stream }
            if substream.bytes_left ≠ 0 then dec_error st "array overflow"
            else
              match usr_pb_close_string_substream st.stream substream with
              | (stream, false) => some (false, { st with stream := stream })
              | (stream, true) => some (status, { st with stream := stream })
      | _, _ => none
    else
      match load_size st, st.field.pField with
      | some size, some pField =>
        let st := { st with field := { st.field with
          pData := some (pField + st.field.data_size * size) } }
        match store_size st (size + 1) with
        | none => none
        | some st =>
          if size ≥ st.field.array_size then dec_error st "array overflow"
          else decode_basic_field inner st wire_type
      | _, _ => none
  else if htype = usr_PB_HTYPE_ONEOF then
    match load_size st with
    | none => none
    | some which =>
      match oneof_clear_member defaults st which with
      | none => none
      | some (false, st) => some (false, st)
      | some (true, st) =>
        match store_size st st.field.tag with
        | none => none
        | some st => decode_basic_field inner st wire_type
  else dec_error st "invalid field type"

/-- The function `decode_pointer_field` without `usr_PB_ENABLE_MALLOC`. -/
def decode_pointer_field (st : decode_state) : dec_result :=
  dec_error st "no malloc support"

/-- The function `decode_callback_field(stream, wire_type, field)`. A non-null
`field_callback` of the descriptor is user code and leaves the embedding. -/
def decode_callback_field (st : decode_state) (wire_type : Nat) : dec_result :=
  if st.field.descriptor.field_callback = false then
    let r := usr_pb_skip_field st.stream wire_type
    some (r.2, { st with stream := r.1 })
  else none

/-- The function `decode_field(stream, wire_type, field)` (without
`usr_PB_ENABLE_MALLOC`). -/
def decode_field (inner : decode_inner_fn) (defaults : set_to_defaults_fn)
    (st : decode_state) (wire_type : Nat) : dec_result :=
  let atype := usr_PB_ATYPE st.field.type
  if atype = usr_PB_ATYPE_STATIC then decode_static_field inner defaults st wire_type
  else if atype = usr_PB_ATYPE_POINTER then decode_pointer_field st
  else if atype = usr_PB_ATYPE_CALLBACK then decode_callback_field st wire_type
  else dec_error st "invalid field type"

/-- The function `decode_extension(stream, tag, wire_type, extension)` for the
empty extension list; a non-empty list is made of user-registered records and
leaves the embedding. -/
def decode_extension (stream : usr_pb_istream_t) (extension : Option Nat) :
    Option (usr_pb_istream_t × Bool) :=
  match extension with
  | none => some (stream, true)
  | some _ => none

/-! ## Default values -/

/-- The `if (init_data)` block of `usr_pb_field_set_to_default`: a submessage
with defaults, callbacks or submessages of its own is initialised through its
own iterator, any other field is zeroed. -/
def field_init_data (defaults : set_to_defaults_fn) (st : decode_state) : dec_result :=
  if usr_PB_LTYPE_IS_SUBMSG st.field.type = true then
    match st.field.submsg_desc with
    | none => none
    | some submsg_desc =>
      if submsg_desc.default_value.isSome = true ∨ submsg_desc.field_callback = true ∨
          submsg_desc.submsg_info.isEmpty = false then
        let b := usr_pb_field_iter_begin st.mem submsg_desc st.field.pData
        if b.2 = true then
          match defaults b.1 st.mem with
          | none => none
          | some (ok, _, mem) => some (ok, { st with mem := mem })
        else some (true, st)
      else
        match st.field.pData with
        | none => none
        | some p => some (true, { st with mem := mem_zero st.mem p st.field.data_size })
  else
    match st.field.pData with
    | none => none
    | some p => some (true, { st with mem := mem_zero st.mem p st.field.data_size })

/-- The function `usr_pb_field_set_to_default(field)`; the state's stream is
not used. A non-empty extension list leaves the embedding. -/
def usr_pb_field_set_to_default (defaults : set_to_defaults_fn) (st : decode_state) :
    dec_result :=
  let type := st.field.type
  if usr_PB_LTYPE type = usr_PB_LTYPE_EXTENSION then
    match st.field.pData with
    | none => none
    | some p => if (load_ptr st.mem p).isNone then some (true, st) else none
  else if usr_PB_ATYPE type = usr_PB_ATYPE_STATIC then
    let r : Option (Bool × decode_state) :=
      if usr_PB_HTYPE type = usr_PB_HTYPE_OPTIONAL ∧ st.field.pSize ≠ size_ptr.null then
        (store_bool st false).map (fun s => (true, s))
      else if usr_PB_HTYPE type = usr_PB_HTYPE_REPEATED ∨
          usr_PB_HTYPE type = usr_PB_HTYPE_ONEOF then
        (store_size st 0).map (fun s => (false, s))
      else some (true, st)
    match r with
    | none => none
    | some (false, st) => some (true, st)
    | some (true, st) => field_init_data defaults st
  else if usr_PB_ATYPE type = usr_PB_ATYPE_POINTER then
    match st.field.pField with
    | none => none
    | some pField =>
      let st := { st with mem := store_uint st.mem pField 8 0 }
      if usr_PB_HTYPE type = usr_PB_HTYPE_REPEATED ∨ usr_PB_HTYPE type = usr_PB_HTYPE_ONEOF then
        (store_size st 0).map (fun s => (true, s))
      else some (true, st)
  else some (true, st)

/-- Local variables of `usr_pb_message_set_to_defaults`: the iterator and
memory, `defstream`, `tag` and `wire_type`. -/
structure defaults_state where
  iter : usr_pb_field_iter_t
  mem : List usr_pb_byte_t
  defstream : usr_pb_istream_t
  tag : Nat
  wire_type : Nat

/-- The body of the `do ... while` loop of `usr_pb_message_set_to_defaults`:
the field is set to its default and, when the default blob has a value for
it, that value is decoded into it. `some (false, _)` is a `return false`. -/
def set_to_defaults_round (inner : decode_inner_fn) (defaults : set_to_defaults_fn)
    (s : defaults_state) : Option (Bool × defaults_state) :=
  match usr_pb_field_set_to_default defaults
      { stream := s.defstream, field := s.iter, mem := s.mem, fixed_count_size := 0 } with
  | none => none
  | some (false, st) => some (false, { s with iter := st.field, mem := st.mem })
  | some (true, st) =>
    let s := { s with iter := st.field, mem := st.mem }
    if s.tag ≠ 0 ∧ s.iter.tag = s.tag then
      match decode_field inner defaults
          { stream := s.defstream, field := s.iter, mem := s.mem, fixed_count_size := 0 }
          s.wire_type with
      | none => none
      | some (false, st) =>
        some (false, { s with iter := st.field, mem := st.mem, defstream := st.stream })
      | some (true, st) =>
        let t := usr_pb_decode_tag st.stream
        let s := { s with iter := st.field, mem := st.mem, defstream := t.stream,
                          tag := t.tag, wire_type := t.wire_type }
        if t.ok = false then some (false, s)
        else if s.iter.pSize ≠ size_ptr.null then
          match store_bool
              { stream := s.defstream, field := s.iter, mem := s.mem,
                fixed_count_size := 0 } false with
          | none => none
          | some st => some (true, { s with iter := st.field, mem := st.mem })
        else some (true, s)
    else some (true, s)

/-- The `do ... while (usr_pb_field_iter_next(iter))` loop of
`usr_pb_message_set_to_defaults`; it ends when the iterator wraps around,
after at most `field_count` rounds. -/
def set_to_defaults_loop (inner : decode_inner_fn) (defaults : set_to_defaults_fn) :
    Nat → defaults_state → Option (Bool × defaults_state)
  | 0, _ => none
  | fuel + 1, s =>
    match set_to_defaults_round inner defaults s with
    | none => none
    | some (false, s) => some (false, s)
    | some (true, s) =>
      let n := usr_pb_field_iter_next s.mem s.iter
      if n.2 then set_to_defaults_loop inner defaults fuel { s with iter := n.1 }
      else some (true, { s with iter := n.1 })

/-- The function `usr_pb_message_set_to_defaults(iter)`. The default blob is
read through `usr_pb_istream_from_buffer(default_value, (size_t)-1)`. -/
def message_set_to_defaults_body (inner : decode_inner_fn) (defaults : set_to_defaults_fn)
    (iter : usr_pb_field_iter_t) (mem : List usr_pb_byte_t) :
    Option (Bool × usr_pb_field_iter_t × List usr_pb_byte_t) :=
  let run (s0 : defaults_state) : Option (Bool × usr_pb_field_iter_t × List usr_pb_byte_t) :=
    match set_to_defaults_loop inner defaults (iter.descriptor.field_count + 1) s0 with
    | none => none
    | some (ok, s) => some (ok, s.iter, s.mem)
  match iter.descriptor.default_value with
  | none =>
    run { iter := iter, mem := mem, defstream := ⟨[], 0, none⟩, tag := 0,
          wire_type := usr_PB_WT_VARINT }
  | some blob =>
    let t := usr_pb_decode_tag ⟨blob, 2 ^ 64 - 1, none⟩
    if t.ok = false then some (false, iter, mem)
    else
      run { iter := iter, mem := mem, defstream := t.stream, tag := t.tag,
            wire_type := t.wire_type }

/-! ## The message decoder -/

/-- Local variables of `usr_pb_decode_inner` that live across rounds of its
`while` loop, with the stream and the message memory. -/
structure inner_state where
  stream : usr_pb_istream_t
  iter : usr_pb_field_iter_t
  mem : List usr_pb_byte_t
  fixed_count_field : Nat
  fixed_count_size : Nat
  fixed_count_total_size : Nat
  fields_seen : List Nat
  extension_range_start : Nat
  extensions : Option Nat

/-- How one round of the `while` loop of `usr_pb_decode_inner` ends: at the
end of the body or a `continue` (`next`), at a `break` (`exit`), or at a
`return false` (`fail`). -/
inductive loop_step where
  | next (s : inner_state)
  | exit (s : inner_state)
  | fail (s : inner_state)

/-- The statements of the loop body from the test
`extension_range_start == 0` up to the test `tag >= extension_range_start`. -/
def find_extension_range (s : inner_state) : Option inner_state :=
  if s.extension_range_start = 0 then
    let e := usr_pb_field_iter_find_extension s.mem s.iter
    let s := { s with iter := e.1 }
    let s : Option inner_state :=
      if e.2 then
        match s.iter.pData with
        | none => none
        | some p =>
          some { s with extensions := load_ptr s.mem p, extension_range_start := s.iter.tag }
      else some s
    s.map (fun s =>
      if s.extensions.isNone then { s with extension_range_start := 2 ^ 32 - 1 } else s)
  else some s

/-- The fixed-count bookkeeping of the loop body (`if (usr_PB_HTYPE(iter.type)
== usr_PB_HTYPE_REPEATED && iter.pSize == &iter.array_size)`); `false` is the
`return false` of "wrong size for fixed count field". -/
def fixed_count_update (s : inner_state) : Bool × inner_state :=
  if usr_PB_HTYPE s.iter.type = usr_PB_HTYPE_REPEATED ∧
      s.iter.pSize = size_ptr.iter_array_size then
    if s.fixed_count_field ≠ s.iter.index then
      if s.fixed_count_field ≠ usr_PB_SIZE_MAX ∧
          s.fixed_count_size ≠ s.fixed_count_total_size then
        (false, { s with
          stream := istream_set_error s.stream "wrong size for fixed count field" })
      else
        (true, { s with fixed_count_field := s.iter.index, fixed_count_size := 0,
                        fixed_count_total_size := s.iter.array_size,
                        iter := { s.iter with pSize := size_ptr.fixed_count_size } })
    else (true, { s with iter := { s.iter with pSize := size_ptr.fixed_count_size } })
  else (true, s)

/-- The update of the required-field bitmap in the loop body. -/
def mark_required_seen (s : inner_state) : inner_state :=
  if usr_PB_HTYPE s.iter.type = usr_PB_HTYPE_REQUIRED ∧
      s.iter.required_field_index < usr_PB_MAX_REQUIRED_FIELDS then
    let tmp := toU32 (1 <<< (s.iter.required_field_index &&& 31))
    let i := s.iter.required_field_index >>> 5
    { s with fields_seen := s.fields_seen.set i (s.fields_seen.getD i 0 ||| tmp) }
  else s

/-- The part of the loop body after a successful `usr_pb_field_iter_find` on a
field that is not an extension: the fixed-count bookkeeping, the required-field
bitmap and the call of `decode_field`. -/
def decode_known_field (inner : decode_inner_fn) (defaults : set_to_defaults_fn)
    (s : inner_state) (wire_type : Nat) : Option loop_step :=
  let r := fixed_count_update s
  if r.1 = false then some (loop_step.fail r.2)
  else
    let s := mark_required_seen r.2
    match decode_field inner defaults
        { stream := s.stream, field := s.iter, mem := s.mem,
          fixed_count_size := s.fixed_count_size } wire_type with
    | none => none
    | some (ok, st) =>
      let s := { s with stream := st.stream, iter := st.field, mem := st.mem,
                        fixed_count_size := st.fixed_count_size }
      if ok then some (loop_step.next s) else some (loop_step.fail s)

/-- One round of the `while (stream->bytes_left)` loop of
`usr_pb_decode_inner`. -/
def decode_inner_step (inner : decode_inner_fn) (defaults : set_to_defaults_fn)
    (flags : Nat) (s : inner_state) : Option loop_step :=
  let t := usr_pb_decode_tag s.stream
  let s := { s with stream := t.stream }
  if t.ok = false then
    if t.eof then some (loop_step.exit s) else some (loop_step.fail s)
  else if t.tag = 0 then
    if flags &&& usr_PB_DECODE_NULLTERMINATED ≠ 0 then some (loop_step.exit s)
    else some (loop_step.fail { s with stream := istream_set_error s.stream "zero tag" })
  else
    let f := usr_pb_field_iter_find s.mem s.iter t.tag
    let s := { s with iter := f.1 }
    if f.2 = false ∨ usr_PB_LTYPE s.iter.type = usr_PB_LTYPE_EXTENSION then
      match find_extension_range s with
      | none => none
      | some s =>
        let skip (s : inner_state) : Option loop_step :=
          let r := usr_pb_skip_field s.stream t.wire_type
          let s := { s with stream := r.1 }
          if r.2 then some (loop_step.next s) else some (loop_step.fail s)
        if t.tag ≥ s.extension_range_start then
          let pos := s.stream.bytes_left
          match decode_extension s.stream s.extensions with
          | none => none
          | some (stream, false) => some (loop_step.fail { s with stream := stream })
          | some (stream, true) =>
            let s := { s with stream := stream }
            if pos ≠ s.stream.bytes_left then some (loop_step.next s) else skip s
        else skip s
    else decode_known_field inner defaults s t.wire_type

/-- The `while (stream->bytes_left)` loop of `usr_pb_decode_inner`: `true`
with the state at the loop exit, or `false` with the state at a
`return false`. Every round that continues has read a tag, so the loop runs
at most `bytes_left` times. -/
def decode_inner_loop (inner : decode_inner_fn) (defaults : set_to_defaults_fn)
    (flags : Nat) : Nat → inner_state → Option (Bool × inner_state)
  | 0, _ => none
  | fuel + 1, s =>
    if s.stream.bytes_left ≠ 0 then
      match decode_inner_step inner defaults flags s with
      | none => none
      | some (loop_step.next s) => decode_inner_loop inner defaults flags fuel s
      | some (loop_step.exit s) => some (true, s)
      | some (loop_step.fail s) => some (false, s)
    else some (true, s)

/-- The required-field check at the end of `usr_pb_decode_inner`: `true` when
neither comparison of the bitmap with `allbits` fails. -/
def required_fields_present (fields_seen : List Nat) (required_field_count : Nat) : Bool :=
  let allbits := 2 ^ 32 - 1
  if required_field_count > 0 then
    let req_field_count :=
      if required_field_count > usr_PB_MAX_REQUIRED_FIELDS then usr_PB_MAX_REQUIRED_FIELDS
      else required_field_count
    (List.range (req_field_count >>> 5)).all (fun i => fields_seen.getD i 0 = allbits) &&
      (if req_field_count &&& 31 ≠ 0 then
        decide (fields_seen.getD (req_field_count >>> 5) 0 =
          allbits >>> (toByte (32 - (req_field_count &&& 31))).val)
       else true)
  else true

/-- The statements of `usr_pb_decode_inner` after its `while` loop. -/
def decode_inner_finish (s : inner_state) : Bool × usr_pb_istream_t × List usr_pb_byte_t :=
  if s.fixed_count_field ≠ usr_PB_SIZE_MAX ∧
      s.fixed_count_size ≠ s.fixed_count_total_size then
    (false, istream_set_error s.stream "wrong size for fixed count field", s.mem)
  else if required_fields_present s.fields_seen
      s.iter.descriptor.required_field_count = false then
    (false, istream_set_error s.stream "missing required field", s.mem)
  else (true, s.stream, s.mem)

/-- The statements of `usr_pb_decode_inner` before its `while` loop: the
iterator is set up and, without `usr_PB_DECODE_NOINIT`, the message is set to
its defaults. `some (false, _)` is the `return false` of this part. -/
def decode_inner_init (defaults : set_to_defaults_fn) (stream : usr_pb_istream_t)
    (fields : usr_pb_msgdesc_t) (dest_struct : Option Nat) (flags : Nat)
    (mem : List usr_pb_byte_t) : Option (Bool × inner_state) :=
  let b := usr_pb_field_iter_begin mem fields dest_struct
  let s : inner_state :=
    { stream := stream, iter := b.1, mem := mem, fixed_count_field := usr_PB_SIZE_MAX,
      fixed_count_size := 0, fixed_count_total_size := 0, fields_seen := [0, 0],
      extension_range_start := 0, extensions := none }
  if b.2 ∧ flags &&& usr_PB_DECODE_NOINIT = 0 then
    match defaults s.iter s.mem with
    | none => none
    | some (false, iter, mem) =>
      some (false, { s with iter := iter, mem := mem,
                            stream := istream_set_error s.stream "failed to set defaults" })
    | some (true, iter, mem) => some (true, { s with iter := iter, mem := mem })
  else some (true, s)

/-- The function `usr_pb_decode_inner(stream, fields, dest_struct, flags)`,
with its recursive calls passed in. -/
def decode_inner_body (inner : decode_inner_fn) (defaults : set_to_defaults_fn) :
    decode_inner_fn :=
  fun stream fields dest_struct flags mem =>
    match decode_inner_init defaults stream fields dest_struct flags mem with
    | none => none
    | some (false, s) => some (false, s.stream, s.mem)
    | some (true, s) =>
      match decode_inner_loop inner defaults flags (s.stream.bytes_left + 1) s with
      | none => none
      | some (false, s) => some (false, s.stream, s.mem)
      | some (true, s) => some (decode_inner_finish s)

/-- The mutually recursive `usr_pb_decode_inner` and
`usr_pb_message_set_to_defaults`, unfolded to a nesting depth of `fuel`
messages. -/
def decode_fns : Nat → decode_inner_fn × set_to_defaults_fn
  | 0 => (fun _ _ _ _ _ => none, fun _ _ => none)
  | fuel + 1 =>
    (decode_inner_body (decode_fns fuel).1 (decode_fns fuel).2,
     message_set_to_defaults_body (decode_fns fuel).1 (decode_fns fuel).2)

/-- The function `usr_pb_decode_inner`, for descriptors nested at most `fuel`
deep. -/
def usr_pb_decode_inner (fuel : Nat) : decode_inner_fn := (decode_fns fuel).1

/-- The function `usr_pb_message_set_to_defaults`. -/
def usr_pb_message_set_to_defaults (fuel : Nat) : set_to_defaults_fn := (decode_fns fuel).2

/-- The function `usr_pb_decode(stream, fields, dest_struct)` (without
`usr_PB_ENABLE_MALLOC`): the C return value, the stream and the memory after
the call. A message of the descriptor nests at most `depth` messages, each
of which takes one level for its decoding and one for its defaults. -/
def usr_pb_decode (stream : usr_pb_istream_t) (fields : usr_pb_msgdesc_t)
    (dest_struct : Option Nat) (mem : List usr_pb_byte_t) :
    Option (Bool × usr_pb_istream_t × List usr_pb_byte_t) :=
  usr_pb_decode_inner (2 * fields.depth + 1) stream fields dest_struct 0 mem

/-- The function `usr_pb_decode_ex(stream, fields, dest_struct, flags)`
(without `usr_PB_ENABLE_MALLOC`). -/
def usr_pb_decode_ex (stream : usr_pb_istream_t) (fields : usr_pb_msgdesc_t)
    (dest_struct : Option Nat) (flags : Nat) (mem : List usr_pb_byte_t) :
    Option (Bool × usr_pb_istream_t × List usr_pb_byte_t) :=
  if flags &&& usr_PB_DECODE_DELIMITED = 0 then
    usr_pb_decode_inner (2 * fields.depth + 1) stream fields dest_struct flags mem
  else
    match usr_pb_make_string_substream stream with
    | (stream, none) => some (false, stream, mem)
    | (stream, some substream) =>
      match usr_pb_decode_inner (2 * fields.depth + 1) substream fields dest_struct flags mem with
      | none => none
      | some (status, substream, mem) =>
        match usr_pb_close_string_substream stream substream with
        | (stream, false) => some (false, stream, mem)
        | (stream, true) => some (status, stream, mem)

/-! ## The encoder (`usr_pb_encode.c`)

The encoder reads the message memory `mem` and writes to an output stream.
The field encoders return `Option (usr_pb_ostream_t × Bool)`: the stream after
the call and the C return value, `none` when the call leaves the embedding. -/

def usr_PB_ENCODE_DELIMITED : Nat := 0x02
def usr_PB_ENCODE_NULLTERMINATED : Nat := 0x04

/-- Result of a field encoder. -/
abbrev enc_result := Option (usr_pb_ostream_t × Bool)

/-- The statement `usr_PB_RETURN_ERROR(stream, msg)` of the encoder. -/
def enc_error (stream : usr_pb_ostream_t) (msg : String) : enc_result :=
  some (ostream_set_error stream msg, false)

/-- The read `*(const usr_pb_size_t*)field->pSize` of the encoder. -/
def enc_load_size (mem : List usr_pb_byte_t) (field : usr_pb_field_iter_t) : Option Nat :=
  match field.pSize with
  | size_ptr.null => none
  | size_ptr.mem a => some (load_uint mem a 2)
  | size_ptr.iter_array_size => some field.array_size
  | size_ptr.fixed_count_size => none

/-- The function `safe_read_bool(p)` on a location of the message memory
(`sizeof(bool)` is 1). -/
def safe_read_bool (mem : List usr_pb_byte_t) (p : Nat) : Bool :=
  decide (mem.getD p 0 ≠ 0)

/-- The call `safe_read_bool(field->pSize)`. -/
def safe_read_bool_size (mem : List usr_pb_byte_t) (field : usr_pb_field_iter_t) :
    Option Bool :=
  match field.pSize with
  | size_ptr.null => none
  | size_ptr.mem a => some (safe_read_bool mem a)
  | size_ptr.iter_array_size => some (decide (field.array_size % 256 ≠ 0))
  | size_ptr.fixed_count_size => none

/-- The function `usr_pb_encode_string(stream, buffer, size)`. -/
def usr_pb_encode_string (stream : usr_pb_ostream_t) (buffer : List usr_pb_byte_t)
    (size : Nat) : usr_pb_ostream_t × Bool :=
  match usr_pb_encode_varint stream size with
  | (stream, false) => (stream, false)
  | (stream, true) => usr_pb_write stream buffer size

/-- The function `usr_pb_encode_tag_for_field(stream, field)`. -/
def usr_pb_encode_tag_for_field (stream : usr_pb_ostream_t) (field : usr_pb_field_iter_t) :
    usr_pb_ostream_t × Bool :=
  let ltype := usr_PB_LTYPE field.type
  if ltype = usr_PB_LTYPE_BOOL ∨ ltype = usr_PB_LTYPE_VARINT ∨ ltype = usr_PB_LTYPE_UVARINT ∨
      ltype = usr_PB_LTYPE_SVARINT then
    usr_pb_encode_tag stream usr_PB_WT_VARINT field.tag
  else if ltype = usr_PB_LTYPE_FIXED32 then usr_pb_encode_tag stream usr_PB_WT_32BIT field.tag
  else if ltype = usr_PB_LTYPE_FIXED64 then usr_pb_encode_tag stream usr_PB_WT_64BIT field.tag
  else if ltype = usr_PB_LTYPE_BYTES ∨ ltype = usr_PB_LTYPE_STRING ∨
      ltype = usr_PB_LTYPE_SUBMESSAGE ∨ ltype = usr_PB_LTYPE_SUBMSG_W_CB ∨
      ltype = usr_PB_LTYPE_FIXED_LENGTH_BYTES then
    usr_pb_encode_tag stream usr_PB_WT_STRING field.tag
  else (ostream_set_error stream "invalid field type", false)

/-- The function `usr_pb_enc_bool(stream, field)`. -/
def usr_pb_enc_bool (mem : List usr_pb_byte_t) (stream : usr_pb_ostream_t)
    (field : usr_pb_field_iter_t) : enc_result :=
  match field.pData with
  | none => none
  | some p => some (usr_pb_encode_varint stream (if safe_read_bool mem p then 1 else 0))

/-- The function `usr_pb_enc_varint(stream, field)`. -/
def usr_pb_enc_varint (mem : List usr_pb_byte_t) (stream : usr_pb_ostream_t)
    (field : usr_pb_field_iter_t) : enc_result :=
  if field.data_size = 1 ∨ field.data_size = 2 ∨ field.data_size = 4 ∨ field.data_size = 8 then
    match field.pData with
    | none => none
    | some p =>
      if usr_PB_LTYPE field.type = usr_PB_LTYPE_UVARINT then
        some (usr_pb_encode_varint stream (load_uint mem p field.data_size))
      else
        let value : Int := sign_extend field.data_size (load_uint mem p field.data_size)
        if usr_PB_LTYPE field.type = usr_PB_LTYPE_SVARINT then
          some (usr_pb_encode_svarint stream value)
        else some (usr_pb_encode_varint stream (i64ToU64 value))
  else enc_error stream "invalid data_size"

/-- The function `usr_pb_enc_fixed(stream, field)` (without
`usr_PB_CONVERT_DOUBLE_FLOAT`). -/
def usr_pb_enc_fixed (mem : List usr_pb_byte_t) (stream : usr_pb_ostream_t)
    (field : usr_pb_field_iter_t) : enc_result :=
  if field.data_size = 4 then
    match field.pData with
    | none => none
    | some p => some (usr_pb_encode_fixed32 stream (load_uint mem p 4))
  else if field.data_size = 8 then
    match field.pData with
    | none => none
    | some p => some (usr_pb_encode_fixed64 stream (load_uint mem p 8))
  else enc_error stream "invalid data_size"

/-- The function `usr_pb_enc_bytes(stream, field)`; the subtraction
`field->data_size - offsetof(usr_pb_bytes_array_t, bytes)` is one of `size_t`. -/
def usr_pb_enc_bytes (mem : List usr_pb_byte_t) (stream : usr_pb_ostream_t)
    (field : usr_pb_field_iter_t) : enc_result :=
  match field.pData with
  | none => some (usr_pb_encode_string stream [] 0)
  | some bytes =>
    let size := load_uint mem bytes 2
    if usr_PB_ATYPE field.type = usr_PB_ATYPE_STATIC ∧
        size > toSize (field.data_size + 2 ^ 64 - 2) then
      enc_error stream "bytes size exceeded"
    else some (usr_pb_encode_string stream (mem_read mem (bytes + 2) size) size)

/-- The loop `while (size < max_size && *p != 0)` of `usr_pb_enc_string`;
it runs at most `max_size` times. -/
def string_scan (mem : List usr_pb_byte_t) (str max_size : Nat) : Nat → Nat → Nat
  | 0, size => size
  | fuel + 1, size =>
    if size < max_size ∧ mem.getD (str + size) 0 ≠ 0 then
      string_scan mem str max_size fuel (size + 1)
    else size

/-- The function `usr_pb_enc_string(stream, field)` (without
`usr_PB_VALIDATE_UTF8`). -/
def usr_pb_enc_string (mem : List usr_pb_byte_t) (stream : usr_pb_ostream_t)
    (field : usr_pb_field_iter_t) : enc_result :=
  let max_size : Option Nat :=
    if usr_PB_ATYPE field.type = usr_PB_ATYPE_POINTER then some (2 ^ 64 - 1)
    else if field.data_size = 0 then none
    else some (field.data_size - 1)
  match max_size with
  | none => enc_error stream "zero-length string"
  | some max_size =>
    match field.pData with
    | none => some (usr_pb_encode_string stream [] 0)
    | some str =>
      let size := string_scan mem str max_size max_size 0
      if mem.getD (str + size) 0 ≠ 0 then enc_error stream "unterminated string"
      else some (usr_pb_encode_string stream (mem_read mem str size) size)

/-- The function `usr_pb_enc_fixed_length_bytes(stream, field)`. -/
def usr_pb_enc_fixed_length_bytes (mem : List usr_pb_byte_t) (stream : usr_pb_ostream_t)
    (field : usr_pb_field_iter_t) : enc_result :=
  match field.pData with
  | none => if field.data_size = 0 then some (usr_pb_encode_string stream [] 0) else none
  | some p =>
    some (usr_pb_encode_string stream (mem_read mem p field.data_size) field.data_size)

/-- Type of `usr_pb_encode(stream, fields, src_struct)` for a fixed message
memory. -/
abbrev encode_fn :=
  usr_pb_ostream_t → usr_pb_msgdesc_t → Option Nat → Option (usr_pb_ostream_t × Bool)

/-- The function `usr_pb_encode_submessage(stream, fields, src_struct)`, with
`usr_pb_encode` passed in as `enc`. -/
def encode_submessage_body (enc : encode_fn) (stream : usr_pb_ostream_t)
    (fields : usr_pb_msgdesc_t) (src_struct : Option Nat) : enc_result :=
  match enc usr_PB_OSTREAM_SIZING fields src_struct with
  | none => none
  | some (substream, false) => some ({ stream with errmsg := substream.errmsg }, false)
  | some (substream, true) =>
    let size := substream.bytes_written
    match usr_pb_encode_varint stream size with
    | (stream, false) => some (stream, false)
    | (stream, true) =>
      if stream.callback = false then some (usr_pb_write stream [] size)
      else if toSize (stream.bytes_written + size) > stream.max_size then
        enc_error stream "stream full"
      else
        match enc { callback := stream.callback, state := stream.state, max_size := size,
                    bytes_written := 0, errmsg := none } fields src_struct with
        | none => none
        | some (substream, status) =>
          let stream := { stream with
            bytes_written := toSize (stream.bytes_written + substream.bytes_written),
            state := substream.state, errmsg := substream.errmsg }
          if substream.bytes_written ≠ size then enc_error stream "submsg size changed"
          else some (stream, status)

/-- The function `usr_pb_enc_submessage(stream, field)`. A message callback
(`usr_PB_LTYPE_SUBMSG_W_CB` with a non-null `funcs.encode`, stored 16 bytes
before `pSize`) is user code and leaves the embedding. -/
def usr_pb_enc_submessage (enc : encode_fn) (mem : List usr_pb_byte_t)
    (stream : usr_pb_ostream_t) (field : usr_pb_field_iter_t) : enc_result :=
  match field.submsg_desc with
  | none => enc_error stream "invalid field descriptor"
  | some submsg_desc =>
    let callback_null : Option Bool :=
      if usr_PB_LTYPE field.type = usr_PB_LTYPE_SUBMSG_W_CB ∧ field.pSize ≠ size_ptr.null then
        match field.pSize with
        | size_ptr.mem a => some (load_ptr mem (a - 16)).isNone
        | _ => none
      else some true
    match callback_null with
    | some true => encode_submessage_body enc stream submsg_desc field.pData
    | _ => none

/-- The `switch (usr_PB_LTYPE(field->type))` of `encode_basic_field`: the call
of the encoder of the field's value. -/
def encode_field_value (enc : encode_fn) (mem : List usr_pb_byte_t)
    (stream : usr_pb_ostream_t) (field : usr_pb_field_iter_t) : enc_result :=
  let ltype := usr_PB_LTYPE field.type
  if ltype = usr_PB_LTYPE_BOOL then usr_pb_enc_bool mem stream field
  else if ltype = usr_PB_LTYPE_VARINT ∨ ltype = usr_PB_LTYPE_UVARINT ∨
      ltype = usr_PB_LTYPE_SVARINT then usr_pb_enc_varint mem stream field
  else if ltype = usr_PB_LTYPE_FIXED32 ∨ ltype = usr_PB_LTYPE_FIXED64 then
    usr_pb_enc_fixed mem stream field
  else if ltype = usr_PB_LTYPE_BYTES then usr_pb_enc_bytes mem stream field
  else if ltype = usr_PB_LTYPE_STRING then usr_pb_enc_string mem stream field
  else if ltype = usr_PB_LTYPE_SUBMESSAGE ∨ ltype = usr_PB_LTYPE_SUBMSG_W_CB then
    usr_pb_enc_submessage enc mem stream field
  else if ltype = usr_PB_LTYPE_FIXED_LENGTH_BYTES then
    usr_pb_enc_fixed_length_bytes mem stream field
  else enc_error stream "invalid field type"

/-- The function `encode_basic_field(stream, field)`. -/
def encode_basic_field (enc : encode_fn) (mem : List usr_pb_byte_t)
    (stream : usr_pb_ostream_t) (field : usr_pb_field_iter_t) : enc_result :=
  if field.pData.isNone then some (stream, true)
  else
    match usr_pb_encode_tag_for_field stream field with
    | (stream, false) => some (stream, false)
    | (stream, true) => encode_field_value enc mem stream field

/-- The function `encode_callback_field(stream, field)`; a non-null
`field_callback` is user code and leaves the embedding. -/
def encode_callback_field (stream : usr_pb_ostream_t) (field : usr_pb_field_iter_t) :
    enc_result :=
  if field.descriptor.field_callback = true then none else some (stream, true)

/-! ## Encoding of arrays, fields and messages -/

/-- The sizing loop of `encode_array`: `count` calls of `usr_pb_enc_varint` on
the sizing stream, with `pData` advancing by `data_size`. -/
def encode_array_size_loop (mem : List usr_pb_byte_t) :
    Nat → usr_pb_ostream_t → usr_pb_field_iter_t → enc_result
  | 0, sizestream, _ => some (sizestream, true)
  | count + 1, sizestream, field =>
    match usr_pb_enc_varint mem sizestream field with
    | none => none
    | some (sizestream, false) => some (sizestream, false)
    | some (sizestream, true) =>
      match field.pData with
      | none => none
      | some p =>
        encode_array_size_loop mem count sizestream
          { field with pData := some (p + field.data_size) }

/-- The call of `usr_pb_enc_fixed` or `usr_pb_enc_varint` in the loop "Write
the data" of the packed branch of `encode_array`: the encoder of one packed
element. -/
def encode_packed_element (mem : List usr_pb_byte_t) (stream : usr_pb_ostream_t)
    (field : usr_pb_field_iter_t) : enc_result :=
  if usr_PB_LTYPE field.type = usr_PB_LTYPE_FIXED32 ∨
      usr_PB_LTYPE field.type = usr_PB_LTYPE_FIXED64 then
    usr_pb_enc_fixed mem stream field
  else usr_pb_enc_varint mem stream field

/-- The loop "Write the data" of the packed branch of `encode_array`; the
result carries the iterator with the advanced `pData`. -/
def encode_array_packed_loop (mem : List usr_pb_byte_t) :
    Nat → usr_pb_ostream_t → usr_pb_field_iter_t →
      Option (usr_pb_ostream_t × usr_pb_field_iter_t × Bool)
  | 0, stream, field => some (stream, field, true)
  | count + 1, stream, field =>
    match encode_packed_element mem stream field with
    | none => none
    | some (stream, false) => some (stream, field, false)
    | some (stream, true) =>
      match field.pData with
      | none => none
      | some p =>
        encode_array_packed_loop mem count stream
          { field with pData := some (p + field.data_size) }

/-- The body of the loop of the unpacked branch of `encode_array`, for the
entry at `p = field->pData`: the encoder of one element with its tag. The
entries of a pointer-type string or bytes array are pointers themselves. -/
def encode_unpacked_element (enc : encode_fn) (mem : List usr_pb_byte_t)
    (stream : usr_pb_ostream_t) (field : usr_pb_field_iter_t) (p : Nat) : enc_result :=
  if usr_PB_ATYPE field.type = usr_PB_ATYPE_POINTER ∧
      (usr_PB_LTYPE field.type = usr_PB_LTYPE_STRING ∨
        usr_PB_LTYPE field.type = usr_PB_LTYPE_BYTES) then
    match load_ptr mem p with
    | none =>
      match usr_pb_encode_tag_for_field stream { field with pData := none } with
      | (stream, false) => some (stream, false)
      | (stream, true) => some (usr_pb_encode_varint stream 0)
    | some q => encode_basic_field enc mem stream { field with pData := some q }
  else encode_basic_field enc mem stream field

/-- The loop of the unpacked branch of `encode_array`. -/
def encode_array_unpacked_loop (enc : encode_fn) (mem : List usr_pb_byte_t) :
    Nat → usr_pb_ostream_t → usr_pb_field_iter_t →
      Option (usr_pb_ostream_t × usr_pb_field_iter_t × Bool)
  | 0, stream, field => some (stream, field, true)
  | count + 1, stream, field =>
    match field.pData with
    | none => none
    | some p =>
      match encode_unpacked_element enc mem stream field p with
      | none => none
      | some (stream, false) => some (stream, field, false)
      | some (stream, true) =>
        encode_array_unpacked_loop enc mem count stream
          { field with pData := some (p + field.data_size) }

/-- The function `encode_array(stream, field)` (without
`usr_PB_ENCODE_ARRAYS_UNPACKED`). -/
def encode_array (enc : encode_fn) (mem : List usr_pb_byte_t) (stream : usr_pb_ostream_t)
    (field : usr_pb_field_iter_t) : Option (usr_pb_ostream_t × usr_pb_field_iter_t × Bool) :=
  match enc_load_size mem field with
  | none => none
  | some count =>
    if count = 0 then some (stream, field, true)
    else if usr_PB_ATYPE field.type ≠ usr_PB_ATYPE_POINTER ∧ count > field.array_size then
      some (ostream_set_error stream "array max size exceeded", field, false)
    else if usr_PB_LTYPE field.type ≤ usr_PB_LTYPE_LAST_PACKABLE then
      match usr_pb_encode_tag stream usr_PB_WT_STRING field.tag with
      | (stream, false) => some (stream, field, false)
      | (stream, true) =>
        let size : Option (Option Nat × Option String) :=
          if usr_PB_LTYPE field.type = usr_PB_LTYPE_FIXED32 then some (some (4 * count), none)
          else if usr_PB_LTYPE field.type = usr_PB_LTYPE_FIXED64 then
            some (some (8 * count), none)
          else
            match encode_array_size_loop mem count usr_PB_OSTREAM_SIZING field with
            | none => none
            | some (sizestream, false) => some (none, sizestream.errmsg)
            | some (sizestream, true) => some (some sizestream.bytes_written, none)
        match size with
        | none => none
        | some (none, errmsg) =>
          some (ostream_set_error stream (errmsg.getD "(none)"), field, false)
        | some (some size, _) =>
          match usr_pb_encode_varint stream size with
          | (stream, false) => some (stream, field, false)
          | (stream, true) =>
            if stream.callback = false then
              let r := usr_pb_write stream [] size
              some (r.1, field, r.2)
            else encode_array_packed_loop mem count stream field
    else encode_array_unpacked_loop enc mem count stream field

/-- Type of `usr_pb_check_proto3_default_value(field)` for a fixed message
memory. -/
abbrev check_default_fn := usr_pb_field_iter_t → Option Bool

/-- The loop `do ... while (usr_pb_field_iter_next(&iter))` over the fields of
a submessage in `usr_pb_check_proto3_default_value`. -/
def check_default_loop (check : check_default_fn) (mem : List usr_pb_byte_t) :
    Nat → usr_pb_field_iter_t → Option Bool
  | 0, _ => none
  | fuel + 1, iter =>
    match check iter with
    | none => none
    | some false => some false
    | some true =>
      let n := usr_pb_field_iter_next mem iter
      if n.2 then check_default_loop check mem fuel n.1 else some true

/-- The part of `usr_pb_check_proto3_default_value` after the comment "Rest is
proto3 singular fields". -/
def check_singular_default (check : check_default_fn) (mem : List usr_pb_byte_t)
    (field : usr_pb_field_iter_t) : Option Bool :=
  let type := field.type
  if usr_PB_LTYPE type ≤ usr_PB_LTYPE_LAST_PACKABLE then
    if field.data_size = 0 then some true
    else
      match field.pData with
      | none => none
      | some p => some ((mem_read mem p field.data_size).all (fun b => decide (b = 0)))
  else if usr_PB_LTYPE type = usr_PB_LTYPE_BYTES then
    match field.pData with
    | none => none
    | some p => some (decide (load_uint mem p 2 = 0))
  else if usr_PB_LTYPE type = usr_PB_LTYPE_STRING then
    match field.pData with
    | none => none
    | some p => some (decide (mem.getD p 0 = 0))
  else if usr_PB_LTYPE type = usr_PB_LTYPE_FIXED_LENGTH_BYTES then
    some (decide (field.data_size = 0))
  else if usr_PB_LTYPE_IS_SUBMSG type = true then
    match field.submsg_desc with
    | none => none
    | some submsg_desc =>
      let b := usr_pb_field_iter_begin mem submsg_desc field.pData
      if b.2 = true then check_default_loop check mem (submsg_desc.field_count + 1) b.1
      else some true
  else some false

/-- The function `usr_pb_check_proto3_default_value(field)`, with its
recursive call passed in as `check`. A callback field with a non-null
`field_callback` and a non-empty extension list leave the embedding. -/
def check_proto3_default_body (check : check_default_fn) (mem : List usr_pb_byte_t)
    (field : usr_pb_field_iter_t) : Option Bool :=
  let type := field.type
  if usr_PB_ATYPE type = usr_PB_ATYPE_STATIC then
    if usr_PB_HTYPE type = usr_PB_HTYPE_REQUIRED then some false
    else if usr_PB_HTYPE type = usr_PB_HTYPE_REPEATED then
      (enc_load_size mem field).map (fun n => decide (n = 0))
    else if usr_PB_HTYPE type = usr_PB_HTYPE_ONEOF then
      (enc_load_size mem field).map (fun n => decide (n = 0))
    else if usr_PB_HTYPE type = usr_PB_HTYPE_OPTIONAL ∧ field.pSize ≠ size_ptr.null then
      (safe_read_bool_size mem field).map (fun b => decide (b = false))
    else if field.descriptor.default_value.isSome = true then some false
    else check_singular_default check mem field
  else if usr_PB_ATYPE type = usr_PB_ATYPE_POINTER then some field.pData.isNone
  else if usr_PB_ATYPE type = usr_PB_ATYPE_CALLBACK then
    if usr_PB_LTYPE type = usr_PB_LTYPE_EXTENSION then
      match field.pData with
      | none => none
      | some p => some (load_ptr mem p).isNone
    else if field.descriptor.field_callback = true then none
    else some true
  else some false

/-- The function `encode_field(stream, field)`; the result carries the
iterator, whose `pData` `encode_array` advances. -/
def encode_field (enc : encode_fn) (check : check_default_fn) (mem : List usr_pb_byte_t)
    (stream : usr_pb_ostream_t) (field : usr_pb_field_iter_t) :
    Option (usr_pb_ostream_t × usr_pb_field_iter_t × Bool) :=
  let skip : Option Bool :=
    if usr_PB_HTYPE field.type = usr_PB_HTYPE_ONEOF then
      (enc_load_size mem field).map (fun which => decide (which ≠ field.tag))
    else if usr_PB_HTYPE field.type = usr_PB_HTYPE_OPTIONAL then
      if field.pSize ≠ size_ptr.null then
        (safe_read_bool_size mem field).map (fun b => decide (b = false))
      else if usr_PB_ATYPE field.type = usr_PB_ATYPE_STATIC then check field
      else some false
    else some false
  match skip with
  | none => none
  | some true => some (stream, field, true)
  | some false =>
    if field.pData.isNone then
      if usr_PB_HTYPE field.type = usr_PB_HTYPE_REQUIRED then
        some (ostream_set_error stream "missing required field", field, false)
      else some (stream, field, true)
    else if usr_PB_ATYPE field.type = usr_PB_ATYPE_CALLBACK then
      (encode_callback_field stream field).map (fun r => (r.1, field, r.2))
    else if usr_PB_HTYPE field.type = usr_PB_HTYPE_REPEATED then
      encode_array enc mem stream field
    else (encode_basic_field enc mem stream field).map (fun r => (r.1, field, r.2))

/-- The function `encode_extension_field(stream, field)` for the empty
extension list; a non-empty list leaves the embedding. -/
def encode_extension_field (mem : List usr_pb_byte_t) (stream : usr_pb_ostream_t)
    (field : usr_pb_field_iter_t) : enc_result :=
  match field.pData with
  | none => none
  | some p => if (load_ptr mem p).isNone then some (stream, true) else none

/-- The loop `do ... while (usr_pb_field_iter_next(&iter))` of `usr_pb_encode`;
it ends when the iterator wraps around, after at most `field_count` rounds. -/
def encode_loop (enc : encode_fn) (check : check_default_fn) (mem : List usr_pb_byte_t) :
    Nat → usr_pb_ostream_t → usr_pb_field_iter_t → enc_result
  | 0, _, _ => none
  | fuel + 1, stream, iter =>
    let r : Option (usr_pb_ostream_t × usr_pb_field_iter_t × Bool) :=
      if usr_PB_LTYPE iter.type = usr_PB_LTYPE_EXTENSION then
        (encode_extension_field mem stream iter).map (fun r => (r.1, iter, r.2))
      else encode_field enc check mem stream iter
    match r with
    | none => none
    | some (stream, _, false) => some (stream, false)
    | some (stream, iter, true) =>
      let n := usr_pb_field_iter_next mem iter
      if n.2 then encode_loop enc check mem fuel stream n.1 else some (stream, true)

/-- The function `usr_pb_encode(stream, fields, src_struct)`, with the
recursive calls passed in. -/
def encode_body (enc : encode_fn) (check : check_default_fn) (mem : List usr_pb_byte_t) :
    encode_fn :=
  fun stream fields src_struct =>
    let b := usr_pb_field_iter_begin mem fields src_struct
    if b.2 = false then some (stream, true)
    else encode_loop enc check mem (fields.field_count + 1) stream b.1

/-- The function `usr_pb_check_proto3_default_value`, for submessages nested
at most `fuel` deep. -/
def check_default_fns (mem : List usr_pb_byte_t) : Nat → check_default_fn
  | 0 => fun _ => none
  | fuel + 1 => check_proto3_default_body (check_default_fns mem fuel) mem

/-- The function `usr_pb_encode`, for descriptors nested at most `fuel` deep. -/
def encode_fns (mem : List usr_pb_byte_t) : Nat → encode_fn
  | 0 => fun _ _ _ => none
  | fuel + 1 => encode_body (encode_fns mem fuel) (check_default_fns mem (fuel + 1)) mem

/-- The function `usr_pb_encode(stream, fields, src_struct)`: the stream after
the call and the C return value. -/
def usr_pb_encode (mem : List usr_pb_byte_t) (stream : usr_pb_ostream_t)
    (fields : usr_pb_msgdesc_t) (src_struct : Option Nat) : enc_result :=
  encode_fns mem fields.depth stream fields src_struct

/-- The function `usr_pb_encode_submessage(stream, fields, src_struct)`. -/
def usr_pb_encode_submessage (mem : List usr_pb_byte_t) (stream : usr_pb_ostream_t)
    (fields : usr_pb_msgdesc_t) (src_struct : Option Nat) : enc_result :=
  encode_submessage_body (encode_fns mem fields.depth) stream fields src_struct

/-- The function `usr_pb_encode_ex(stream, fields, src_struct, flags)`. -/
def usr_pb_encode_ex (mem : List usr_pb_byte_t) (stream : usr_pb_ostream_t)
    (fields : usr_pb_msgdesc_t) (src_struct : Option Nat) (flags : Nat) : enc_result :=
  if flags &&& usr_PB_ENCODE_DELIMITED ≠ 0 then
    usr_pb_encode_submessage mem stream fields src_struct
  else if flags &&& usr_PB_ENCODE_NULLTERMINATED ≠ 0 then
    match usr_pb_encode mem stream fields src_struct with
    | none => none
    | some (stream, false) => some (stream, false)
    | some (stream, true) => some (usr_pb_write stream [0] 1)
  else usr_pb_encode mem stream fields src_struct

/-- The function `usr_pb_get_encoded_size(size, fields, src_struct)`: `some
(some n)` is the result `true` with `*size = n`, `some none` the result
`false`. -/
def usr_pb_get_encoded_size (mem : List usr_pb_byte_t) (fields : usr_pb_msgdesc_t)
    (src_struct : Option Nat) : Option (Option Nat) :=
  match usr_pb_encode mem usr_PB_OSTREAM_SIZING fields src_struct with
  | none => none
  | some (_, false) => some none
  | some (stream, true) => some (some stream.bytes_written)

/-! ## Notions used to state the claims about `usr_pb_decode` -/

/-- The iterator on field number `n` (counted from 0) of a descriptor:
`usr_pb_field_iter_begin` followed by `n` calls of `usr_pb_field_iter_next`. -/
def field_at (mem : List usr_pb_byte_t) (desc : usr_pb_msgdesc_t) (message : Option Nat) :
    Nat → usr_pb_field_iter_t
  | 0 => (usr_pb_field_iter_begin mem desc message).1
  | n + 1 => (usr_pb_field_iter_next mem (field_at mem desc message n)).1

/-- The tags that the rounds of the `while` loop of `usr_pb_decode_inner`
decode at the loop head, in order: the tags of the fields that occur in the
input at the level of this message. -/
def decode_inner_tags (inner : decode_inner_fn) (defaults : set_to_defaults_fn)
    (flags : Nat) : Nat → inner_state → List Nat
  | 0, _ => []
  | fuel + 1, s =>
    if s.stream.bytes_left ≠ 0 then
      let t := usr_pb_decode_tag s.stream
      let rest :=
        match decode_inner_step inner defaults flags s with
        | some (loop_step.next s) => decode_inner_tags inner defaults flags fuel s
        | _ => []
      if t.ok then t.tag :: rest else rest
    else []

/-- The tags of the top-level fields that `usr_pb_decode` reads from the
input. -/
def usr_pb_decode_tags (stream : usr_pb_istream_t) (fields : usr_pb_msgdesc_t)
    (dest_struct : Option Nat) (mem : List usr_pb_byte_t) : List Nat :=
  match decode_inner_init (decode_fns (2 * fields.depth)).2 stream fields dest_struct 0 mem with
  | some (true, s) =>
    decode_inner_tags (decode_fns (2 * fields.depth)).1 (decode_fns (2 * fields.depth)).2 0
      (s.stream.bytes_left + 1) s
  | _ => []

/-- The state in which `usr_pb_decode` arrives at the required-field check
at the end of `usr_pb_decode_inner`; `none` when the call returns before,
with an error. -/
def usr_pb_decode_upto_required_check (stream : usr_pb_istream_t)
    (fields : usr_pb_msgdesc_t) (dest_struct : Option Nat) (mem : List usr_pb_byte_t) :
    Option inner_state :=
  match decode_inner_init (decode_fns (2 * fields.depth)).2 stream fields dest_struct 0 mem with
  | some (true, s) =>
    match decode_inner_loop (decode_fns (2 * fields.depth)).1 (decode_fns (2 * fields.depth)).2 0
        (s.stream.bytes_left + 1) s with
    | some (true, s) =>
      if s.fixed_count_field ≠ usr_PB_SIZE_MAX ∧
          s.fixed_count_size ≠ s.fixed_count_total_size then none
      else some s
    | _ => none
  | _ => none

/-! ## Example descriptors -/

/-- Descriptor of `struct { usr_pb_size_t values_count; uint8_t values[4]; }`
with the single field `repeated uint32 values = 1` (`int_size = IS_8`,
`max_count = 4`): a two-word record with the count 2 bytes before the data. -/
def uint8_array_msgdesc : usr_pb_msgdesc_t :=
  usr_pb_msgdesc_t.mk
    (usr_PB_FIELDINFO_2 1
      (usr_PB_ATYPE_STATIC ||| usr_PB_HTYPE_REPEATED ||| usr_PB_LTYPE_UVARINT) 2 1 2 4)
    [] none false 1 0 1

/-- Descriptor of a struct of `n` members `uint8_t`, member `i` (from 0) being
the field `required uint32 = i + 1`, in two-word records. -/
def required_fields_msgdesc (n : Nat) : usr_pb_msgdesc_t :=
  usr_pb_msgdesc_t.mk
    ((List.range n).flatMap (fun i =>
      usr_PB_FIELDINFO_2 (i + 1)
        (usr_PB_ATYPE_STATIC ||| usr_PB_HTYPE_REQUIRED ||| usr_PB_LTYPE_UVARINT) i 1 0 1))
    [] none false n n n

/-- The output stream after encoding the fields `1 .. n` of
`required_fields_msgdesc`, each with the value 7, with `usr_pb_encode_tag` and
`usr_pb_encode_varint` into a 256-byte buffer. -/
def encode_uint_fields (n : Nat) : usr_pb_ostream_t :=
  (List.range n).foldl
    (fun s i => (usr_pb_encode_varint (usr_pb_encode_tag s usr_PB_WT_VARINT (i + 1)).1 7).1)
    (usr_pb_ostream_from_buffer 256)

/-- Two iterator values are on the same field: they agree on the descriptor,
on the four position counters and on the loaded tag and type. -/
def same_field (a b : usr_pb_field_iter_t) : Prop :=
  a.descriptor = b.descriptor ∧ a.index = b.index ∧
  a.field_info_index = b.field_info_index ∧
  a.required_field_index = b.required_field_index ∧
  a.submessage_index = b.submessage_index ∧ a.tag = b.tag ∧ a.type = b.type

/-- Two iterator values are on the same position: they agree on the
descriptor and on the four position counters. -/
def same_pos (a b : usr_pb_field_iter_t) : Prop :=
  a.descriptor = b.descriptor ∧ a.index = b.index ∧
  a.field_info_index = b.field_info_index ∧
  a.required_field_index = b.required_field_index ∧
  a.submessage_index = b.submessage_index

/-- The iterator value is on one of the fields of the descriptor, with the
tag and type of that field loaded. -/
def on_field (mem : List usr_pb_byte_t) (desc : usr_pb_msgdesc_t) (message : Option Nat)
    (it : usr_pb_field_iter_t) : Prop :=
  ∃ n, n < desc.field_count ∧ same_field it (field_at mem desc message n)

/-- The position counters of the iterator value are those of one of the fields
of the descriptor. -/
def on_pos (mem : List usr_pb_byte_t) (desc : usr_pb_msgdesc_t) (message : Option Nat)
    (it : usr_pb_field_iter_t) : Prop :=
  ∃ n, n < desc.field_count ∧ same_pos it (field_at mem desc message n)

/-- An iterator value on the position of field `n`, with the message pointer
of the iteration. -/
def at_pos (mem : List usr_pb_byte_t) (desc : usr_pb_msgdesc_t) (message : Option Nat)
    (n : Nat) (it : usr_pb_field_iter_t) : Prop :=
  same_pos it (field_at mem desc message n) ∧ it.message = message ∧
    (message = none → it.pData = none)

/-- The state with which a round of the decode loop ends. -/
def loop_step.state : loop_step → inner_state
  | loop_step.next s => s
  | loop_step.exit s => s
  | loop_step.fail s => s

/-- Invariant of the decode loop while the required field with index `r`
among the required fields has not occurred: the iterator is on a field of the
descriptor and bit `r` of the bitmap `fields_seen` is clear. -/
def required_unseen (mem : List usr_pb_byte_t) (desc : usr_pb_msgdesc_t)
    (message : Option Nat) (r : Nat) (s : inner_state) : Prop :=
  on_field mem desc message s.iter ∧
  (s.fields_seen.getD (r >>> 5) 0).testBit (r &&& 31) = false

/-- The states in which the rounds of the `while` loop of
`usr_pb_decode_inner` start, in order. -/
def decode_inner_heads (inner : decode_inner_fn) (defaults : set_to_defaults_fn)
    (flags : Nat) : Nat → inner_state → List inner_state
  | 0, _ => []
  | fuel + 1, s =>
    if s.stream.bytes_left ≠ 0 then
      s :: (match decode_inner_step inner defaults flags s with
            | some (loop_step.next s) => decode_inner_heads inner defaults flags fuel s
            | _ => [])
    else []

/-- The states in which the rounds of the decode loop start when
`usr_pb_decode_inner` is called from `usr_pb_decode` or `usr_pb_decode_ex`. -/
def usr_pb_decode_heads (stream : usr_pb_istream_t) (fields : usr_pb_msgdesc_t)
    (dest_struct : Option Nat) (flags : Nat) (mem : List usr_pb_byte_t) : List inner_state :=
  match decode_inner_init (decode_fns (2 * fields.depth)).2 stream fields dest_struct flags mem with
  | some (true, s) =>
    decode_inner_heads (decode_fns (2 * fields.depth)).1 (decode_fns (2 * fields.depth)).2 flags
      (s.stream.bytes_left + 1) s
  | _ => []

/-- Descriptor of `struct { uint8_t values[2]; }` with the single field
`repeated uint32 values = 1` of fixed count 2 (no count member). -/
def fixed_count_msgdesc : usr_pb_msgdesc_t :=
  usr_pb_msgdesc_t.mk
    (usr_PB_FIELDINFO_2 1
      (usr_PB_ATYPE_STATIC ||| usr_PB_HTYPE_REPEATED ||| usr_PB_LTYPE_UVARINT) 0 1 0 2)
    [] none false 1 0 1

/-- Descriptor of `struct { uint32_t x; }` with the proto3 singular field
`uint32 x = 1` (OPTIONAL without presence flag), in a one-word record. -/
def proto3_uint32_msgdesc : usr_pb_msgdesc_t :=
  usr_pb_msgdesc_t.mk
    (usr_PB_FIELDINFO_1 1
      (usr_PB_ATYPE_STATIC ||| usr_PB_HTYPE_OPTIONAL ||| usr_PB_LTYPE_UVARINT) 0 4 0 0)
    [] none false 1 0 1

/-- Descriptor of `struct { usr_pb_size_t which; union { uint8_t a; char s[4]; } u; }`
with the oneof members `uint32 a = 1` and `string s = 2` (`max_size = 4`); the
discriminator lies 2 bytes before the union. -/
def oneof_msgdesc : usr_pb_msgdesc_t :=
  usr_pb_msgdesc_t.mk
    (usr_PB_FIELDINFO_2 1
        (usr_PB_ATYPE_STATIC ||| usr_PB_HTYPE_ONEOF ||| usr_PB_LTYPE_UVARINT) 2 1 2 1 ++
      usr_PB_FIELDINFO_2 2
        (usr_PB_ATYPE_STATIC ||| usr_PB_HTYPE_ONEOF ||| usr_PB_LTYPE_STRING) 2 4 2 1)
    [] none false 2 0 2


/-- Descriptor of `struct { usr_pb_size_t values_count; int32_t values[4]; }`
with the single field `repeated int32 values = 1` (`max_count = 4`); the count
lies 4 bytes before the array. -/
def int32_array_msgdesc : usr_pb_msgdesc_t :=
  usr_pb_msgdesc_t.mk
    (usr_PB_FIELDINFO_2 1
      (usr_PB_ATYPE_STATIC ||| usr_PB_HTYPE_REPEATED ||| usr_PB_LTYPE_VARINT) 4 4 4 4)
    [] none false 1 0 1

/-- Descriptor of `struct { int32_t v; }` with the single field
`required int32 v = 1`. -/
def inner_int32_msgdesc : usr_pb_msgdesc_t :=
  usr_pb_msgdesc_t.mk
    (usr_PB_FIELDINFO_1 1
      (usr_PB_ATYPE_STATIC ||| usr_PB_HTYPE_REQUIRED ||| usr_PB_LTYPE_VARINT) 0 4 0 0)
    [] none false 1 1 1

/-- Descriptor of `struct { Inner inner; }` with the single field
`required Inner inner = 1`, where `Inner` has the descriptor
`inner_int32_msgdesc`. -/
def outer_submsg_msgdesc : usr_pb_msgdesc_t :=
  usr_pb_msgdesc_t.mk
    (usr_PB_FIELDINFO_1 1
      (usr_PB_ATYPE_STATIC ||| usr_PB_HTYPE_REQUIRED ||| usr_PB_LTYPE_SUBMESSAGE) 0 4 0 0)
    [inner_int32_msgdesc] none false 1 1 1

/-- Descriptor of `struct { T x; }` with the single statically allocated
field `x = 1` of the given type byte and size (at most 15), in a one-word
record. -/
def scalar_msgdesc (type data_size : Nat) : usr_pb_msgdesc_t :=
  usr_pb_msgdesc_t.mk (usr_PB_FIELDINFO_1 1 type 0 data_size 0 0) [] none false 1
    (if usr_PB_HTYPE type = usr_PB_HTYPE_REQUIRED then 1 else 0) 1

/-- The state of a field decoder on the field of `scalar_msgdesc`, with the
struct at address 0 of `mem` and the input `input`. -/
def scalar_field_state (type data_size : Nat) (input mem : List usr_pb_byte_t) :
    decode_state :=
  { stream := usr_pb_istream_from_buffer input,
    field := field_at mem (scalar_msgdesc type data_size) (some 0) 0,
    mem := mem, fixed_count_size := 0 }

/-- Descriptor of `struct { uint32_t a; usr_pb_extension_t *extensions; }` with
the field `uint32 a = 1` and the placeholder of the extension range that
starts at tag 4. -/
def extension_msgdesc : usr_pb_msgdesc_t :=
  usr_pb_msgdesc_t.mk
    (usr_PB_FIELDINFO_1 1
        (usr_PB_ATYPE_STATIC ||| usr_PB_HTYPE_OPTIONAL ||| usr_PB_LTYPE_UVARINT) 0 4 0 0 ++
      usr_PB_FIELDINFO_1 4
        (usr_PB_ATYPE_CALLBACK ||| usr_PB_HTYPE_OPTIONAL ||| usr_PB_LTYPE_EXTENSION) 8 8 0 0)
    [] none false 2 0 4
/-! ## Notions used to state the claims about the encoder -/

/-- An output stream as the encoder functions keep it: `bytes_written` is a
`size_t` and, for a buffer stream, does not exceed `max_size`; the buffer is
smaller than `2 ^ 63` bytes, so that no sum of two sizes leaves `size_t`. -/
def valid_ostream (s : usr_pb_ostream_t) : Prop :=
  s.bytes_written < 2 ^ 64 ∧
  (s.callback = true → s.bytes_written ≤ s.max_size ∧ s.max_size < 2 ^ 63)

/-- The stream is valid and, if it is a buffer stream, has room for `n` more
bytes. -/
def has_room (s : usr_pb_ostream_t) (n : Nat) : Prop :=
  valid_ostream s ∧ (s.callback = true → s.bytes_written + n ≤ s.max_size)

/-- The stream `s` after the bytes `bs` have been written to it: a buffer
stream stores them, a sizing stream (null callback) counts them. The error
message is `e`. -/
def ostream_after (s : usr_pb_ostream_t) (bs : List usr_pb_byte_t) (e : Option String) :
    usr_pb_ostream_t :=
  if s.callback = true then
    { s with state := s.state ++ bs, bytes_written := s.bytes_written + bs.length, errmsg := e }
  else { s with bytes_written := toSize (s.bytes_written + bs.length), errmsg := e }

/-- The encoder function `F` writes the bytes `bs`: on every stream with room
for them it succeeds and leaves the stream advanced by `bs`. -/
def writes (F : usr_pb_ostream_t → enc_result) (bs : List usr_pb_byte_t) : Prop :=
  ∀ s, has_room s bs.length → ∃ e, F s = some (ostream_after s bs e, true)

/-- The encoder function `F` emits the bytes `bs`: it writes them on every
stream with room for them, and it succeeds on no valid stream without that
room. -/
def emits (F : usr_pb_ostream_t → enc_result) (bs : List usr_pb_byte_t) : Prop :=
  writes F bs ∧ ∀ s s', valid_ostream s → F s = some (s', true) → has_room s bs.length

/-- The encoder function `F` does not depend on the stream it writes to: it
either emits a fixed byte string, of at most `B` bytes, or succeeds on no
valid stream at all. -/
def regular (B : Nat) (F : usr_pb_ostream_t → enc_result) : Prop :=
  (∃ bs, bs.length ≤ B ∧ emits F bs) ∨
  ∀ s s', valid_ostream s → F s ≠ some (s', true)

/-- The field's `data_size` is that of its fixed-width wire type. -/
def fixed_size_ok (field : usr_pb_field_iter_t) : Bool :=
  (usr_PB_LTYPE field.type != usr_PB_LTYPE_FIXED32 || field.data_size == 4) &&
  (usr_PB_LTYPE field.type != usr_PB_LTYPE_FIXED64 || field.data_size == 8)

/-- The largest number of entries of a repeated field that `encode_array`
accepts: `array_size` for a static array, any `usr_pb_size_t` for a pointer
array. -/
def array_max_count (field : usr_pb_field_iter_t) : Nat :=
  if usr_PB_ATYPE field.type = usr_PB_ATYPE_POINTER then 65535 else field.array_size

/-- A bound on the number of bytes that the encoder writes for one field, for
a message memory of `memlen` bytes and the bound `sub` on the encoded size of
a submessage: a tag and a length prefix of at most 10 bytes each, a value of
fewer than `65536 + memlen` bytes or a submessage, and as many of these as
the array has entries. -/
def field_size_bound (memlen : Nat) (sub : usr_pb_msgdesc_t → Nat)
    (field : usr_pb_field_iter_t) : Nat :=
  20 + max 1 (if usr_PB_HTYPE field.type = usr_PB_HTYPE_REPEATED then array_max_count field
      else 1) *
    (65555 + memlen +
      match field.submsg_desc with
      | none => 0
      | some d => sub d)

/-- A bound on the encoded size of a message with the descriptor `desc`, for
descriptors nested at most `fuel` deep: the sum of the bounds of the fields. -/
def size_bound (memlen : Nat) : Nat → usr_pb_msgdesc_t → Nat
  | 0, _ => 0
  | fuel + 1, desc =>
    ((List.range desc.field_count).map
      (fun i => field_size_bound memlen (size_bound memlen fuel) (field_at [] desc none i))).sum

/-- The descriptor, nested at most `fuel` deep, is one that the generator
emits (without `usr_PB_CONVERT_DOUBLE_FLOAT`): `field_count` is a
`usr_pb_size_t`, and all fields of the descriptor and of the descriptors of its
submessages have the `data_size` of their fixed-width wire type (4 for
`usr_PB_LTYPE_FIXED32`, 8 for `usr_PB_LTYPE_FIXED64`). -/
def descriptor_ok : Nat → usr_pb_msgdesc_t → Bool
  | 0, _ => false
  | fuel + 1, desc =>
    decide (desc.field_count < 65536) &&
    (List.range desc.field_count).all (fun i =>
      fixed_size_ok (field_at [] desc none i) &&
      match (field_at [] desc none i).submsg_desc with
      | none => true
      | some d => descriptor_ok fuel d)

/-- The bytes that `usr_pb_encode_varint(stream, value)` passes to
`usr_pb_write`. -/
def varint_bytes (value : Nat) : List usr_pb_byte_t :=
  if value ≤ 0x7F then [toByte value]
  else encode_varint_32_buffer (toU32 value) (toU32 (value >>> 32))


/-- The stream and return value of a result that also carries the iterator. -/
def drop_iter (r : Option (usr_pb_ostream_t × usr_pb_field_iter_t × Bool)) : enc_result :=
  r.map (fun r => (r.1, r.2.2))

/-- The iterator on entry `i` of the array at `p`: `pData` advanced `i` times by
`data_size`. -/
def array_element (field : usr_pb_field_iter_t) (p i : Nat) : usr_pb_field_iter_t :=
  { field with pData := some (p + i * field.data_size) }
/-! ## Definitions that follow the words of the specification -/

/-- The zigzag code `(x << 1) XOR (x >> 63)` of an `int64_t`, computed in
64-bit two's complement with an arithmetic right shift, as an unsigned
64-bit value. -/
def zigzag64 (x : Int) : Nat :=
  toU64 (i64ToU64 x <<< 1) ^^^ i64ToU64 (x >>> (63 : Nat))


/-- The word width (1, 2, 4 or 8) of the field-info record that starts at
word `start`: 2 to the power of its 2-bit width code. -/
def record_width (desc : usr_pb_msgdesc_t) (start : Nat) : Nat :=
  1 <<< (field_info_word desc start &&& 3)

/-- The first word of record `k`: the sum of the word widths of the records
before it. -/
def record_start (desc : usr_pb_msgdesc_t) : Nat → Nat
  | 0 => 0
  | k + 1 => record_start desc k + record_width desc (record_start desc k)

/-- The type byte of record `k`. -/
def record_type (desc : usr_pb_msgdesc_t) (k : Nat) : Nat :=
  (field_info_word desc (record_start desc k) >>> 8) &&& 0xFF

/-- The number of REQUIRED fields among the first `k` fields. -/
def required_before (desc : usr_pb_msgdesc_t) (k : Nat) : Nat :=
  ((List.range k).filter (fun i =>
    decide (usr_PB_HTYPE (record_type desc i) = usr_PB_HTYPE_REQUIRED))).length

/-- The number of submessage-typed fields among the first `k` fields. -/
def submsg_before (desc : usr_pb_msgdesc_t) (k : Nat) : Nat :=
  ((List.range k).filter (fun i => usr_PB_LTYPE_IS_SUBMSG (record_type desc i))).length

/-- The loop `do { visit(iter->index); } while (usr_pb_field_iter_next(iter))`:
the indices visited, in order; `none` when the loop has not ended after
`fuel` rounds. -/
def iter_visits (mem : List usr_pb_byte_t) : Nat → usr_pb_field_iter_t → Option (List Nat)
  | 0, _ => none
  | fuel + 1, iter =>
    let n := usr_pb_field_iter_next mem iter
    if n.2 then (iter_visits mem fuel n.1).map (fun l => iter.index :: l)
    else some [iter.index]

/-! ## Descriptor macros of `usr_pb.h` (widths 4 and 8, size assertions) -/

/-- The conversion `(uint32_t)(int_least8_t)(x)`. -/
def u32_of_int8 (x : Nat) : Nat := to_unsigned 4 (sign_extend 1 x)

/-- The macro `usr_PB_FIELDINFO_4`. -/
def usr_PB_FIELDINFO_4 (tag type data_offset data_size size_offset array_size : Nat) :
    List Nat :=
  [2 ||| ((tag <<< 2) &&& 0xFF) ||| (type <<< 8) ||| ((toU32 array_size &&& 0xFFFF) <<< 16),
   u32_of_int8 size_offset ||| (toU32 (toU32 tag <<< 2) &&& 0xFFFFFF00),
   data_offset, data_size]

/-- The macro `usr_PB_FIELDINFO_8`. -/
def usr_PB_FIELDINFO_8 (tag type data_offset data_size size_offset array_size : Nat) :
    List Nat :=
  [3 ||| ((tag <<< 2) &&& 0xFF) ||| (type <<< 8),
   u32_of_int8 size_offset ||| (toU32 (toU32 tag <<< 2) &&& 0xFFFFFF00),
   data_offset, data_size, array_size, 0, 0, 0]

/-- The macro `usr_PB_FITS(value, bits)`. -/
def usr_PB_FITS (value bits : Nat) : Bool := decide (toU32 value < toU32 (1 <<< bits))

/-- The condition of `usr_PB_FIELDINFO_ASSERT_1`. -/
def usr_PB_FIELDINFO_ASSERT_1 (tag _type data_offset data_size size_offset array_size : Nat) :
    Bool :=
  usr_PB_FITS tag 6 && usr_PB_FITS data_offset 8 && usr_PB_FITS size_offset 4 &&
    usr_PB_FITS data_size 4 && usr_PB_FITS array_size 1

/-- The condition of `usr_PB_FIELDINFO_ASSERT_2`. -/
def usr_PB_FIELDINFO_ASSERT_2 (tag _type data_offset data_size size_offset array_size : Nat) :
    Bool :=
  usr_PB_FITS tag 10 && usr_PB_FITS data_offset 16 && usr_PB_FITS size_offset 4 &&
    usr_PB_FITS data_size 12 && usr_PB_FITS array_size 12

/-- The condition of `usr_PB_FIELDINFO_ASSERT_4` (16-bit `usr_pb_size_t`). -/
def usr_PB_FIELDINFO_ASSERT_4 (tag _type data_offset data_size size_offset array_size : Nat) :
    Bool :=
  usr_PB_FITS tag 16 && usr_PB_FITS data_offset 16 && usr_PB_FITS (u32_of_int8 size_offset) 8 &&
    usr_PB_FITS data_size 16 && usr_PB_FITS array_size 16

/-- The condition of `usr_PB_FIELDINFO_ASSERT_8` (16-bit `usr_pb_size_t`). -/
def usr_PB_FIELDINFO_ASSERT_8 (tag _type data_offset data_size size_offset array_size : Nat) :
    Bool :=
  usr_PB_FITS tag 16 && usr_PB_FITS data_offset 16 && usr_PB_FITS (u32_of_int8 size_offset) 8 &&
    usr_PB_FITS data_size 16 && usr_PB_FITS array_size 16

/-- The value of `pSize` that `load_descriptor_values` computes for a field of
type `type` at `pField` with the size offset `size_offset`. -/
def pSize_of (type pField size_offset : Nat) : size_ptr :=
  if size_offset ≠ 0 then size_ptr.mem (pField - size_offset)
  else if usr_PB_HTYPE type = usr_PB_HTYPE_REPEATED ∧
      (usr_PB_ATYPE type = usr_PB_ATYPE_STATIC ∨ usr_PB_ATYPE type = usr_PB_ATYPE_POINTER) then
    size_ptr.iter_array_size
  else size_ptr.null

/-- The words of a field-info record lie in the descriptor of the iterator at
its `field_info_index`. -/
def holds_record (it : usr_pb_field_iter_t) (words : List Nat) : Prop :=
  ∀ j, j < words.length →
    it.descriptor.field_info.getD (it.field_info_index + j) 0 = words.getD j 0

/-- The field view that `load_descriptor_values` leaves in the iterator. -/
def loads_as (mem : List usr_pb_byte_t) (it : usr_pb_field_iter_t)
    (tag type data_size array_size pField : Nat) (pSize : size_ptr) : Prop :=
  (load_descriptor_values mem it).2 = true ∧
  (load_descriptor_values mem it).1.tag = tag ∧
  (load_descriptor_values mem it).1.type = type ∧
  (load_descriptor_values mem it).1.data_size = data_size ∧
  (load_descriptor_values mem it).1.array_size = array_size ∧
  (load_descriptor_values mem it).1.pField = some pField ∧
  (load_descriptor_values mem it).1.pSize = pSize

/-! ## UTF-8 validation (`usr_pb_common.c`, with `usr_PB_VALIDATE_UTF8`) -/

/-- The body of the `while (*s)` loop of `usr_pb_validate_utf8` on the bytes
from `s` on (a byte behind the end of the list reads as 0): `none` is a
`return false`, `some k` the statement `s += k`. The tests are made in the
order of the C operators `||` and `&&`, so a byte is read only after the
bytes before it passed their tests. -/
def validate_utf8_step (s : List usr_pb_byte_t) : Option Nat :=
  let s0 := (s.getD 0 0).val
  let s1 := (s.getD 1 0).val
  let s2 := (s.getD 2 0).val
  let s3 := (s.getD 3 0).val
  if s0 < 0x80 then some 1
  else if s0 &&& 0xe0 = 0xc0 then
    if s1 &&& 0xc0 ≠ 0x80 then none
    else if s0 &&& 0xfe = 0xc0 then none
    else some 2
  else if s0 &&& 0xf0 = 0xe0 then
    if s1 &&& 0xc0 ≠ 0x80 then none
    else if s2 &&& 0xc0 ≠ 0x80 then none
    else if s0 = 0xe0 ∧ s1 &&& 0xe0 = 0x80 then none
    else if s0 = 0xed ∧ s1 &&& 0xe0 = 0xa0 then none
    else if s0 = 0xef ∧ s1 = 0xbf ∧ s2 &&& 0xfe = 0xbe then none
    else some 3
  else if s0 &&& 0xf8 = 0xf0 then
    if s1 &&& 0xc0 ≠ 0x80 then none
    else if s2 &&& 0xc0 ≠ 0x80 then none
    else if s3 &&& 0xc0 ≠ 0x80 then none
    else if s0 = 0xf0 ∧ s1 &&& 0xf0 = 0x80 then none
    else if s0 = 0xf4 ∧ s1 > 0x8f then none
    else if s0 > 0xf4 then none
    else some 4
  else none

/-- The `while (*s)` loop of `usr_pb_validate_utf8`; every round advances `s`,
so the loop runs at most once per byte. -/
def validate_utf8_loop : Nat → List usr_pb_byte_t → Option Bool
  | 0, _ => none
  | fuel + 1, s =>
    if (s.getD 0 0).val ≠ 0 then
      match validate_utf8_step s with
      | none => some false
      | some k => validate_utf8_loop fuel (s.drop k)
    else some true

/-- The function `usr_pb_validate_utf8(str)`; `str` holds the bytes from the
pointer on. -/
def usr_pb_validate_utf8 (str : List usr_pb_byte_t) : Option Bool :=
  validate_utf8_loop (str.length + 1) str

/-- The shortest-form UTF-8 encoding of the code point `c`. -/
def utf8_encode (c : Nat) : List usr_pb_byte_t :=
  if c < 0x80 then [toByte c]
  else if c < 0x800 then [toByte (0xC0 + c / 64), toByte (0x80 + c % 64)]
  else if c < 0x10000 then
    [toByte (0xE0 + c / 4096), toByte (0x80 + c / 64 % 64), toByte (0x80 + c % 64)]
  else
    [toByte (0xF0 + c / 262144), toByte (0x80 + c / 4096 % 64), toByte (0x80 + c / 64 % 64),
      toByte (0x80 + c % 64)]

/-- The code points that the specification admits in a string: U+0001 to
U+10FFFF without the surrogates U+D800 to U+DFFF and without U+FFFE and
U+FFFF. -/
def utf8_code_point (c : Nat) : Prop :=
  1 ≤ c ∧ c ≤ 0x10FFFF ∧ ¬ (0xD800 ≤ c ∧ c ≤ 0xDFFF) ∧ c ≠ 0xFFFE ∧ c ≠ 0xFFFF

/-! ## Notions used to state the termination of the decoder -/

/-- The decoder `inner` restricted to streams with fewer than `n` bytes left:
on any other stream the call is not made (`none`). -/
def on_shorter (n : Nat) (inner : decode_inner_fn) : decode_inner_fn :=
  fun stream fields dest_struct flags mem =>
    if stream.bytes_left < n then inner stream fields dest_struct flags mem else none

/-- A field that the decoder handles within the embedding: it is not an
extension placeholder, its submessage has no message callback, and a oneof
member has the `which` member of its union (a non-null `pSize`). -/
def field_decodable (f : usr_pb_field_iter_t) : Bool :=
  decide (usr_PB_LTYPE f.type ≠ usr_PB_LTYPE_EXTENSION) &&
  decide (usr_PB_LTYPE f.type ≠ usr_PB_LTYPE_SUBMSG_W_CB) &&
  decide (usr_PB_HTYPE f.type = usr_PB_HTYPE_ONEOF → f.pSize ≠ size_ptr.null)

/-- A callback-free descriptor, nested at most `fuel` deep: no field callback,
fewer than 65535 fields, every field decodable, and every submessage field
with a descriptor of the same kind. -/
def decodable : Nat → usr_pb_msgdesc_t → Bool
  | 0, _ => false
  | fuel + 1, desc =>
    !desc.field_callback && decide (desc.field_count < 65535) &&
    (List.range desc.field_count).all (fun i =>
      field_decodable (field_at [] desc (some 0) i) &&
      (if usr_PB_LTYPE_IS_SUBMSG (field_at [] desc (some 0) i).type then
        match (field_at [] desc (some 0) i).submsg_desc with
        | none => false
        | some d => decodable fuel d
       else true))

/-- An iterator value on the position of one of the fields of the descriptor,
with a non-null message pointer. -/
def valid_pos (desc : usr_pb_msgdesc_t) (it : usr_pb_field_iter_t) : Prop :=
  on_pos [] desc none it ∧ it.message.isSome = true

/-- The loaded values of a decodable field, with submessage descriptors in the
class `D`. -/
def field_fit (D : usr_pb_msgdesc_t → Prop) (it : usr_pb_field_iter_t) : Prop :=
  usr_PB_LTYPE it.type ≠ usr_PB_LTYPE_EXTENSION ∧
  usr_PB_LTYPE it.type ≠ usr_PB_LTYPE_SUBMSG_W_CB ∧
  (usr_PB_HTYPE it.type = usr_PB_HTYPE_ONEOF → it.pSize ≠ size_ptr.null) ∧
  (usr_PB_HTYPE it.type = usr_PB_HTYPE_REPEATED →
    usr_PB_ATYPE it.type = usr_PB_ATYPE_STATIC ∨ usr_PB_ATYPE it.type = usr_PB_ATYPE_POINTER →
    it.pSize ≠ size_ptr.null) ∧
  (usr_PB_LTYPE_IS_SUBMSG it.type = true → ∃ d, it.submsg_desc = some d ∧ D d)

/-- The iterator value that `usr_pb_field_iter_begin` leaves on a descriptor
without fields, up to the position counters that `advance_iterator` resets. -/
def empty_iter (desc : usr_pb_msgdesc_t) (it : usr_pb_field_iter_t) : Prop :=
  it.descriptor = desc ∧ it.index = 0 ∧ it.tag = 0 ∧ it.type = 0

/-- An iterator value on a decodable field of the descriptor, with the pointers
of the field loaded. -/
def ready (D : usr_pb_msgdesc_t → Prop) (desc : usr_pb_msgdesc_t)
    (it : usr_pb_field_iter_t) : Prop :=
  on_field [] desc none it ∧ it.message.isSome = true ∧ it.pField.isSome = true ∧
  (usr_PB_ATYPE it.type ≠ usr_PB_ATYPE_POINTER → it.pData.isSome = true) ∧ field_fit D it

/-- What a field decoder keeps of the iterator `a` it is given, `b` being the
iterator after the call. -/
def keeps (a b : usr_pb_field_iter_t) : Prop :=
  same_field b a ∧ b.message = a.message ∧ b.pField = a.pField ∧
  b.submsg_desc = a.submsg_desc ∧ b.pSize = a.pSize ∧
  (a.pData.isSome = true → b.pData.isSome = true)

/-- Every descriptor of the class `D` is decoded by `inner` within the
embedding. -/
def inner_total (D : usr_pb_msgdesc_t → Prop) (inner : decode_inner_fn) : Prop :=
  ∀ d, D d → ∀ stream dest flags mem, (inner stream d (some dest) flags mem).isSome = true

/-- Every message of a descriptor of the class `D` is set to its defaults by
`defaults` within the embedding. -/
def defaults_total (D : usr_pb_msgdesc_t → Prop) (defaults : set_to_defaults_fn) : Prop :=
  ∀ d, D d → ∀ m dest mem, (usr_pb_field_iter_begin m d (some dest)).2 = true →
    (defaults (usr_pb_field_iter_begin m d (some dest)).1 mem).isSome = true
/-- Descriptor of `struct { usr_pb_size_t values_count; T values[1]; }` with the
single field `repeated values = 1` (`max_count = 1`) of the logical type
`ltype`, whose entries are declared with `data_size` bytes: a two-word record
with the count 2 bytes before the array. -/
def fixed_array_msgdesc (ltype data_size : Nat) : usr_pb_msgdesc_t :=
  usr_pb_msgdesc_t.mk
    (usr_PB_FIELDINFO_2 1 (usr_PB_ATYPE_STATIC ||| usr_PB_HTYPE_REPEATED ||| ltype) 2
      data_size 2 1)
    [] none false 1 0 1
/-! # Theorems -/

/-! ## Arithmetic reading of the bit operations -/

theorem toByte_val (x : Nat) : (toByte x).val = x % 256 := rfl

theorem and_7F (x : Nat) : x &&& 0x7F = x % 128 :=
  Nat.and_pow_two_sub_one_eq_mod x 7

theorem and_FF (x : Nat) : x &&& 0xFF = x % 256 :=
  Nat.and_pow_two_sub_one_eq_mod x 8

theorem and_07 (x : Nat) : x &&& 0x07 = x % 8 :=
  Nat.and_pow_two_sub_one_eq_mod x 3

theorem and_1 (x : Nat) : x &&& 1 = x % 2 :=
  Nat.and_pow_two_sub_one_eq_mod x 1

theorem or_shift_eq_add (r m i : Nat) (h : r < 2 ^ i) : r ||| (m <<< i) = r + m * 2 ^ i := by
  rw [Nat.shiftLeft_eq, Nat.or_comm, Nat.mul_comm m, ← Nat.mul_add_lt_is_or h]
  omega

theorem shift_or_eq_add (r m i : Nat) (h : r < 2 ^ i) : (m <<< i) ||| r = r + m * 2 ^ i := by
  rw [Nat.or_comm]; exact or_shift_eq_add r m i h

theorem or_80 (b : Nat) (h : b < 128) : b ||| 0x80 = b + 128 := by
  have := or_shift_eq_add b 1 7 (by simpa using h)
  simpa using this

set_option maxRecDepth 100000 in
theorem byte_and_80 : ∀ b : usr_pb_byte_t, (b.val &&& 0x80 = 0) ↔ b.val < 128 := by decide

set_option maxRecDepth 100000 in
theorem byte_and_70 : ∀ b : usr_pb_byte_t, (b.val &&& 0x70 = 0) ↔ b.val % 128 < 16 := by decide


theorem toByte_of_val (b : usr_pb_byte_t) : toByte b.val = b := by
  apply Fin.ext
  simp only [toByte_val]
  exact Nat.mod_eq_of_lt b.isLt

theorem leb128_small (x : Nat) (h : x < 128) : leb128 x = [toByte x] := by
  rw [leb128]; simp [h]

theorem leb128_big (x : Nat) (h : 128 ≤ x) :
    leb128 x = toByte (x % 128 + 128) :: leb128 (x / 128) := by
  rw [leb128]; simp [Nat.not_lt.mpr h]

theorem loop2_spec (fuel : Nat) : ∀ (buffer : List usr_pb_byte_t) (byte : usr_pb_byte_t)
    (high : Nat), high < 128 ^ fuel → byte.val < 128 →
    (encode_varint_32_loop2 fuel buffer byte high).1 ++
      [(encode_varint_32_loop2 fuel buffer byte high).2.1] =
      buffer ++ leb128 (byte.val + 128 * high) := by
  induction fuel with
  | zero =>
    intro buffer byte high hh hb
    have h0 : high = 0 := by simpa using hh
    subst h0
    simp [encode_varint_32_loop2, leb128_small _ hb, toByte_of_val]
  | succ n ih =>
    intro buffer byte high hh hb
    by_cases h0 : high = 0
    · subst h0
      simp [encode_varint_32_loop2, leb128_small _ hb, toByte_of_val]
    · have hdiv : high >>> 7 < 128 ^ n := by
        rw [Nat.shiftRight_eq_div_pow]
        apply Nat.div_lt_of_lt_mul
        rw [pow_succ] at hh
        omega
      have hb2 : (toByte (high &&& 0x7F)).val < 128 := by
        rw [toByte_val, and_7F]; omega
      have hv : (toByte (high &&& 0x7F)).val = high % 128 := by
        rw [toByte_val, and_7F]; omega
      simp only [encode_varint_32_loop2, h0, ne_eq, not_false_eq_true, if_true]
      rw [ih _ _ _ hdiv hb2, hv, Nat.shiftRight_eq_div_pow, or_80 _ hb]
      rw [leb128_big (byte.val + 128 * high) (by omega)]
      have e1 : (byte.val + 128 * high) % 128 = byte.val := by omega
      have e2 : (byte.val + 128 * high) / 128 = high := by omega
      have e3 : high % 128 + 128 * (high / 2 ^ 7) = high := by omega
      rw [e1, e2, e3]
      simp


theorem loop1_high0 (fuel : Nat) : ∀ (buffer : List usr_pb_byte_t) (byte : usr_pb_byte_t)
    (low : Nat), low < 128 ^ fuel → buffer.length + fuel ≤ 4 → byte.val < 128 →
    (encode_varint_32_loop1 0 fuel buffer byte low).1 ++
      [(encode_varint_32_loop1 0 fuel buffer byte low).2.1] =
      buffer ++ leb128 (byte.val + 128 * low) := by
  induction fuel with
  | zero =>
    intro buffer byte low hl _ hb
    have h0 : low = 0 := by simpa using hl
    subst h0
    simp [encode_varint_32_loop1, leb128_small _ hb, toByte_of_val]
  | succ n ih =>
    intro buffer byte low hl hlen hb
    by_cases h0 : low = 0
    · subst h0
      simp [encode_varint_32_loop1, leb128_small _ hb, toByte_of_val]
    · have hdiv : low >>> 7 < 128 ^ n := by
        rw [Nat.shiftRight_eq_div_pow]
        apply Nat.div_lt_of_lt_mul
        rw [pow_succ] at hl
        omega
      have hb2 : (toByte (low &&& 0x7F)).val < 128 := by
        rw [toByte_val, and_7F]; omega
      have hv : (toByte (low &&& 0x7F)).val = low % 128 := by
        rw [toByte_val, and_7F]; omega
      have hlt : buffer.length < 4 := by omega
      simp only [encode_varint_32_loop1, h0, hlt, ne_eq, not_false_eq_true, true_or, and_self,
        if_true]
      rw [ih _ _ _ hdiv (by simp; omega) hb2, hv, Nat.shiftRight_eq_div_pow, or_80 _ hb]
      rw [leb128_big (byte.val + 128 * low) (by omega)]
      have e1 : (byte.val + 128 * low) % 128 = byte.val := by omega
      have e2 : (byte.val + 128 * low) / 128 = low := by omega
      have e3 : low % 128 + 128 * (low / 2 ^ 7) = low := by omega
      rw [e1, e2, e3]
      simp

theorem loop1_highpos (high : Nat) (hh : high ≠ 0) (byte : usr_pb_byte_t) (low : Nat) :
    encode_varint_32_loop1 high 4 [] byte low =
      ([toByte (byte.val ||| 0x80), toByte ((toByte (low &&& 0x7F)).val ||| 0x80),
        toByte ((toByte ((low >>> 7) &&& 0x7F)).val ||| 0x80),
        toByte ((toByte ((low >>> 7 >>> 7) &&& 0x7F)).val ||| 0x80)],
       toByte ((low >>> 7 >>> 7 >>> 7) &&& 0x7F), low >>> 7 >>> 7 >>> 7 >>> 7) := by
  simp [encode_varint_32_loop1, hh]

theorem encode_varint_32_buffer_eq (x : Nat) (hx : x < 2 ^ 64) :
    encode_varint_32_buffer (toU32 x) (toU32 (x >>> 32)) = leb128 x := by
  have hhigh : toU32 (x >>> 32) = x / 2 ^ 32 := by
    unfold toU32; rw [Nat.shiftRight_eq_div_pow]; omega
  rw [hhigh]
  by_cases h0 : x / 2 ^ 32 = 0
  · have hlow : toU32 x = x := by unfold toU32; omega
    rw [hlow, h0]
    have hb : (toByte (x &&& 0x7F)).val < 128 := by rw [toByte_val, and_7F]; omega
    have hv : (toByte (x &&& 0x7F)).val = x % 128 := by rw [toByte_val, and_7F]; omega
    have hl : x >>> 7 < 128 ^ 4 := by rw [Nat.shiftRight_eq_div_pow]; omega
    have := loop1_high0 4 [] (toByte (x &&& 0x7F)) (x >>> 7) hl (by simp) hb
    simp only [encode_varint_32_buffer, ne_eq, not_true_eq_false, if_false]
    rw [this, hv, Nat.shiftRight_eq_div_pow]
    have e3 : x % 128 + 128 * (x / 2 ^ 7) = x := by omega
    rw [e3]; simp
  · simp only [encode_varint_32_buffer, ne_eq, h0, not_false_eq_true, if_true]
    rw [loop1_highpos _ h0]
    simp only [toByte_val, and_7F, and_07, Nat.shiftRight_eq_div_pow, toU32]
    have hr : x % 2 ^ 32 / 2 ^ 7 / 2 ^ 7 / 2 ^ 7 / 2 ^ 7 % 128 % 256 < 2 ^ 4 := by omega
    rw [or_shift_eq_add _ _ 4 hr]
    have hb : (toByte (x % 2 ^ 32 / 2 ^ 7 / 2 ^ 7 / 2 ^ 7 / 2 ^ 7 % 128 % 256 +
        x / 2 ^ 32 % 8 * 2 ^ 4)).val < 128 := by rw [toByte_val]; omega
    have hl : x / 2 ^ 32 / 2 ^ 3 < 128 ^ 5 := by omega
    rw [loop2_spec 5 _ _ _ hl hb, toByte_val]
    rw [leb128_big x (by omega), leb128_big (x / 128) (by omega),
      leb128_big (x / 128 / 128) (by omega), leb128_big (x / 128 / 128 / 128) (by omega)]
    have e : (x % 2 ^ 32 / 2 ^ 7 / 2 ^ 7 / 2 ^ 7 / 2 ^ 7 % 128 % 256 + x / 2 ^ 32 % 8 * 2 ^ 4) % 256
        + 128 * (x / 2 ^ 32 / 2 ^ 3) = x / 128 / 128 / 128 / 128 := by omega
    rw [e]
    have b0 : (x % 2 ^ 32 % 128 % 256) ||| 0x80 = x % 128 + 128 := by
      rw [or_80 _ (by omega)]; omega
    have b1 : (x % 2 ^ 32 / 2 ^ 7 % 128 % 256) ||| 0x80 = x / 128 % 128 + 128 := by
      rw [or_80 _ (by omega)]; omega
    have b2 : (x % 2 ^ 32 / 2 ^ 7 / 2 ^ 7 % 128 % 256) ||| 0x80 = x / 128 / 128 % 128 + 128 := by
      rw [or_80 _ (by omega)]; omega
    have b3 : (x % 2 ^ 32 / 2 ^ 7 / 2 ^ 7 / 2 ^ 7 % 128 % 256) ||| 0x80 =
        x / 128 / 128 / 128 % 128 + 128 := by
      rw [or_80 _ (by omega)]; omega
    rw [b0, b1, b2, b3]
    simp

theorem encode_varint_eq_write (stream : usr_pb_ostream_t) (x : Nat) (hx : x < 2 ^ 64) :
    usr_pb_encode_varint stream x = usr_pb_write stream (leb128 x) (leb128 x).length := by
  unfold usr_pb_encode_varint
  by_cases h : x ≤ 0x7F
  · simp only [h, if_true]
    rw [leb128_small x (by omega)]
    rfl
  · simp only [h, if_false]
    unfold usr_pb_encode_varint_32
    rw [encode_varint_32_buffer_eq x hx]

theorem leb128_length_pos (x : Nat) : 1 ≤ (leb128 x).length := by
  by_cases h : x < 128
  · rw [leb128_small x h]; simp
  · rw [leb128_big x (by omega)]; simp

theorem readbyte_cons (b : usr_pb_byte_t) (rest : List usr_pb_byte_t) (n : Nat)
    (e : Option String) (hn : 1 ≤ n) :
    usr_pb_readbyte ⟨b :: rest, n, e⟩ = (⟨rest, n - 1, e⟩, some b) := by
  have : n ≠ 0 := by omega
  simp [usr_pb_readbyte, buf_read, this]

theorem or_mul_eq_add (r m i : Nat) (h : r < 2 ^ i) : r ||| (m * 2 ^ i) = r + m * 2 ^ i := by
  have := or_shift_eq_add r m i h
  rwa [Nat.shiftLeft_eq] at this

theorem decode_varint_loop_leb128 (y : Nat) : ∀ (k fuel result : Nat)
    (rest : List usr_pb_byte_t) (n : Nat) (e : Option String),
    k ≤ 9 → 10 ≤ fuel + k → result < 2 ^ (7 * k) → result + y * 2 ^ (7 * k) < 2 ^ 64 →
    (leb128 y).length ≤ n →
    decode_varint_loop fuel ⟨leb128 y ++ rest, n, e⟩ (7 * k) result =
      (⟨rest, n - (leb128 y).length, e⟩, some (result + y * 2 ^ (7 * k))) := by
  induction y using Nat.strong_induction_on with
  | _ y ih =>
    intro k fuel result rest n e hk hfuel hres htot hlen
    obtain ⟨f, rfl⟩ : ∃ f, fuel = f + 1 := ⟨fuel - 1, by omega⟩
    have hbit : ¬ (7 * k ≥ 64) := by omega
    by_cases hy : y < 128
    · rw [leb128_small y hy] at hlen ⊢
      simp only [List.length_singleton] at hlen
      have hval : (toByte y).val = y := by rw [toByte_val]; omega
      have hc : ¬ ((toByte y).val &&& 0x80 ≠ 0) := by
        have := (byte_and_80 (toByte y)).mpr (by omega)
        simp [this]
      have hor : result ||| toU64 (((toByte y).val &&& 0x7F) <<< (7 * k)) =
          result + y * 2 ^ (7 * k) := by
        rw [hval, and_7F, Nat.mod_eq_of_lt hy, Nat.shiftLeft_eq]
        unfold toU64
        rw [Nat.mod_eq_of_lt (by omega), or_mul_eq_add _ _ _ hres]
      simp only [decode_varint_loop, hbit, if_false, List.singleton_append,
        readbyte_cons _ _ _ _ hlen, hor, hc, List.length_singleton]
    · rw [leb128_big y (by omega)] at hlen ⊢
      simp only [List.length_cons] at hlen
      have hval : (toByte (y % 128 + 128)).val = y % 128 + 128 := by rw [toByte_val]; omega
      have hc : (toByte (y % 128 + 128)).val &&& 0x80 ≠ 0 := by
        intro h0
        have := (byte_and_80 (toByte (y % 128 + 128))).mp h0
        omega
      have hm : (y % 128 + 128) % 128 = y % 128 := by omega
      have hk8 : k ≤ 8 := by
        by_contra hcon
        have h9 : k = 9 := by omega
        subst h9
        omega
      have h1 : y % 128 * 2 ^ (7 * k) < 2 ^ 64 := by
        interval_cases k <;> omega
      have hbp : (7 * k + 7) % 256 = 7 * (k + 1) := by omega
      have h2 : result + y % 128 * 2 ^ (7 * k) < 2 ^ (7 * (k + 1)) := by
        interval_cases k <;> omega
      have h3 : result + y % 128 * 2 ^ (7 * k) + y / 128 * 2 ^ (7 * (k + 1)) =
          result + y * 2 ^ (7 * k) := by
        interval_cases k <;> omega
      have hor : result ||| toU64 (((toByte (y % 128 + 128)).val &&& 0x7F) <<< (7 * k)) =
          result + y % 128 * 2 ^ (7 * k) := by
        rw [hval, and_7F, hm, Nat.shiftLeft_eq]
        unfold toU64
        rw [Nat.mod_eq_of_lt h1, or_mul_eq_add _ _ _ hres]
      have hn1 : 1 ≤ n := by omega
      have hlen2 : (leb128 (y / 128)).length ≤ n - 1 := by omega
      have hfuel2 : 10 ≤ f + (k + 1) := by omega
      have hlt : y / 128 < y := by omega
      simp only [decode_varint_loop, hbit, if_false, List.cons_append,
        readbyte_cons _ _ _ _ hn1, hor, hc, hbp, if_true, ne_eq, not_false_eq_true]
      rw [ih (y / 128) hlt (k + 1) f _ rest (n - 1) e (by omega) hfuel2 h2
        (by rw [h3]; exact htot) hlen2, h3]
      simp only [List.length_cons]
      have : n - 1 - (leb128 (y / 128)).length = n - ((leb128 (y / 128)).length + 1) := by omega
      rw [this]

theorem decode_varint_leb128 (x : Nat) (hx : x < 2 ^ 64) (rest : List usr_pb_byte_t)
    (n : Nat) (e : Option String) (hlen : (leb128 x).length ≤ n) :
    usr_pb_decode_varint ⟨leb128 x ++ rest, n, e⟩ =
      (⟨rest, n - (leb128 x).length, e⟩, some x) := by
  have := decode_varint_loop_leb128 x 0 11 0 rest n e (by omega) (by omega) (by simp)
    (by simpa using hx) hlen
  simpa [usr_pb_decode_varint] using this

theorem leb128_length_le (x : Nat) : ∀ k, x < 128 ^ k → 1 ≤ k → (leb128 x).length ≤ k := by
  induction x using Nat.strong_induction_on with
  | _ x ih =>
    intro k hx hk
    by_cases h : x < 128
    · rw [leb128_small x h]; simpa using hk
    · rw [leb128_big x (by omega)]
      obtain ⟨j, rfl⟩ : ∃ j, k = j + 1 := ⟨k - 1, by omega⟩
      have hj : 1 ≤ j := by
        by_contra hcon
        have : j = 0 := by omega
        subst this
        simp at hx
        omega
      have hd : x / 128 < 128 ^ j := by
        apply Nat.div_lt_of_lt_mul
        rw [pow_succ] at hx
        omega
      have := ih (x / 128) (by omega) j hd hj
      simp only [List.length_cons]
      omega

theorem write_ok (s : usr_pb_ostream_t) (buf : List usr_pb_byte_t) (hcb : s.callback = true)
    (hroom : s.bytes_written + buf.length ≤ s.max_size) (hmax : s.max_size < 2 ^ 64) :
    usr_pb_write s buf buf.length =
      ({ s with state := s.state ++ buf, bytes_written := s.bytes_written + buf.length },
        true) := by
  have hsz : toSize (s.bytes_written + buf.length) = s.bytes_written + buf.length := by
    unfold toSize; apply Nat.mod_eq_of_lt; omega
  unfold usr_pb_write buf_write
  by_cases h0 : buf.length > 0
  · have h1 : ¬ (s.bytes_written + buf.length < s.bytes_written ∨
        s.bytes_written + buf.length > s.max_size) := by omega
    simp only [h0, hcb, and_self, if_true, hsz, h1, if_false, List.take_length]
  · have hnil : buf = [] := by
      cases buf with
      | nil => rfl
      | cons a t => simp at h0
    subst hnil
    simp only [List.length_nil, Nat.add_zero] at hroom hsz ⊢
    simp [hsz]

theorem leb128_length_le_ten (x : Nat) (hx : x < 2 ^ 64) : (leb128 x).length ≤ 10 :=
  leb128_length_le x 10 (by omega) (by omega)

theorem zigzag_nonneg (x : Int) (h0 : 0 ≤ x) (hhi : x < 2 ^ 63) :
    toU64 (i64ToU64 x <<< 1) = 2 * x.toNat := by
  unfold toU64 i64ToU64
  rw [Nat.shiftLeft_eq]
  omega

theorem zigzag_neg (x : Int) (h0 : x < 0) (hlo : -2 ^ 63 ≤ x) :
    2 ^ 64 - 1 - toU64 (i64ToU64 x <<< 1) = 2 * (-x).toNat - 1 := by
  unfold toU64 i64ToU64
  rw [Nat.shiftLeft_eq]
  omega

theorem decode_svarint_of_varint (s s' : usr_pb_istream_t) (z : Nat)
    (h : usr_pb_decode_varint s = (s', some z)) :
    usr_pb_decode_svarint s =
      (s', some (if z % 2 ≠ 0 then u64ToI64 (2 ^ 64 - 1 - z / 2) else u64ToI64 (z / 2))) := by
  unfold usr_pb_decode_svarint
  rw [h]
  simp only [and_1, Nat.shiftRight_eq_div_pow, pow_one]
  split <;> rfl

/-- The zigzag value that `usr_pb_encode_svarint` passes to the varint
encoder. -/
theorem encode_svarint_eq (out : usr_pb_ostream_t) (x : Int) :
    usr_pb_encode_svarint out x = usr_pb_encode_varint out
      (if x < 0 then 2 ^ 64 - 1 - toU64 (i64ToU64 x <<< 1) else toU64 (i64ToU64 x <<< 1)) := rfl

theorem decode_varint32_loop_leb128 (y : Nat) : ∀ (k fuel result : Nat)
    (rest : List usr_pb_byte_t) (n : Nat) (e : Option String),
    1 ≤ k → k ≤ 4 → 5 ≤ fuel + k → result < 2 ^ (7 * k) → result + y * 2 ^ (7 * k) < 2 ^ 32 →
    (leb128 y).length ≤ n →
    ∃ (bp : Nat) (b : usr_pb_byte_t),
      decode_varint32_loop fuel ⟨leb128 y ++ rest, n, e⟩ (7 * k) result =
        (⟨rest, n - (leb128 y).length, e⟩, some (result + y * 2 ^ (7 * k), bp, b)) ∧
      (bp = 35 → b.val &&& 0x70 = 0) := by
  induction y using Nat.strong_induction_on with
  | _ y ih =>
    intro k fuel result rest n e hk1 hk hfuel hres htot hlen
    obtain ⟨f, rfl⟩ : ∃ f, fuel = f + 1 := ⟨fuel - 1, by omega⟩
    have hbit : ¬ (7 * k ≥ 32) := by omega
    by_cases hy : y < 128
    · rw [leb128_small y hy] at hlen ⊢
      simp only [List.length_singleton] at hlen
      have hval : (toByte y).val = y := by rw [toByte_val]; omega
      have hc : ¬ ((toByte y).val &&& 0x80 ≠ 0) := by
        have := (byte_and_80 (toByte y)).mpr (by omega)
        simp [this]
      have hor : result ||| toU32 (((toByte y).val &&& 0x7F) <<< (7 * k)) =
          result + y * 2 ^ (7 * k) := by
        rw [hval, and_7F, Nat.mod_eq_of_lt hy, Nat.shiftLeft_eq]
        unfold toU32
        rw [Nat.mod_eq_of_lt (by omega), or_mul_eq_add _ _ _ hres]
      refine ⟨(7 * k + 7) % 256, toByte y, ?_, ?_⟩
      · simp only [decode_varint32_loop, hbit, if_false, List.singleton_append,
          readbyte_cons _ _ _ _ hlen, hor, hc, List.length_singleton]
      · intro hbp
        have hk4 : k = 4 := by omega
        subst hk4
        apply (byte_and_70 (toByte y)).mpr
        rw [hval]
        omega
    · rw [leb128_big y (by omega)] at hlen ⊢
      simp only [List.length_cons] at hlen
      have hval : (toByte (y % 128 + 128)).val = y % 128 + 128 := by rw [toByte_val]; omega
      have hc : (toByte (y % 128 + 128)).val &&& 0x80 ≠ 0 := by
        intro h0
        have := (byte_and_80 (toByte (y % 128 + 128))).mp h0
        omega
      have hm : (y % 128 + 128) % 128 = y % 128 := by omega
      have hk3 : k ≤ 3 := by
        by_contra hcon
        have h4 : k = 4 := by omega
        subst h4
        omega
      have h1 : y % 128 * 2 ^ (7 * k) < 2 ^ 32 := by
        interval_cases k <;> omega
      have hbp : (7 * k + 7) % 256 = 7 * (k + 1) := by omega
      have h2 : result + y % 128 * 2 ^ (7 * k) < 2 ^ (7 * (k + 1)) := by
        interval_cases k <;> omega
      have h3 : result + y % 128 * 2 ^ (7 * k) + y / 128 * 2 ^ (7 * (k + 1)) =
          result + y * 2 ^ (7 * k) := by
        interval_cases k <;> omega
      have hor : result ||| toU32 (((toByte (y % 128 + 128)).val &&& 0x7F) <<< (7 * k)) =
          result + y % 128 * 2 ^ (7 * k) := by
        rw [hval, and_7F, hm, Nat.shiftLeft_eq]
        unfold toU32
        rw [Nat.mod_eq_of_lt h1, or_mul_eq_add _ _ _ hres]
      have hn1 : 1 ≤ n := by omega
      have hlen2 : (leb128 (y / 128)).length ≤ n - 1 := by omega
      have hfuel2 : 5 ≤ f + (k + 1) := by omega
      have hlt : y / 128 < y := by omega
      obtain ⟨bp, b, hrec, hpost⟩ := ih (y / 128) hlt (k + 1) f
        (result + y % 128 * 2 ^ (7 * k)) rest (n - 1) e (by omega) (by omega) hfuel2 h2
        (by rw [h3]; exact htot) hlen2
      refine ⟨bp, b, ?_, hpost⟩
      simp only [decode_varint32_loop, hbit, if_false, List.cons_append,
        readbyte_cons _ _ _ _ hn1, hor, hc, hbp, if_true, ne_eq, not_false_eq_true]
      rw [hrec, h3]
      simp only [List.length_cons]
      have : n - 1 - (leb128 (y / 128)).length = n - ((leb128 (y / 128)).length + 1) := by omega
      rw [this]

theorem decode_varint32_eof_leb128 (t : Nat) (ht : t < 2 ^ 32) (rest : List usr_pb_byte_t)
    (n : Nat) (e : Option String) (hlen : (leb128 t).length ≤ n) :
    usr_pb_decode_varint32_eof ⟨leb128 t ++ rest, n, e⟩ =
      (⟨rest, n - (leb128 t).length, e⟩, false, some t) := by
  by_cases hy : t < 128
  · rw [leb128_small t hy] at hlen ⊢
    simp only [List.length_singleton] at hlen
    have hval : (toByte t).val = t := by rw [toByte_val]; omega
    have hc : (toByte t).val &&& 0x80 = 0 := (byte_and_80 (toByte t)).mpr (by omega)
    have hc2 : t &&& 0x80 = 0 := by rwa [hval] at hc
    simp only [usr_pb_decode_varint32_eof, List.singleton_append, readbyte_cons _ _ _ _ hlen,
      hc2, if_true, hval, List.length_singleton]
  · rw [leb128_big t (by omega)] at hlen ⊢
    simp only [List.length_cons] at hlen
    have hval : (toByte (t % 128 + 128)).val = t % 128 + 128 := by rw [toByte_val]; omega
    have hc : ¬ ((toByte (t % 128 + 128)).val &&& 0x80 = 0) := by
      intro h0
      have := (byte_and_80 (toByte (t % 128 + 128))).mp h0
      omega
    have hm : (toByte (t % 128 + 128)).val &&& 0x7F = t % 128 := by
      rw [hval, and_7F]; omega
    have hn1 : 1 ≤ n := by omega
    obtain ⟨bp, b, hrec, hpost⟩ := decode_varint32_loop_leb128 (t / 128) 1 10 (t % 128) rest
      (n - 1) e (by omega) (by omega) (by omega) (by omega) (by omega) (by omega)
    have hpost2 : ¬ (bp = 35 ∧ b.val &&& 0x70 ≠ 0) := by
      intro ⟨h1, h2⟩
      exact h2 (hpost h1)
    have hsum : t % 128 + t / 128 * 2 ^ (7 * 1) = t := by omega
    simp only [usr_pb_decode_varint32_eof, List.cons_append, readbyte_cons _ _ _ _ hn1, hc,
      if_false, hm]
    have h7 : (7 : Nat) = 7 * 1 := rfl
    rw [h7, hrec]
    simp only [hpost2, if_false, hsum, List.length_cons]
    have : n - 1 - (leb128 (t / 128)).length = n - ((leb128 (t / 128)).length + 1) := by omega
    rw [this]

theorem tag_value (n w : Nat) (hn : n < 2 ^ 29) (hw : w < 8) :
    toU64 (n <<< 3) ||| w = n * 8 + w := by
  unfold toU64
  rw [Nat.shiftLeft_eq, Nat.mod_eq_of_lt (by omega), Nat.or_comm]
  have := or_mul_eq_add w n 3 (by omega)
  simpa [Nat.add_comm] using this

theorem step32_low (f : Nat) (b : usr_pb_byte_t) (rest : List usr_pb_byte_t) (n : Nat)
    (e : Option String) (bitpos result : Nat) (hn : 1 ≤ n) (hb : bitpos < 32)
    (hc : 128 ≤ b.val) :
    decode_varint32_loop (f + 1) ⟨b :: rest, n, e⟩ bitpos result =
      decode_varint32_loop f ⟨rest, n - 1, e⟩ ((bitpos + 7) % 256)
        (result ||| toU32 ((b.val &&& 0x7F) <<< bitpos)) := by
  have h1 : ¬ (bitpos ≥ 32) := by omega
  have h2 : b.val &&& 0x80 ≠ 0 := by
    intro h0
    have := (byte_and_80 b).mp h0
    omega
  simp only [decode_varint32_loop, readbyte_cons _ _ _ _ hn, h1, if_false, h2, ne_eq,
    not_false_eq_true, if_true]

theorem step32_ext_FF (f : Nat) (rest : List usr_pb_byte_t) (n : Nat)
    (e : Option String) (bitpos result : Nat) (hn : 1 ≤ n) (hb : 32 ≤ bitpos) (hb2 : bitpos < 63)
    (hr : result >>> 31 ≠ 0) :
    decode_varint32_loop (f + 1) ⟨0xFF :: rest, n, e⟩ bitpos result =
      decode_varint32_loop f ⟨rest, n - 1, e⟩ ((bitpos + 7) % 256) result := by
  have h1 : bitpos ≥ 32 := hb
  have h3 : ¬ (bitpos ≥ 64) := by omega
  have h4 : ((0xFF : usr_pb_byte_t).val &&& 0x80) ≠ 0 := by decide
  have h5 : ((0xFF : usr_pb_byte_t).val &&& 0x7F) = 127 := by decide
  simp only [decode_varint32_loop, readbyte_cons _ _ _ _ hn, h1, hb2, h3, h4, h5,
    if_true, ne_eq, not_false_eq_true]
  simp [hr]

theorem step32_ext_01 (f : Nat) (rest : List usr_pb_byte_t) (n : Nat)
    (e : Option String) (result : Nat) (hn : 1 ≤ n) (hr : result >>> 31 ≠ 0) :
    decode_varint32_loop (f + 1) ⟨0x01 :: rest, n, e⟩ 63 result =
      (⟨rest, n - 1, e⟩, some (result, 70, 0x01)) := by
  have h4 : ¬ (((0x01 : usr_pb_byte_t).val &&& 0x80) ≠ 0) := by decide
  have h5 : ((0x01 : usr_pb_byte_t).val &&& 0x7F) = 1 := by decide
  simp only [decode_varint32_loop, readbyte_cons _ _ _ _ hn, h4, h5, if_false]
  simp [hr]

/-- Decoding of a ten-byte varint whose last five bytes are the sign
extension `FF FF FF FF 01`. -/
theorem decode_varint32_eof_ten (b0 b1 b2 b3 b4 : usr_pb_byte_t)
    (h0 : 128 ≤ b0.val) (h1 : 128 ≤ b1.val) (h2 : 128 ≤ b2.val) (h3 : 128 ≤ b3.val)
    (h4 : 128 ≤ b4.val) (R : Nat)
    (hR : ((((b0.val &&& 0x7F) ||| toU32 ((b1.val &&& 0x7F) <<< 7)) |||
      toU32 ((b2.val &&& 0x7F) <<< 14)) ||| toU32 ((b3.val &&& 0x7F) <<< 21)) |||
      toU32 ((b4.val &&& 0x7F) <<< 28) = R)
    (hsign : R >>> 31 ≠ 0)
    (rest : List usr_pb_byte_t) (n : Nat) (e : Option String) (hlen : 10 ≤ n) :
    usr_pb_decode_varint32_eof
      ⟨b0 :: b1 :: b2 :: b3 :: b4 :: 0xFF :: 0xFF :: 0xFF :: 0xFF :: 0x01 :: rest, n, e⟩ =
      (⟨rest, n - 10, e⟩, false, some R) := by
  have hc0 : ¬ (b0.val &&& 0x80 = 0) := by
    intro h
    have := (byte_and_80 b0).mp h
    omega
  have e1 := step32_low 9 b1 (b2 :: b3 :: b4 :: 0xFF :: 0xFF :: 0xFF :: 0xFF :: 0x01 :: rest)
    (n - 1) e 7 (b0.val &&& 0x7F) (by omega) (by omega) h1
  have e2 := step32_low 8 b2 (b3 :: b4 :: 0xFF :: 0xFF :: 0xFF :: 0xFF :: 0x01 :: rest)
    (n - 1 - 1) e 14 ((b0.val &&& 0x7F) ||| toU32 ((b1.val &&& 0x7F) <<< 7))
    (by omega) (by omega) h2
  have e3 := step32_low 7 b3 (b4 :: 0xFF :: 0xFF :: 0xFF :: 0xFF :: 0x01 :: rest)
    (n - 1 - 1 - 1) e 21 (((b0.val &&& 0x7F) ||| toU32 ((b1.val &&& 0x7F) <<< 7)) |||
      toU32 ((b2.val &&& 0x7F) <<< 14)) (by omega) (by omega) h3
  have e4 := step32_low 6 b4 (0xFF :: 0xFF :: 0xFF :: 0xFF :: 0x01 :: rest)
    (n - 1 - 1 - 1 - 1) e 28 ((((b0.val &&& 0x7F) ||| toU32 ((b1.val &&& 0x7F) <<< 7)) |||
      toU32 ((b2.val &&& 0x7F) <<< 14)) ||| toU32 ((b3.val &&& 0x7F) <<< 21))
    (by omega) (by omega) h4
  rw [hR] at e4
  have e5 := step32_ext_FF 5 (0xFF :: 0xFF :: 0xFF :: 0x01 :: rest) (n - 1 - 1 - 1 - 1 - 1) e
    35 R (by omega) (by omega) (by omega) hsign
  have e6 := step32_ext_FF 4 (0xFF :: 0xFF :: 0x01 :: rest) (n - 1 - 1 - 1 - 1 - 1 - 1) e
    42 R (by omega) (by omega) (by omega) hsign
  have e7 := step32_ext_FF 3 (0xFF :: 0x01 :: rest) (n - 1 - 1 - 1 - 1 - 1 - 1 - 1) e
    49 R (by omega) (by omega) (by omega) hsign
  have e8 := step32_ext_FF 2 (0x01 :: rest) (n - 1 - 1 - 1 - 1 - 1 - 1 - 1 - 1) e
    56 R (by omega) (by omega) (by omega) hsign
  have e9 := step32_ext_01 1 rest (n - 1 - 1 - 1 - 1 - 1 - 1 - 1 - 1 - 1) e R (by omega) hsign
  have hfin : n - 1 - 1 - 1 - 1 - 1 - 1 - 1 - 1 - 1 - 1 = n - 10 := by omega
  rw [hfin] at e9
  simp only [Nat.reduceAdd, Nat.reduceMod] at e1 e2 e3 e4 e5 e6 e7 e8 e9
  have hloop : decode_varint32_loop 10
      ⟨b1 :: b2 :: b3 :: b4 :: 0xFF :: 0xFF :: 0xFF :: 0xFF :: 0x01 :: rest, n - 1, e⟩ 7
      (b0.val &&& 0x7F) = (⟨rest, n - 10, e⟩, some (R, 70, 0x01)) := by
    rw [e1, e2, e3, e4, e5, e6, e7, e8, e9]
  simp only [usr_pb_decode_varint32_eof, readbyte_cons _ _ _ _ (by omega : 1 ≤ n), hc0,
    if_false, hloop]
  simp

theorem leb128_sign_extended (X : Nat) (h1 : 2 ^ 64 - 2 ^ 31 ≤ X) (h2 : X < 2 ^ 64) :
    leb128 X = [toByte (X % 128 + 128), toByte (X / 128 % 128 + 128),
      toByte (X / 128 / 128 % 128 + 128), toByte (X / 128 / 128 / 128 % 128 + 128),
      toByte (X / 128 / 128 / 128 / 128 % 128 + 128), 0xFF, 0xFF, 0xFF, 0xFF, 0x01] := by
  have e5 : X / 128 / 128 / 128 / 128 / 128 % 128 + 128 = 255 := by omega
  have e6 : X / 128 / 128 / 128 / 128 / 128 / 128 % 128 + 128 = 255 := by omega
  have e7 : X / 128 / 128 / 128 / 128 / 128 / 128 / 128 % 128 + 128 = 255 := by omega
  have e8 : X / 128 / 128 / 128 / 128 / 128 / 128 / 128 / 128 % 128 + 128 = 255 := by omega
  have e9 : X / 128 / 128 / 128 / 128 / 128 / 128 / 128 / 128 / 128 = 1 := by omega
  rw [leb128_big X (by omega), leb128_big (X / 128) (by omega),
    leb128_big (X / 128 / 128) (by omega), leb128_big (X / 128 / 128 / 128) (by omega),
    leb128_big (X / 128 / 128 / 128 / 128) (by omega),
    leb128_big (X / 128 / 128 / 128 / 128 / 128) (by omega),
    leb128_big (X / 128 / 128 / 128 / 128 / 128 / 128) (by omega),
    leb128_big (X / 128 / 128 / 128 / 128 / 128 / 128 / 128) (by omega),
    leb128_big (X / 128 / 128 / 128 / 128 / 128 / 128 / 128 / 128) (by omega),
    leb128_small (X / 128 / 128 / 128 / 128 / 128 / 128 / 128 / 128 / 128) (by omega),
    e5, e6, e7, e8, e9]
  rfl

theorem acc32 (r m i : Nat) (hr : r < 2 ^ i) (b : usr_pb_byte_t) (hb : b.val = m + 128)
    (hlt : m * 2 ^ i < 2 ^ 32) :
    r ||| toU32 ((b.val &&& 0x7F) <<< i) = r + m % 128 * 2 ^ i := by
  have ha : (m + 128) % 128 = m % 128 := by omega
  have hle : m % 128 * 2 ^ i ≤ m * 2 ^ i := Nat.mul_le_mul_right _ (Nat.mod_le m 128)
  rw [hb, and_7F, ha, Nat.shiftLeft_eq]
  unfold toU32
  rw [Nat.mod_eq_of_lt (by omega), or_mul_eq_add _ _ _ hr]

theorem decode_varint32_eof_sign_extended (X : Nat) (h1 : 2 ^ 64 - 2 ^ 31 ≤ X)
    (h2 : X < 2 ^ 64) (rest : List usr_pb_byte_t) (n : Nat) (e : Option String)
    (hlen : 10 ≤ n) :
    usr_pb_decode_varint32_eof ⟨leb128 X ++ rest, n, e⟩ =
      (⟨rest, n - 10, e⟩, false, some (X % 2 ^ 32)) := by
  rw [leb128_sign_extended X h1 h2]
  have v0 : (toByte (X % 128 + 128)).val = X % 128 + 128 := by rw [toByte_val]; omega
  have v1 : (toByte (X / 128 % 128 + 128)).val = X / 128 % 128 + 128 := by
    rw [toByte_val]; omega
  have v2 : (toByte (X / 128 / 128 % 128 + 128)).val = X / 128 / 128 % 128 + 128 := by
    rw [toByte_val]; omega
  have v3 : (toByte (X / 128 / 128 / 128 % 128 + 128)).val =
      X / 128 / 128 / 128 % 128 + 128 := by rw [toByte_val]; omega
  have v4 : (toByte (X / 128 / 128 / 128 / 128 % 128 + 128)).val =
      X / 128 / 128 / 128 / 128 % 128 + 128 := by rw [toByte_val]; omega
  have r0 : (toByte (X % 128 + 128)).val &&& 0x7F = X % 2 ^ 7 := by
    rw [v0, and_7F]; omega
  have r1 : X % 2 ^ 7 ||| toU32 (((toByte (X / 128 % 128 + 128)).val &&& 0x7F) <<< 7) =
      X % 2 ^ 14 := by
    rw [acc32 _ (X / 128 % 128) 7 (by omega) _ v1 (by omega)]; omega
  have r2 : X % 2 ^ 14 |||
      toU32 (((toByte (X / 128 / 128 % 128 + 128)).val &&& 0x7F) <<< 14) = X % 2 ^ 21 := by
    rw [acc32 _ (X / 128 / 128 % 128) 14 (by omega) _ v2 (by omega)]; omega
  have r3 : X % 2 ^ 21 |||
      toU32 (((toByte (X / 128 / 128 / 128 % 128 + 128)).val &&& 0x7F) <<< 21) =
      X % 2 ^ 28 := by
    rw [acc32 _ (X / 128 / 128 / 128 % 128) 21 (by omega) _ v3 (by omega)]; omega
  have r4 : X % 2 ^ 28 |||
      toU32 (((toByte (X / 128 / 128 / 128 / 128 % 128 + 128)).val &&& 0x7F) <<< 28) =
      X % 2 ^ 32 := by
    have ha : (X / 128 / 128 / 128 / 128 % 128 + 128) % 128 * 2 ^ 28 % 2 ^ 32 =
        (X / 2 ^ 28 % 16) * 2 ^ 28 := by omega
    have hb : X % 2 ^ 28 + X / 2 ^ 28 % 16 * 2 ^ 28 = X % 2 ^ 32 := by omega
    rw [v4, and_7F, Nat.shiftLeft_eq]
    unfold toU32
    rw [ha, or_mul_eq_add _ _ _ (by omega), hb]
  have hsign : (X % 2 ^ 32) >>> 31 ≠ 0 := by
    rw [Nat.shiftRight_eq_div_pow]; omega
  have hR : (((((toByte (X % 128 + 128)).val &&& 0x7F) |||
      toU32 (((toByte (X / 128 % 128 + 128)).val &&& 0x7F) <<< 7)) |||
      toU32 (((toByte (X / 128 / 128 % 128 + 128)).val &&& 0x7F) <<< 14)) |||
      toU32 (((toByte (X / 128 / 128 / 128 % 128 + 128)).val &&& 0x7F) <<< 21)) |||
      toU32 (((toByte (X / 128 / 128 / 128 / 128 % 128 + 128)).val &&& 0x7F) <<< 28) =
      X % 2 ^ 32 := by
    rw [r0, r1, r2, r3, r4]
  have g0 : 128 ≤ (toByte (X % 128 + 128)).val := by rw [v0]; omega
  have g1 : 128 ≤ (toByte (X / 128 % 128 + 128)).val := by rw [v1]; omega
  have g2 : 128 ≤ (toByte (X / 128 / 128 % 128 + 128)).val := by rw [v2]; omega
  have g3 : 128 ≤ (toByte (X / 128 / 128 / 128 % 128 + 128)).val := by rw [v3]; omega
  have g4 : 128 ≤ (toByte (X / 128 / 128 / 128 / 128 % 128 + 128)).val := by rw [v4]; omega
  simp only [List.cons_append, List.nil_append]
  exact decode_varint32_eof_ten (toByte (X % 128 + 128)) (toByte (X / 128 % 128 + 128))
    (toByte (X / 128 / 128 % 128 + 128)) (toByte (X / 128 / 128 / 128 % 128 + 128))
    (toByte (X / 128 / 128 / 128 / 128 % 128 + 128)) g0 g1 g2 g3 g4 (X % 2 ^ 32) hR hsign
    rest n e hlen

theorem leb128_sign_extended_length (X : Nat) (h1 : 2 ^ 64 - 2 ^ 31 ≤ X) (h2 : X < 2 ^ 64) :
    (leb128 X).length = 10 := by
  rw [leb128_sign_extended X h1 h2]; rfl

theorem read_append (l rest : List usr_pb_byte_t) (n : Nat) (e : Option String)
    (hl : 0 < l.length) (hn : l.length ≤ n) :
    usr_pb_read ⟨l ++ rest, n, e⟩ l.length = (⟨rest, n - l.length, e⟩, some l) := by
  have h1 : l.length ≠ 0 := by omega
  have h2 : ¬ (n < l.length) := by omega
  simp [usr_pb_read, buf_read, h1, h2]

theorem fixed32_value (v : Nat) (hv : v < 2 ^ 32) :
    toU32 ((toByte (v &&& 0xFF)).val <<< 0) |||
      toU32 ((toByte ((v >>> 8) &&& 0xFF)).val <<< 8) |||
      toU32 ((toByte ((v >>> 16) &&& 0xFF)).val <<< 16) |||
      toU32 ((toByte ((v >>> 24) &&& 0xFF)).val <<< 24) = v := by
  simp only [toByte_val, and_FF, Nat.shiftRight_eq_div_pow, Nat.shiftLeft_eq, toU32]
  have e0 : v % 256 % 256 * 2 ^ 0 % 2 ^ 32 = v % 2 ^ 8 := by omega
  have e1 : v / 2 ^ 8 % 256 % 256 * 2 ^ 8 % 2 ^ 32 = (v / 2 ^ 8 % 256) * 2 ^ 8 := by omega
  have e2 : v / 2 ^ 16 % 256 % 256 * 2 ^ 16 % 2 ^ 32 = (v / 2 ^ 16 % 256) * 2 ^ 16 := by omega
  have e3 : v / 2 ^ 24 % 256 % 256 * 2 ^ 24 % 2 ^ 32 = (v / 2 ^ 24 % 256) * 2 ^ 24 := by omega
  rw [e0, e1, e2, e3, or_mul_eq_add _ _ 8 (by omega), or_mul_eq_add _ _ 16 (by omega),
    or_mul_eq_add _ _ 24 (by omega)]
  omega

theorem fixed64_value (v : Nat) (hv : v < 2 ^ 64) :
    toU64 ((toByte (v &&& 0xFF)).val <<< 0) |||
      toU64 ((toByte ((v >>> 8) &&& 0xFF)).val <<< 8) |||
      toU64 ((toByte ((v >>> 16) &&& 0xFF)).val <<< 16) |||
      toU64 ((toByte ((v >>> 24) &&& 0xFF)).val <<< 24) |||
      toU64 ((toByte ((v >>> 32) &&& 0xFF)).val <<< 32) |||
      toU64 ((toByte ((v >>> 40) &&& 0xFF)).val <<< 40) |||
      toU64 ((toByte ((v >>> 48) &&& 0xFF)).val <<< 48) |||
      toU64 ((toByte ((v >>> 56) &&& 0xFF)).val <<< 56) = v := by
  simp only [toByte_val, and_FF, Nat.shiftRight_eq_div_pow, Nat.shiftLeft_eq, toU64]
  have e0 : v % 256 % 256 * 2 ^ 0 % 2 ^ 64 = v % 2 ^ 8 := by omega
  have e1 : v / 2 ^ 8 % 256 % 256 * 2 ^ 8 % 2 ^ 64 = (v / 2 ^ 8 % 256) * 2 ^ 8 := by omega
  have e2 : v / 2 ^ 16 % 256 % 256 * 2 ^ 16 % 2 ^ 64 = (v / 2 ^ 16 % 256) * 2 ^ 16 := by omega
  have e3 : v / 2 ^ 24 % 256 % 256 * 2 ^ 24 % 2 ^ 64 = (v / 2 ^ 24 % 256) * 2 ^ 24 := by omega
  have e4 : v / 2 ^ 32 % 256 % 256 * 2 ^ 32 % 2 ^ 64 = (v / 2 ^ 32 % 256) * 2 ^ 32 := by omega
  have e5 : v / 2 ^ 40 % 256 % 256 * 2 ^ 40 % 2 ^ 64 = (v / 2 ^ 40 % 256) * 2 ^ 40 := by omega
  have e6 : v / 2 ^ 48 % 256 % 256 * 2 ^ 48 % 2 ^ 64 = (v / 2 ^ 48 % 256) * 2 ^ 48 := by omega
  have e7 : v / 2 ^ 56 % 256 % 256 * 2 ^ 56 % 2 ^ 64 = (v / 2 ^ 56 % 256) * 2 ^ 56 := by omega
  rw [e0, e1, e2, e3, e4, e5, e6, e7, or_mul_eq_add _ _ 8 (by omega),
    or_mul_eq_add _ _ 16 (by omega), or_mul_eq_add _ _ 24 (by omega),
    or_mul_eq_add _ _ 32 (by omega), or_mul_eq_add _ _ 40 (by omega),
    or_mul_eq_add _ _ 48 (by omega), or_mul_eq_add _ _ 56 (by omega)]
  omega

/-- The four bytes of a 32-bit value, least significant first. -/
theorem fixed32_bytes (v : Nat) :
    [toByte (v &&& 0xFF), toByte ((v >>> 8) &&& 0xFF), toByte ((v >>> 16) &&& 0xFF),
      toByte ((v >>> 24) &&& 0xFF)] =
    [toByte v, toByte (v / 2 ^ 8), toByte (v / 2 ^ 16), toByte (v / 2 ^ 24)] := by
  simp only [and_FF, Nat.shiftRight_eq_div_pow]
  have h : ∀ x, toByte (x % 256) = toByte x := by
    intro x; apply Fin.ext; simp [toByte_val]
  simp only [h]

/-- The eight bytes of a 64-bit value, least significant first. -/
theorem fixed64_bytes (v : Nat) :
    [toByte (v &&& 0xFF), toByte ((v >>> 8) &&& 0xFF), toByte ((v >>> 16) &&& 0xFF),
      toByte ((v >>> 24) &&& 0xFF), toByte ((v >>> 32) &&& 0xFF), toByte ((v >>> 40) &&& 0xFF),
      toByte ((v >>> 48) &&& 0xFF), toByte ((v >>> 56) &&& 0xFF)] =
    [toByte v, toByte (v / 2 ^ 8), toByte (v / 2 ^ 16), toByte (v / 2 ^ 24),
      toByte (v / 2 ^ 32), toByte (v / 2 ^ 40), toByte (v / 2 ^ 48), toByte (v / 2 ^ 56)] := by
  simp only [and_FF, Nat.shiftRight_eq_div_pow]
  have h : ∀ x, toByte (x % 256) = toByte x := by
    intro x; apply Fin.ext; simp [toByte_val]
  simp only [h]

/-! ## The field decoders leave the iterator on its field -/

theorem same_field_refl (a : usr_pb_field_iter_t) : same_field a a :=
  ⟨rfl, rfl, rfl, rfl, rfl, rfl, rfl⟩

theorem same_field_trans {a b c : usr_pb_field_iter_t} (h1 : same_field a b)
    (h2 : same_field b c) : same_field a c := by
  unfold same_field at *
  obtain ⟨a1, a2, a3, a4, a5, a6, a7⟩ := h1
  obtain ⟨b1, b2, b3, b4, b5, b6, b7⟩ := h2
  exact ⟨a1.trans b1, a2.trans b2, a3.trans b3, a4.trans b4, a5.trans b5, a6.trans b6,
    a7.trans b7⟩

theorem store_size_field {st st' : decode_state} {v : Nat} (h : store_size st v = some st') :
    same_field st'.field st.field ∧ st'.stream = st.stream := by
  unfold store_size at h
  split at h <;> simp at h <;> subst h <;> exact ⟨same_field_refl _, rfl⟩

theorem store_bool_field {st st' : decode_state} {b : Bool} (h : store_bool st b = some st') :
    same_field st'.field st.field ∧ st'.stream = st.stream := by
  unfold store_bool at h
  split at h <;> simp at h <;> subst h <;> exact ⟨same_field_refl _, rfl⟩

theorem dec_error_field {st st' : decode_state} {msg : String} {ok : Bool}
    (h : dec_error st msg = some (ok, st')) : st'.field = st.field := by
  unfold dec_error at h
  simp at h
  obtain ⟨-, rfl⟩ := h
  rfl

theorem usr_pb_dec_bool_field {st st' : decode_state} {ok : Bool}
    (h : usr_pb_dec_bool st = some (ok, st')) : st'.field = st.field := by
  unfold usr_pb_dec_bool at h
  repeat' (first | split_ifs at h | dsimp only at h | split at h)
  all_goals first
    | (simp at h; done)
    | (have hx := dec_error_field h; exact hx)
    | (simp only [Option.some.injEq, Prod.mk.injEq] at h; obtain ⟨-, rfl⟩ := h; rfl)

theorem usr_pb_dec_varint_field {st st' : decode_state} {ok : Bool}
    (h : usr_pb_dec_varint st = some (ok, st')) : st'.field = st.field := by
  unfold usr_pb_dec_varint at h
  repeat' (first | split_ifs at h | dsimp only at h | split at h)
  all_goals first
    | (simp at h; done)
    | (have hx := dec_error_field h; exact hx)
    | (simp only [Option.some.injEq, Prod.mk.injEq] at h; obtain ⟨-, rfl⟩ := h; rfl)

theorem usr_pb_dec_bytes_field {st st' : decode_state} {ok : Bool}
    (h : usr_pb_dec_bytes st = some (ok, st')) : st'.field = st.field := by
  unfold usr_pb_dec_bytes at h
  repeat' (first | split_ifs at h | dsimp only at h | split at h)
  all_goals first
    | (simp at h; done)
    | (have hx := dec_error_field h; exact hx)
    | (simp only [Option.some.injEq, Prod.mk.injEq] at h; obtain ⟨-, rfl⟩ := h; rfl)

theorem usr_pb_dec_string_field {st st' : decode_state} {ok : Bool}
    (h : usr_pb_dec_string st = some (ok, st')) : st'.field = st.field := by
  unfold usr_pb_dec_string at h
  repeat' (first | split_ifs at h | dsimp only at h | split at h)
  all_goals first
    | (simp at h; done)
    | (have hx := dec_error_field h; exact hx)
    | (simp only [Option.some.injEq, Prod.mk.injEq] at h; obtain ⟨-, rfl⟩ := h; rfl)

theorem usr_pb_dec_fixed_length_bytes_field {st st' : decode_state} {ok : Bool}
    (h : usr_pb_dec_fixed_length_bytes st = some (ok, st')) : st'.field = st.field := by
  unfold usr_pb_dec_fixed_length_bytes at h
  repeat' (first | split_ifs at h | dsimp only at h | split at h)
  all_goals first
    | (simp at h; done)
    | (have hx := dec_error_field h; exact hx)
    | (simp only [Option.some.injEq, Prod.mk.injEq] at h; obtain ⟨-, rfl⟩ := h; rfl)

theorem dec_fixed_field {n : Nat} {st st' : decode_state} {ok : Bool}
    (h : dec_fixed n st = some (ok, st')) : st'.field = st.field := by
  unfold dec_fixed at h
  repeat' (first | split_ifs at h | dsimp only at h | split at h)
  all_goals first
    | (simp at h; done)
    | (have hx := dec_error_field h; exact hx)
    | (simp only [Option.some.injEq, Prod.mk.injEq] at h; obtain ⟨-, rfl⟩ := h; rfl)

theorem usr_pb_dec_submessage_field {inner : decode_inner_fn} {st st' : decode_state} {ok : Bool}
    (h : usr_pb_dec_submessage inner st = some (ok, st')) : st'.field = st.field := by
  unfold usr_pb_dec_submessage at h
  repeat' (first | split_ifs at h | dsimp only at h | split at h)
  all_goals first
    | (simp at h; done)
    | (have hx := dec_error_field h; exact hx)
    | (simp only [Option.some.injEq, Prod.mk.injEq] at h; obtain ⟨-, rfl⟩ := h; rfl)

theorem decode_basic_field_field {inner : decode_inner_fn} {st st' : decode_state}
    {wire_type : Nat} {ok : Bool}
    (h : decode_basic_field inner st wire_type = some (ok, st')) : st'.field = st.field := by
  unfold decode_basic_field at h
  dsimp only at h
  split_ifs at h
  all_goals first
    | with_reducible exact dec_error_field h
    | with_reducible exact usr_pb_dec_bool_field h
    | with_reducible exact usr_pb_dec_varint_field h
    | with_reducible exact dec_fixed_field h
    | with_reducible exact usr_pb_dec_bytes_field h
    | with_reducible exact usr_pb_dec_string_field h
    | with_reducible exact usr_pb_dec_submessage_field h
    | with_reducible exact usr_pb_dec_fixed_length_bytes_field h
theorem same_field_of_eq {a b : usr_pb_field_iter_t} (h : a = b) : same_field a b :=
  h ▸ same_field_refl a

theorem decode_packed_loop_field (inner : decode_inner_fn) :
    ∀ (fuel : Nat) (st st' : decode_state) (ok : Bool),
      decode_packed_loop inner fuel st = some (ok, st') → same_field st'.field st.field := by
  intro fuel
  induction fuel with
  | zero => intro st st' ok h; simp [decode_packed_loop] at h
  | succ fuel ih =>
    intro st st' ok h
    unfold decode_packed_loop at h
    rcases h1 : load_size st with _ | size
    · simp [h1] at h
    · simp only [h1] at h
      split_ifs at h
      · rcases h2 : decode_basic_field inner st usr_PB_WT_PACKED with _ | ⟨ok1, st1⟩
        · simp [h2] at h
        · have hf1 := decode_basic_field_field h2
          simp only [h2] at h
          cases ok1
          · simp only [Option.some.injEq, Prod.mk.injEq] at h
            obtain ⟨-, rfl⟩ := h
            exact same_field_of_eq hf1
          · simp only at h
            rcases h3 : load_size st1 with _ | size1
            · simp [h3] at h
            · rcases h4 : st1.field.pData with _ | p
              · simp [h3, h4] at h
              · simp only [h3, h4] at h
                rcases h5 : store_size st1 (size1 + 1) with _ | st2
                · simp [h5] at h
                · simp only [h5] at h
                  have hf2 := (store_size_field h5).1
                  have hf3 := ih _ _ _ h
                  exact same_field_trans hf3 (same_field_trans hf2 (same_field_of_eq hf1))
      · simp only [Option.some.injEq, Prod.mk.injEq] at h
        obtain ⟨-, rfl⟩ := h
        exact same_field_refl _
theorem oneof_clear_member_field {defaults : set_to_defaults_fn} {st st' : decode_state}
    {which : Nat} {ok : Bool} (h : oneof_clear_member defaults st which = some (ok, st')) :
    st'.field = st.field := by
  unfold oneof_clear_member at h
  repeat' (first | split_ifs at h | dsimp only at h | split at h)
  all_goals first
    | (simp at h; done)
    | (have hx := dec_error_field h; exact hx)
    | (simp only [Option.some.injEq, Prod.mk.injEq] at h; obtain ⟨-, rfl⟩ := h; rfl)

theorem decode_static_field_field {inner : decode_inner_fn} {defaults : set_to_defaults_fn}
    {st st' : decode_state} {wire_type : Nat} {ok : Bool}
    (h : decode_static_field inner defaults st wire_type = some (ok, st')) :
    same_field st'.field st.field := by
  unfold decode_static_field at h
  dsimp only at h
  split_ifs at h with c1 c2 c3 c4 c5 c6
  · exact same_field_of_eq (decode_basic_field_field h)
  · rcases h1 : store_bool st true with _ | st1
    · simp [h1] at h
    · simp only [h1] at h
      exact same_field_trans (same_field_of_eq (decode_basic_field_field h)) (store_bool_field h1).1
  · exact same_field_of_eq (decode_basic_field_field h)
  · -- packed array
    rcases h1 : load_size st with _ | size
    · simp [h1] at h
    · rcases h2 : st.field.pField with _ | pField
      · simp [h1, h2] at h
      · simp only [h1, h2] at h
        split at h
        · simp only [Option.some.injEq, Prod.mk.injEq] at h
          obtain ⟨-, rfl⟩ := h
          exact same_field_refl _
        · split at h
          · simp at h
          · rename_i hl
            have hf := decode_packed_loop_field _ _ _ _ _ hl
            split_ifs at h
            · have := dec_error_field h
              exact same_field_trans (same_field_of_eq this) hf
            · split at h
              all_goals
                simp only [Option.some.injEq, Prod.mk.injEq] at h
                obtain ⟨-, rfl⟩ := h
                exact hf
  · -- unpacked element
    rcases h1 : load_size st with _ | size
    · simp [h1] at h
    · rcases h2 : st.field.pField with _ | pField
      · simp [h1, h2] at h
      · simp only [h1, h2] at h
        split at h
        · simp at h
        · rename_i st1 hs
          have hf := (store_size_field hs).1
          split_ifs at h
          · have := dec_error_field h
            exact same_field_trans (same_field_of_eq this) hf
          · exact same_field_trans (same_field_of_eq (decode_basic_field_field h)) hf
  · -- oneof
    rcases h1 : load_size st with _ | which
    · simp [h1] at h
    · simp only [h1] at h
      rcases h2 : oneof_clear_member defaults st which with _ | ⟨ok1, st1⟩
      · simp [h2] at h
      · have hf1 := oneof_clear_member_field h2
        simp only [h2] at h
        cases ok1
        · simp only [Option.some.injEq, Prod.mk.injEq] at h
          obtain ⟨-, rfl⟩ := h
          exact same_field_of_eq hf1
        · simp only at h
          rcases h3 : store_size st1 st1.field.tag with _ | st2
          · simp [h3] at h
          · simp only [h3] at h
            exact same_field_trans (same_field_of_eq (decode_basic_field_field h))
              (same_field_trans (store_size_field h3).1 (same_field_of_eq hf1))
  · exact same_field_of_eq (dec_error_field h)
theorem decode_field_field {inner : decode_inner_fn} {defaults : set_to_defaults_fn}
    {st st' : decode_state} {wire_type : Nat} {ok : Bool}
    (h : decode_field inner defaults st wire_type = some (ok, st')) :
    same_field st'.field st.field := by
  unfold decode_field at h
  dsimp only at h
  split_ifs at h
  · exact decode_static_field_field h
  · exact same_field_of_eq (dec_error_field h)
  · unfold decode_callback_field at h
    split_ifs at h
    simp only [Option.some.injEq, Prod.mk.injEq] at h
    obtain ⟨-, rfl⟩ := h
    exact same_field_refl _
  · exact same_field_of_eq (dec_error_field h)

theorem field_init_data_field {defaults : set_to_defaults_fn} {st st' : decode_state}
    {ok : Bool} (h : field_init_data defaults st = some (ok, st')) : st'.field = st.field := by
  unfold field_init_data at h
  repeat' (first | split_ifs at h | dsimp only at h | split at h)
  all_goals first
    | (simp at h; done)
    | (simp only [Option.some.injEq, Prod.mk.injEq] at h; obtain ⟨-, rfl⟩ := h; rfl)

theorem usr_pb_field_set_to_default_field {defaults : set_to_defaults_fn}
    {st st' : decode_state} {ok : Bool}
    (h : usr_pb_field_set_to_default defaults st = some (ok, st')) :
    same_field st'.field st.field := by
  unfold usr_pb_field_set_to_default at h
  dsimp only at h
  by_cases c1 : usr_PB_LTYPE st.field.type = usr_PB_LTYPE_EXTENSION
  · rw [if_pos c1] at h
    split at h
    · simp at h
    · split_ifs at h
      simp only [Option.some.injEq, Prod.mk.injEq] at h
      obtain ⟨-, rfl⟩ := h
      exact same_field_refl _
  · rw [if_neg c1] at h
    by_cases c2 : usr_PB_ATYPE st.field.type = usr_PB_ATYPE_STATIC
    · rw [if_pos c2] at h
      have key : ∀ (r : Option (Bool × decode_state)),
          (∀ b s, r = some (b, s) → same_field s.field st.field) →
          (match r with
            | none => none
            | some (false, st) => some (true, st)
            | some (true, st) => field_init_data defaults st) = some (ok, st') →
          same_field st'.field st.field := by
        intro r hr hm
        rcases r with _ | ⟨b, s⟩
        · simp at hm
        · have hs := hr b s rfl
          cases b
          · simp only [Option.some.injEq, Prod.mk.injEq] at hm
            obtain ⟨-, rfl⟩ := hm
            exact hs
          · exact same_field_trans (same_field_of_eq (field_init_data_field hm)) hs
      refine key _ ?_ h
      intro b s hbs
      split_ifs at hbs
      · rcases h1 : store_bool st false with _ | s1
        · simp [h1] at hbs
        · simp only [h1, Option.map_some', Option.some.injEq, Prod.mk.injEq] at hbs
          obtain ⟨-, rfl⟩ := hbs
          exact (store_bool_field h1).1
      · rcases h1 : store_size st 0 with _ | s1
        · simp [h1] at hbs
        · simp only [h1, Option.map_some', Option.some.injEq, Prod.mk.injEq] at hbs
          obtain ⟨-, rfl⟩ := hbs
          exact (store_size_field h1).1
      · simp only [Option.some.injEq, Prod.mk.injEq] at hbs
        obtain ⟨-, rfl⟩ := hbs
        exact same_field_refl _
    · rw [if_neg c2] at h
      by_cases c3 : usr_PB_ATYPE st.field.type = usr_PB_ATYPE_POINTER
      · rw [if_pos c3] at h
        split at h
        · simp at h
        · split_ifs at h
          · rename_i pField _ _
            rcases h1 : store_size { st with mem := store_uint st.mem pField 8 0 } 0 with _ | s1
            · simp [h1] at h
            · simp only [h1, Option.map_some', Option.some.injEq, Prod.mk.injEq] at h
              obtain ⟨-, rfl⟩ := h
              exact (store_size_field h1).1
          · simp only [Option.some.injEq, Prod.mk.injEq] at h
            obtain ⟨-, rfl⟩ := h
            exact same_field_refl _
      · rw [if_neg c3] at h
        simp only [Option.some.injEq, Prod.mk.injEq] at h
        obtain ⟨-, rfl⟩ := h
        exact same_field_refl _
/-! ## Positions of the field iterator -/

theorem same_pos_refl (a : usr_pb_field_iter_t) : same_pos a a := ⟨rfl, rfl, rfl, rfl, rfl⟩

theorem same_pos_symm {a b : usr_pb_field_iter_t} (h : same_pos a b) : same_pos b a := by
  obtain ⟨a1, a2, a3, a4, a5⟩ := h
  exact ⟨a1.symm, a2.symm, a3.symm, a4.symm, a5.symm⟩

theorem same_pos_trans {a b c : usr_pb_field_iter_t} (h1 : same_pos a b) (h2 : same_pos b c) :
    same_pos a c := by
  obtain ⟨a1, a2, a3, a4, a5⟩ := h1
  obtain ⟨b1, b2, b3, b4, b5⟩ := h2
  exact ⟨a1.trans b1, a2.trans b2, a3.trans b3, a4.trans b4, a5.trans b5⟩

theorem same_field_symm {a b : usr_pb_field_iter_t} (h : same_field a b) : same_field b a := by
  obtain ⟨a1, a2, a3, a4, a5, a6, a7⟩ := h
  exact ⟨a1.symm, a2.symm, a3.symm, a4.symm, a5.symm, a6.symm, a7.symm⟩

theorem same_field_pos {a b : usr_pb_field_iter_t} (h : same_field a b) : same_pos a b := by
  obtain ⟨a1, a2, a3, a4, a5, _, _⟩ := h
  exact ⟨a1, a2, a3, a4, a5⟩

theorem load_same_pos (m : List usr_pb_byte_t) (it : usr_pb_field_iter_t) :
    same_pos (load_descriptor_values m it).1 it := by
  unfold load_descriptor_values same_pos
  dsimp only
  split_ifs <;> simp

theorem load_type (m : List usr_pb_byte_t) (it : usr_pb_field_iter_t)
    (hi : it.index < it.descriptor.field_count) :
    (load_descriptor_values m it).1.type =
      (field_info_word it.descriptor it.field_info_index >>> 8) &&& 0xFF := by
  have ha : ¬ it.index ≥ it.descriptor.field_count := by omega
  unfold load_descriptor_values
  dsimp only
  rw [if_neg ha]

theorem load_congr (m1 m2 : List usr_pb_byte_t) {a b : usr_pb_field_iter_t}
    (h : same_pos a b) (hi : a.index < a.descriptor.field_count) :
    same_field (load_descriptor_values m1 a).1 (load_descriptor_values m2 b).1 := by
  obtain ⟨h1, h2, h3, h4, h5⟩ := h
  have hi2 : b.index < b.descriptor.field_count := by rw [← h1, ← h2]; exact hi
  have ha : ¬ a.index ≥ a.descriptor.field_count := by omega
  have hb : ¬ b.index ≥ b.descriptor.field_count := by omega
  unfold load_descriptor_values same_field
  dsimp only
  rw [if_neg ha, if_neg hb]
  dsimp only
  rw [h1, h2, h3, h4, h5]
  exact ⟨rfl, rfl, rfl, rfl, rfl, rfl, rfl⟩
theorem advance_descriptor (a : usr_pb_field_iter_t) :
    (advance_iterator a).descriptor = a.descriptor := by
  unfold advance_iterator
  dsimp only
  split_ifs <;> rfl

theorem advance_congr {a b : usr_pb_field_iter_t} (h : same_pos a b) :
    same_pos (advance_iterator a) (advance_iterator b) := by
  obtain ⟨h1, h2, h3, h4, h5⟩ := h
  unfold advance_iterator same_pos
  dsimp only
  rw [h1, h2, h3, h4, h5]
  split_ifs <;> exact ⟨rfl, rfl, rfl, rfl, rfl⟩

theorem advance_wrap (a : usr_pb_field_iter_t)
    (h : toPbSize (a.index + 1) ≥ a.descriptor.field_count) :
    advance_iterator a =
      { a with index := 0, field_info_index := 0, submessage_index := 0,
               required_field_index := 0 } := by
  unfold advance_iterator
  dsimp only
  rw [if_pos h]

theorem advance_step (a : usr_pb_field_iter_t)
    (h : ¬ toPbSize (a.index + 1) ≥ a.descriptor.field_count) :
    (advance_iterator a).index = toPbSize (a.index + 1) ∧
    (advance_iterator a).required_field_index =
      toPbSize (a.required_field_index +
        (if usr_PB_HTYPE ((field_info_word a.descriptor a.field_info_index >>> 8) &&& 0xFF) =
            usr_PB_HTYPE_REQUIRED then 1 else 0)) := by
  unfold advance_iterator
  dsimp only
  rw [if_neg h]
  exact ⟨rfl, rfl⟩

theorem advance_index_lt (a : usr_pb_field_iter_t) (h : 0 < a.descriptor.field_count) :
    (advance_iterator a).index < a.descriptor.field_count := by
  by_cases c : toPbSize (a.index + 1) ≥ a.descriptor.field_count
  · rw [advance_wrap a c]
    exact h
  · rw [(advance_step a c).1]
    omega

theorem field_at_descriptor (mem : List usr_pb_byte_t) (desc : usr_pb_msgdesc_t)
    (message : Option Nat) (n : Nat) : (field_at mem desc message n).descriptor = desc := by
  induction n with
  | zero =>
    unfold field_at usr_pb_field_iter_begin
    exact (load_same_pos _ _).1
  | succ n ih =>
    unfold field_at usr_pb_field_iter_next
    dsimp only
    rw [(load_same_pos _ _).1, advance_descriptor, ih]

theorem field_at_zero_pos (mem : List usr_pb_byte_t) (desc : usr_pb_msgdesc_t)
    (message : Option Nat) :
    (field_at mem desc message 0).index = 0 ∧
    (field_at mem desc message 0).field_info_index = 0 ∧
    (field_at mem desc message 0).required_field_index = 0 ∧
    (field_at mem desc message 0).submessage_index = 0 := by
  unfold field_at usr_pb_field_iter_begin
  obtain ⟨-, h2, h3, h4, h5⟩ := load_same_pos mem
    { descriptor := desc, message := message, index := 0, field_info_index := 0,
      required_field_index := 0, submessage_index := 0, tag := 0, data_size := 0,
      array_size := 0, type := 0, pField := none, pData := none, pSize := size_ptr.null,
      submsg_desc := none }
  exact ⟨h2, h3, h4, h5⟩

theorem field_at_succ_pos (mem : List usr_pb_byte_t) (desc : usr_pb_msgdesc_t)
    (message : Option Nat) (n : Nat) :
    same_pos (field_at mem desc message (n + 1))
      (advance_iterator (field_at mem desc message n)) := by
  show same_pos (usr_pb_field_iter_next mem (field_at mem desc message n)).1 _
  unfold usr_pb_field_iter_next
  exact load_same_pos _ _

theorem toPbSize_of_lt {x : Nat} (h : x < 65536) : toPbSize x = x := by
  unfold toPbSize
  omega

theorem field_at_index (mem : List usr_pb_byte_t) (desc : usr_pb_msgdesc_t)
    (message : Option Nat) (hfc : desc.field_count < 65536) (n : Nat)
    (hn : n < desc.field_count) : (field_at mem desc message n).index = n := by
  induction n with
  | zero => exact (field_at_zero_pos mem desc message).1
  | succ n ih =>
    have ih := ih (by omega)
    rw [(field_at_succ_pos mem desc message n).2.1]
    have hd := field_at_descriptor mem desc message n
    have hstep : ¬ toPbSize ((field_at mem desc message n).index + 1) ≥
        (field_at mem desc message n).descriptor.field_count := by
      rw [ih, hd, toPbSize_of_lt (by omega)]; omega
    rw [(advance_step _ hstep).1, ih, toPbSize_of_lt (by omega)]
theorem on_field_pos {mem : List usr_pb_byte_t} {desc : usr_pb_msgdesc_t}
    {message : Option Nat} {it : usr_pb_field_iter_t} (h : on_field mem desc message it) :
    on_pos mem desc message it := by
  obtain ⟨n, hn, hs⟩ := h
  exact ⟨n, hn, same_field_pos hs⟩

theorem on_pos_descriptor {mem : List usr_pb_byte_t} {desc : usr_pb_msgdesc_t}
    {message : Option Nat} {it : usr_pb_field_iter_t} (h : on_pos mem desc message it) :
    it.descriptor = desc := by
  obtain ⟨n, -, hs⟩ := h
  rw [hs.1, field_at_descriptor]

theorem on_pos_index_lt {mem : List usr_pb_byte_t} {desc : usr_pb_msgdesc_t}
    {message : Option Nat} {it : usr_pb_field_iter_t} (hfc : desc.field_count < 65536)
    (h : on_pos mem desc message it) : it.index < it.descriptor.field_count := by
  rw [on_pos_descriptor h]
  obtain ⟨n, hn, hs⟩ := h
  rw [hs.2.1, field_at_index mem desc message hfc n hn]
  exact hn

theorem on_field_congr {mem : List usr_pb_byte_t} {desc : usr_pb_msgdesc_t}
    {message : Option Nat} {a b : usr_pb_field_iter_t} (h : same_field a b)
    (hb : on_field mem desc message b) : on_field mem desc message a := by
  obtain ⟨n, hn, hs⟩ := hb
  exact ⟨n, hn, same_field_trans h hs⟩

theorem on_pos_congr {mem : List usr_pb_byte_t} {desc : usr_pb_msgdesc_t}
    {message : Option Nat} {a b : usr_pb_field_iter_t} (h : same_pos a b)
    (hb : on_pos mem desc message b) : on_pos mem desc message a := by
  obtain ⟨n, hn, hs⟩ := hb
  exact ⟨n, hn, same_pos_trans h hs⟩

/-- A position whose counters are all zero is the position of field 0. -/
theorem on_pos_zero (mem : List usr_pb_byte_t) (desc : usr_pb_msgdesc_t)
    (message : Option Nat) (h0 : 0 < desc.field_count) (it : usr_pb_field_iter_t)
    (hd : it.descriptor = desc) (h1 : it.index = 0) (h2 : it.field_info_index = 0)
    (h3 : it.required_field_index = 0) (h4 : it.submessage_index = 0) :
    on_pos mem desc message it := by
  obtain ⟨z1, z2, z3, z4⟩ := field_at_zero_pos mem desc message
  refine ⟨0, h0, ?_⟩
  exact ⟨by rw [hd, field_at_descriptor], by rw [h1, z1], by rw [h2, z2], by rw [h3, z3],
    by rw [h4, z4]⟩

theorem on_pos_advance {mem : List usr_pb_byte_t} {desc : usr_pb_msgdesc_t}
    {message : Option Nat} {it : usr_pb_field_iter_t} (hfc : desc.field_count < 65536)
    (h : on_pos mem desc message it) : on_pos mem desc message (advance_iterator it) := by
  have hd := on_pos_descriptor h
  obtain ⟨n, hn, hs⟩ := h
  have hidx : it.index = n := by rw [hs.2.1, field_at_index mem desc message hfc n hn]
  by_cases hw : n + 1 < desc.field_count
  · refine ⟨n + 1, hw, ?_⟩
    exact same_pos_trans (advance_congr hs) (same_pos_symm (field_at_succ_pos mem desc message n))
  · have hge : toPbSize (it.index + 1) ≥ it.descriptor.field_count := by
      rw [hidx, hd, toPbSize_of_lt (by omega)]; omega
    rw [advance_wrap it hge]
    exact on_pos_zero mem desc message (by omega) _ hd rfl rfl rfl rfl

/-- The statement `iter->index = iter->descriptor->field_count` of
`usr_pb_field_iter_find` followed by `advance_iterator` leads to field 0. -/
theorem on_pos_restart {mem : List usr_pb_byte_t} {desc : usr_pb_msgdesc_t}
    {message : Option Nat} {it : usr_pb_field_iter_t} (hfc : desc.field_count < 65535)
    (h0 : 0 < desc.field_count) (hd : it.descriptor = desc) :
    on_pos mem desc message
      (advance_iterator { it with index := it.descriptor.field_count }) := by
  have hge : toPbSize (({ it with index := it.descriptor.field_count } :
      usr_pb_field_iter_t).index + 1) ≥
      ({ it with index := it.descriptor.field_count } : usr_pb_field_iter_t).descriptor.field_count := by
    show toPbSize (it.descriptor.field_count + 1) ≥ it.descriptor.field_count
    rw [hd, toPbSize_of_lt (by omega)]; omega
  rw [advance_wrap _ hge]
  exact on_pos_zero mem desc message h0 _ hd rfl rfl rfl rfl

/-- The iterator of `field_at` has its tag and type loaded. -/
theorem field_at_loaded (mem : List usr_pb_byte_t) (desc : usr_pb_msgdesc_t)
    (message : Option Nat) (hfc : desc.field_count < 65536) (n : Nat)
    (hn : n < desc.field_count) (m : List usr_pb_byte_t) :
    same_field (load_descriptor_values m (field_at mem desc message n)).1
      (field_at mem desc message n) := by
  have hi : (field_at mem desc message n).index <
      (field_at mem desc message n).descriptor.field_count := by
    rw [field_at_index mem desc message hfc n hn, field_at_descriptor]; exact hn
  cases n with
  | zero =>
    have hp := load_same_pos mem
      { descriptor := desc, message := message, index := 0, field_info_index := 0,
        required_field_index := 0, submessage_index := 0, tag := 0, data_size := 0,
        array_size := 0, type := 0, pField := none, pData := none, pSize := size_ptr.null,
        submsg_desc := none }
    exact load_congr m mem hp hi
  | succ k =>
    have hp := load_same_pos mem (advance_iterator (field_at mem desc message k))
    exact load_congr m mem hp hi

theorem on_field_load {mem : List usr_pb_byte_t} {desc : usr_pb_msgdesc_t}
    {message : Option Nat} {it : usr_pb_field_iter_t} (hfc : desc.field_count < 65536)
    (h : on_pos mem desc message it) (m : List usr_pb_byte_t) :
    on_field mem desc message (load_descriptor_values m it).1 := by
  have hi := on_pos_index_lt hfc h
  obtain ⟨n, hn, hs⟩ := h
  refine ⟨n, hn, ?_⟩
  exact same_field_trans (load_congr m m hs hi) (field_at_loaded mem desc message hfc n hn m)

theorem on_field_next {mem : List usr_pb_byte_t} {desc : usr_pb_msgdesc_t}
    {message : Option Nat} {it : usr_pb_field_iter_t} (hfc : desc.field_count < 65536)
    (h : on_pos mem desc message it) (m : List usr_pb_byte_t) :
    on_field mem desc message (usr_pb_field_iter_next m it).1 := by
  unfold usr_pb_field_iter_next
  exact on_field_load hfc (on_pos_advance hfc h) m

theorem on_field_begin (mem : List usr_pb_byte_t) (desc : usr_pb_msgdesc_t)
    (message : Option Nat) (hfc : desc.field_count < 65536) (h0 : 0 < desc.field_count)
    (m : List usr_pb_byte_t) (message2 : Option Nat) :
    on_field mem desc message (usr_pb_field_iter_begin m desc message2).1 := by
  unfold usr_pb_field_iter_begin
  exact on_field_load hfc (on_pos_zero mem desc message h0 _ rfl rfl rfl rfl rfl) m
theorem field_iter_find_loop_on {mem : List usr_pb_byte_t} {desc : usr_pb_msgdesc_t}
    {message : Option Nat} (hfc : desc.field_count < 65536) (m : List usr_pb_byte_t)
    (tag start : Nat) :
    ∀ (fuel : Nat) (it : usr_pb_field_iter_t),
      on_pos mem desc message (advance_iterator it) →
      ((field_iter_find_loop m tag start (fuel + 1) it).2 = true →
        on_field mem desc message (field_iter_find_loop m tag start (fuel + 1) it).1 ∧
        (field_iter_find_loop m tag start (fuel + 1) it).1.tag = tag) ∧
      ((field_iter_find_loop m tag start (fuel + 1) it).2 = false →
        on_pos mem desc message (field_iter_find_loop m tag start (fuel + 1) it).1) := by
  intro fuel
  induction fuel with
  | zero =>
    intro it hp
    unfold field_iter_find_loop
    dsimp only
    by_cases c1 : (field_info_word (advance_iterator it).descriptor
        (advance_iterator it).field_info_index >>> 2) &&& 0x3F = tag &&& 0x3F
    · rw [if_pos c1]
      dsimp only
      have hl := on_field_load hfc hp m
      by_cases c2 : (load_descriptor_values m (advance_iterator it)).1.tag = tag ∧
          usr_PB_LTYPE (load_descriptor_values m (advance_iterator it)).1.type ≠
            usr_PB_LTYPE_EXTENSION
      · simp only [c2, decide_True, if_true, and_self, ne_eq, not_false_eq_true]
        exact ⟨fun _ => ⟨hl, trivial⟩, fun h => by simp at h⟩
      · simp only [c2, decide_False, if_false, Bool.false_eq_true]
        split_ifs <;> simp [field_iter_find_loop, on_field_pos hl]
    · rw [if_neg c1]
      simp only [Bool.false_eq_true, if_false]
      split_ifs <;> simp [field_iter_find_loop, hp]
  | succ fuel ih =>
    intro it hp
    unfold field_iter_find_loop
    dsimp only
    by_cases c1 : (field_info_word (advance_iterator it).descriptor
        (advance_iterator it).field_info_index >>> 2) &&& 0x3F = tag &&& 0x3F
    · rw [if_pos c1]
      dsimp only
      have hl := on_field_load hfc hp m
      by_cases c2 : (load_descriptor_values m (advance_iterator it)).1.tag = tag ∧
          usr_PB_LTYPE (load_descriptor_values m (advance_iterator it)).1.type ≠
            usr_PB_LTYPE_EXTENSION
      · simp only [c2, decide_True, if_true, and_self, ne_eq, not_false_eq_true]
        exact ⟨fun _ => ⟨hl, trivial⟩, fun h => by simp at h⟩
      · simp only [c2, decide_False, if_false, Bool.false_eq_true]
        split_ifs
        · exact ih _ (on_pos_advance hfc (on_field_pos hl))
        · simp [on_field_pos hl]
    · rw [if_neg c1]
      simp only [Bool.false_eq_true, if_false]
      split_ifs
      · exact ih _ (on_pos_advance hfc hp)
      · simp [hp]

theorem on_field_find {mem : List usr_pb_byte_t} {desc : usr_pb_msgdesc_t}
    {message : Option Nat} {it : usr_pb_field_iter_t} (hfc : desc.field_count < 65535)
    (h : on_field mem desc message it) (m : List usr_pb_byte_t) (tag : Nat) :
    on_field mem desc message (usr_pb_field_iter_find m it tag).1 ∧
    ((usr_pb_field_iter_find m it tag).2 = true → (usr_pb_field_iter_find m it tag).1.tag = tag) := by
  have hd := on_pos_descriptor (on_field_pos h)
  have h0 : 0 < desc.field_count := by obtain ⟨n, hn, -⟩ := h; omega
  unfold usr_pb_field_iter_find
  by_cases c1 : it.tag = tag
  · rw [if_pos c1]; exact ⟨h, fun _ => c1⟩
  · rw [if_neg c1]
    by_cases c2 : tag > it.descriptor.largest_tag
    · rw [if_pos c2]; exact ⟨h, fun hh => by simp at hh⟩
    · rw [if_neg c2]
      dsimp only
      have hpre : on_pos mem desc message (advance_iterator
          (if tag < it.tag then { it with index := it.descriptor.field_count } else it)) := by
        split_ifs
        · exact on_pos_restart hfc h0 hd
        · exact on_pos_advance (by omega) (on_field_pos h)
      have hfuel : it.descriptor.field_count + 1 =
          ((if tag < it.tag then { it with index := it.descriptor.field_count } else it) :
            usr_pb_field_iter_t).descriptor.field_count + 1 := by
        split_ifs <;> rfl
      have key := field_iter_find_loop_on (by omega : desc.field_count < 65536) m tag it.index
        it.descriptor.field_count _ hpre
      rw [← hfuel]
      cases hr : (field_iter_find_loop m tag it.index (it.descriptor.field_count + 1)
          (if tag < it.tag then { it with index := it.descriptor.field_count } else it)).2
      · simp only [Bool.false_eq_true, if_false]
        exact ⟨on_field_load (by omega) (key.2 hr) m, fun hh => by simp at hh⟩
      · simp only [if_true]
        exact ⟨(key.1 hr).1, fun _ => (key.1 hr).2⟩
theorem field_iter_find_extension_loop_on {mem : List usr_pb_byte_t} {desc : usr_pb_msgdesc_t}
    {message : Option Nat} (hfc : desc.field_count < 65536) (m : List usr_pb_byte_t)
    (start : Nat) :
    ∀ (fuel : Nat) (it : usr_pb_field_iter_t),
      on_pos mem desc message (advance_iterator it) →
      ((field_iter_find_extension_loop m start (fuel + 1) it).2 = none →
        on_pos mem desc message (field_iter_find_extension_loop m start (fuel + 1) it).1) ∧
      (∀ b, (field_iter_find_extension_loop m start (fuel + 1) it).2 = some b →
        on_field mem desc message (field_iter_find_extension_loop m start (fuel + 1) it).1) := by
  intro fuel
  induction fuel with
  | zero =>
    intro it hp
    unfold field_iter_find_extension_loop
    dsimp only
    split_ifs
    · exact ⟨fun h => by simp at h, fun _ _ => on_field_load hfc hp m⟩
    · simp [field_iter_find_extension_loop, hp]
    · simp [hp]
  | succ fuel ih =>
    intro it hp
    unfold field_iter_find_extension_loop
    dsimp only
    split_ifs
    · exact ⟨fun h => by simp at h, fun _ _ => on_field_load hfc hp m⟩
    · exact ih _ (on_pos_advance hfc hp)
    · simp [hp]

theorem on_field_find_extension {mem : List usr_pb_byte_t} {desc : usr_pb_msgdesc_t}
    {message : Option Nat} {it : usr_pb_field_iter_t} (hfc : desc.field_count < 65536)
    (h : on_field mem desc message it) (m : List usr_pb_byte_t) :
    on_field mem desc message (usr_pb_field_iter_find_extension m it).1 := by
  unfold usr_pb_field_iter_find_extension
  split_ifs
  · exact h
  · have key := field_iter_find_extension_loop_on hfc m it.index it.descriptor.field_count it
      (on_pos_advance hfc (on_field_pos h))
    split
    · rename_i it2 b heq
      have := key.2 b (by rw [heq])
      rw [heq] at this
      exact this
    · rename_i it2 heq
      have := key.1 (by rw [heq])
      rw [heq] at this
      exact on_field_load hfc this m
theorem set_to_defaults_round_field {inner : decode_inner_fn} {defaults : set_to_defaults_fn}
    {s s' : defaults_state} {ok : Bool}
    (h : set_to_defaults_round inner defaults s = some (ok, s')) :
    same_field s'.iter s.iter := by
  unfold set_to_defaults_round at h
  rcases h1 : usr_pb_field_set_to_default defaults
      { stream := s.defstream, field := s.iter, mem := s.mem, fixed_count_size := 0 }
    with _ | ⟨ok1, st1⟩
  · simp [h1] at h
  · have hf1 : same_field st1.field s.iter := usr_pb_field_set_to_default_field h1
    simp only [h1] at h
    cases ok1
    · simp only [Option.some.injEq, Prod.mk.injEq] at h
      obtain ⟨-, rfl⟩ := h
      exact hf1
    · dsimp only at h
      split_ifs at h with c
      · rcases h2 : decode_field inner defaults
            { stream := s.defstream, field := st1.field, mem := st1.mem, fixed_count_size := 0 }
            s.wire_type with _ | ⟨ok2, st2⟩
        · simp [h2] at h
        · have hf2 : same_field st2.field st1.field := by
            have := decode_field_field h2; exact this
          simp only [h2] at h
          cases ok2
          · simp only [Option.some.injEq, Prod.mk.injEq] at h
            obtain ⟨-, rfl⟩ := h
            exact same_field_trans hf2 hf1
          · dsimp only at h
            split_ifs at h
            · simp only [Option.some.injEq, Prod.mk.injEq] at h
              obtain ⟨-, rfl⟩ := h
              exact same_field_trans hf2 hf1
            · split at h
              · simp at h
              · rename_i st3 h3
                simp only [Option.some.injEq, Prod.mk.injEq] at h
                obtain ⟨-, rfl⟩ := h
                exact same_field_trans (store_bool_field h3).1 (same_field_trans hf2 hf1)
            · simp only [Option.some.injEq, Prod.mk.injEq] at h
              obtain ⟨-, rfl⟩ := h
              exact same_field_trans hf2 hf1
      · simp only [Option.some.injEq, Prod.mk.injEq] at h
        obtain ⟨-, rfl⟩ := h
        exact hf1

theorem set_to_defaults_loop_on {mem : List usr_pb_byte_t} {desc : usr_pb_msgdesc_t}
    {message : Option Nat} (hfc : desc.field_count < 65536) (inner : decode_inner_fn)
    (defaults : set_to_defaults_fn) :
    ∀ (fuel : Nat) (s s' : defaults_state) (ok : Bool),
      on_field mem desc message s.iter →
      set_to_defaults_loop inner defaults fuel s = some (ok, s') →
      on_field mem desc message s'.iter := by
  intro fuel
  induction fuel with
  | zero => intro s s' ok _ h; simp [set_to_defaults_loop] at h
  | succ fuel ih =>
    intro s s' ok hon h
    unfold set_to_defaults_loop at h
    rcases h1 : set_to_defaults_round inner defaults s with _ | ⟨ok1, s1⟩
    · simp [h1] at h
    · have hon1 : on_field mem desc message s1.iter :=
        on_field_congr (set_to_defaults_round_field h1) hon
      simp only [h1] at h
      cases ok1
      · simp only [Option.some.injEq, Prod.mk.injEq] at h
        obtain ⟨-, rfl⟩ := h
        exact hon1
      · dsimp only at h
        have hn := on_field_next hfc (on_field_pos hon1) s1.mem
        split_ifs at h
        · exact ih _ _ _ hn h
        · simp only [Option.some.injEq, Prod.mk.injEq] at h
          obtain ⟨-, rfl⟩ := h
          exact hn

theorem message_set_to_defaults_body_on {mem : List usr_pb_byte_t} {desc : usr_pb_msgdesc_t}
    {message : Option Nat} (hfc : desc.field_count < 65536) (inner : decode_inner_fn)
    (defaults : set_to_defaults_fn) (iter iter' : usr_pb_field_iter_t)
    (m m' : List usr_pb_byte_t) (ok : Bool) (hon : on_field mem desc message iter)
    (h : message_set_to_defaults_body inner defaults iter m = some (ok, iter', m')) :
    on_field mem desc message iter' := by
  have run : ∀ s0 : defaults_state, s0.iter = iter →
      (match set_to_defaults_loop inner defaults (iter.descriptor.field_count + 1) s0 with
        | none => none
        | some (ok, s) => some (ok, s.iter, s.mem)) = some (ok, iter', m') →
      on_field mem desc message iter' := by
    intro s0 hs0 hr
    split at hr
    · simp at hr
    · rename_i ok2 s2 h2
      simp only [Option.some.injEq, Prod.mk.injEq] at hr
      obtain ⟨-, rfl, -⟩ := hr
      exact set_to_defaults_loop_on hfc inner defaults _ _ _ _ (by rw [hs0]; exact hon) h2
  unfold message_set_to_defaults_body at h
  dsimp only at h
  split at h
  · exact run _ rfl h
  · split_ifs at h
    · simp only [Option.some.injEq, Prod.mk.injEq] at h
      obtain ⟨-, rfl, -⟩ := h
      exact hon
    · exact run _ rfl h

theorem decode_fns_defaults_on {mem : List usr_pb_byte_t} {desc : usr_pb_msgdesc_t}
    {message : Option Nat} (hfc : desc.field_count < 65536) (fuel : Nat)
    (iter iter' : usr_pb_field_iter_t) (m m' : List usr_pb_byte_t) (ok : Bool)
    (hon : on_field mem desc message iter)
    (h : (decode_fns fuel).2 iter m = some (ok, iter', m')) :
    on_field mem desc message iter' := by
  cases fuel with
  | zero => simp [decode_fns] at h
  | succ n =>
    exact message_set_to_defaults_body_on hfc _ _ iter iter' m m' ok hon h
/-- The loaded type of `field_at` is the type byte of the record it is on. -/
theorem field_at_type (mem : List usr_pb_byte_t) (desc : usr_pb_msgdesc_t)
    (message : Option Nat) (hfc : desc.field_count < 65536) (n : Nat)
    (hn : n < desc.field_count) :
    (field_at mem desc message n).type =
      (field_info_word (field_at mem desc message n).descriptor
        (field_at mem desc message n).field_info_index >>> 8) &&& 0xFF := by
  have hi : (field_at mem desc message n).index <
      (field_at mem desc message n).descriptor.field_count := by
    rw [field_at_index mem desc message hfc n hn, field_at_descriptor]; exact hn
  have h1 := field_at_loaded mem desc message hfc n hn mem
  rw [← h1.2.2.2.2.2.2, load_type mem _ hi]

theorem field_at_required_index_succ (mem : List usr_pb_byte_t) (desc : usr_pb_msgdesc_t)
    (message : Option Nat) (hfc : desc.field_count < 65536) (n : Nat) :
    n + 1 < desc.field_count →
    (field_at mem desc message n).required_field_index ≤ n ∧
    (field_at mem desc message (n + 1)).required_field_index =
      (field_at mem desc message n).required_field_index +
        (if usr_PB_HTYPE (field_at mem desc message n).type = usr_PB_HTYPE_REQUIRED
          then 1 else 0) := by
  induction n with
  | zero =>
    intro hn
    have hz := (field_at_zero_pos mem desc message).2.2.1
    have hd := field_at_descriptor mem desc message 0
    have hidx := field_at_index mem desc message hfc 0 (by omega)
    have hstep : ¬ toPbSize ((field_at mem desc message 0).index + 1) ≥
        (field_at mem desc message 0).descriptor.field_count := by
      rw [hidx, hd, toPbSize_of_lt (by omega)]; omega
    refine ⟨by omega, ?_⟩
    rw [(field_at_succ_pos mem desc message 0).2.2.2.1, (advance_step _ hstep).2,
      ← field_at_type mem desc message hfc 0 (by omega), hz]
    split_ifs <;> rfl
  | succ n ih =>
    intro hn
    obtain ⟨ih1, ih2⟩ := ih (by omega)
    have hle : (field_at mem desc message (n + 1)).required_field_index ≤ n + 1 := by
      rw [ih2]; split_ifs <;> omega
    have hd := field_at_descriptor mem desc message (n + 1)
    have hidx := field_at_index mem desc message hfc (n + 1) (by omega)
    have hstep : ¬ toPbSize ((field_at mem desc message (n + 1)).index + 1) ≥
        (field_at mem desc message (n + 1)).descriptor.field_count := by
      rw [hidx, hd, toPbSize_of_lt (by omega)]; omega
    refine ⟨hle, ?_⟩
    rw [(field_at_succ_pos mem desc message (n + 1)).2.2.2.1, (advance_step _ hstep).2,
      ← field_at_type mem desc message hfc (n + 1) (by omega)]
    rw [toPbSize_of_lt (by split_ifs <;> omega)]

theorem field_at_required_index_mono (mem : List usr_pb_byte_t) (desc : usr_pb_msgdesc_t)
    (message : Option Nat) (hfc : desc.field_count < 65536) (i : Nat) :
    ∀ d : Nat, i + d < desc.field_count →
      (field_at mem desc message i).required_field_index ≤
        (field_at mem desc message (i + d)).required_field_index := by
  intro d
  induction d with
  | zero => intro _; exact Nat.le_refl _
  | succ d ih =>
    intro h
    have h1 := ih (by omega)
    have h2 := (field_at_required_index_succ mem desc message hfc (i + d) (by omega)).2
    rw [show i + (d + 1) = i + d + 1 by omega, h2]
    omega

/-- Two required fields of a descriptor have different indices among the
required fields. -/
theorem field_at_required_index_inj (mem : List usr_pb_byte_t) (desc : usr_pb_msgdesc_t)
    (message : Option Nat) (hfc : desc.field_count < 65536) (i j : Nat)
    (hi : i < desc.field_count) (hj : j < desc.field_count)
    (hri : usr_PB_HTYPE (field_at mem desc message i).type = usr_PB_HTYPE_REQUIRED)
    (hrj : usr_PB_HTYPE (field_at mem desc message j).type = usr_PB_HTYPE_REQUIRED)
    (heq : (field_at mem desc message i).required_field_index =
      (field_at mem desc message j).required_field_index) : i = j := by
  by_contra hne
  rcases Nat.lt_or_gt_of_ne hne with hlt | hgt
  · have h2 := (field_at_required_index_succ mem desc message hfc i (by omega)).2
    rw [if_pos hri] at h2
    have h3 := field_at_required_index_mono mem desc message hfc (i + 1) (j - (i + 1))
      (by omega)
    rw [show i + 1 + (j - (i + 1)) = j by omega] at h3
    omega
  · have h2 := (field_at_required_index_succ mem desc message hfc j (by omega)).2
    rw [if_pos hrj] at h2
    have h3 := field_at_required_index_mono mem desc message hfc (j + 1) (i - (j + 1))
      (by omega)
    rw [show j + 1 + (i - (j + 1)) = i by omega] at h3
    omega

/-- An iterator on a required field with the required index of field `n` is on
field `n`. -/
theorem on_field_required_tag {mem : List usr_pb_byte_t} {desc : usr_pb_msgdesc_t}
    {message : Option Nat} (hfc : desc.field_count < 65536) {n : Nat}
    (hn : n < desc.field_count)
    (hreq : usr_PB_HTYPE (field_at mem desc message n).type = usr_PB_HTYPE_REQUIRED)
    {it : usr_pb_field_iter_t} (hon : on_field mem desc message it)
    (hit : usr_PB_HTYPE it.type = usr_PB_HTYPE_REQUIRED)
    (hidx : it.required_field_index = (field_at mem desc message n).required_field_index) :
    it.tag = (field_at mem desc message n).tag := by
  obtain ⟨m, hm, hs⟩ := hon
  obtain ⟨-, -, -, s4, -, s6, s7⟩ := hs
  have : m = n := field_at_required_index_inj mem desc message hfc m n hm hn
    (by rw [← s7]; exact hit) hreq (by rw [← s4]; exact hidx)
  rw [s6, this]

/-! ## The required-field bitmap -/

theorem set_seen_bit_other (fs : List Nat) (r q : Nat) (hq : q < 64) (hne : q ≠ r) :
    ((fs.set (q >>> 5) (fs.getD (q >>> 5) 0 ||| toU32 (1 <<< (q &&& 31)))).getD (r >>> 5) 0).testBit
        (r &&& 31) =
      (fs.getD (r >>> 5) 0).testBit (r &&& 31) := by
  have hq31 : q &&& 31 = q % 32 := Nat.and_pow_two_sub_one_eq_mod q 5
  have hr31 : r &&& 31 = r % 32 := Nat.and_pow_two_sub_one_eq_mod r 5
  have hq5 : q >>> 5 = q / 32 := Nat.shiftRight_eq_div_pow q 5
  have hr5 : r >>> 5 = r / 32 := Nat.shiftRight_eq_div_pow r 5
  rw [hq31, hr31, hq5, hr5]
  by_cases hw : q / 32 = r / 32
  · rw [hw]
    have hbit : q % 32 ≠ r % 32 := by omega
    have h1 : toU32 (1 <<< (q % 32)) = 2 ^ (q % 32) := by
      unfold toU32
      rw [Nat.one_shiftLeft]
      apply Nat.mod_eq_of_lt
      exact Nat.pow_lt_pow_right (by omega) (by omega)
    rw [h1]
    by_cases hlen : r / 32 < fs.length
    · rw [List.getD_eq_getElem?_getD, List.getElem?_set_self hlen]
      simp only [Option.getD_some, Nat.testBit_or, Nat.testBit_two_pow, hbit, decide_False,
        Bool.or_false]
    · rw [List.set_eq_of_length_le (by omega)]
  · rw [List.getD_eq_getElem?_getD, List.getElem?_set_ne hw, ← List.getD_eq_getElem?_getD]

theorem required_fields_present_false (fs : List Nat) (rfc r : Nat) (hr : r < 64)
    (hr2 : r < rfc) (hbit : (fs.getD (r >>> 5) 0).testBit (r &&& 31) = false) :
    required_fields_present fs rfc = false := by
  have hr31 : r &&& 31 = r % 32 := Nat.and_pow_two_sub_one_eq_mod r 5
  have hr5 : r >>> 5 = r / 32 := Nat.shiftRight_eq_div_pow r 5
  rw [hr31, hr5] at hbit
  unfold required_fields_present
  dsimp only
  rw [if_pos (by omega)]
  generalize hreq : (if rfc > usr_PB_MAX_REQUIRED_FIELDS then usr_PB_MAX_REQUIRED_FIELDS
    else rfc) = req
  have hreq1 : r < req := by
    rw [← hreq]; unfold usr_PB_MAX_REQUIRED_FIELDS; split_ifs <;> omega
  have hreq2 : req ≤ 64 := by
    rw [← hreq]; unfold usr_PB_MAX_REQUIRED_FIELDS; split_ifs <;> omega
  have hq31 : req &&& 31 = req % 32 := Nat.and_pow_two_sub_one_eq_mod req 5
  have hq5 : req >>> 5 = req / 32 := Nat.shiftRight_eq_div_pow req 5
  rw [hq31, hq5]
  by_cases hw : r / 32 < req / 32
  · have : (List.range (req / 32)).all (fun i => decide (fs.getD i 0 = 2 ^ 32 - 1)) = false := by
      rw [List.all_eq_false]
      refine ⟨r / 32, List.mem_range.mpr hw, ?_⟩
      intro hall
      have hall2 : fs.getD (r / 32) 0 = 2 ^ 32 - 1 := by simpa using hall
      rw [hall2, Nat.testBit_two_pow_sub_one] at hbit
      have : r % 32 < 32 := Nat.mod_lt _ (by omega)
      simp [this] at hbit
    rw [this]
    rfl
  · have hw2 : r / 32 = req / 32 := by omega
    have hq : req % 32 ≠ 0 := by omega
    rw [if_pos hq]
    have hmask : (fs.getD (req / 32) 0 =
        (2 ^ 32 - 1) >>> (toByte (32 - req % 32)).val) → False := by
      intro hm
      rw [hw2, hm, Nat.testBit_shiftRight, Nat.testBit_two_pow_sub_one] at hbit
      have hb : (toByte (32 - req % 32)).val = 32 - req % 32 := by
        unfold toByte
        show (32 - req % 32) % 256 = 32 - req % 32
        omega
      rw [hb] at hbit
      have : 32 - req % 32 + r % 32 < 32 := by omega
      simp [this] at hbit
    have hd : decide (fs.getD (req / 32) 0 =
        (2 ^ 32 - 1) >>> (toByte (32 - req % 32)).val) = false :=
      decide_eq_false hmask
    rw [hd, Bool.and_false]
theorem find_extension_range_inv {mem : List usr_pb_byte_t} {desc : usr_pb_msgdesc_t}
    {message : Option Nat} (hfc : desc.field_count < 65536) {r : Nat} {s s' : inner_state}
    (hinv : required_unseen mem desc message r s)
    (h : find_extension_range s = some s') : required_unseen mem desc message r s' := by
  unfold find_extension_range at h
  split_ifs at h with c
  · dsimp only at h
    have hon := on_field_find_extension hfc hinv.1 s.mem
    rw [Option.map_eq_some'] at h
    obtain ⟨s1, hs1, rfl⟩ := h
    have h1 : required_unseen mem desc message r s1 := by
      split_ifs at hs1
      · split at hs1
        · simp at hs1
        · simp only [Option.some.injEq] at hs1
          subst hs1
          exact ⟨hon, hinv.2⟩
      · simp only [Option.some.injEq] at hs1
        subst hs1
        exact ⟨hon, hinv.2⟩
    split_ifs
    · exact ⟨h1.1, h1.2⟩
    · exact h1
  · simp only [Option.some.injEq] at h
    subst h
    exact hinv

theorem fixed_count_update_inv (s : inner_state) :
    same_field (fixed_count_update s).2.iter s.iter ∧
    (fixed_count_update s).2.fields_seen = s.fields_seen := by
  unfold fixed_count_update
  split_ifs <;> exact ⟨same_field_refl _, rfl⟩

theorem mark_required_seen_iter (s : inner_state) : (mark_required_seen s).iter = s.iter := by
  unfold mark_required_seen
  split_ifs <;> rfl

theorem mark_required_seen_bit (s : inner_state) (r : Nat)
    (hne : usr_PB_HTYPE s.iter.type = usr_PB_HTYPE_REQUIRED → s.iter.required_field_index ≠ r) :
    ((mark_required_seen s).fields_seen.getD (r >>> 5) 0).testBit (r &&& 31) =
      (s.fields_seen.getD (r >>> 5) 0).testBit (r &&& 31) := by
  unfold mark_required_seen
  split_ifs with c
  · exact set_seen_bit_other s.fields_seen r s.iter.required_field_index c.2 (hne c.1)
  · rfl

theorem decode_known_field_inv {mem : List usr_pb_byte_t} {desc : usr_pb_msgdesc_t}
    {message : Option Nat} (hfc : desc.field_count < 65536) {n : Nat}
    (hn : n < desc.field_count)
    (hreq : usr_PB_HTYPE (field_at mem desc message n).type = usr_PB_HTYPE_REQUIRED)
    {inner : decode_inner_fn} {defaults : set_to_defaults_fn} {s : inner_state}
    {wire_type : Nat} {ls : loop_step}
    (hinv : required_unseen mem desc message
      (field_at mem desc message n).required_field_index s)
    (htag : s.iter.tag ≠ (field_at mem desc message n).tag)
    (h : decode_known_field inner defaults s wire_type = some ls) :
    required_unseen mem desc message
      (field_at mem desc message n).required_field_index ls.state := by
  obtain ⟨hf1, hs1⟩ := fixed_count_update_inv s
  have hon1 : on_field mem desc message (fixed_count_update s).2.iter :=
    on_field_congr hf1 hinv.1
  have hinv1 : required_unseen mem desc message
      (field_at mem desc message n).required_field_index (fixed_count_update s).2 :=
    ⟨hon1, by rw [hs1]; exact hinv.2⟩
  have hne : usr_PB_HTYPE (fixed_count_update s).2.iter.type = usr_PB_HTYPE_REQUIRED →
      (fixed_count_update s).2.iter.required_field_index ≠
        (field_at mem desc message n).required_field_index := by
    intro hr heq
    have := on_field_required_tag hfc hn hreq hon1 hr heq
    rw [hf1.2.2.2.2.2.1] at this
    exact htag this
  have hinv2 : required_unseen mem desc message
      (field_at mem desc message n).required_field_index
      (mark_required_seen (fixed_count_update s).2) :=
    ⟨by rw [mark_required_seen_iter]; exact hon1,
     by rw [mark_required_seen_bit _ _ hne]; exact hinv1.2⟩
  unfold decode_known_field at h
  dsimp only at h
  split_ifs at h with c
  · simp only [Option.some.injEq] at h
    subst h
    exact hinv1
  · split at h
    · simp at h
    · rename_i ok st hd
      have hf := decode_field_field hd
      have hon3 : on_field mem desc message st.field := on_field_congr hf hinv2.1
      split_ifs at h
      all_goals
        simp only [Option.some.injEq] at h
        subst h
        exact ⟨hon3, hinv2.2⟩
theorem decode_inner_step_inv {mem : List usr_pb_byte_t} {desc : usr_pb_msgdesc_t}
    {message : Option Nat} (hfc : desc.field_count < 65535) {n : Nat}
    (hn : n < desc.field_count)
    (hreq : usr_PB_HTYPE (field_at mem desc message n).type = usr_PB_HTYPE_REQUIRED)
    {inner : decode_inner_fn} {defaults : set_to_defaults_fn} {flags : Nat}
    {s : inner_state} {ls : loop_step}
    (hinv : required_unseen mem desc message
      (field_at mem desc message n).required_field_index s)
    (htag : (usr_pb_decode_tag s.stream).ok = true →
      (usr_pb_decode_tag s.stream).tag ≠ (field_at mem desc message n).tag)
    (h : decode_inner_step inner defaults flags s = some ls) :
    required_unseen mem desc message
      (field_at mem desc message n).required_field_index ls.state := by
  unfold decode_inner_step at h
  dsimp only at h
  by_cases c1 : (usr_pb_decode_tag s.stream).ok = false
  · rw [if_pos c1] at h
    split_ifs at h
    all_goals
      simp only [Option.some.injEq] at h
      subst h
      exact hinv
  · rw [if_neg c1] at h
    have hok : (usr_pb_decode_tag s.stream).ok = true := by
      cases hh : (usr_pb_decode_tag s.stream).ok
      · exact absurd hh c1
      · rfl
    by_cases c2 : (usr_pb_decode_tag s.stream).tag = 0
    · rw [if_pos c2] at h
      split_ifs at h
      all_goals
        simp only [Option.some.injEq] at h
        subst h
        exact hinv
    · rw [if_neg c2] at h
      have hfind := on_field_find hfc hinv.1 s.mem (usr_pb_decode_tag s.stream).tag
      split_ifs at h with c3
      · -- unknown field or extension
        split at h
        · simp at h
        · rename_i s1 he
          have hinv1 : required_unseen mem desc message
              (field_at mem desc message n).required_field_index s1 :=
            find_extension_range_inv (by omega) (s := { s with
              stream := (usr_pb_decode_tag s.stream).stream,
              iter := (usr_pb_field_iter_find s.mem s.iter (usr_pb_decode_tag s.stream).tag).1 })
              ⟨hfind.1, hinv.2⟩ he
          repeat' (first | split_ifs at h | split at h)
          all_goals first
            | (simp at h; done)
            | (simp only [Option.some.injEq] at h; subst h; exact hinv1)
      · -- known field
        have hfound : (usr_pb_field_iter_find s.mem s.iter
            (usr_pb_decode_tag s.stream).tag).2 = true := by
          cases hh : (usr_pb_field_iter_find s.mem s.iter (usr_pb_decode_tag s.stream).tag).2
          · exact absurd (Or.inl hh) c3
          · rfl
        refine decode_known_field_inv (by omega) hn hreq (s := { s with
            stream := (usr_pb_decode_tag s.stream).stream,
            iter := (usr_pb_field_iter_find s.mem s.iter (usr_pb_decode_tag s.stream).tag).1 })
          ⟨hfind.1, hinv.2⟩ ?_ h
        show (usr_pb_field_iter_find s.mem s.iter (usr_pb_decode_tag s.stream).tag).1.tag ≠ _
        rw [hfind.2 hfound]
        exact htag hok
theorem decode_inner_loop_inv {mem : List usr_pb_byte_t} {desc : usr_pb_msgdesc_t}
    {message : Option Nat} (hfc : desc.field_count < 65535) {n : Nat}
    (hn : n < desc.field_count)
    (hreq : usr_PB_HTYPE (field_at mem desc message n).type = usr_PB_HTYPE_REQUIRED)
    (inner : decode_inner_fn) (defaults : set_to_defaults_fn) (flags : Nat) :
    ∀ (fuel : Nat) (s s' : inner_state),
      required_unseen mem desc message (field_at mem desc message n).required_field_index s →
      (field_at mem desc message n).tag ∉ decode_inner_tags inner defaults flags fuel s →
      decode_inner_loop inner defaults flags fuel s = some (true, s') →
      required_unseen mem desc message
        (field_at mem desc message n).required_field_index s' := by
  intro fuel
  induction fuel with
  | zero => intro s s' _ _ h; simp [decode_inner_loop] at h
  | succ fuel ih =>
    intro s s' hinv habs h
    unfold decode_inner_loop at h
    unfold decode_inner_tags at habs
    by_cases c : s.stream.bytes_left ≠ 0
    · rw [if_pos c] at h habs
      dsimp only at habs
      have htag : (usr_pb_decode_tag s.stream).ok = true →
          (usr_pb_decode_tag s.stream).tag ≠ (field_at mem desc message n).tag := by
        intro hok heq
        rw [if_pos hok] at habs
        exact habs (by rw [heq]; exact List.mem_cons_self _ _)
      rcases hstep : decode_inner_step inner defaults flags s with _ | ls
      · simp [hstep] at h
      · have hinv1 := decode_inner_step_inv hfc hn hreq hinv htag hstep
        rw [hstep] at h habs
        cases ls with
        | next s1 =>
          dsimp only at h habs
          refine ih s1 s' hinv1 ?_ h
          intro hmem
          apply habs
          split_ifs
          · exact List.mem_cons_of_mem _ hmem
          · exact hmem
        | exit s1 =>
          simp only [Option.some.injEq, Prod.mk.injEq, true_and] at h
          subst h
          exact hinv1
        | fail s1 => simp at h
    · rw [if_neg c] at h
      simp only [Option.some.injEq, Prod.mk.injEq, true_and] at h
      subst h
      exact hinv

theorem decode_inner_init_inv {mem : List usr_pb_byte_t} {desc : usr_pb_msgdesc_t}
    {message : Option Nat} (hfc : desc.field_count < 65536) (h0 : 0 < desc.field_count)
    (r : Nat) (fuel : Nat) (stream : usr_pb_istream_t) (dest_struct : Option Nat)
    (flags : Nat) (m : List usr_pb_byte_t) (ok : Bool) (s : inner_state)
    (h : decode_inner_init (decode_fns fuel).2 stream desc dest_struct flags m = some (ok, s)) :
    required_unseen mem desc message r s := by
  have hz : ∀ i j : Nat, (([0, 0] : List Nat).getD i 0).testBit j = false := by
    intro i j
    rcases i with _ | _ | i <;> simp
  have hb := on_field_begin mem desc message hfc h0 m dest_struct
  unfold decode_inner_init at h
  dsimp only at h
  split_ifs at h
  · split at h
    · simp at h
    · rename_i iter' m' hd
      simp only [Option.some.injEq, Prod.mk.injEq] at h
      obtain ⟨-, rfl⟩ := h
      exact ⟨decode_fns_defaults_on hfc fuel _ _ _ _ _ hb hd, hz _ _⟩
    · rename_i iter' m' hd
      simp only [Option.some.injEq, Prod.mk.injEq] at h
      obtain ⟨-, rfl⟩ := h
      exact ⟨decode_fns_defaults_on hfc fuel _ _ _ _ _ hb hd, hz _ _⟩
  · simp only [Option.some.injEq, Prod.mk.injEq] at h
    obtain ⟨-, rfl⟩ := h
    exact ⟨hb, hz _ _⟩

theorem decode_inner_finish_missing {mem : List usr_pb_byte_t} {desc : usr_pb_msgdesc_t}
    {message : Option Nat} {r : Nat} {s : inner_state}
    (hinv : required_unseen mem desc message r s) (hr : r < 64)
    (hr2 : r < desc.required_field_count) :
    (decode_inner_finish s).1 = false ∧
    (¬ (s.fixed_count_field ≠ usr_PB_SIZE_MAX ∧
        s.fixed_count_size ≠ s.fixed_count_total_size) →
      decode_inner_finish s =
        (false, istream_set_error s.stream "missing required field", s.mem)) := by
  have hd : s.iter.descriptor = desc := on_pos_descriptor (on_field_pos hinv.1)
  have hp : required_fields_present s.fields_seen s.iter.descriptor.required_field_count =
      false := by
    rw [hd]; exact required_fields_present_false _ _ r hr hr2 hinv.2
  unfold decode_inner_finish
  constructor
  · split_ifs <;> rfl
  · intro hfix
    rw [if_neg hfix, if_pos hp]
/-! ## The zero tag in the decode loop -/

theorem decode_inner_heads_loop (inner : decode_inner_fn) (defaults : set_to_defaults_fn)
    (flags : Nat) :
    ∀ (fuel : Nat) (s0 s : inner_state), s ∈ decode_inner_heads inner defaults flags fuel s0 →
      s.stream.bytes_left ≠ 0 ∧
      ∃ fuel', decode_inner_loop inner defaults flags fuel s0 =
        decode_inner_loop inner defaults flags (fuel' + 1) s := by
  intro fuel
  induction fuel with
  | zero => intro s0 s h; simp [decode_inner_heads] at h
  | succ fuel ih =>
    intro s0 s h
    unfold decode_inner_heads at h
    by_cases c : s0.stream.bytes_left ≠ 0
    · rw [if_pos c] at h
      rcases List.mem_cons.mp h with rfl | h
      · exact ⟨c, fuel, rfl⟩
      · rcases hstep : decode_inner_step inner defaults flags s0 with _ | ls
        · simp [hstep] at h
        · rw [hstep] at h
          cases ls with
          | next s1 =>
            obtain ⟨h1, fuel', h2⟩ := ih s1 s h
            refine ⟨h1, fuel', ?_⟩
            rw [← h2]
            conv_lhs => unfold decode_inner_loop
            rw [if_pos c, hstep]
          | exit s1 => simp at h
          | fail s1 => simp at h
    · rw [if_neg c] at h
      simp at h

theorem decode_inner_loop_zero_tag (inner : decode_inner_fn) (defaults : set_to_defaults_fn)
    (flags : Nat) (fuel : Nat) (s : inner_state) (hb : s.stream.bytes_left ≠ 0)
    (hok : (usr_pb_decode_tag s.stream).ok = true)
    (hz : (usr_pb_decode_tag s.stream).tag = 0) :
    decode_inner_loop inner defaults flags (fuel + 1) s =
      if flags &&& usr_PB_DECODE_NULLTERMINATED ≠ 0 then
        some (true, { s with stream := (usr_pb_decode_tag s.stream).stream })
      else
        some (false,
          { s with stream := istream_set_error (usr_pb_decode_tag s.stream).stream "zero tag" })
      := by
  unfold decode_inner_loop decode_inner_step
  rw [if_pos hb]
  dsimp only
  have hne : ¬ (usr_pb_decode_tag s.stream).ok = false := by rw [hok]; simp
  rw [if_neg hne, if_pos hz]
  split_ifs <;> rfl

/-! ## The encoder: presence of fields -/

theorem field_at_wrap (mem : List usr_pb_byte_t) (desc : usr_pb_msgdesc_t)
    (message : Option Nat) (hfc : desc.field_count < 65536) (k : Nat)
    (hk : k + 1 = desc.field_count) :
    (field_at mem desc message (k + 1)).index = 0 := by
  rw [(field_at_succ_pos mem desc message k).2.1]
  have hidx := field_at_index mem desc message hfc k (by omega)
  have hd := field_at_descriptor mem desc message k
  have hge : toPbSize ((field_at mem desc message k).index + 1) ≥
      (field_at mem desc message k).descriptor.field_count := by
    rw [hidx, hd, toPbSize_of_lt (by omega)]; omega
  rw [advance_wrap _ hge]

theorem check_default_loop_all (check : check_default_fn) (mem : List usr_pb_byte_t)
    (d : usr_pb_msgdesc_t) (message : Option Nat) (hfc : d.field_count < 65536) :
    ∀ (j k fuel : Nat), k + j = d.field_count → 1 ≤ j → j ≤ fuel →
      (∀ i, i < d.field_count → ∃ b, check (field_at mem d message i) = some b) →
      check_default_loop check mem fuel (field_at mem d message k) =
        some (decide (∀ i, i < d.field_count → k ≤ i →
          check (field_at mem d message i) = some true)) := by
  intro j
  induction j with
  | zero => intro k fuel _ h; omega
  | succ j ih =>
    intro k fuel hk hj hfuel hall
    obtain ⟨fuel', rfl⟩ : ∃ f, fuel = f + 1 := ⟨fuel - 1, by omega⟩
    unfold check_default_loop
    obtain ⟨b, hb⟩ := hall k (by omega)
    rw [hb]
    cases b
    · simp only
      congr 1
      symm
      rw [decide_eq_false_iff_not]
      intro h
      have := h k (by omega) (Nat.le_refl k)
      rw [hb] at this
      simp at this
    · simp only
      have hnext : (usr_pb_field_iter_next mem (field_at mem d message k)).1 =
          field_at mem d message (k + 1) := rfl
      have hn2 : (usr_pb_field_iter_next mem (field_at mem d message k)).2 =
          decide ((field_at mem d message (k + 1)).index ≠ 0) := rfl
      rw [hn2, hnext]
      by_cases hlast : j = 0
      · subst hlast
        rw [field_at_wrap mem d message hfc k (by omega)]
        simp only [ne_eq, not_true_eq_false, decide_False, Bool.false_eq_true, if_false]
        congr 1
        symm
        rw [decide_eq_true_iff]
        intro i hi hki
        have : i = k := by omega
        rw [this]; exact hb
      · rw [field_at_index mem d message hfc (k + 1) (by omega)]
        simp only [ne_eq, Nat.add_one_ne_zero, not_false_eq_true, decide_True, if_true]
        rw [ih (k + 1) fuel' (by omega) (by omega) (by omega) hall]
        congr 1
        rw [decide_eq_decide]
        constructor
        · intro h i hi hki
          rcases Nat.eq_or_lt_of_le hki with rfl | hlt
          · exact hb
          · exact h i hi hlt
        · intro h i hi hki
          exact h i hi (by omega)

/-! ## Stream independence of the encoder -/

theorem toSize_of_lt {x : Nat} (h : x < 2 ^ 64) : toSize x = x := by
  unfold toSize; omega

theorem toSize_lt (x : Nat) : toSize x < 2 ^ 64 := by
  unfold toSize; omega

theorem toSize_add_toSize (a b : Nat) : toSize (toSize a + b) = toSize (a + b) := by
  unfold toSize; omega

theorem has_room_valid {s : usr_pb_ostream_t} {n : Nat} (h : has_room s n) : valid_ostream s :=
  h.1

theorem has_room_zero {s : usr_pb_ostream_t} (h : valid_ostream s) : has_room s 0 := by
  refine ⟨h, fun hc => ?_⟩
  have := (h.2 hc).1
  omega

theorem has_room_mono {s : usr_pb_ostream_t} {n m : Nat} (h : has_room s n) (hm : m ≤ n) :
    has_room s m :=
  ⟨h.1, fun hc => by have := h.2 hc; omega⟩

theorem ostream_after_callback (s : usr_pb_ostream_t) (bs : List usr_pb_byte_t)
    (e : Option String) : (ostream_after s bs e).callback = s.callback := by
  unfold ostream_after; split_ifs <;> rfl

theorem ostream_after_max_size (s : usr_pb_ostream_t) (bs : List usr_pb_byte_t)
    (e : Option String) : (ostream_after s bs e).max_size = s.max_size := by
  unfold ostream_after; split_ifs <;> rfl

theorem ostream_after_bytes_written (s : usr_pb_ostream_t) (bs : List usr_pb_byte_t)
    (e : Option String) (h : has_room s bs.length) :
    (ostream_after s bs e).bytes_written = toSize (s.bytes_written + bs.length) := by
  unfold ostream_after
  split_ifs with hc
  · have := h.2 hc
    have := (h.1.2 hc).2
    rw [toSize_of_lt (by omega)]
  · rfl

theorem ostream_after_valid {s : usr_pb_ostream_t} {bs : List usr_pb_byte_t}
    (e : Option String) (h : has_room s bs.length) : valid_ostream (ostream_after s bs e) := by
  unfold ostream_after valid_ostream
  split_ifs with hc
  · have h1 := h.2 hc
    have h2 := (h.1.2 hc).2
    exact ⟨by dsimp only; omega, fun _ => ⟨h1, h2⟩⟩
  · exact ⟨toSize_lt _, fun h' => absurd h' hc⟩

theorem ostream_after_room {s : usr_pb_ostream_t} {a b : List usr_pb_byte_t}
    (e : Option String) (h : has_room s (a ++ b).length) :
    has_room (ostream_after s a e) b.length := by
  have ha : has_room s a.length := has_room_mono h (by simp)
  refine ⟨ostream_after_valid e ha, fun hc => ?_⟩
  rw [ostream_after_callback] at hc
  have h1 := h.2 hc
  unfold ostream_after
  rw [if_pos hc]
  simp only [List.length_append] at h1
  dsimp only
  omega

theorem ostream_after_after (s : usr_pb_ostream_t) (a b : List usr_pb_byte_t)
    (e e' : Option String) :
    ostream_after (ostream_after s a e) b e' = ostream_after s (a ++ b) e' := by
  unfold ostream_after
  by_cases hc : s.callback = true
  · simp [hc, List.append_assoc, Nat.add_assoc]
  · simp [hc, toSize_add_toSize, Nat.add_assoc]

theorem ostream_after_nil (s : usr_pb_ostream_t) (h : valid_ostream s) :
    ostream_after s [] s.errmsg = s := by
  unfold ostream_after
  split_ifs
  · simp
  · simp [toSize_of_lt h.1]

/-- Sequencing: if `F` writes `a` and `G` writes `b`, then `F` followed by
`G` writes `a ++ b`. -/
theorem writes_seq {F G : usr_pb_ostream_t → enc_result} {a b : List usr_pb_byte_t}
    (hF : writes F a) (hG : writes G b) :
    writes (fun s => match F s with
      | none => none
      | some (s1, false) => some (s1, false)
      | some (s1, true) => G s1) (a ++ b) := by
  intro s hs
  obtain ⟨e, he⟩ := hF s (has_room_mono hs (by simp))
  obtain ⟨e', he'⟩ := hG _ (ostream_after_room e hs)
  refine ⟨e', ?_⟩
  simp only [he, he', ostream_after_after]

theorem writes_congr {F G : usr_pb_ostream_t → enc_result} {bs : List usr_pb_byte_t}
    (h : ∀ s, F s = G s) (hG : writes G bs) : writes F bs := by
  intro s hs
  rw [h s]
  exact hG s hs

theorem writes_nil_of_const {F : usr_pb_ostream_t → enc_result}
    (h : ∀ s, F s = some (s, true)) : writes F [] := by
  intro s hs
  exact ⟨s.errmsg, by rw [h s, ostream_after_nil s hs.1]⟩

/-- `usr_pb_write` of a buffer writes the buffer. -/
theorem writes_write (buf : List usr_pb_byte_t) :
    writes (fun s => some (usr_pb_write s buf buf.length)) buf := by
  intro s hs
  refine ⟨s.errmsg, ?_⟩
  by_cases hc : s.callback = true
  · have h1 := hs.2 hc
    have h2 := (hs.1.2 hc).2
    by_cases h0 : buf.length = 0
    · have : buf = [] := List.length_eq_zero.mp h0
      subst this
      simp [usr_pb_write, ostream_after, hc, toSize_of_lt hs.1.1]
    · show some (usr_pb_write s buf buf.length) = _
      rw [write_ok s buf hc h1 (by omega)]
      simp [ostream_after, hc]
  · have hc' : s.callback = false := by simpa using hc
    simp [usr_pb_write, ostream_after, hc']

/-- Success of `usr_pb_write` on a valid stream: there was room. -/
theorem write_success_room (s s' : usr_pb_ostream_t) (buf : List usr_pb_byte_t) (count : Nat)
    (hcount : count < 2 ^ 64) (hv : valid_ostream s) (h : usr_pb_write s buf count = (s', true)) :
    has_room s count := by
  refine ⟨hv, fun hc => ?_⟩
  have hv2 := hv.2 hc
  unfold usr_pb_write at h
  by_cases h0 : count > 0
  · rw [if_pos ⟨h0, hc⟩] at h
    split_ifs at h with hfull
    · simp at h
    · unfold toSize at hfull
      have := hv.1
      omega
  · omega

theorem emits_write (buf : List usr_pb_byte_t) (hlen : buf.length < 2 ^ 64) :
    emits (fun s => some (usr_pb_write s buf buf.length)) buf := by
  refine ⟨writes_write buf, ?_⟩
  intro s s' hv h
  simp only [Option.some.injEq] at h
  exact write_success_room s s' buf buf.length hlen hv h

theorem emits_congr {F G : usr_pb_ostream_t → enc_result} {bs : List usr_pb_byte_t}
    (h : ∀ s, F s = G s) (hG : emits G bs) : emits F bs := by
  have : F = G := funext h
  rw [this]; exact hG

theorem regular_congr {B : Nat} {F G : usr_pb_ostream_t → enc_result} (h : ∀ s, F s = G s)
    (hG : regular B G) : regular B F := by
  have : F = G := funext h
  rw [this]; exact hG

theorem emits_skip {F : usr_pb_ostream_t → enc_result} (h : ∀ s, F s = some (s, true)) :
    emits F [] := by
  refine ⟨writes_nil_of_const h, ?_⟩
  intro s s' hv _
  exact has_room_zero hv

theorem regular_of_emits {B : Nat} {F : usr_pb_ostream_t → enc_result}
    {bs : List usr_pb_byte_t} (h : emits F bs) (hl : bs.length ≤ B) : regular B F :=
  Or.inl ⟨bs, hl, h⟩

theorem regular_mono {B B' : Nat} {F : usr_pb_ostream_t → enc_result} (h : regular B F)
    (hB : B ≤ B') : regular B' F := by
  rcases h with ⟨bs, hl, h⟩ | h
  · exact Or.inl ⟨bs, by omega, h⟩
  · exact Or.inr h

theorem regular_none {B : Nat} {F : usr_pb_ostream_t → enc_result} (h : ∀ s, F s = none) :
    regular B F := by
  right
  intro s s' _ hs
  rw [h s] at hs
  simp at hs

theorem regular_error {B : Nat} {F : usr_pb_ostream_t → enc_result} (msg : String)
    (h : ∀ s, F s = enc_error s msg) : regular B F := by
  right
  intro s s' _ hs
  rw [h s] at hs
  simp [enc_error] at hs

theorem emits_seq {F G : usr_pb_ostream_t → enc_result} {a b : List usr_pb_byte_t}
    (hF : emits F a) (hG : emits G b) :
    emits (fun s => match F s with
      | none => none
      | some (s1, false) => some (s1, false)
      | some (s1, true) => G s1) (a ++ b) := by
  refine ⟨writes_seq hF.1 hG.1, ?_⟩
  intro s s' hv h
  dsimp only at h
  rcases hFs : F s with _ | ⟨s1, ok⟩
  · simp [hFs] at h
  · cases ok
    · simp [hFs] at h
    · simp only [hFs] at h
      have hra := hF.2 s s1 hv hFs
      obtain ⟨e, he⟩ := hF.1 s hra
      rw [hFs] at he
      simp only [Option.some.injEq, Prod.mk.injEq, and_true] at he
      have hrb := hG.2 s1 s' (by rw [he]; exact ostream_after_valid e hra) h
      refine ⟨hv, fun hc => ?_⟩
      have h1 := hrb.2 (by rw [he, ostream_after_callback]; exact hc)
      rw [he] at h1
      unfold ostream_after at h1
      rw [if_pos hc] at h1
      simp only [List.length_append]
      dsimp only at h1
      omega

theorem regular_seq {B1 B2 : Nat} {F G : usr_pb_ostream_t → enc_result}
    (hF : regular B1 F) (hG : regular B2 G) :
    regular (B1 + B2) (fun s => match F s with
      | none => none
      | some (s1, false) => some (s1, false)
      | some (s1, true) => G s1) := by
  rcases hF with ⟨a, hla, ha⟩ | hnF
  · rcases hG with ⟨b, hlb, hb⟩ | hnG
    · exact regular_of_emits (emits_seq ha hb) (by simp only [List.length_append]; omega)
    · right
      intro s s' hv h
      dsimp only at h
      rcases hFs : F s with _ | ⟨s1, ok⟩
      · simp [hFs] at h
      · cases ok
        · simp [hFs] at h
        · simp only [hFs] at h
          have hra := ha.2 s s1 hv hFs
          obtain ⟨e, he⟩ := ha.1 s hra
          rw [hFs] at he
          simp only [Option.some.injEq, Prod.mk.injEq, and_true] at he
          exact hnG s1 s' (by rw [he]; exact ostream_after_valid e hra) h
  · right
    intro s s' hv h
    dsimp only at h
    rcases hFs : F s with _ | ⟨s1, ok⟩
    · simp [hFs] at h
    · cases ok
      · simp [hFs] at h
      · exact hnF s s1 hv hFs

/-- A regular function that succeeds on a valid stream emits a byte string. -/
theorem regular_success {B : Nat} {F : usr_pb_ostream_t → enc_result} (h : regular B F)
    {s s' : usr_pb_ostream_t} (hv : valid_ostream s)
    (hs : F s = some (s', true)) : ∃ bs, bs.length ≤ B ∧ emits F bs := by
  rcases h with h | h
  · exact h
  · exact absurd hs (h s s' hv)

theorem encode_varint_eq (s : usr_pb_ostream_t) (v : Nat) :
    usr_pb_encode_varint s v = usr_pb_write s (varint_bytes v) (varint_bytes v).length := by
  unfold usr_pb_encode_varint varint_bytes usr_pb_encode_varint_32
  split_ifs <;> rfl

theorem varint_bytes_eq_leb128 (v : Nat) (hv : v < 2 ^ 64) : varint_bytes v = leb128 v := by
  unfold varint_bytes
  split_ifs with h
  · rw [leb128_small v (by omega)]
  · exact encode_varint_32_buffer_eq v hv

theorem loop1_length (high : Nat) :
    ∀ (fuel : Nat) (buffer : List usr_pb_byte_t) (byte : usr_pb_byte_t) (low : Nat),
      buffer.length ≤ 4 →
      (encode_varint_32_loop1 high fuel buffer byte low).1.length ≤ 4 := by
  intro fuel
  induction fuel with
  | zero => intro buffer byte low h; simpa [encode_varint_32_loop1] using h
  | succ fuel ih =>
    intro buffer byte low h
    unfold encode_varint_32_loop1
    split_ifs with c
    · exact ih _ _ _ (by simp; omega)
    · exact h

theorem loop2_length :
    ∀ (fuel : Nat) (buffer : List usr_pb_byte_t) (byte : usr_pb_byte_t) (high : Nat),
      (encode_varint_32_loop2 fuel buffer byte high).1.length ≤ buffer.length + fuel := by
  intro fuel
  induction fuel with
  | zero => intro buffer byte high; simp [encode_varint_32_loop2]
  | succ fuel ih =>
    intro buffer byte high
    unfold encode_varint_32_loop2
    split_ifs with c
    · have := ih (buffer ++ [toByte (byte.val ||| 0x80)]) (toByte (high &&& 0x7F)) (high >>> 7)
      simp only [List.length_append, List.length_singleton] at this
      dsimp only
      omega
    · dsimp only
      omega

theorem varint_bytes_length_le (v : Nat) : (varint_bytes v).length ≤ 10 := by
  unfold varint_bytes
  split_ifs with h
  · simp
  · unfold encode_varint_32_buffer
    dsimp only
    have h1 := loop1_length (toU32 (v >>> 32)) 4 [] (toByte (toU32 v &&& 0x7F)) (toU32 v >>> 7)
      (by simp)
    split_ifs with c
    · have h2 := loop2_length 5 (encode_varint_32_loop1 (toU32 (v >>> 32)) 4 []
        (toByte (toU32 v &&& 0x7F)) (toU32 v >>> 7)).1
        (toByte ((encode_varint_32_loop1 (toU32 (v >>> 32)) 4 []
          (toByte (toU32 v &&& 0x7F)) (toU32 v >>> 7)).2.1.val |||
            ((toU32 (v >>> 32) &&& 0x07) <<< 4)))
        (toU32 (v >>> 32) >>> 3)
      simp only [List.length_append, List.length_singleton]
      omega
    · simp only [List.length_append, List.length_singleton]
      omega

theorem emits_encode_varint (v : Nat) :
    emits (fun s => some (usr_pb_encode_varint s v)) (varint_bytes v) := by
  refine emits_congr (fun s => by rw [encode_varint_eq]) (emits_write (varint_bytes v) ?_)
  have := varint_bytes_length_le v
  omega

theorem emits_encode_svarint (v : Int) :
    ∃ bs, emits (fun s => some (usr_pb_encode_svarint s v)) bs :=
  ⟨_, emits_congr (fun s => by rw [encode_svarint_eq]) (emits_encode_varint _)⟩

theorem emits_encode_tag (wiretype field_number : Nat) :
    emits (fun s => some (usr_pb_encode_tag s wiretype field_number))
      (varint_bytes (toU64 (field_number <<< 3) ||| wiretype)) :=
  emits_congr (fun s => rfl) (emits_encode_varint _)

theorem emits_encode_fixed32 (val : Nat) :
    emits (fun s => some (usr_pb_encode_fixed32 s val))
      [toByte (val &&& 0xFF), toByte ((val >>> 8) &&& 0xFF), toByte ((val >>> 16) &&& 0xFF),
        toByte ((val >>> 24) &&& 0xFF)] :=
  emits_congr (fun s => rfl) (emits_write _ (by simp))

theorem emits_encode_fixed64 (val : Nat) :
    emits (fun s => some (usr_pb_encode_fixed64 s val))
      [toByte (val &&& 0xFF), toByte ((val >>> 8) &&& 0xFF), toByte ((val >>> 16) &&& 0xFF),
        toByte ((val >>> 24) &&& 0xFF), toByte ((val >>> 32) &&& 0xFF),
        toByte ((val >>> 40) &&& 0xFF), toByte ((val >>> 48) &&& 0xFF),
        toByte ((val >>> 56) &&& 0xFF)] :=
  emits_congr (fun s => rfl) (emits_write _ (by simp))

/-- Sequencing of two calls that return a pair. -/
theorem emits_seq_pair {f g : usr_pb_ostream_t → usr_pb_ostream_t × Bool}
    {a b : List usr_pb_byte_t} (hf : emits (fun s => some (f s)) a)
    (hg : emits (fun s => some (g s)) b) :
    emits (fun s => some (match f s with
      | (s1, false) => (s1, false)
      | (s1, true) => g s1)) (a ++ b) := by
  refine emits_congr (fun s => ?_) (emits_seq hf hg)
  dsimp only
  rcases f s with ⟨s1, _ | _⟩ <;> rfl

theorem emits_encode_string (buffer : List usr_pb_byte_t) (hlen : buffer.length < 2 ^ 64) :
    emits (fun s => some (usr_pb_encode_string s buffer buffer.length))
      (varint_bytes buffer.length ++ buffer) := by
  refine emits_congr (fun s => ?_)
    (emits_seq_pair (emits_encode_varint buffer.length) (emits_write buffer hlen))
  unfold usr_pb_encode_string
  rfl

theorem regular_tag_for_field (field : usr_pb_field_iter_t) :
    regular 10 (fun s => some (usr_pb_encode_tag_for_field s field)) := by
  unfold usr_pb_encode_tag_for_field
  dsimp only
  split_ifs
  · exact regular_of_emits (emits_encode_tag _ _) (varint_bytes_length_le _)
  · exact regular_of_emits (emits_encode_tag _ _) (varint_bytes_length_le _)
  · exact regular_of_emits (emits_encode_tag _ _) (varint_bytes_length_le _)
  · exact regular_of_emits (emits_encode_tag _ _) (varint_bytes_length_le _)
  · right
    intro s s' _ h
    simp at h
/-! ## Stream independence of the encoders of single values -/

theorem mem_read_length (mem : List usr_pb_byte_t) (addr n : Nat) :
    (mem_read mem addr n).length = n := by
  simp [mem_read]

theorem le_value_lt (l : List usr_pb_byte_t) : le_value l < 256 ^ l.length := by
  induction l with
  | nil => simp [le_value]
  | cons b bs ih =>
    simp only [le_value, List.length_cons, Nat.pow_succ]
    have := b.isLt
    omega

theorem load_uint_lt (mem : List usr_pb_byte_t) (addr n : Nat) :
    load_uint mem addr n < 256 ^ n := by
  unfold load_uint
  have := le_value_lt (mem_read mem addr n)
  rwa [mem_read_length] at this

theorem string_scan_le (mem : List usr_pb_byte_t) (str max_size : Nat) :
    ∀ (fuel size : Nat), size ≤ max_size → string_scan mem str max_size fuel size ≤ max_size := by
  intro fuel
  induction fuel with
  | zero => intro size h; simpa [string_scan] using h
  | succ fuel ih =>
    intro size h
    unfold string_scan
    split_ifs with c
    · exact ih _ (by omega)
    · exact h

theorem regular_enc_bool (mem : List usr_pb_byte_t) (field : usr_pb_field_iter_t) :
    regular 10 (fun s => usr_pb_enc_bool mem s field) := by
  unfold usr_pb_enc_bool
  rcases field.pData with _ | p
  · exact regular_none (fun s => rfl)
  · exact regular_of_emits (emits_encode_varint _) (varint_bytes_length_le _)

theorem regular_enc_varint (mem : List usr_pb_byte_t) (field : usr_pb_field_iter_t) :
    regular 10 (fun s => usr_pb_enc_varint mem s field) := by
  unfold usr_pb_enc_varint
  rcases field.pData with _ | p
  · dsimp only
    split_ifs
    · exact regular_none (fun s => rfl)
    · exact regular_error _ (fun s => rfl)
  · dsimp only
    split_ifs
    · exact regular_of_emits (emits_encode_varint _) (varint_bytes_length_le _)
    · exact regular_of_emits
        (emits_congr (fun s => by rw [encode_svarint_eq]) (emits_encode_varint _))
        (varint_bytes_length_le _)
    · exact regular_of_emits (emits_encode_varint _) (varint_bytes_length_le _)
    · exact regular_error _ (fun s => rfl)

theorem regular_enc_fixed (mem : List usr_pb_byte_t) (field : usr_pb_field_iter_t) :
    regular 10 (fun s => usr_pb_enc_fixed mem s field) := by
  unfold usr_pb_enc_fixed
  split_ifs
  · rcases field.pData with _ | p
    · exact regular_none (fun s => rfl)
    · exact regular_of_emits (emits_encode_fixed32 _) (by simp)
  · rcases field.pData with _ | p
    · exact regular_none (fun s => rfl)
    · exact regular_of_emits (emits_encode_fixed64 _) (by simp)
  · exact regular_error _ (fun s => rfl)

theorem emits_encode_string_read (mem : List usr_pb_byte_t) (p size : Nat)
    (hsize : size < 2 ^ 64) :
    emits (fun s => some (usr_pb_encode_string s (mem_read mem p size) size))
      (varint_bytes size ++ mem_read mem p size) := by
  have h := emits_encode_string (mem_read mem p size) (by rw [mem_read_length]; exact hsize)
  rw [mem_read_length] at h
  exact h

theorem emits_encode_string_nil :
    emits (fun s => some (usr_pb_encode_string s [] 0)) (varint_bytes 0 ++ []) :=
  emits_encode_string [] (by simp)

theorem string_read_length_le (mem : List usr_pb_byte_t) (p size : Nat) :
    (varint_bytes size ++ mem_read mem p size).length ≤ 10 + size := by
  have := varint_bytes_length_le size
  simp only [List.length_append, mem_read_length]
  omega

theorem regular_enc_bytes (mem : List usr_pb_byte_t) (field : usr_pb_field_iter_t) :
    regular (10 + 65535) (fun s => usr_pb_enc_bytes mem s field) := by
  unfold usr_pb_enc_bytes
  rcases field.pData with _ | p
  · exact regular_of_emits emits_encode_string_nil (by simp [varint_bytes])
  · dsimp only
    split_ifs
    · exact regular_error _ (fun s => rfl)
    · have := load_uint_lt mem p 2
      have h2 := string_read_length_le mem (p + 2) (load_uint mem p 2)
      exact regular_of_emits (emits_encode_string_read mem (p + 2) _ (by omega)) (by omega)

theorem string_scan_le_mem (mem : List usr_pb_byte_t) (str max_size : Nat) :
    ∀ (fuel size : Nat), size ≤ mem.length →
      string_scan mem str max_size fuel size ≤ mem.length := by
  intro fuel
  induction fuel with
  | zero => intro size h; simpa [string_scan] using h
  | succ fuel ih =>
    intro size h
    unfold string_scan
    split_ifs with c
    · refine ih _ ?_
      by_contra hlt
      apply c.2
      rw [List.getD_eq_getElem?_getD, List.getElem?_eq_none (by omega)]
      rfl
    · exact h

theorem regular_enc_string (mem : List usr_pb_byte_t) (field : usr_pb_field_iter_t)
    (hmem : mem.length < 2 ^ 63) :
    regular (10 + mem.length) (fun s => usr_pb_enc_string mem s field) := by
  unfold usr_pb_enc_string
  dsimp only
  have key : ∀ max_size : Nat,
      regular (10 + mem.length) (fun s =>
        match field.pData with
        | none => some (usr_pb_encode_string s [] 0)
        | some str =>
          if mem.getD (str + string_scan mem str max_size max_size 0) 0 ≠ 0 then
            enc_error s "unterminated string"
          else
            some (usr_pb_encode_string s
              (mem_read mem str (string_scan mem str max_size max_size 0))
              (string_scan mem str max_size max_size 0))) := by
    intro max_size
    rcases field.pData with _ | str
    · exact regular_of_emits emits_encode_string_nil (by simp [varint_bytes]; omega)
    · dsimp only
      split_ifs
      · exact regular_error _ (fun s => rfl)
      · have := string_scan_le_mem mem str max_size max_size 0 (Nat.zero_le _)
        have h2 := string_read_length_le mem str (string_scan mem str max_size max_size 0)
        exact regular_of_emits (emits_encode_string_read mem str _ (by omega)) (by omega)
  split_ifs with c1 c2
  · exact key _
  · exact regular_error _ (fun s => rfl)
  · exact key _

theorem regular_enc_fixed_length_bytes (mem : List usr_pb_byte_t)
    (field : usr_pb_field_iter_t) (hds : field.data_size < 65536) :
    regular (10 + 65535) (fun s => usr_pb_enc_fixed_length_bytes mem s field) := by
  unfold usr_pb_enc_fixed_length_bytes
  rcases field.pData with _ | p
  · dsimp only
    split_ifs
    · exact regular_of_emits emits_encode_string_nil (by simp [varint_bytes])
    · exact regular_none (fun s => rfl)
  · have h2 := string_read_length_le mem p field.data_size
    exact regular_of_emits (emits_encode_string_read mem p _ (by omega)) (by omega)
/-! ## Stream independence of the submessage encoder -/

theorem sizing_valid : valid_ostream usr_PB_OSTREAM_SIZING := by
  unfold valid_ostream usr_PB_OSTREAM_SIZING
  exact ⟨by norm_num, fun h => by simp at h⟩

theorem has_room_sizing (n : Nat) : has_room usr_PB_OSTREAM_SIZING n :=
  ⟨sizing_valid, fun h => by simp [usr_PB_OSTREAM_SIZING] at h⟩

theorem ostream_after_sizing (bs : List usr_pb_byte_t) (e : Option String) :
    (ostream_after usr_PB_OSTREAM_SIZING bs e).bytes_written = toSize bs.length := by
  simp [ostream_after, usr_PB_OSTREAM_SIZING]

/-- On the sizing stream, a function that emits `bs` reports the length of
`bs`. -/
theorem emits_sizing {F : usr_pb_ostream_t → enc_result} {bs : List usr_pb_byte_t}
    (h : emits F bs) (hl : bs.length < 2 ^ 64) :
    ∃ t, F usr_PB_OSTREAM_SIZING = some (t, true) ∧ t.bytes_written = bs.length := by
  obtain ⟨e, he⟩ := h.1 _ (has_room_sizing bs.length)
  exact ⟨_, he, by rw [ostream_after_sizing, toSize_of_lt hl]⟩

/-- The result of a function that emits `bs`, on a valid stream on which it
succeeds. -/
theorem emits_result {F : usr_pb_ostream_t → enc_result} {bs : List usr_pb_byte_t}
    (h : emits F bs) {s s' : usr_pb_ostream_t} (hv : valid_ostream s)
    (hs : F s = some (s', true)) : has_room s bs.length ∧ ∃ e, s' = ostream_after s bs e := by
  have hr := h.2 s s' hv hs
  obtain ⟨e, he⟩ := h.1 s hr
  rw [hs] at he
  simp only [Option.some.injEq, Prod.mk.injEq, and_true] at he
  exact ⟨hr, e, he⟩

theorem emits_submessage_body (enc : encode_fn) (fields : usr_pb_msgdesc_t)
    (src : Option Nat) {bs : List usr_pb_byte_t}
    (hE : emits (fun s => enc s fields src) bs) (hl : bs.length < 2 ^ 63) :
    emits (fun s => encode_submessage_body enc s fields src)
      (varint_bytes bs.length ++ bs) := by
  obtain ⟨t, ht, htb⟩ := emits_sizing hE (by omega)
  have hsub : ∀ s1 : usr_pb_ostream_t, s1.callback = true →
      ∃ e, enc ⟨s1.callback, s1.state, bs.length, 0, none⟩ fields src =
        some (⟨true, s1.state ++ bs, bs.length, bs.length, e⟩, true) := by
    intro s1 hc
    have hr : has_room ⟨s1.callback, s1.state, bs.length, 0, none⟩ bs.length := by
      refine ⟨⟨by norm_num, fun _ => ⟨Nat.zero_le _, hl⟩⟩, fun _ => ?_⟩
      simp
    obtain ⟨e, he⟩ := hE.1 _ hr
    refine ⟨e, ?_⟩
    dsimp only at he
    rw [he]
    simp [ostream_after, hc]
  constructor
  · intro s hs
    have hs1 : has_room s (varint_bytes bs.length).length := has_room_mono hs (by simp)
    obtain ⟨e1, he1⟩ := (emits_encode_varint bs.length).1 s hs1
    simp only [Option.some.injEq] at he1
    have hroom2 := ostream_after_room e1 hs
    unfold encode_submessage_body
    rw [ht]
    dsimp only
    rw [htb, he1]
    dsimp only
    by_cases hc : s.callback = true
    · have hc1 : (ostream_after s (varint_bytes bs.length) e1).callback = true := by
        rw [ostream_after_callback]; exact hc
      have hne : ¬ (ostream_after s (varint_bytes bs.length) e1).callback = false := by
        rw [hc1]; simp
      rw [if_neg hne]
      have h2 := hroom2.2 hc1
      have h3 := (hroom2.1.2 hc1).2
      have hfull : ¬ toSize ((ostream_after s (varint_bytes bs.length) e1).bytes_written +
          bs.length) > (ostream_after s (varint_bytes bs.length) e1).max_size := by
        rw [toSize_of_lt (by omega)]; omega
      rw [if_neg hfull]
      obtain ⟨e2, he2⟩ := hsub _ hc1
      rw [he2]
      dsimp only
      rw [if_neg (by simp)]
      refine ⟨e2, ?_⟩
      rw [← ostream_after_after s _ _ e1 e2]
      congr 1
      rw [toSize_of_lt (by omega)]
      generalize ostream_after s (varint_bytes bs.length) e1 = s1 at hc1 ⊢
      unfold ostream_after
      rw [if_pos hc1]
    · have hc' : s.callback = false := by simpa using hc
      have hc1 : (ostream_after s (varint_bytes bs.length) e1).callback = false := by
        rw [ostream_after_callback]; exact hc'
      rw [if_pos hc1]
      refine ⟨e1, ?_⟩
      rw [← ostream_after_after s _ _ e1 e1]
      have he : (ostream_after s (varint_bytes bs.length) e1).errmsg = e1 := by
        unfold ostream_after; split_ifs <;> rfl
      generalize ostream_after s (varint_bytes bs.length) e1 = s1 at hc1 he ⊢
      unfold ostream_after usr_pb_write
      simp [hc1, he]
  · intro s s' hv h
    unfold encode_submessage_body at h
    rw [ht] at h
    dsimp only at h
    rw [htb] at h
    refine ⟨hv, fun hc => ?_⟩
    rcases hvar : usr_pb_encode_varint s bs.length with ⟨s1, ok⟩
    rw [hvar] at h
    cases ok
    · simp at h
    · dsimp only at h
      have hvar' : (fun s => some (usr_pb_encode_varint s bs.length)) s = some (s1, true) := by
        show some _ = _
        rw [hvar]
      obtain ⟨hr1, e1, he1⟩ := emits_result (emits_encode_varint bs.length) hv hvar'
      have hc1 : s1.callback = true := by rw [he1, ostream_after_callback]; exact hc
      rw [if_neg (by rw [hc1]; simp)] at h
      split_ifs at h with hfull
      · simp [enc_error] at h
      · have hb1 : s1.bytes_written = s.bytes_written + (varint_bytes bs.length).length := by
          rw [he1]; unfold ostream_after; rw [if_pos hc]
        have hm1 : s1.max_size = s.max_size := by rw [he1, ostream_after_max_size]
        have h2 := hr1.2 hc
        have h3 := (hv.2 hc).2
        rw [toSize_of_lt (by omega)] at hfull
        simp only [List.length_append]
        omega
theorem never_submessage_body (enc : encode_fn) (fields : usr_pb_msgdesc_t)
    (src : Option Nat)
    (hE : ∀ s s', valid_ostream s → enc s fields src ≠ some (s', true)) :
    ∀ s s', valid_ostream s → encode_submessage_body enc s fields src ≠ some (s', true) := by
  intro s s' _ h
  unfold encode_submessage_body at h
  rcases hz : enc usr_PB_OSTREAM_SIZING fields src with _ | ⟨t, ok⟩
  · rw [hz] at h; simp at h
  · cases ok
    · rw [hz] at h; simp at h
    · exact hE _ _ sizing_valid hz

theorem regular_submessage_body {B : Nat} (enc : encode_fn) (fields : usr_pb_msgdesc_t)
    (src : Option Nat) (hE : regular B (fun s => enc s fields src)) (hB : B < 2 ^ 63) :
    regular (10 + B) (fun s => encode_submessage_body enc s fields src) := by
  rcases hE with ⟨bs, hl, h⟩ | h
  · refine regular_of_emits (emits_submessage_body enc fields src h (by omega)) ?_
    have := varint_bytes_length_le bs.length
    simp only [List.length_append]
    omega
  · exact Or.inr (never_submessage_body enc fields src h)

theorem regular_enc_submessage {B : Nat} (enc : encode_fn) (mem : List usr_pb_byte_t)
    (field : usr_pb_field_iter_t)
    (hE : ∀ d, field.submsg_desc = some d → regular B (fun s => enc s d field.pData))
    (hB : B < 2 ^ 63) :
    regular (10 + B) (fun s => usr_pb_enc_submessage enc mem s field) := by
  unfold usr_pb_enc_submessage
  rcases hd : field.submsg_desc with _ | d
  · exact regular_error _ (fun s => rfl)
  · dsimp only
    split
    · exact regular_submessage_body enc d field.pData (hE d hd) hB
    · exact regular_none (fun s => rfl)
/-- Sequencing of a call that returns a pair with a call that may leave the
embedding. -/
theorem regular_seq_pair {B1 B2 : Nat} {f : usr_pb_ostream_t → usr_pb_ostream_t × Bool}
    {G : usr_pb_ostream_t → enc_result} (hf : regular B1 (fun s => some (f s)))
    (hG : regular B2 G) :
    regular (B1 + B2) (fun s => match f s with
      | (s1, false) => some (s1, false)
      | (s1, true) => G s1) := by
  refine regular_congr (fun s => ?_) (regular_seq hf hG)
  dsimp only
  rcases f s with ⟨s1, _ | _⟩ <;> rfl

theorem regular_encode_field_value {B : Nat} (enc : encode_fn) (mem : List usr_pb_byte_t)
    (field : usr_pb_field_iter_t) (hds : field.data_size < 65536)
    (hmem : mem.length < 2 ^ 63)
    (hE : ∀ d, field.submsg_desc = some d → regular B (fun s => enc s d field.pData))
    (hB : B < 2 ^ 63) :
    regular (65545 + mem.length + B) (fun s => encode_field_value enc mem s field) := by
  unfold encode_field_value
  dsimp only
  split_ifs
  · exact regular_mono (regular_enc_bool mem field) (by omega)
  · exact regular_mono (regular_enc_varint mem field) (by omega)
  · exact regular_mono (regular_enc_fixed mem field) (by omega)
  · exact regular_mono (regular_enc_bytes mem field) (by omega)
  · exact regular_mono (regular_enc_string mem field hmem) (by omega)
  · exact regular_mono (regular_enc_submessage enc mem field hE hB) (by omega)
  · exact regular_mono (regular_enc_fixed_length_bytes mem field hds) (by omega)
  · exact regular_error _ (fun s => rfl)

theorem regular_encode_basic_field {B : Nat} (enc : encode_fn) (mem : List usr_pb_byte_t)
    (field : usr_pb_field_iter_t) (hds : field.data_size < 65536)
    (hmem : mem.length < 2 ^ 63)
    (hE : ∀ d, field.submsg_desc = some d → regular B (fun s => enc s d field.pData))
    (hB : B < 2 ^ 63) :
    regular (65555 + mem.length + B) (fun s => encode_basic_field enc mem s field) := by
  unfold encode_basic_field
  split_ifs
  · exact regular_of_emits (emits_skip (fun s => rfl)) (by simp)
  · exact regular_mono (regular_seq_pair (regular_tag_for_field field)
      (regular_encode_field_value enc mem field hds hmem hE hB)) (by omega)
/-! ## Stream independence of `encode_array` -/

theorem array_element_succ (field : usr_pb_field_iter_t) (p k : Nat) :
    ({ array_element field p k with
        pData := some (p + k * field.data_size + (array_element field p k).data_size) } :
      usr_pb_field_iter_t) = array_element field p (k + 1) := by
  unfold array_element
  dsimp only
  rw [Nat.succ_mul, Nat.add_assoc]

theorem array_element_pData (field : usr_pb_field_iter_t) (p k : Nat) :
    (array_element field p k).pData = some (p + k * field.data_size) := rfl

theorem drop_iter_none : drop_iter none = none := rfl

theorem drop_iter_some (s : usr_pb_ostream_t) (f : usr_pb_field_iter_t) (b : Bool) :
    drop_iter (some (s, f, b)) = some (s, b) := rfl

/-- One round of an array loop followed by the remaining rounds. -/
theorem packed_loop_succ (mem : List usr_pb_byte_t) (n : Nat) (field : usr_pb_field_iter_t)
    (p k : Nat) (s : usr_pb_ostream_t) :
    drop_iter (encode_array_packed_loop mem (n + 1) s (array_element field p k)) =
      match encode_packed_element mem s (array_element field p k) with
      | none => none
      | some (s1, false) => some (s1, false)
      | some (s1, true) =>
        drop_iter (encode_array_packed_loop mem n s1 (array_element field p (k + 1))) := by
  rw [encode_array_packed_loop]
  rcases encode_packed_element mem s (array_element field p k) with _ | ⟨s1, _ | _⟩
  · rfl
  · rfl
  · dsimp only
    rw [array_element_pData]
    dsimp only
    rw [array_element_succ]

theorem regular_packed_loop {B : Nat} (mem : List usr_pb_byte_t) (field : usr_pb_field_iter_t)
    (p : Nat) :
    ∀ (n k : Nat),
      (∀ i, k ≤ i → i < k + n →
        regular B (fun s => encode_packed_element mem s (array_element field p i))) →
      regular (n * B)
        (fun s => drop_iter (encode_array_packed_loop mem n s (array_element field p k))) := by
  intro n
  induction n with
  | zero =>
    intro k _
    exact regular_of_emits (emits_skip (fun s => rfl)) (by simp)
  | succ n ih =>
    intro k h
    have h1 := h k (Nat.le_refl k) (by omega)
    have h2 := ih (k + 1) (fun i hi1 hi2 => h i (by omega) (by omega))
    refine regular_congr (fun s => packed_loop_succ mem n field p k s)
      (regular_mono (regular_seq h1 h2) ?_)
    rw [Nat.succ_mul]; omega

theorem emits_packed_loop (mem : List usr_pb_byte_t) (field : usr_pb_field_iter_t)
    (p : Nat) :
    ∀ (elems : List (List usr_pb_byte_t)) (k : Nat),
      (∀ i (hi : i < elems.length),
        emits (fun s => encode_packed_element mem s (array_element field p (k + i)))
          (elems.get ⟨i, hi⟩)) →
      emits (fun s => drop_iter (encode_array_packed_loop mem elems.length s
        (array_element field p k))) elems.flatten := by
  intro elems
  induction elems with
  | nil =>
    intro k _
    exact emits_skip (fun s => rfl)
  | cons e es ih =>
    intro k h
    have h1 := h 0 (by simp)
    have h2 := ih (k + 1) (fun i hi => by
      have := h (i + 1) (by simp; omega)
      rw [show k + (i + 1) = k + 1 + i by omega] at this
      exact this)
    exact emits_congr (fun s => packed_loop_succ mem es.length field p k s) (emits_seq h1 h2)
theorem array_element_zero {field : usr_pb_field_iter_t} {p : Nat}
    (h : field.pData = some p) : array_element field p 0 = field := by
  unfold array_element
  rw [Nat.zero_mul, Nat.add_zero, ← h]

theorem packed_element_varint {field : usr_pb_field_iter_t}
    (h : ¬ (usr_PB_LTYPE field.type = usr_PB_LTYPE_FIXED32 ∨
      usr_PB_LTYPE field.type = usr_PB_LTYPE_FIXED64))
    (mem : List usr_pb_byte_t) (s : usr_pb_ostream_t) :
    encode_packed_element mem s field = usr_pb_enc_varint mem s field := by
  unfold encode_packed_element
  rw [if_neg h]

/-- For a varint type the sizing loop of `encode_array` is the loop "Write the
data" on the sizing stream. -/
theorem size_loop_eq_packed_loop (mem : List usr_pb_byte_t) :
    ∀ (n : Nat) (s : usr_pb_ostream_t) (field : usr_pb_field_iter_t),
      ¬ (usr_PB_LTYPE field.type = usr_PB_LTYPE_FIXED32 ∨
        usr_PB_LTYPE field.type = usr_PB_LTYPE_FIXED64) →
      encode_array_size_loop mem n s field =
        drop_iter (encode_array_packed_loop mem n s field) := by
  intro n
  induction n with
  | zero => intro s field _; rfl
  | succ n ih =>
    intro s field h
    rw [encode_array_size_loop, encode_array_packed_loop, packed_element_varint h]
    rcases usr_pb_enc_varint mem s field with _ | ⟨s1, _ | _⟩
    · rfl
    · rfl
    · dsimp only
      rcases field.pData with _ | p
      · rfl
      · exact ih _ _ h

/-- The shortcut `if (stream->callback == NULL) return usr_pb_write(stream,
NULL, size)` in front of a part that emits `size` bytes. -/
theorem emits_sizing_shortcut {L : usr_pb_ostream_t → enc_result} {bs : List usr_pb_byte_t}
    (hL : emits L bs) :
    emits (fun s => if s.callback = false then some (usr_pb_write s [] bs.length) else L s)
      bs := by
  constructor
  · intro s hs
    by_cases hc : s.callback = false
    · refine ⟨s.errmsg, ?_⟩
      dsimp only
      rw [if_pos hc]
      unfold ostream_after usr_pb_write
      simp [hc]
    · dsimp only
      rw [if_neg hc]
      exact hL.1 s hs
  · intro s s' hv h
    by_cases hc : s.callback = false
    · exact ⟨hv, fun hc' => by rw [hc] at hc'; simp at hc'⟩
    · dsimp only at h
      rw [if_neg hc] at h
      exact hL.2 s s' hv h

/-- Two byte strings that the same function emits are equal. -/
theorem emits_unique {F : usr_pb_ostream_t → enc_result} {a b : List usr_pb_byte_t}
    (ha : emits F a) (hb : emits F b) (hla : a.length < 2 ^ 63) (hlb : b.length < 2 ^ 63) :
    a = b := by
  have hr : ∀ n, n < 2 ^ 63 → has_room ⟨true, [], 2 ^ 63 - 1, 0, none⟩ n := by
    intro n hn
    refine ⟨⟨by norm_num, fun _ => ⟨by norm_num, by norm_num⟩⟩, fun _ => ?_⟩
    dsimp only
    omega
  obtain ⟨e1, h1⟩ := ha.1 _ (hr a.length hla)
  obtain ⟨e2, h2⟩ := hb.1 _ (hr b.length hlb)
  rw [h1] at h2
  simp only [Option.some.injEq, Prod.mk.injEq, and_true] at h2
  have := congrArg usr_pb_ostream_t.state h2
  simpa [ostream_after] using this
theorem emits_unique' {F : usr_pb_ostream_t → enc_result} {a b : List usr_pb_byte_t}
    (ha : emits F a) (hb : emits F b) (hlb : b.length < 2 ^ 63) : a = b := by
  have hr : has_room ⟨true, [], b.length, 0, none⟩ b.length :=
    ⟨⟨by norm_num, fun _ => ⟨Nat.zero_le _, hlb⟩⟩, fun _ => by simp⟩
  obtain ⟨e2, h2⟩ := hb.1 _ hr
  have hra := ha.2 _ _ hr.1 h2
  obtain ⟨e1, h1⟩ := ha.1 _ hra
  rw [h1] at h2
  simp only [Option.some.injEq, Prod.mk.injEq, and_true] at h2
  have := congrArg usr_pb_ostream_t.state h2
  simpa [ostream_after] using this

/-- Sequencing of a call that returns a pair with a call that may leave the
embedding. -/
theorem emits_seq_pair_opt {f : usr_pb_ostream_t → usr_pb_ostream_t × Bool}
    {G : usr_pb_ostream_t → enc_result} {a b : List usr_pb_byte_t}
    (hf : emits (fun s => some (f s)) a) (hG : emits G b) :
    emits (fun s => match f s with
      | (s1, false) => some (s1, false)
      | (s1, true) => G s1) (a ++ b) := by
  refine emits_congr (fun s => ?_) (emits_seq hf hG)
  dsimp only
  rcases f s with ⟨s1, _ | _⟩ <;> rfl

/-- The part of the packed branch of `encode_array` after the tag. -/
theorem emits_packed_frame {L : usr_pb_ostream_t → enc_result} {bs : List usr_pb_byte_t}
    (hL : emits L bs) :
    emits (fun s => match usr_pb_encode_varint s bs.length with
      | (s1, false) => some (s1, false)
      | (s1, true) =>
        if s1.callback = false then some (usr_pb_write s1 [] bs.length) else L s1)
      (varint_bytes bs.length ++ bs) := by
  exact emits_seq_pair_opt (emits_encode_varint bs.length) (emits_sizing_shortcut hL)

theorem emits_encode_array_packed (enc : encode_fn) (mem : List usr_pb_byte_t)
    (field : usr_pb_field_iter_t) (count : Nat) (bs : List usr_pb_byte_t)
    (hcount : enc_load_size mem field = some count) (h0 : count ≠ 0)
    (hmax : ¬ (usr_PB_ATYPE field.type ≠ usr_PB_ATYPE_POINTER ∧ count > field.array_size))
    (hpack : usr_PB_LTYPE field.type ≤ usr_PB_LTYPE_LAST_PACKABLE)
    (hL : emits (fun s => drop_iter (encode_array_packed_loop mem count s field)) bs)
    (hlen : bs.length < 2 ^ 64)
    (h32 : usr_PB_LTYPE field.type = usr_PB_LTYPE_FIXED32 → bs.length = 4 * count)
    (h64 : usr_PB_LTYPE field.type = usr_PB_LTYPE_FIXED64 → bs.length = 8 * count) :
    emits (fun s => drop_iter (encode_array enc mem s field))
      (varint_bytes (toU64 (field.tag <<< 3) ||| usr_PB_WT_STRING) ++
        (varint_bytes bs.length ++ bs)) := by
  refine emits_congr (fun s => ?_)
    (emits_seq_pair_opt (emits_encode_tag usr_PB_WT_STRING field.tag)
      (emits_packed_frame hL))
  unfold encode_array
  rw [hcount]
  dsimp only
  rw [if_neg h0, if_neg hmax, if_pos hpack]
  rcases usr_pb_encode_tag s usr_PB_WT_STRING field.tag with ⟨s1, _ | _⟩
  · rfl
  · dsimp only
    have hfin : drop_iter (match usr_pb_encode_varint s1 bs.length with
        | (stream, false) => some (stream, field, false)
        | (stream, true) =>
          if stream.callback = false then
            some ((usr_pb_write stream [] bs.length).1, field,
              (usr_pb_write stream [] bs.length).2)
          else encode_array_packed_loop mem count stream field) =
        match usr_pb_encode_varint s1 bs.length with
        | (s1, false) => some (s1, false)
        | (s1, true) =>
          if s1.callback = false then some (usr_pb_write s1 [] bs.length)
          else drop_iter (encode_array_packed_loop mem count s1 field) := by
      rcases usr_pb_encode_varint s1 bs.length with ⟨s2, _ | _⟩
      · rfl
      · dsimp only
        split_ifs <;> rfl
    split_ifs with c1 c2
    · dsimp only
      rw [← h32 c1]
      exact hfin
    · dsimp only
      rw [← h64 c2]
      exact hfin
    · rw [size_loop_eq_packed_loop mem count _ field (by tauto)]
      obtain ⟨t, ht, htb⟩ := emits_sizing hL hlen
      rw [ht]
      dsimp only
      rw [htb]
      exact hfin
theorem regular_packed_element (mem : List usr_pb_byte_t) (field : usr_pb_field_iter_t) :
    regular 10 (fun s => encode_packed_element mem s field) := by
  unfold encode_packed_element
  split_ifs
  · exact regular_enc_fixed mem field
  · exact regular_enc_varint mem field

theorem emits_packed_loop_const (mem : List usr_pb_byte_t) (field : usr_pb_field_iter_t)
    (p c : Nat)
    (h : ∀ i, ∃ bs, bs.length = c ∧
      emits (fun s => encode_packed_element mem s (array_element field p i)) bs) :
    ∀ (n k : Nat), ∃ bs, bs.length = c * n ∧
      emits (fun s => drop_iter (encode_array_packed_loop mem n s (array_element field p k)))
        bs := by
  intro n
  induction n with
  | zero =>
    intro k
    exact ⟨[], by simp, emits_skip (fun s => rfl)⟩
  | succ n ih =>
    intro k
    obtain ⟨a, hla, ha⟩ := h k
    obtain ⟨b, hlb, hb⟩ := ih (k + 1)
    refine ⟨a ++ b, ?_, emits_congr (fun s => packed_loop_succ mem n field p k s)
      (emits_seq ha hb)⟩
    rw [List.length_append, hla, hlb, Nat.mul_succ, Nat.add_comm]

theorem emits_packed_element_fixed (mem : List usr_pb_byte_t) (field : usr_pb_field_iter_t)
    (p i : Nat) (hok : fixed_size_ok field = true)
    (hf : usr_PB_LTYPE field.type = usr_PB_LTYPE_FIXED32 ∨
      usr_PB_LTYPE field.type = usr_PB_LTYPE_FIXED64) :
    ∃ bs, bs.length = field.data_size ∧
      emits (fun s => encode_packed_element mem s (array_element field p i)) bs := by
  unfold fixed_size_ok at hok
  simp only [Bool.and_eq_true, Bool.or_eq_true, bne_iff_ne, ne_eq, beq_iff_eq] at hok
  have hds : field.data_size = 4 ∨ field.data_size = 8 := by
    rcases hf with h | h
    · rcases hok.1 with h' | h'
      · exact absurd h h'
      · exact Or.inl h'
    · rcases hok.2 with h' | h'
      · exact absurd h h'
      · exact Or.inr h'
  unfold encode_packed_element usr_pb_enc_fixed
  have ht : (array_element field p i).type = field.type := rfl
  have hd : (array_element field p i).data_size = field.data_size := rfl
  rw [ht, hd]
  simp only [if_pos hf, array_element_pData]
  rcases hds with h | h
  · rw [h]
    exact ⟨_, by simp, emits_congr (fun s => by simp) (emits_encode_fixed32 (load_uint mem (p + i * 4) 4))⟩
  · rw [h]
    exact ⟨_, by simp, emits_congr (fun s => by simp) (emits_encode_fixed64 (load_uint mem (p + i * 8) 8))⟩

/-- An encoder function that emits a byte string is bounded by any bound of
its regularity. -/
theorem emits_length_le {B : Nat} {F : usr_pb_ostream_t → enc_result}
    {bs : List usr_pb_byte_t} (h : emits F bs) (hr : regular B F) (hB : B < 2 ^ 63) :
    bs.length ≤ B := by
  rcases hr with ⟨b, hlb, hb⟩ | hn
  · rw [emits_unique' h hb (by omega)]
    exact hlb
  · obtain ⟨e, he⟩ := h.1 _ (has_room_sizing bs.length)
    exact absurd he (hn _ _ sizing_valid)
/-! ## Stream independence of `encode_field` -/

theorem regular_unpacked_element {B : Nat} (enc : encode_fn) (mem : List usr_pb_byte_t)
    (field : usr_pb_field_iter_t) (p : Nat) (hds : field.data_size < 65536)
    (hmem : mem.length < 2 ^ 63)
    (hE : ∀ d, field.submsg_desc = some d → ∀ src, regular B (fun s => enc s d src))
    (hB : B < 2 ^ 63) :
    regular (65555 + mem.length + B)
      (fun s => encode_unpacked_element enc mem s field p) := by
  unfold encode_unpacked_element
  split_ifs
  · rcases load_ptr mem p with _ | q
    · dsimp only
      refine regular_mono (regular_seq_pair (regular_tag_for_field { field with pData := none })
        (regular_of_emits (emits_encode_varint 0) (varint_bytes_length_le 0))) (by omega)
    · exact regular_encode_basic_field enc mem { field with pData := some q } hds hmem
        (fun d hd => hE d hd _) hB
  · exact regular_encode_basic_field enc mem field hds hmem (fun d hd => hE d hd _) hB

theorem unpacked_loop_succ (enc : encode_fn) (mem : List usr_pb_byte_t) (n : Nat)
    (field : usr_pb_field_iter_t) (p k : Nat) (s : usr_pb_ostream_t) :
    drop_iter (encode_array_unpacked_loop enc mem (n + 1) s (array_element field p k)) =
      match encode_unpacked_element enc mem s (array_element field p k)
          (p + k * field.data_size) with
      | none => none
      | some (s1, false) => some (s1, false)
      | some (s1, true) =>
        drop_iter (encode_array_unpacked_loop enc mem n s1 (array_element field p (k + 1))) := by
  rw [encode_array_unpacked_loop, array_element_pData]
  dsimp only
  rcases encode_unpacked_element enc mem s (array_element field p k)
      (p + k * field.data_size) with _ | ⟨s1, _ | _⟩
  · rfl
  · rfl
  · dsimp only
    rw [array_element_succ]

theorem regular_unpacked_loop {B : Nat} (enc : encode_fn) (mem : List usr_pb_byte_t)
    (field : usr_pb_field_iter_t) (p : Nat)
    (h : ∀ i, regular B (fun s => encode_unpacked_element enc mem s (array_element field p i)
      (p + i * field.data_size))) :
    ∀ (n k : Nat), regular (n * B)
      (fun s => drop_iter (encode_array_unpacked_loop enc mem n s (array_element field p k))) := by
  intro n
  induction n with
  | zero =>
    intro k
    exact regular_of_emits (emits_skip (fun s => rfl)) (by simp)
  | succ n ih =>
    intro k
    refine regular_congr (fun s => unpacked_loop_succ enc mem n field p k s)
      (regular_mono (regular_seq (h k) (ih (k + 1))) ?_)
    rw [Nat.succ_mul]; omega

theorem enc_load_size_le (mem : List usr_pb_byte_t) (field : usr_pb_field_iter_t) (count : Nat)
    (has : field.array_size < 65536) (h : enc_load_size mem field = some count) :
    count ≤ 65535 := by
  unfold enc_load_size at h
  rcases hp : field.pSize with _ | a | _ | _ <;> rw [hp] at h <;> simp at h
  · have := load_uint_lt mem a 2
    omega
  · omega
theorem regular_fail {B : Nat} {F : usr_pb_ostream_t → enc_result}
    (h : ∀ s, ∃ s1, F s = some (s1, false)) : regular B F := by
  right
  intro s s' _ hs
  obtain ⟨s1, h1⟩ := h s
  rw [h1] at hs
  simp at hs

theorem never_encode_array_packed (enc : encode_fn) (mem : List usr_pb_byte_t)
    (field : usr_pb_field_iter_t) (count : Nat)
    (hcount : enc_load_size mem field = some count) (h0 : count ≠ 0)
    (hmax : ¬ (usr_PB_ATYPE field.type ≠ usr_PB_ATYPE_POINTER ∧ count > field.array_size))
    (hpack : usr_PB_LTYPE field.type ≤ usr_PB_LTYPE_LAST_PACKABLE)
    (hf : ¬ (usr_PB_LTYPE field.type = usr_PB_LTYPE_FIXED32 ∨
      usr_PB_LTYPE field.type = usr_PB_LTYPE_FIXED64))
    (hL : ∀ s s', valid_ostream s →
      drop_iter (encode_array_packed_loop mem count s field) ≠ some (s', true)) :
    ∀ s s', valid_ostream s → drop_iter (encode_array enc mem s field) ≠ some (s', true) := by
  intro s s' _ h
  unfold encode_array at h
  rw [hcount] at h
  dsimp only at h
  rw [if_neg h0, if_neg hmax, if_pos hpack] at h
  rcases htag : usr_pb_encode_tag s usr_PB_WT_STRING field.tag with ⟨s1, _ | _⟩
  · rw [htag] at h
    simp [drop_iter] at h
  · rw [htag] at h
    dsimp only at h
    rw [if_neg (fun c => hf (Or.inl c)), if_neg (fun c => hf (Or.inr c)),
      size_loop_eq_packed_loop mem count _ field hf] at h
    rcases hz : drop_iter (encode_array_packed_loop mem count usr_PB_OSTREAM_SIZING field)
      with _ | ⟨t, _ | _⟩
    · rw [hz] at h; simp [drop_iter] at h
    · rw [hz] at h; simp [drop_iter] at h
    · exact hL _ _ sizing_valid hz

theorem regular_encode_array {B : Nat} (enc : encode_fn) (mem : List usr_pb_byte_t)
    (field : usr_pb_field_iter_t) (p : Nat) (hp : field.pData = some p)
    (hds : field.data_size < 65536) (has : field.array_size < 65536)
    (hmem : mem.length < 2 ^ 63)
    (hE : ∀ d, field.submsg_desc = some d → ∀ src, regular B (fun s => enc s d src))
    (hB : B < 2 ^ 63) (hok : fixed_size_ok field = true) :
    regular (20 + array_max_count field * (65555 + mem.length + B))
      (fun s => drop_iter (encode_array enc mem s field)) := by
  rcases hcount : enc_load_size mem field with _ | count
  · refine regular_none (fun s => ?_)
    unfold encode_array
    rw [hcount]
    rfl
  by_cases h0 : count = 0
  · refine regular_of_emits (emits_skip (fun s => ?_)) (by simp)
    unfold encode_array
    rw [hcount]
    dsimp only
    rw [if_pos h0]
    rfl
  by_cases hmax : usr_PB_ATYPE field.type ≠ usr_PB_ATYPE_POINTER ∧ count > field.array_size
  · refine regular_fail (fun s => ⟨ostream_set_error s "array max size exceeded", ?_⟩)
    unfold encode_array
    rw [hcount]
    dsimp only
    rw [if_neg h0, if_pos hmax]
    rfl
  have hle := enc_load_size_le mem field count has hcount
  have hcm : count ≤ array_max_count field := by
    unfold array_max_count
    split_ifs with c
    · exact hle
    · by_contra hgt
      exact hmax ⟨c, by omega⟩
  have hmul : count * (65555 + mem.length + B) ≤
      array_max_count field * (65555 + mem.length + B) := Nat.mul_le_mul_right _ hcm
  have hmul10 : count * 10 ≤ count * (65555 + mem.length + B) :=
    Nat.mul_le_mul_left _ (by omega)
  by_cases hpack : usr_PB_LTYPE field.type ≤ usr_PB_LTYPE_LAST_PACKABLE
  · have hL := regular_packed_loop mem field p count 0
      (fun i _ _ => regular_packed_element mem (array_element field p i))
    rw [array_element_zero hp] at hL
    by_cases hf : usr_PB_LTYPE field.type = usr_PB_LTYPE_FIXED32 ∨
        usr_PB_LTYPE field.type = usr_PB_LTYPE_FIXED64
    · obtain ⟨bs, hlen, hbs⟩ := emits_packed_loop_const mem field p field.data_size
        (fun i => emits_packed_element_fixed mem field p i hok hf) count 0
      rw [array_element_zero hp] at hbs
      unfold fixed_size_ok at hok
      simp only [Bool.and_eq_true, Bool.or_eq_true, bne_iff_ne, ne_eq, beq_iff_eq] at hok
      have h32 : usr_PB_LTYPE field.type = usr_PB_LTYPE_FIXED32 → bs.length = 4 * count := by
        intro c
        rcases hok.1 with h' | h'
        · exact absurd c h'
        · rw [hlen, h']
      have h64 : usr_PB_LTYPE field.type = usr_PB_LTYPE_FIXED64 → bs.length = 8 * count := by
        intro c
        rcases hok.2 with h' | h'
        · exact absurd c h'
        · rw [hlen, h']
      have hl8 : bs.length ≤ 8 * count := by
        rcases hf with c | c
        · rw [h32 c]; omega
        · rw [h64 c]
      refine regular_of_emits (emits_encode_array_packed enc mem field count bs hcount h0 hmax
        hpack hbs (by omega) h32 h64) ?_
      have t1 := varint_bytes_length_le (toU64 (field.tag <<< 3) ||| usr_PB_WT_STRING)
      have t2 := varint_bytes_length_le bs.length
      simp only [List.length_append]
      omega
    · rcases hL with ⟨bs, hlen, hbs⟩ | hn
      · refine regular_of_emits (emits_encode_array_packed enc mem field count bs hcount h0
          hmax hpack hbs (by omega) (fun c => absurd (Or.inl c) hf)
          (fun c => absurd (Or.inr c) hf)) ?_
        have t1 := varint_bytes_length_le (toU64 (field.tag <<< 3) ||| usr_PB_WT_STRING)
        have t2 := varint_bytes_length_le bs.length
        simp only [List.length_append]
        omega
      · exact Or.inr (never_encode_array_packed enc mem field count hcount h0 hmax hpack hf hn)
  · have hU := regular_unpacked_loop enc mem field p
      (fun i => regular_unpacked_element enc mem (array_element field p i)
        (p + i * field.data_size) hds hmem hE hB) count 0
    rw [array_element_zero hp] at hU
    refine regular_congr (fun s => ?_) (regular_mono hU (by omega))
    unfold encode_array
    rw [hcount]
    dsimp only
    rw [if_neg h0, if_neg hmax, if_neg hpack]
theorem advance_pData (f : usr_pb_field_iter_t) (q : Option Nat) :
    advance_iterator { f with pData := q } = { advance_iterator f with pData := q } := by
  unfold advance_iterator
  dsimp only
  split_ifs <;> rfl

theorem load_pData (mem : List usr_pb_byte_t) (g : usr_pb_field_iter_t) (q : Option Nat)
    (hi : g.index < g.descriptor.field_count) (hm : g.message.isSome = true) :
    load_descriptor_values mem { g with pData := q } = load_descriptor_values mem g := by
  obtain ⟨m, hm⟩ := Option.isSome_iff_exists.mp hm
  have hi' : ¬ g.index ≥ g.descriptor.field_count := by omega
  unfold load_descriptor_values
  dsimp only
  rw [if_neg hi', if_neg hi', hm]

theorem advance_message (f : usr_pb_field_iter_t) :
    (advance_iterator f).message = f.message := by
  unfold advance_iterator
  dsimp only
  split_ifs <;> rfl

/-- The iterator after `usr_pb_field_iter_next` does not depend on `pData` of
the iterator before, which `encode_array` advances. -/
theorem next_pData (mem : List usr_pb_byte_t) (f : usr_pb_field_iter_t) (q : Option Nat)
    (h0 : 0 < f.descriptor.field_count) (hm : f.message.isSome = true) :
    usr_pb_field_iter_next mem { f with pData := q } = usr_pb_field_iter_next mem f := by
  unfold usr_pb_field_iter_next
  rw [advance_pData, load_pData mem (advance_iterator f) q
    (by rw [advance_descriptor]; exact advance_index_lt f h0)
    (by rw [advance_message]; exact hm)]

theorem packed_loop_iter (mem : List usr_pb_byte_t) :
    ∀ (n : Nat) (s : usr_pb_ostream_t) (f : usr_pb_field_iter_t) (r :
      usr_pb_ostream_t × usr_pb_field_iter_t × Bool),
      encode_array_packed_loop mem n s f = some r → ∃ q, r.2.1 = { f with pData := q } := by
  intro n
  induction n with
  | zero =>
    intro s f r h
    simp only [encode_array_packed_loop, Option.some.injEq] at h
    exact ⟨f.pData, by rw [← h]⟩
  | succ n ih =>
    intro s f r h
    rw [encode_array_packed_loop] at h
    rcases he : encode_packed_element mem s f with _ | ⟨s1, _ | _⟩
    · rw [he] at h; simp at h
    · rw [he] at h
      simp only [Option.some.injEq] at h
      exact ⟨f.pData, by rw [← h]⟩
    · rw [he] at h
      dsimp only at h
      rcases hp : f.pData with _ | p
      · rw [hp] at h; simp at h
      · rw [hp] at h
        obtain ⟨q, hq⟩ := ih _ _ r h
        exact ⟨q, hq⟩

theorem unpacked_loop_iter (enc : encode_fn) (mem : List usr_pb_byte_t) :
    ∀ (n : Nat) (s : usr_pb_ostream_t) (f : usr_pb_field_iter_t) (r :
      usr_pb_ostream_t × usr_pb_field_iter_t × Bool),
      encode_array_unpacked_loop enc mem n s f = some r →
        ∃ q, r.2.1 = { f with pData := q } := by
  intro n
  induction n with
  | zero =>
    intro s f r h
    simp only [encode_array_unpacked_loop, Option.some.injEq] at h
    exact ⟨f.pData, by rw [← h]⟩
  | succ n ih =>
    intro s f r h
    rw [encode_array_unpacked_loop] at h
    rcases hp : f.pData with _ | p
    · rw [hp] at h; simp at h
    · rw [hp] at h
      dsimp only at h
      rcases he : encode_unpacked_element enc mem s f p with _ | ⟨s1, _ | _⟩
      · rw [he] at h; simp at h
      · rw [he] at h
        simp only [Option.some.injEq] at h
        exact ⟨f.pData, by rw [← h]⟩
      · rw [he] at h
        dsimp only at h
        obtain ⟨q, hq⟩ := ih _ _ r h
        exact ⟨q, hq⟩

theorem encode_array_iter (enc : encode_fn) (mem : List usr_pb_byte_t)
    (s : usr_pb_ostream_t) (f : usr_pb_field_iter_t)
    (r : usr_pb_ostream_t × usr_pb_field_iter_t × Bool)
    (h : encode_array enc mem s f = some r) : ∃ q, r.2.1 = { f with pData := q } := by
  unfold encode_array at h
  repeat' (first | split_ifs at h | dsimp only at h | split at h)
  all_goals first
    | (simp only [Option.some.injEq] at h; exact ⟨f.pData, by rw [← h]⟩)
    | exact packed_loop_iter mem _ _ _ r h
    | exact unpacked_loop_iter enc mem _ _ _ r h
    | simp at h

theorem encode_field_iter (enc : encode_fn) (check : check_default_fn)
    (mem : List usr_pb_byte_t) (s : usr_pb_ostream_t) (f : usr_pb_field_iter_t)
    (r : usr_pb_ostream_t × usr_pb_field_iter_t × Bool)
    (h : encode_field enc check mem s f = some r) : ∃ q, r.2.1 = { f with pData := q } := by
  unfold encode_field at h
  dsimp only at h
  split at h
  · simp at h
  · simp only [Option.some.injEq] at h
    exact ⟨f.pData, by rw [← h]⟩
  · split_ifs at h
    · simp only [Option.some.injEq] at h
      exact ⟨f.pData, by rw [← h]⟩
    · simp only [Option.some.injEq] at h
      exact ⟨f.pData, by rw [← h]⟩
    · simp only [Option.map_eq_some'] at h
      obtain ⟨a, _, ha⟩ := h
      exact ⟨f.pData, by rw [← ha]⟩
    · exact encode_array_iter enc mem s f r h
    · simp only [Option.map_eq_some'] at h
      obtain ⟨a, _, ha⟩ := h
      exact ⟨f.pData, by rw [← ha]⟩
theorem regular_callback_field {B : Nat} (field : usr_pb_field_iter_t) :
    regular B (fun s => drop_iter
      (Option.map (fun r => (r.1, field, r.2)) (encode_callback_field s field))) := by
  unfold encode_callback_field
  split_ifs
  · exact regular_none (fun s => rfl)
  · exact regular_of_emits (emits_skip (fun s => rfl)) (Nat.zero_le _)

theorem regular_encode_field {B : Nat} (enc : encode_fn) (check : check_default_fn)
    (mem : List usr_pb_byte_t) (field : usr_pb_field_iter_t)
    (hds : field.data_size < 65536) (has : field.array_size < 65536)
    (hmem : mem.length < 2 ^ 63)
    (hE : ∀ d, field.submsg_desc = some d → ∀ src, regular B (fun s => enc s d src))
    (hB : B < 2 ^ 63) (hok : fixed_size_ok field = true) :
    regular (20 + (if usr_PB_HTYPE field.type = usr_PB_HTYPE_REPEATED then
        array_max_count field else 1) * (65555 + mem.length + B))
      (fun s => drop_iter (encode_field enc check mem s field)) := by
  obtain ⟨Bf, hBf⟩ : ∃ Bf, Bf = 20 + (if usr_PB_HTYPE field.type = usr_PB_HTYPE_REPEATED then
    array_max_count field else 1) * (65555 + mem.length + B) := ⟨_, rfl⟩
  rw [← hBf]
  have harr : usr_PB_HTYPE field.type = usr_PB_HTYPE_REPEATED → ∀ p, field.pData = some p →
      regular Bf (fun s => drop_iter (encode_array enc mem s field)) := by
    intro c p hp
    rw [hBf, if_pos c]
    exact regular_encode_array enc mem field p hp hds has hmem hE hB hok
  have hbasic : ¬ usr_PB_HTYPE field.type = usr_PB_HTYPE_REPEATED →
      regular Bf (fun s => drop_iter
        (Option.map (fun r => (r.1, field, r.2)) (encode_basic_field enc mem s field))) := by
    intro c
    refine regular_congr (fun s => ?_) (regular_mono
      (regular_encode_basic_field enc mem field hds hmem (fun d hd => hE d hd _) hB) ?_)
    · rcases encode_basic_field enc mem s field with _ | ⟨s1, b⟩ <;> rfl
    · rw [hBf, if_neg c]
      omega
  unfold encode_field
  dsimp only
  split
  · exact regular_none (fun s => rfl)
  · exact regular_of_emits (emits_skip (fun s => rfl)) (Nat.zero_le _)
  · rcases hp : field.pData with _ | p
    · simp only [Option.isNone_none, if_true]
      split_ifs
      · exact regular_fail (fun s => ⟨_, rfl⟩)
      · exact regular_of_emits (emits_skip (fun s => rfl)) (Nat.zero_le _)
    · simp only [Option.isNone_some, Bool.false_eq_true, if_false]
      split_ifs with c1 c2
      · exact regular_callback_field field
      · exact harr c2 p hp
      · exact hbasic c2
/-! ## Stream independence of `usr_pb_encode` -/

/-- The values that `load_descriptor_values` reads from the descriptor alone. -/
theorem load_static (m1 m2 : List usr_pb_byte_t) {a b : usr_pb_field_iter_t}
    (h : same_pos a b) (hi : a.index < a.descriptor.field_count) :
    (load_descriptor_values m1 a).1.type = (load_descriptor_values m2 b).1.type ∧
    (load_descriptor_values m1 a).1.data_size = (load_descriptor_values m2 b).1.data_size ∧
    (load_descriptor_values m1 a).1.array_size = (load_descriptor_values m2 b).1.array_size ∧
    (load_descriptor_values m1 a).1.submsg_desc = (load_descriptor_values m2 b).1.submsg_desc ∧
    (load_descriptor_values m1 a).1.data_size < 65536 ∧
    (load_descriptor_values m1 a).1.array_size < 65536 := by
  obtain ⟨h1, h2, h3, h4, h5⟩ := h
  have hi2 : b.index < b.descriptor.field_count := by rw [← h1, ← h2]; exact hi
  have ha : ¬ a.index ≥ a.descriptor.field_count := by omega
  have hb : ¬ b.index ≥ b.descriptor.field_count := by omega
  unfold load_descriptor_values
  dsimp only
  rw [if_neg ha, if_neg hb]
  dsimp only
  rw [h1, h3, h5]
  refine ⟨rfl, rfl, rfl, rfl, ?_, ?_⟩
  · split_ifs <;> dsimp only <;> unfold toPbSize <;> omega
  · split_ifs <;> dsimp only <;> first | omega | (unfold toPbSize; omega)

theorem load_message (m : List usr_pb_byte_t) (a : usr_pb_field_iter_t) :
    (load_descriptor_values m a).1.message = a.message := by
  unfold load_descriptor_values
  dsimp only
  by_cases hi : a.index ≥ a.descriptor.field_count
  · rw [if_pos hi]
  · rw [if_neg hi]

theorem load_pData_none (m : List usr_pb_byte_t) (a : usr_pb_field_iter_t)
    (hm : a.message = none) (hp : a.pData = none) :
    (load_descriptor_values m a).1.pData = none := by
  unfold load_descriptor_values
  dsimp only
  by_cases hi : a.index ≥ a.descriptor.field_count
  · rw [if_pos hi]
    exact hp
  · rw [if_neg hi]
    dsimp only
    rw [hm]
    exact hp

theorem advance_pData_eq (a : usr_pb_field_iter_t) :
    (advance_iterator a).pData = a.pData := by
  unfold advance_iterator
  dsimp only
  split_ifs <;> rfl

theorem field_at_message (mem : List usr_pb_byte_t) (desc : usr_pb_msgdesc_t)
    (message : Option Nat) (n : Nat) : (field_at mem desc message n).message = message := by
  induction n with
  | zero =>
    unfold field_at usr_pb_field_iter_begin
    rw [load_message]
  | succ n ih =>
    unfold field_at usr_pb_field_iter_next
    dsimp only
    rw [load_message, advance_message, ih]

theorem field_at_pData_none (mem : List usr_pb_byte_t) (desc : usr_pb_msgdesc_t) (n : Nat) :
    (field_at mem desc none n).pData = none := by
  induction n with
  | zero =>
    unfold field_at usr_pb_field_iter_begin
    exact load_pData_none _ _ rfl rfl
  | succ n ih =>
    unfold field_at usr_pb_field_iter_next
    dsimp only
    exact load_pData_none _ _ (by rw [advance_message, field_at_message])
      (by rw [advance_pData_eq, ih])

theorem field_at_same_pos (m1 m2 : List usr_pb_byte_t) (desc : usr_pb_msgdesc_t)
    (s1 s2 : Option Nat) (n : Nat) :
    same_pos (field_at m1 desc s1 n) (field_at m2 desc s2 n) := by
  induction n with
  | zero =>
    unfold field_at usr_pb_field_iter_begin
    exact same_pos_trans (load_same_pos _ _)
      (same_pos_trans ⟨rfl, rfl, rfl, rfl, rfl⟩ (same_pos_symm (load_same_pos _ _)))
  | succ n ih =>
    exact same_pos_trans (field_at_succ_pos m1 desc s1 n)
      (same_pos_trans (advance_congr ih) (same_pos_symm (field_at_succ_pos m2 desc s2 n)))

/-- The type, sizes and submessage descriptor of a field do not depend on the
message. -/
theorem field_at_static (m1 m2 : List usr_pb_byte_t) (desc : usr_pb_msgdesc_t)
    (s1 s2 : Option Nat) (hfc : desc.field_count < 65536) (n : Nat)
    (hn : n < desc.field_count) :
    (field_at m1 desc s1 n).type = (field_at m2 desc s2 n).type ∧
    (field_at m1 desc s1 n).data_size = (field_at m2 desc s2 n).data_size ∧
    (field_at m1 desc s1 n).array_size = (field_at m2 desc s2 n).array_size ∧
    (field_at m1 desc s1 n).submsg_desc = (field_at m2 desc s2 n).submsg_desc ∧
    (field_at m1 desc s1 n).data_size < 65536 ∧
    (field_at m1 desc s1 n).array_size < 65536 := by
  cases n with
  | zero =>
    unfold field_at usr_pb_field_iter_begin
    exact load_static m1 m2 ⟨rfl, rfl, rfl, rfl, rfl⟩ hn
  | succ k =>
    have hp := advance_congr (field_at_same_pos m1 m2 desc s1 s2 k)
    have hi : (advance_iterator (field_at m1 desc s1 k)).index <
        (advance_iterator (field_at m1 desc s1 k)).descriptor.field_count := by
      have h1 := (field_at_succ_pos m1 desc s1 k)
      rw [← h1.2.1, ← h1.1, field_at_index m1 desc s1 hfc (k + 1) hn, field_at_descriptor]
      exact hn
    exact load_static m1 m2 hp hi
theorem encode_field_pData_none (enc : encode_fn) (check : check_default_fn)
    (mem : List usr_pb_byte_t) (s : usr_pb_ostream_t) (f : usr_pb_field_iter_t)
    (r : usr_pb_ostream_t × usr_pb_field_iter_t × Bool) (hp : f.pData = none)
    (h : encode_field enc check mem s f = some r) : r.2.1 = f := by
  unfold encode_field at h
  dsimp only at h
  split at h
  · simp at h
  · simp only [Option.some.injEq] at h
    rw [← h]
  · rw [hp] at h
    simp only [Option.isNone_none, if_true] at h
    split_ifs at h
    · simp only [Option.some.injEq] at h
      rw [← h]
    · simp only [Option.some.injEq] at h
      rw [← h]

/-- One round of the loop of `usr_pb_encode`: the encoding of the field that
the iterator is on. -/
theorem encode_loop_step_next (enc : encode_fn) (check : check_default_fn)
    (mem : List usr_pb_byte_t) (d : usr_pb_msgdesc_t) (src : Option Nat)
    (h0 : 0 < d.field_count) (k : Nat) (s : usr_pb_ostream_t)
    (r : usr_pb_ostream_t × usr_pb_field_iter_t × Bool)
    (h : encode_field enc check mem s (field_at mem d src k) = some r) :
    usr_pb_field_iter_next mem r.2.1 = usr_pb_field_iter_next mem (field_at mem d src k) := by
  rcases hs : src with _ | m
  · rw [hs] at h
    rw [encode_field_pData_none enc check mem s _ r (field_at_pData_none mem d k) h]
  · obtain ⟨q, hq⟩ := encode_field_iter enc check mem s _ r h
    rw [hq, hs]
    exact next_pData mem _ q (by rw [field_at_descriptor]; exact h0)
      (by rw [field_at_message]; rfl)

/-- The encoding of the field that the iterator is on, in the loop of
`usr_pb_encode`. -/
theorem encode_loop_succ (enc : encode_fn) (check : check_default_fn)
    (mem : List usr_pb_byte_t) (d : usr_pb_msgdesc_t) (src : Option Nat)
    (hfc : d.field_count < 65536) (k fuel : Nat) (hk : k < d.field_count)
    (s : usr_pb_ostream_t) :
    encode_loop enc check mem (fuel + 1) s (field_at mem d src k) =
      match drop_iter (if usr_PB_LTYPE (field_at mem d src k).type = usr_PB_LTYPE_EXTENSION then
          (encode_extension_field mem s (field_at mem d src k)).map
            (fun r => (r.1, field_at mem d src k, r.2))
        else encode_field enc check mem s (field_at mem d src k)) with
      | none => none
      | some (s1, false) => some (s1, false)
      | some (s1, true) =>
        if k + 1 = d.field_count then some (s1, true)
        else encode_loop enc check mem fuel s1 (field_at mem d src (k + 1)) := by
  have hnext : (usr_pb_field_iter_next mem (field_at mem d src k)).1 =
      field_at mem d src (k + 1) := rfl
  have hn2 : (usr_pb_field_iter_next mem (field_at mem d src k)).2 =
      decide ((field_at mem d src (k + 1)).index ≠ 0) := rfl
  have hlast : (usr_pb_field_iter_next mem (field_at mem d src k)).2 =
      decide (¬ k + 1 = d.field_count) := by
    rw [hn2]
    by_cases hl : k + 1 = d.field_count
    · rw [field_at_wrap mem d src hfc k hl]
      simp [hl]
    · rw [field_at_index mem d src hfc (k + 1) (by omega)]
      simp [hl]
  rw [encode_loop]
  dsimp only
  by_cases hx : usr_PB_LTYPE (field_at mem d src k).type = usr_PB_LTYPE_EXTENSION
  · rw [if_pos hx]
    rcases encode_extension_field mem s (field_at mem d src k) with _ | ⟨s1, _ | _⟩
    · rfl
    · rfl
    · simp only [Option.map_some', drop_iter]
      rw [hlast, hnext]
      by_cases hl : k + 1 = d.field_count <;> simp [hl]
  · rw [if_neg hx]
    rcases hr : encode_field enc check mem s (field_at mem d src k) with _ | ⟨s1, f1, _ | _⟩
    · rfl
    · rfl
    · have := encode_loop_step_next enc check mem d src (by omega) k s _ hr
      dsimp only at this
      simp only [drop_iter, Option.map_some']
      rw [this, hlast, hnext]
      by_cases hl : k + 1 = d.field_count <;> simp [hl]

theorem enc_result_match_id (r : enc_result) :
    (match r with
      | none => none
      | some (s1, false) => some (s1, false)
      | some (s1, true) => some (s1, true)) = r := by
  rcases r with _ | ⟨s1, _ | _⟩ <;> rfl

theorem regular_encode_loop (enc : encode_fn) (check : check_default_fn)
    (mem : List usr_pb_byte_t) (d : usr_pb_msgdesc_t) (src : Option Nat)
    (hfc : d.field_count < 65536) (Bs : Nat → Nat)
    (hstep : ∀ i, i < d.field_count → regular (Bs i) (fun s =>
      drop_iter (if usr_PB_LTYPE (field_at mem d src i).type = usr_PB_LTYPE_EXTENSION then
          (encode_extension_field mem s (field_at mem d src i)).map
            (fun r => (r.1, field_at mem d src i, r.2))
        else encode_field enc check mem s (field_at mem d src i)))) :
    ∀ (j k fuel : Nat), k + j = d.field_count → 1 ≤ j → j ≤ fuel →
      regular (((List.range j).map (fun i => Bs (k + i))).sum)
        (fun s => encode_loop enc check mem fuel s (field_at mem d src k)) := by
  intro j
  induction j with
  | zero => intro k fuel _ h; omega
  | succ j ih =>
    intro k fuel hk hj hfuel
    obtain ⟨fuel', rfl⟩ : ∃ f, fuel = f + 1 := ⟨fuel - 1, by omega⟩
    have hsum : ((List.range (j + 1)).map (fun i => Bs (k + i))).sum =
        Bs k + ((List.range j).map (fun i => Bs (k + 1 + i))).sum := by
      rw [List.range_succ_eq_map, List.map_cons, List.sum_cons, List.map_map]
      have : ((fun i => Bs (k + i)) ∘ Nat.succ) = (fun i => Bs (k + 1 + i)) := by
        funext i
        simp only [Function.comp]
        congr 1
        omega
      rw [this]
      rfl
    rw [hsum]
    by_cases hl : k + 1 = d.field_count
    · have hj0 : j = 0 := by omega
      subst hj0
      refine regular_congr (fun s => encode_loop_succ enc check mem d src hfc k fuel'
        (by omega) s) ?_
      simp only [if_pos hl]
      refine regular_mono (regular_congr (fun s => ?_) (hstep k (by omega))) (by omega)
      exact enc_result_match_id _
    · refine regular_congr (fun s => encode_loop_succ enc check mem d src hfc k fuel'
        (by omega) s) ?_
      simp only [if_neg hl]
      exact regular_seq (hstep k (by omega)) (ih (k + 1) fuel' (by omega) (by omega) (by omega))
/-! ## Stream independence of the whole encoder -/

theorem regular_extension_field {B : Nat} (mem : List usr_pb_byte_t)
    (field : usr_pb_field_iter_t) :
    regular B (fun s => drop_iter
      ((encode_extension_field mem s field).map (fun r => (r.1, field, r.2)))) := by
  unfold encode_extension_field
  rcases field.pData with _ | p
  · exact regular_none (fun s => rfl)
  · dsimp only
    split_ifs
    · exact regular_of_emits (emits_skip (fun s => rfl)) (Nat.zero_le _)
    · exact regular_none (fun s => rfl)

theorem begin_false (mem : List usr_pb_byte_t) (d : usr_pb_msgdesc_t) (src : Option Nat)
    (h : d.field_count = 0) : (usr_pb_field_iter_begin mem d src).2 = false := by
  unfold usr_pb_field_iter_begin load_descriptor_values
  dsimp only
  rw [if_pos (by omega)]

theorem descriptor_ok_field {fuel : Nat} {d : usr_pb_msgdesc_t}
    (h : descriptor_ok (fuel + 1) d = true) :
    d.field_count < 65536 ∧ ∀ i, i < d.field_count →
      fixed_size_ok (field_at [] d none i) = true ∧
      ∀ sd, (field_at [] d none i).submsg_desc = some sd → descriptor_ok fuel sd = true := by
  rw [descriptor_ok] at h
  simp only [Bool.and_eq_true, decide_eq_true_eq, List.all_eq_true, List.mem_range] at h
  refine ⟨h.1, fun i hi => ⟨(h.2 i hi).1, fun sd hsd => ?_⟩⟩
  have := (h.2 i hi).2
  rw [hsd] at this
  exact this

theorem size_bound_field (memlen fuel : Nat) (d : usr_pb_msgdesc_t) (i : Nat)
    (hi : i < d.field_count) :
    field_size_bound memlen (size_bound memlen fuel) (field_at [] d none i) ≤
      size_bound memlen (fuel + 1) d := by
  rw [size_bound]
  exact List.single_le_sum (fun _ _ => Nat.zero_le _) _
    (List.mem_map.mpr ⟨i, List.mem_range.mpr hi, rfl⟩)

theorem field_size_bound_sub (memlen : Nat) (sub : usr_pb_msgdesc_t → Nat)
    (field : usr_pb_field_iter_t) (sd : usr_pb_msgdesc_t)
    (h : field.submsg_desc = some sd) : sub sd ≤ field_size_bound memlen sub field := by
  unfold field_size_bound
  rw [h]
  dsimp only
  have h1 : 1 ≤ max 1 (if usr_PB_HTYPE field.type = usr_PB_HTYPE_REPEATED then
      array_max_count field else 1) := Nat.le_max_left _ _
  have := Nat.mul_le_mul_right (65555 + memlen + sub sd) h1
  omega
/-- Stream independence of `usr_pb_encode`: for a descriptor that the
generator emits and whose size bound is below `2 ^ 63`, the encoder either
emits a fixed byte string or succeeds on no valid stream. -/
theorem regular_encode_fns (mem : List usr_pb_byte_t) (hmem : mem.length < 2 ^ 63) :
    ∀ (fuel : Nat) (fields : usr_pb_msgdesc_t) (src : Option Nat),
      descriptor_ok fuel fields = true → size_bound mem.length fuel fields < 2 ^ 63 →
      regular (size_bound mem.length fuel fields)
        (fun s => encode_fns mem fuel s fields src) := by
  intro fuel
  induction fuel with
  | zero =>
    intro fields src h
    simp [descriptor_ok] at h
  | succ fuel ih =>
    intro fields src hok hsz
    obtain ⟨hfc, hfields⟩ := descriptor_ok_field hok
    show regular _ (fun s => encode_body (encode_fns mem fuel)
      (check_default_fns mem (fuel + 1)) mem s fields src)
    unfold encode_body
    dsimp only
    by_cases hb : (usr_pb_field_iter_begin mem fields src).2 = false
    · simp only [hb, if_true]
      exact regular_of_emits (emits_skip (fun s => rfl)) (Nat.zero_le _)
    · simp only [hb, if_false]
      have h0 : 0 < fields.field_count := by
        by_contra h
        exact hb (begin_false mem fields src (by omega))
      have hloop := regular_encode_loop (encode_fns mem fuel) (check_default_fns mem (fuel + 1))
        mem fields src hfc
        (fun i => field_size_bound mem.length (size_bound mem.length fuel)
          (field_at [] fields none i))
        (fun i hi => by
          obtain ⟨ht, hds, has, hsd, hdl, hal⟩ :=
            field_at_static mem [] fields src none hfc i hi
          by_cases hx : usr_PB_LTYPE (field_at mem fields src i).type = usr_PB_LTYPE_EXTENSION
          · simp only [if_pos hx]
            exact regular_extension_field mem _
          · simp only [if_neg hx]
            have hle := size_bound_field mem.length fuel fields i hi
            have hB : (match (field_at [] fields none i).submsg_desc with
                | none => 0
                | some d => size_bound mem.length fuel d) < 2 ^ 63 := by
              rcases hs : (field_at [] fields none i).submsg_desc with _ | sd
              · norm_num
              · have := field_size_bound_sub mem.length (size_bound mem.length fuel) _ sd hs
                dsimp only
                omega
            have hfok : fixed_size_ok (field_at mem fields src i) = true := by
              have := (hfields i hi).1
              unfold fixed_size_ok at this ⊢
              rw [ht, hds]
              exact this
            refine regular_mono (regular_encode_field (encode_fns mem fuel)
              (check_default_fns mem (fuel + 1)) mem (field_at mem fields src i) hdl hal hmem
              (fun d hd src' => ?_) hB hfok) ?_
            · rw [hsd] at hd
              rw [hd]
              dsimp only
              refine ih d src' ((hfields i hi).2 d hd) ?_
              have := field_size_bound_sub mem.length (size_bound mem.length fuel) _ d hd
              omega
            · unfold field_size_bound
              rw [← ht]
              have har : array_max_count (field_at [] fields none i) =
                  array_max_count (field_at mem fields src i) := by
                unfold array_max_count
                rw [ht, has]
              rw [har]
              exact Nat.add_le_add_left
                (Nat.mul_le_mul_right _ (Nat.le_max_right _ _)) _)
        fields.field_count 0 (fields.field_count + 1) (by omega) h0 (by omega)
      simp only [Nat.zero_add] at hloop
      rw [size_bound]
      exact hloop
/-! ## The sizing stream -/

/-- The encoder `usr_pb_encode` of a descriptor that the generator emits and
whose size bound is below `2 ^ 63` is stream independent. -/
theorem regular_usr_pb_encode (mem : List usr_pb_byte_t) (fields : usr_pb_msgdesc_t)
    (src : Option Nat) (hmem : mem.length < 2 ^ 63)
    (hok : descriptor_ok fields.depth fields = true)
    (hsz : size_bound mem.length fields.depth fields < 2 ^ 63) :
    regular (size_bound mem.length fields.depth fields)
      (fun s => usr_pb_encode mem s fields src) :=
  regular_encode_fns mem hmem fields.depth fields src hok hsz

/-- A regular encoder function that succeeds on the sizing stream emits as
many bytes as the sizing stream counts. -/
theorem emits_of_sizing {B : Nat} {F : usr_pb_ostream_t → enc_result} (h : regular B F)
    (hB : B < 2 ^ 63) {t : usr_pb_ostream_t} (ht : F usr_PB_OSTREAM_SIZING = some (t, true)) :
    ∃ bs, bs.length = t.bytes_written ∧ bs.length < 2 ^ 63 ∧ emits F bs := by
  obtain ⟨bs, hl, hbs⟩ := regular_success h sizing_valid ht
  obtain ⟨t', ht', hb⟩ := emits_sizing hbs (by omega)
  rw [ht] at ht'
  simp only [Option.some.injEq, Prod.mk.injEq, and_true] at ht'
  rw [ht']
  exact ⟨bs, hb.symm, by omega, hbs⟩

/-- The stream after a write to a buffer stream. -/
theorem ostream_after_buffer (s : usr_pb_ostream_t) (bs : List usr_pb_byte_t)
    (e : Option String) (hc : s.callback = true) :
    ostream_after s bs e =
      { s with state := s.state ++ bs, bytes_written := s.bytes_written + bs.length,
               errmsg := e } := by
  unfold ostream_after
  rw [if_pos hc]
/-- Failure of `usr_pb_write` on a buffer stream without room. -/
theorem write_full (s : usr_pb_ostream_t) (buf : List usr_pb_byte_t) (count : Nat)
    (hc : s.callback = true) (h0 : 0 < count) (hcount : count < 2 ^ 63)
    (hv : valid_ostream s) (hfull : s.bytes_written + count > s.max_size) :
    usr_pb_write s buf count = (ostream_set_error s "stream full", false) := by
  have h1 := hv.2 hc
  unfold usr_pb_write
  rw [if_pos ⟨h0, hc⟩, if_pos]
  right
  rw [toSize_of_lt (by omega)]
  exact hfull

theorem varint_bytes_pos (v : Nat) : 0 < (varint_bytes v).length := by
  unfold varint_bytes
  split_ifs
  · simp
  · unfold encode_varint_32_buffer
    dsimp only
    split_ifs <;> simp

/-- The three outcomes of `usr_pb_encode_submessage` on a valid buffer stream,
for a message that `usr_pb_encode` emits as `body`. -/
theorem submessage_body_full (enc : encode_fn) (fields : usr_pb_msgdesc_t)
    (src : Option Nat) {body : List usr_pb_byte_t}
    (hE : emits (fun s => enc s fields src) body) (hl : body.length < 2 ^ 63)
    (s : usr_pb_ostream_t) (hc : s.callback = true) (hv : valid_ostream s)
    (he : s.errmsg = none)
    (hfull : s.bytes_written + ((varint_bytes body.length).length + body.length) >
      s.max_size) :
    ∃ s', encode_submessage_body enc s fields src = some (s', false) ∧
      s'.errmsg = some "stream full" := by
  obtain ⟨t, ht, htb⟩ := emits_sizing hE (by omega)
  have hvl := varint_bytes_length_le body.length
  have hvp := varint_bytes_pos body.length
  have h1 := hv.2 hc
  unfold encode_submessage_body
  rw [ht]
  dsimp only
  rw [htb, encode_varint_eq]
  by_cases hhead : s.bytes_written + (varint_bytes body.length).length ≤ s.max_size
  · rw [write_ok s _ hc hhead (by omega)]
    dsimp only
    rw [if_neg (by rw [hc]; simp), if_pos (by rw [toSize_of_lt (by omega)]; omega)]
    exact ⟨_, rfl, by simp [ostream_set_error, he]⟩
  · rw [write_full s _ _ hc hvp (by omega) hv (by omega)]
    exact ⟨_, rfl, by simp [ostream_set_error, he]⟩
/-! ## The elements of a packed array -/

theorem ltype_packable_cases {x : Nat} (h : usr_PB_LTYPE x ≤ usr_PB_LTYPE_LAST_PACKABLE) :
    usr_PB_LTYPE x = usr_PB_LTYPE_BOOL ∨ usr_PB_LTYPE x = usr_PB_LTYPE_VARINT ∨
    usr_PB_LTYPE x = usr_PB_LTYPE_UVARINT ∨ usr_PB_LTYPE x = usr_PB_LTYPE_SVARINT ∨
    usr_PB_LTYPE x = usr_PB_LTYPE_FIXED32 ∨ usr_PB_LTYPE x = usr_PB_LTYPE_FIXED64 := by
  unfold usr_PB_LTYPE_LAST_PACKABLE at h
  unfold usr_PB_LTYPE_BOOL usr_PB_LTYPE_VARINT usr_PB_LTYPE_UVARINT usr_PB_LTYPE_SVARINT
    usr_PB_LTYPE_FIXED32 usr_PB_LTYPE_FIXED64
  omega

theorem load_uint_one (mem : List usr_pb_byte_t) (p : Nat) :
    load_uint mem p 1 = (mem.getD p 0).val := by
  simp [load_uint, mem_read, le_value]

/-- For a stored `bool` of value 0 or 1, `usr_pb_enc_varint` writes what
`usr_pb_enc_bool` writes. -/
theorem enc_varint_bool (mem : List usr_pb_byte_t) (s : usr_pb_ostream_t)
    (f : usr_pb_field_iter_t) (q : Nat) (hl : usr_PB_LTYPE f.type = usr_PB_LTYPE_BOOL)
    (hds : f.data_size = 1) (hq : f.pData = some q) (hb : (mem.getD q 0).val ≤ 1) :
    usr_pb_enc_varint mem s f = usr_pb_enc_bool mem s f := by
  unfold usr_pb_enc_varint usr_pb_enc_bool safe_read_bool
  rw [hq, hds, hl, if_pos (Or.inl rfl)]
  dsimp only
  rw [if_neg (by decide), if_neg (by decide), load_uint_one]
  have h01 : (mem.getD q 0).val = 0 ∨ (mem.getD q 0).val = 1 := by omega
  rcases h01 with h | h
  · have hz : mem.getD q 0 = 0 := Fin.ext h
    rw [h, hz]
    simp [sign_extend, i64ToU64]
  · have hz : mem.getD q 0 ≠ 0 := by
      intro c
      rw [c] at h
      simp at h
    have hz' : mem[q]?.getD 0 ≠ 0 := by rwa [← List.getD_eq_getElem?_getD]
    rw [h]
    simp [sign_extend, i64ToU64, hz']

/-- The encoder of one packed element is the encoder of the value of a
singular field. -/
theorem packed_element_eq_field_value (enc : encode_fn) (mem : List usr_pb_byte_t)
    (s : usr_pb_ostream_t) (f : usr_pb_field_iter_t)
    (hpack : usr_PB_LTYPE f.type ≤ usr_PB_LTYPE_LAST_PACKABLE)
    (hbool : usr_PB_LTYPE f.type = usr_PB_LTYPE_BOOL →
      f.data_size = 1 ∧ ∃ q, f.pData = some q ∧ (mem.getD q 0).val ≤ 1) :
    encode_packed_element mem s f = encode_field_value enc mem s f := by
  unfold encode_packed_element encode_field_value
  dsimp only
  rcases ltype_packable_cases hpack with h | h | h | h | h | h
  · obtain ⟨hds, q, hq, hb⟩ := hbool h
    rw [if_neg (by rw [h]; decide), if_pos h]
    exact enc_varint_bool mem s f q h hds hq hb
  · rw [if_neg (by rw [h]; decide), if_neg (by rw [h]; decide), if_pos (Or.inl h)]
  · rw [if_neg (by rw [h]; decide), if_neg (by rw [h]; decide), if_pos (Or.inr (Or.inl h))]
  · rw [if_neg (by rw [h]; decide), if_neg (by rw [h]; decide),
      if_pos (Or.inr (Or.inr h))]
  · rw [if_pos (Or.inl h), if_neg (by rw [h]; decide), if_neg (by rw [h]; decide),
      if_pos (Or.inl h)]
  · rw [if_pos (Or.inr h), if_neg (by rw [h]; decide), if_neg (by rw [h]; decide),
      if_pos (Or.inr h)]

/-- A list of the byte strings that the members of a family of encoders
emit. -/
theorem exists_emitted_list (E : Nat → usr_pb_ostream_t → enc_result)
    (h : ∀ i, ∃ bs, emits (E i) bs) :
    ∀ (n k : Nat), ∃ elems : List (List usr_pb_byte_t), elems.length = n ∧
      ∀ i (hi : i < elems.length), emits (E (k + i)) (elems.get ⟨i, hi⟩) := by
  intro n
  induction n with
  | zero => intro k; exact ⟨[], rfl, fun i hi => absurd hi (by simp)⟩
  | succ n ih =>
    intro k
    obtain ⟨b, hb⟩ := h k
    obtain ⟨es, hlen, hes⟩ := ih (k + 1)
    refine ⟨b :: es, by simp [hlen], fun i hi => ?_⟩
    cases i with
    | zero => exact hb
    | succ j =>
      have := hes j (by simpa using hi)
      rw [show k + 1 + j = k + (j + 1) by omega] at this
      exact this

theorem emits_packed_element (mem : List usr_pb_byte_t) (field : usr_pb_field_iter_t)
    (p i : Nat)
    (h32 : usr_PB_LTYPE field.type = usr_PB_LTYPE_FIXED32 → field.data_size = 4)
    (h64 : usr_PB_LTYPE field.type = usr_PB_LTYPE_FIXED64 → field.data_size = 8)
    (hvar : usr_PB_LTYPE field.type ≠ usr_PB_LTYPE_FIXED32 →
      usr_PB_LTYPE field.type ≠ usr_PB_LTYPE_FIXED64 →
      field.data_size = 1 ∨ field.data_size = 2 ∨ field.data_size = 4 ∨ field.data_size = 8) :
    ∃ bs, emits (fun s => encode_packed_element mem s (array_element field p i)) bs := by
  by_cases hf : usr_PB_LTYPE field.type = usr_PB_LTYPE_FIXED32 ∨
      usr_PB_LTYPE field.type = usr_PB_LTYPE_FIXED64
  · have hok : fixed_size_ok field = true := by
      unfold fixed_size_ok
      simp only [Bool.and_eq_true, Bool.or_eq_true, bne_iff_ne, ne_eq, beq_iff_eq]
      exact ⟨by by_cases c : usr_PB_LTYPE field.type = usr_PB_LTYPE_FIXED32
                · exact Or.inr (h32 c)
                · exact Or.inl c,
             by by_cases c : usr_PB_LTYPE field.type = usr_PB_LTYPE_FIXED64
                · exact Or.inr (h64 c)
                · exact Or.inl c⟩
    obtain ⟨bs, _, hbs⟩ := emits_packed_element_fixed mem field p i hok hf
    exact ⟨bs, hbs⟩
  · have hds := hvar (fun c => hf (Or.inl c)) (fun c => hf (Or.inr c))
    have hE : ∀ s, encode_packed_element mem s (array_element field p i) =
        usr_pb_enc_varint mem s (array_element field p i) :=
      fun s => packed_element_varint
        (show ¬ (usr_PB_LTYPE (array_element field p i).type = usr_PB_LTYPE_FIXED32 ∨
          usr_PB_LTYPE (array_element field p i).type = usr_PB_LTYPE_FIXED64) from hf) mem s
    refine Exists.imp (fun bs h => emits_congr hE h) ?_
    have hd : (array_element field p i).data_size = field.data_size := rfl
    unfold usr_pb_enc_varint
    simp only [hd, if_pos hds, array_element_pData]
    split_ifs
    · exact ⟨_, emits_encode_varint _⟩
    · exact ⟨_, emits_congr (fun s => by rw [encode_svarint_eq]) (emits_encode_varint _)⟩
    · exact ⟨_, emits_encode_varint _⟩
/-! ## Skipping of fields -/

theorem read_one (x : usr_pb_byte_t) (l : List usr_pb_byte_t) (n : Nat) (e : Option String)
    (hn : 1 ≤ n) : usr_pb_read ⟨x :: l, n, e⟩ 1 = (⟨l, n - 1, e⟩, some [x]) := by
  have h2 : ¬ n < 1 := by omega
  simp [usr_pb_read, buf_read, h2]

theorem read_fail (s : usr_pb_istream_t) (count : Nat) (h : s.bytes_left < count) :
    (usr_pb_read s count).2 = none := by
  unfold usr_pb_read
  rw [if_neg (by omega), if_pos h]

/-- The loop of `usr_pb_skip_varint` passes over the bytes with the
continuation bit and over the first byte without it. -/
theorem skip_varint_loop_spec (b : usr_pb_byte_t) (rest : List usr_pb_byte_t)
    (e : Option String) (hb : b.val < 128) :
    ∀ (pre : List usr_pb_byte_t) (n fuel : Nat), (∀ x ∈ pre, 128 ≤ x.val) →
      pre.length + 1 ≤ n → pre.length + 1 ≤ fuel →
      skip_varint_loop fuel ⟨pre ++ b :: rest, n, e⟩ = (⟨rest, n - (pre.length + 1), e⟩, true) := by
  intro pre
  induction pre with
  | nil =>
    intro n fuel _ hn hf
    obtain ⟨f, rfl⟩ : ∃ f, fuel = f + 1 := ⟨fuel - 1, by omega⟩
    rw [skip_varint_loop]
    simp only [List.nil_append, List.length_nil, Nat.zero_add]
    rw [read_one b rest n e (by simpa using hn)]
    have : ¬ (b.val &&& 0x80 ≠ 0) := by
      rw [ne_eq, not_not]; exact (byte_and_80 b).mpr hb
    simp only [List.headD_cons, if_neg this]
  | cons x pre ih =>
    intro n fuel hall hn hf
    obtain ⟨f, rfl⟩ : ∃ f, fuel = f + 1 := ⟨fuel - 1, by omega⟩
    simp only [List.length_cons] at hn hf
    rw [skip_varint_loop]
    simp only [List.cons_append]
    rw [read_one x _ n e (by omega)]
    have hx : x.val &&& 0x80 ≠ 0 := by
      intro c
      have := (byte_and_80 x).mp c
      have := hall x (List.mem_cons_self _ _)
      omega
    simp only [List.headD_cons, if_pos hx]
    rw [ih (n - 1) f (fun y hy => hall y (List.mem_cons_of_mem _ hy)) (by omega) (by omega)]
    simp only [List.length_cons]
    congr 2
    omega

/-- The loop of `usr_pb_skip_varint` fails when the stream ends within the
bytes that have the continuation bit. -/
theorem skip_varint_loop_eof (rest : List usr_pb_byte_t) (e : Option String) :
    ∀ (pre : List usr_pb_byte_t) (fuel : Nat), (∀ x ∈ pre, 128 ≤ x.val) →
      (skip_varint_loop fuel ⟨pre ++ rest, pre.length, e⟩).2 = false := by
  intro pre
  induction pre with
  | nil =>
    intro fuel _
    cases fuel with
    | zero => rfl
    | succ f =>
      rw [skip_varint_loop]
      simp [usr_pb_read]
  | cons x pre ih =>
    intro fuel hall
    cases fuel with
    | zero => rfl
    | succ f =>
      rw [skip_varint_loop]
      simp only [List.cons_append, List.length_cons]
      rw [read_one x _ _ e (by omega)]
      have hx : x.val &&& 0x80 ≠ 0 := by
        intro c
        have := (byte_and_80 x).mp c
        have := hall x (List.mem_cons_self _ _)
        omega
      simp only [List.headD_cons, if_pos hx, Nat.add_sub_cancel]
      exact ih f (fun y hy => hall y (List.mem_cons_of_mem _ hy))
/-! ## Narrowing of integers -/

/-- Narrowing of a 64-bit signed value to `ds` bytes keeps it exactly if it is
representable in `ds` bytes. -/
theorem sign_extend_to_unsigned (ds : Nat)
    (hds : ds = 8 ∨ ds = 4 ∨ ds = 2 ∨ ds = 1) (sv : Int)
    (hlo : -2 ^ 63 ≤ sv) (hhi : sv < 2 ^ 63) :
    sign_extend ds (to_unsigned 8 sv) = sv ↔
      (-(2 ^ (8 * ds - 1) : Int) ≤ sv ∧ sv < 2 ^ (8 * ds - 1)) := by
  unfold sign_extend to_unsigned
  rcases hds with h | h | h | h <;> subst h <;> norm_num <;> split_ifs <;> omega
theorem sign_extend_4_range (v : Nat) :
    -2 ^ 31 ≤ sign_extend 4 v ∧ sign_extend 4 v < 2 ^ 31 := by
  unfold sign_extend
  norm_num
  split_ifs <;> omega

theorem sign_extend_4_mod (v w : Nat) (h : v % 2 ^ 32 = w % 2 ^ 32) :
    sign_extend 4 v = sign_extend 4 w := by
  have h' : v % 2 ^ (8 * 4) = w % 2 ^ (8 * 4) := h
  unfold sign_extend
  rw [h']

/-- The function `usr_pb_dec_varint` on a VARINT field that is not 8 bytes
wide. -/
theorem dec_varint_legacy (st : decode_state) (s' : usr_pb_istream_t) (p value : Nat)
    (hp : st.field.pData = some p)
    (hl : usr_PB_LTYPE st.field.type = usr_PB_LTYPE_VARINT)
    (hds : st.field.data_size = 4 ∨ st.field.data_size = 2 ∨ st.field.data_size = 1)
    (hdec : usr_pb_decode_varint st.stream = (s', some value)) :
    usr_pb_dec_varint st =
      if -(2 ^ (8 * st.field.data_size - 1) : Int) ≤ sign_extend 4 value ∧
          sign_extend 4 value < 2 ^ (8 * st.field.data_size - 1) then
        some (true, { st with
          stream := s',
          mem := store_uint st.mem p st.field.data_size
            (to_unsigned st.field.data_size (sign_extend 4 value)) })
      else
        some (false, { st with
          stream := istream_set_error s' "integer too large",
          mem := store_uint st.mem p st.field.data_size
            (to_unsigned st.field.data_size
              (sign_extend st.field.data_size (to_unsigned 8 (sign_extend 4 value)))) }) := by
  have hvu : ¬ usr_PB_LTYPE_VARINT = usr_PB_LTYPE_UVARINT := by decide
  have hvs : ¬ usr_PB_LTYPE_VARINT = usr_PB_LTYPE_SVARINT := by decide
  have hds' : st.field.data_size = 8 ∨ st.field.data_size = 4 ∨ st.field.data_size = 2 ∨
      st.field.data_size = 1 := Or.inr hds
  have h8 : ¬ st.field.data_size = 8 := by omega
  obtain ⟨hlo, hhi⟩ := sign_extend_4_range value
  have hiff := sign_extend_to_unsigned st.field.data_size hds' (sign_extend 4 value)
    (by omega) (by omega)
  unfold usr_pb_dec_varint
  rw [if_neg (by rw [hl]; exact hvu), if_neg (by rw [hl]; exact hvs), hdec]
  dsimp only
  rw [if_neg h8]
  dsimp only
  rw [if_pos hds', hp]
  dsimp only
  by_cases hr : -(2 ^ (8 * st.field.data_size - 1) : Int) ≤ sign_extend 4 value ∧
      sign_extend 4 value < 2 ^ (8 * st.field.data_size - 1)
  · rw [if_pos hr, if_neg (by rw [ne_eq, not_not]; exact hiff.mpr hr), hiff.mpr hr]
  · rw [if_neg hr, if_pos (fun c => hr (hiff.mp c))]
    rfl

theorem leb128_length_five (X : Nat) (h1 : 2 ^ 28 ≤ X) (h2 : X < 2 ^ 35) :
    (leb128 X).length = 5 := by
  rw [leb128_big X (by omega), leb128_big (X / 128) (by omega),
    leb128_big (X / 128 / 128) (by omega), leb128_big (X / 128 / 128 / 128) (by omega),
    leb128_small (X / 128 / 128 / 128 / 128) (by omega)]
  rfl
/-! ## Strings in the message memory -/

theorem mem_write_length (bs : List usr_pb_byte_t) :
    ∀ (mem : List usr_pb_byte_t) (a : Nat), (mem_write mem a bs).length = mem.length := by
  induction bs with
  | nil => intro mem a; rfl
  | cons b bs ih =>
    intro mem a
    unfold mem_write
    rw [ih, List.length_set]

theorem getD_set (mem : List usr_pb_byte_t) (a q : Nat) (b : usr_pb_byte_t) :
    (mem.set a b).getD q 0 = if a = q ∧ q < mem.length then b else mem.getD q 0 := by
  rw [List.getD_eq_getElem?_getD, List.getD_eq_getElem?_getD, List.getElem?_set]
  by_cases h : a = q
  · subst h
    by_cases h2 : a < mem.length
    · simp [h2]
    · simp only [h2, and_false, if_false]
      rw [List.getElem?_eq_none (by omega)]
      rfl
  · simp [h]

theorem getD_mem_write (bs : List usr_pb_byte_t) :
    ∀ (mem : List usr_pb_byte_t) (a q : Nat),
      (mem_write mem a bs).getD q 0 =
        if a ≤ q ∧ q < a + bs.length ∧ q < mem.length then bs.getD (q - a) 0
        else mem.getD q 0 := by
  induction bs with
  | nil =>
    intro mem a q
    have : ¬ (a ≤ q ∧ q < a + ([] : List usr_pb_byte_t).length ∧ q < mem.length) := by
      simp only [List.length_nil]; omega
    rw [if_neg this]; rfl
  | cons b bs ih =>
    intro mem a q
    unfold mem_write
    rw [ih, List.length_set, getD_set, List.length_cons]
    by_cases h3 : a + 1 ≤ q ∧ q < a + 1 + bs.length ∧ q < mem.length
    · rw [if_pos h3, if_pos ⟨by omega, by omega, h3.2.2⟩]
      have : q - a = (q - (a + 1)) + 1 := by omega
      rw [this]
      rfl
    · rw [if_neg h3]
      by_cases h1 : a = q ∧ q < mem.length
      · rw [if_pos h1, if_pos ⟨by omega, by omega, h1.2⟩]
        obtain ⟨h1, _⟩ := h1
        subst h1
        rw [Nat.sub_self]
        rfl
      · rw [if_neg h1, if_neg (by omega)]

theorem mem_read_eq_iff (mem : List usr_pb_byte_t) (a : Nat) (s : List usr_pb_byte_t) :
    mem_read mem a s.length = s ↔ ∀ i, i < s.length → mem.getD (a + i) 0 = s.getD i 0 := by
  constructor
  · intro h i hi
    have h2 : (mem_read mem a s.length).getD i 0 = s.getD i 0 := by rw [h]
    rw [← h2]
    unfold mem_read
    rw [List.getD_eq_getElem?_getD, List.getD_eq_getElem?_getD, List.getElem?_map,
      List.getElem?_range hi]
    simp
  · intro h
    apply List.ext_getElem
    · exact mem_read_length _ _ _
    · intro i h1 h2
      have := h i h2
      rw [List.getD_eq_getElem?_getD, List.getD_eq_getElem?_getD,
        List.getElem?_eq_getElem h2] at this
      unfold mem_read
      simp only [List.getElem_map, List.getElem_range]
      rw [List.getD_eq_getElem?_getD, this]
      rfl

theorem string_scan_eq (mem : List usr_pb_byte_t) (str max_size n : Nat)
    (hnz : ∀ i, i < n → mem.getD (str + i) 0 ≠ 0)
    (hend : n = max_size ∨ mem.getD (str + n) 0 = 0) (hn : n ≤ max_size) :
    ∀ (fuel size : Nat), size ≤ n → n ≤ size + fuel →
      string_scan mem str max_size fuel size = n := by
  intro fuel
  induction fuel with
  | zero =>
    intro size h1 h2
    unfold string_scan
    omega
  | succ fuel ih =>
    intro size h1 h2
    unfold string_scan
    by_cases h : size < n
    · rw [if_pos ⟨by omega, hnz size h⟩]
      exact ih (size + 1) (by omega) (by omega)
    · have hs : size = n := by omega
      subst hs
      rw [if_neg]
      rintro ⟨c1, c2⟩
      rcases hend with e | e
      · omega
      · exact c2 e
theorem terminated_string (mem : List usr_pb_byte_t) (p : Nat) (s : List usr_pb_byte_t)
    (hnul : ∀ b ∈ s, b ≠ 0) (hmem : mem_read mem p (s.length + 1) = s ++ [0]) :
    (∀ i, i < s.length → mem.getD (p + i) 0 ≠ 0) ∧ mem.getD (p + s.length) 0 = 0 ∧
      mem_read mem p s.length = s := by
  have hlen : (s ++ [(0 : usr_pb_byte_t)]).length = s.length + 1 := by simp
  rw [← hlen] at hmem
  have h := (mem_read_eq_iff mem p (s ++ [0])).mp hmem
  rw [hlen] at h
  have hs : ∀ i, i < s.length → mem.getD (p + i) 0 = s.getD i 0 := by
    intro i hi
    rw [h i (by omega), List.getD_eq_getElem?_getD, List.getD_eq_getElem?_getD,
      List.getElem?_append_left hi]
  refine ⟨fun i hi => ?_, ?_, (mem_read_eq_iff mem p s).mpr hs⟩
  · rw [hs i hi, List.getD_eq_getElem?_getD, List.getElem?_eq_getElem hi]
    exact hnul _ (List.getElem_mem hi)
  · rw [h s.length (by omega), List.getD_eq_getElem?_getD,
      List.getElem?_append_right (le_refl _), Nat.sub_self]
    rfl

theorem enc_string_static (mem : List usr_pb_byte_t) (field : usr_pb_field_iter_t) (p : Nat)
    (s : List usr_pb_byte_t) (stream : usr_pb_ostream_t)
    (hA : usr_PB_ATYPE field.type = usr_PB_ATYPE_STATIC) (hp : field.pData = some p)
    (hnul : ∀ b ∈ s, b ≠ 0) (hlen : s.length + 1 ≤ field.data_size)
    (hmem : mem_read mem p (s.length + 1) = s ++ [0]) :
    usr_pb_enc_string mem stream field = some (usr_pb_encode_string stream s s.length) := by
  obtain ⟨hnz, hz, hr⟩ := terminated_string mem p s hnul hmem
  have hscan := string_scan_eq mem p (field.data_size - 1) s.length hnz (Or.inr hz) (by omega)
    (field.data_size - 1) 0 (by omega) (by omega)
  unfold usr_pb_enc_string
  rw [hA, if_neg (by decide), if_neg (by omega), hp]
  dsimp only
  rw [hscan, if_neg (by rw [hz]; exact fun c => c rfl), hr]

theorem enc_string_unterminated (mem : List usr_pb_byte_t) (field : usr_pb_field_iter_t)
    (p : Nat) (stream : usr_pb_ostream_t)
    (hA : usr_PB_ATYPE field.type = usr_PB_ATYPE_STATIC) (hp : field.pData = some p)
    (hds : 1 ≤ field.data_size)
    (hnz : ∀ i, i < field.data_size → mem.getD (p + i) 0 ≠ 0) :
    usr_pb_enc_string mem stream field =
      some (ostream_set_error stream "unterminated string", false) := by
  have hscan := string_scan_eq mem p (field.data_size - 1) (field.data_size - 1)
    (fun i hi => hnz i (by omega)) (Or.inl rfl) (le_refl _)
    (field.data_size - 1) 0 (by omega) (by omega)
  unfold usr_pb_enc_string
  rw [hA, if_neg (by decide), if_neg (by omega), hp]
  dsimp only
  rw [hscan, if_pos (hnz _ (by omega))]
  rfl

theorem dec_string_overflow (st : decode_state) (s' : usr_pb_istream_t) (L : Nat)
    (hA : usr_PB_ATYPE st.field.type = usr_PB_ATYPE_STATIC)
    (hdec : usr_pb_decode_varint32 st.stream = (s', some L))
    (hL : L < 2 ^ 32 - 1) (hover : L + 1 > st.field.data_size) :
    usr_pb_dec_string st =
      some (false, { st with stream := istream_set_error s' "string overflow" }) := by
  have ha : toSize (toU32 (L + 1)) = L + 1 := by
    unfold toSize toU32
    omega
  unfold usr_pb_dec_string
  rw [hdec]
  dsimp only
  rw [if_neg (by omega), ha, if_neg (by omega), hA, if_neg (by decide), if_pos hover]
  rfl

theorem dec_string_too_large (st : decode_state) (s' : usr_pb_istream_t)
    (hdec : usr_pb_decode_varint32 st.stream = (s', some (2 ^ 32 - 1))) :
    usr_pb_dec_string st =
      some (false, { st with stream := istream_set_error s' "size too large" }) := by
  unfold usr_pb_dec_string
  rw [hdec]
  dsimp only
  rw [if_pos rfl]
  rfl

theorem dec_string_ok (st : decode_state) (p : Nat) (s rest : List usr_pb_byte_t) (n : Nat)
    (e : Option String)
    (hA : usr_PB_ATYPE st.field.type = usr_PB_ATYPE_STATIC) (hp : st.field.pData = some p)
    (hmax : st.field.data_size ≤ usr_PB_SIZE_MAX)
    (hlen : s.length + 1 ≤ st.field.data_size)
    (hstream : st.stream =
      ⟨leb128 s.length ++ s ++ rest, (leb128 s.length).length + s.length + n, e⟩) :
    usr_pb_dec_string st =
      some (true, { st with
        stream := ⟨rest, n, e⟩,
        mem := mem_write (store_uint st.mem (p + s.length) 1 0) p s }) := by
  have hmax' : st.field.data_size ≤ 65535 := hmax
  have hdec : usr_pb_decode_varint32 st.stream = (⟨s ++ rest, s.length + n, e⟩, some s.length) := by
    unfold usr_pb_decode_varint32
    rw [hstream, List.append_assoc,
      decode_varint32_eof_leb128 s.length (by omega) (s ++ rest) _ e (by omega)]
    dsimp only
    congr 2
    omega
  have ha : toSize (toU32 (s.length + 1)) = s.length + 1 := by
    unfold toSize toU32
    omega
  unfold usr_pb_dec_string
  rw [hdec]
  dsimp only
  rw [if_neg (by omega), ha, if_neg (by omega), hA, if_neg (by decide), if_neg (by omega), hp]
  dsimp only
  by_cases h0 : s.length = 0
  · have hs : s = [] := List.length_eq_zero.mp h0
    subst hs
    simp [usr_pb_read, mem_write]
  · rw [read_append s rest (s.length + n) e (by omega) (by omega)]
    dsimp only
    rw [Nat.add_sub_cancel_left]
theorem dec_string_memory (mem : List usr_pb_byte_t) (p : Nat) (s : List usr_pb_byte_t)
    (hfit : p + s.length + 1 ≤ mem.length) :
    mem_read (mem_write (store_uint mem (p + s.length) 1 0) p s) p (s.length + 1) = s ++ [0] ∧
    ∀ q, q < p ∨ p + s.length + 1 ≤ q →
      (mem_write (store_uint mem (p + s.length) 1 0) p s).getD q 0 = mem.getD q 0 := by
  have hst : store_uint mem (p + s.length) 1 0 = mem_write mem (p + s.length) [0] := rfl
  have hl1 : (mem_write mem (p + s.length) [0]).length = mem.length := mem_write_length _ _ _
  have hget : ∀ q, (mem_write (store_uint mem (p + s.length) 1 0) p s).getD q 0 =
      if p ≤ q ∧ q < p + s.length ∧ q < mem.length then s.getD (q - p) 0
      else if q = p + s.length then 0 else mem.getD q 0 := by
    intro q
    rw [hst, getD_mem_write, hl1, getD_mem_write]
    by_cases h1 : p ≤ q ∧ q < p + s.length ∧ q < mem.length
    · rw [if_pos h1, if_pos h1]
    · rw [if_neg h1, if_neg h1]
      by_cases h2 : q = p + s.length
      · rw [if_pos h2, if_pos ⟨by omega, by simp; omega, by omega⟩, h2, Nat.sub_self]
        rfl
      · rw [if_neg h2, if_neg (by simp; omega)]
  constructor
  · have hlen : (s ++ [(0 : usr_pb_byte_t)]).length = s.length + 1 := by simp
    rw [← hlen]
    refine (mem_read_eq_iff _ p (s ++ [0])).mpr (fun i hi => ?_)
    rw [hlen] at hi
    rw [hget]
    by_cases h : i < s.length
    · rw [if_pos ⟨by omega, by omega, by omega⟩, Nat.add_sub_cancel_left,
        List.getD_eq_getElem?_getD, List.getD_eq_getElem?_getD, List.getElem?_append_left h]
    · have hi2 : i = s.length := by omega
      subst hi2
      rw [if_neg (by omega), if_pos rfl, List.getD_eq_getElem?_getD,
        List.getElem?_append_right (le_refl _), Nat.sub_self]
      rfl
  · intro q hq
    rw [hget, if_neg (by omega), if_neg (by omega)]
/-! ## Field lookup -/

theorem field_iter_find_loop_true (mem : List usr_pb_byte_t) (tag start : Nat) :
    ∀ (fuel : Nat) (iter : usr_pb_field_iter_t),
      (field_iter_find_loop mem tag start fuel iter).2 = true →
      (field_iter_find_loop mem tag start fuel iter).1.tag = tag ∧
      usr_PB_LTYPE (field_iter_find_loop mem tag start fuel iter).1.type ≠
        usr_PB_LTYPE_EXTENSION := by
  intro fuel
  induction fuel with
  | zero =>
    intro iter h
    simp [field_iter_find_loop] at h
  | succ fuel ih =>
    intro iter
    unfold field_iter_find_loop
    dsimp only
    split_ifs with h1 h2 h3 h4 h5
    · intro _
      simpa using h2
    · exact ih _
    · intro h; simp at h
    · simp at h4
    · exact ih _
    · intro h; simp at h

/-- The result of `load_descriptor_values` is determined by the descriptor, the
position counters, the message pointer and, for a null message pointer, by
`pData`. -/
theorem load_eq (m : List usr_pb_byte_t) {a b : usr_pb_field_iter_t} (h : same_pos a b)
    (hm : a.message = b.message) (hp : a.message = none → a.pData = b.pData)
    (hi : a.index < a.descriptor.field_count) :
    (load_descriptor_values m a).1 = (load_descriptor_values m b).1 := by
  obtain ⟨h1, h2, h3, h4, h5⟩ := h
  have hi2 : b.index < b.descriptor.field_count := by rw [← h1, ← h2]; exact hi
  have ha : ¬ a.index ≥ a.descriptor.field_count := by omega
  have hb : ¬ b.index ≥ b.descriptor.field_count := by omega
  unfold load_descriptor_values
  dsimp only
  rw [if_neg ha, if_neg hb]
  dsimp only
  rw [← h1, ← h2, ← h3, ← h4, ← h5, ← hm]
  rcases hmsg : a.message with _ | msg
  · rw [hp hmsg]
  · rfl

theorem load_pData_keep (m : List usr_pb_byte_t) (a : usr_pb_field_iter_t)
    (hm : a.message = none) : (load_descriptor_values m a).1.pData = a.pData := by
  unfold load_descriptor_values
  dsimp only
  by_cases hi : a.index ≥ a.descriptor.field_count
  · rw [if_pos hi]
  · rw [if_neg hi]
    dsimp only
    rw [hm]

theorem load_idem (m : List usr_pb_byte_t) (a : usr_pb_field_iter_t) :
    (load_descriptor_values m (load_descriptor_values m a).1).1 =
      (load_descriptor_values m a).1 := by
  by_cases hi : a.index ≥ a.descriptor.field_count
  · have e : load_descriptor_values m a = (a, false) := by
      unfold load_descriptor_values
      rw [if_pos hi]
    rw [e]
    show (load_descriptor_values m a).1 = a
    rw [e]
  · have hp := load_same_pos m a
    refine load_eq m hp (load_message m a) (fun hm => ?_) ?_
    · rw [load_message] at hm
      exact load_pData_keep m a hm
    · rw [hp.1, hp.2.1]
      omega

theorem field_at_load (mem : List usr_pb_byte_t) (desc : usr_pb_msgdesc_t)
    (message : Option Nat) (n : Nat) :
    (load_descriptor_values mem (field_at mem desc message n)).1 =
      field_at mem desc message n := by
  cases n with
  | zero =>
    unfold field_at usr_pb_field_iter_begin
    exact load_idem _ _
  | succ n =>
    unfold field_at usr_pb_field_iter_next
    exact load_idem _ _

theorem at_pos_load_eq {mem : List usr_pb_byte_t} {desc : usr_pb_msgdesc_t}
    {message : Option Nat} {n : Nat} {it : usr_pb_field_iter_t}
    (hfc : desc.field_count < 65536) (hn : n < desc.field_count)
    (h : at_pos mem desc message n it) :
    (load_descriptor_values mem it).1 = field_at mem desc message n := by
  obtain ⟨hs, hm, hp⟩ := h
  rw [← field_at_load mem desc message n]
  refine load_eq mem hs (by rw [hm, field_at_message]) (fun hnone => ?_) ?_
  · rw [hm] at hnone
    subst hnone
    rw [hp rfl, field_at_pData_none]
  · rw [hs.1, hs.2.1, field_at_index mem desc message hfc n hn, field_at_descriptor]
    exact hn

theorem at_pos_field_at (mem : List usr_pb_byte_t) (desc : usr_pb_msgdesc_t)
    (message : Option Nat) (n : Nat) : at_pos mem desc message n (field_at mem desc message n) :=
  ⟨same_pos_refl _, field_at_message mem desc message n, fun h => by
    subst h; exact field_at_pData_none mem desc n⟩

theorem at_pos_load {mem : List usr_pb_byte_t} {desc : usr_pb_msgdesc_t}
    {message : Option Nat} {n : Nat} {it : usr_pb_field_iter_t}
    (h : at_pos mem desc message n it) (m : List usr_pb_byte_t) :
    at_pos mem desc message n (load_descriptor_values m it).1 := by
  obtain ⟨hs, hm, hp⟩ := h
  refine ⟨same_pos_trans (load_same_pos m it) hs, by rw [load_message, hm], fun hnone => ?_⟩
  exact load_pData_none m it (by rw [hm, hnone]) (hp hnone)

theorem at_pos_advance {mem : List usr_pb_byte_t} {desc : usr_pb_msgdesc_t}
    {message : Option Nat} {n : Nat} {it : usr_pb_field_iter_t}
    (hfc : desc.field_count < 65536) (hn : n < desc.field_count)
    (h : at_pos mem desc message n it) :
    at_pos mem desc message ((n + 1) % desc.field_count) (advance_iterator it) := by
  obtain ⟨hs, hm, hp⟩ := h
  refine ⟨?_, by rw [advance_message, hm], fun hnone => by rw [advance_pData_eq, hp hnone]⟩
  have hd : it.descriptor = desc := by rw [hs.1, field_at_descriptor]
  have hidx : it.index = n := by rw [hs.2.1, field_at_index mem desc message hfc n hn]
  by_cases hw : n + 1 < desc.field_count
  · rw [Nat.mod_eq_of_lt hw]
    exact same_pos_trans (advance_congr hs) (same_pos_symm (field_at_succ_pos mem desc message n))
  · have hge : toPbSize (it.index + 1) ≥ it.descriptor.field_count := by
      rw [hidx, hd, toPbSize_of_lt (by omega)]; omega
    have h1 : n + 1 = desc.field_count := by omega
    rw [advance_wrap it hge, h1, Nat.mod_self]
    obtain ⟨z1, z2, z3, z4⟩ := field_at_zero_pos mem desc message
    exact ⟨by rw [field_at_descriptor]; exact hd, z1.symm, z2.symm, z3.symm, z4.symm⟩

theorem at_pos_restart {mem : List usr_pb_byte_t} {desc : usr_pb_msgdesc_t}
    {message : Option Nat} {n : Nat} {it : usr_pb_field_iter_t}
    (hfc : desc.field_count < 65535)
    (h : at_pos mem desc message n it) :
    at_pos mem desc message 0
      (advance_iterator { it with index := it.descriptor.field_count }) := by
  obtain ⟨hs, hm, hp⟩ := h
  have hd : it.descriptor = desc := by rw [hs.1, field_at_descriptor]
  have hge : toPbSize (({ it with index := it.descriptor.field_count } :
      usr_pb_field_iter_t).index + 1) ≥
      ({ it with index := it.descriptor.field_count } : usr_pb_field_iter_t).descriptor.field_count := by
    show toPbSize (it.descriptor.field_count + 1) ≥ it.descriptor.field_count
    rw [hd, toPbSize_of_lt (by omega)]; omega
  rw [advance_wrap _ hge]
  obtain ⟨z1, z2, z3, z4⟩ := field_at_zero_pos mem desc message
  exact ⟨⟨by rw [field_at_descriptor]; exact hd, z1.symm, z2.symm, z3.symm, z4.symm⟩, hm, hp⟩

theorem and_3F (x : Nat) : x &&& 0x3F = x % 64 :=
  Nat.and_pow_two_sub_one_eq_mod x 6

theorem tag_low_bits (a y : Nat) :
    toPbSize ((a &&& 0x3F) ||| toU32 (y <<< 6)) &&& 0x3F = a &&& 0x3F := by
  have h1 : toU32 (y <<< 6) = (y % 2 ^ 26) <<< 6 := by
    unfold toU32
    rw [Nat.shiftLeft_eq, Nat.shiftLeft_eq]
    omega
  rw [h1, and_3F a, or_shift_eq_add _ _ 6 (by omega), and_3F]
  unfold toPbSize
  omega

theorem tag_low_bits_one (a : Nat) : toPbSize (a &&& 0x3F) &&& 0x3F = a &&& 0x3F := by
  rw [and_3F a, and_3F]
  unfold toPbSize
  omega

/-- The fast check of `usr_pb_field_iter_find` passes on the field with the
tag that is looked for. -/
theorem load_tag_low (m : List usr_pb_byte_t) (it : usr_pb_field_iter_t)
    (hi : it.index < it.descriptor.field_count) :
    (load_descriptor_values m it).1.tag &&& 0x3F =
      (field_info_word it.descriptor it.field_info_index >>> 2) &&& 0x3F := by
  have ha : ¬ it.index ≥ it.descriptor.field_count := by omega
  unfold load_descriptor_values
  dsimp only
  rw [if_neg ha]
  dsimp only
  split_ifs
  · exact tag_low_bits_one _
  · exact tag_low_bits _ _
  · exact tag_low_bits _ _
  · exact tag_low_bits _ _

/-- A round of the loop of `usr_pb_field_iter_find` that arrives at the field
looked for. -/
theorem find_loop_round_hit {mem : List usr_pb_byte_t} {desc : usr_pb_msgdesc_t}
    {message : Option Nat} (hfc : desc.field_count < 65536) (tag start n fuel : Nat)
    (it : usr_pb_field_iter_t) (hn : n < desc.field_count)
    (hpos : at_pos mem desc message n (advance_iterator it))
    (htag : (field_at mem desc message n).tag = tag)
    (hext : usr_PB_LTYPE (field_at mem desc message n).type ≠ usr_PB_LTYPE_EXTENSION) :
    field_iter_find_loop mem tag start (fuel + 1) it = (field_at mem desc message n, true) := by
  have hload := at_pos_load_eq hfc hn hpos
  have hi : (advance_iterator it).index < (advance_iterator it).descriptor.field_count := by
    rw [hpos.1.1, hpos.1.2.1, field_at_index mem desc message hfc n hn, field_at_descriptor]
    exact hn
  have hlow := load_tag_low mem (advance_iterator it) hi
  rw [hload, htag] at hlow
  unfold field_iter_find_loop
  dsimp only
  rw [if_pos hlow.symm]
  dsimp only
  rw [hload]
  simp [htag, hext]

/-- A round of the loop of `usr_pb_field_iter_find` on another field. -/
theorem find_loop_round_miss {mem : List usr_pb_byte_t} {desc : usr_pb_msgdesc_t}
    {message : Option Nat} (hfc : desc.field_count < 65536) (tag start n fuel : Nat)
    (it : usr_pb_field_iter_t) (hn : n < desc.field_count)
    (hpos : at_pos mem desc message n (advance_iterator it))
    (htag : (field_at mem desc message n).tag ≠ tag) :
    ∃ it1, at_pos mem desc message n it1 ∧
      field_iter_find_loop mem tag start (fuel + 1) it =
        if n ≠ start then field_iter_find_loop mem tag start fuel it1 else (it1, false) := by
  have hload := at_pos_load_eq hfc hn hpos
  have hidx : (advance_iterator it).index = n := by
    rw [hpos.1.2.1, field_at_index mem desc message hfc n hn]
  by_cases c1 : (field_info_word (advance_iterator it).descriptor
      (advance_iterator it).field_info_index >>> 2) &&& 0x3F = tag &&& 0x3F
  · refine ⟨field_at mem desc message n, at_pos_field_at mem desc message n, ?_⟩
    have hidx2 : (field_at mem desc message n).index = n :=
      field_at_index mem desc message hfc n hn
    unfold field_iter_find_loop
    dsimp only
    rw [if_pos c1]
    dsimp only
    rw [hload]
    simp only [htag, false_and, decide_False, Bool.false_eq_true, if_false, hidx2]
    by_cases hs : n ≠ start
    · rw [if_pos hs, if_pos hs]
      cases fuel <;> rfl
    · rw [if_neg hs, if_neg hs]
  · refine ⟨advance_iterator it, hpos, ?_⟩
    unfold field_iter_find_loop
    dsimp only
    rw [if_neg c1]
    simp only [Bool.false_eq_true, if_false, hidx]
    by_cases hs : n ≠ start
    · rw [if_pos hs, if_pos hs]
      cases fuel <;> rfl
    · rw [if_neg hs, if_neg hs]

/-- The loop of `usr_pb_field_iter_find` from the position of field `n`: after
`t` rounds on fields with another tag, none of them the start position, it
returns true on the field looked for, or false at the start position. -/
theorem find_loop_run {mem : List usr_pb_byte_t} {desc : usr_pb_msgdesc_t}
    {message : Option Nat} (hfc : desc.field_count < 65536) (tag start : Nat) :
    ∀ (t fuel n : Nat) (it : usr_pb_field_iter_t), n < desc.field_count →
      at_pos mem desc message n (advance_iterator it) → t < fuel →
      (∀ i, i < t → (field_at mem desc message ((n + i) % desc.field_count)).tag ≠ tag ∧
        (n + i) % desc.field_count ≠ start) →
      ((field_at mem desc message ((n + t) % desc.field_count)).tag = tag →
        usr_PB_LTYPE (field_at mem desc message ((n + t) % desc.field_count)).type ≠
          usr_PB_LTYPE_EXTENSION →
        field_iter_find_loop mem tag start fuel it =
          (field_at mem desc message ((n + t) % desc.field_count), true)) ∧
      ((field_at mem desc message ((n + t) % desc.field_count)).tag ≠ tag →
        (n + t) % desc.field_count = start →
        ∃ it1, at_pos mem desc message start it1 ∧
          field_iter_find_loop mem tag start fuel it = (it1, false)) := by
  intro t
  induction t with
  | zero =>
    intro fuel n it hn hpos hfuel _
    obtain ⟨fuel, rfl⟩ : ∃ f, fuel = f + 1 := ⟨fuel - 1, by omega⟩
    rw [Nat.add_zero, Nat.mod_eq_of_lt hn]
    refine ⟨fun htag hext => find_loop_round_hit hfc tag start n fuel it hn hpos htag hext,
      fun htag hs => ?_⟩
    obtain ⟨it1, h1, h2⟩ := find_loop_round_miss hfc tag start n fuel it hn hpos htag
    rw [if_neg (by rw [hs]; exact fun c => c rfl)] at h2
    exact ⟨it1, hs ▸ h1, h2⟩
  | succ t ih =>
    intro fuel n it hn hpos hfuel hmiss
    obtain ⟨fuel, rfl⟩ : ∃ f, fuel = f + 1 := ⟨fuel - 1, by omega⟩
    have h0 := hmiss 0 (by omega)
    rw [Nat.add_zero, Nat.mod_eq_of_lt hn] at h0
    obtain ⟨it1, h1, h2⟩ := find_loop_round_miss hfc tag start n fuel it hn hpos h0.1
    rw [if_pos h0.2] at h2
    have hmod : ∀ i, ((n + 1) % desc.field_count + i) % desc.field_count =
        (n + (i + 1)) % desc.field_count := by
      intro i
      rw [Nat.mod_add_mod]
      congr 1
      omega
    have key := ih fuel ((n + 1) % desc.field_count) it1 (Nat.mod_lt _ (by omega))
      (at_pos_advance hfc hn h1) (by omega)
      (fun i hi => by rw [hmod]; exact hmiss (i + 1) (by omega))
    rw [hmod] at key
    rw [h2]
    exact key
/-! ## Zigzag and signed varints -/

theorem xor_all_ones (a : Nat) (h : a < 2 ^ 64) : a ^^^ (2 ^ 64 - 1) = 2 ^ 64 - 1 - a := by
  apply Nat.eq_of_testBit_eq
  intro i
  have e : 2 ^ 64 - 1 - a = 2 ^ 64 - (a + 1) := by omega
  rw [Nat.testBit_xor, Nat.testBit_two_pow_sub_one, e, Nat.testBit_two_pow_sub_succ h]
  by_cases hi : i < 64
  · simp [hi]
  · simp only [hi, decide_False, Bool.xor_false, Bool.false_and]
    exact Nat.testBit_lt_two_pow (lt_of_lt_of_le h (Nat.pow_le_pow_right (by decide) (by omega)))

theorem zigzag64_eq (x : Int) (hlo : -2 ^ 63 ≤ x) (hhi : x < 2 ^ 63) :
    zigzag64 x =
      if x < 0 then 2 ^ 64 - 1 - toU64 (i64ToU64 x <<< 1) else toU64 (i64ToU64 x <<< 1) := by
  unfold zigzag64
  have hs : x >>> (63 : Nat) = x / ((2 ^ 63 : Nat) : Int) := Int.shiftRight_eq_div_pow x 63
  by_cases hx : x < 0
  · have h1 : i64ToU64 (x >>> (63 : Nat)) = 2 ^ 64 - 1 := by
      rw [hs]
      unfold i64ToU64
      omega
    rw [if_pos hx, h1, xor_all_ones _ (by unfold toU64; omega)]
  · have h1 : i64ToU64 (x >>> (63 : Nat)) = 0 := by
      rw [hs]
      unfold i64ToU64
      omega
    rw [if_neg hx, h1, Nat.xor_zero]

theorem leb128_length_ten (X : Nat) (h1 : 2 ^ 63 ≤ X) (h2 : X < 2 ^ 64) :
    (leb128 X).length = 10 ∧ (leb128 X).getLast? = some 0x01 := by
  have e9 : X / 128 / 128 / 128 / 128 / 128 / 128 / 128 / 128 / 128 = 1 := by omega
  rw [leb128_big X (by omega), leb128_big (X / 128) (by omega),
    leb128_big (X / 128 / 128) (by omega), leb128_big (X / 128 / 128 / 128) (by omega),
    leb128_big (X / 128 / 128 / 128 / 128) (by omega),
    leb128_big (X / 128 / 128 / 128 / 128 / 128) (by omega),
    leb128_big (X / 128 / 128 / 128 / 128 / 128 / 128) (by omega),
    leb128_big (X / 128 / 128 / 128 / 128 / 128 / 128 / 128) (by omega),
    leb128_big (X / 128 / 128 / 128 / 128 / 128 / 128 / 128 / 128) (by omega),
    leb128_small (X / 128 / 128 / 128 / 128 / 128 / 128 / 128 / 128 / 128) (by omega), e9]
  exact ⟨rfl, rfl⟩

theorem sign_extend_range (n : Nat) (hn : n = 1 ∨ n = 2 ∨ n = 4 ∨ n = 8) (v : Nat) :
    -2 ^ 63 ≤ sign_extend n v ∧ sign_extend n v < 2 ^ 63 := by
  unfold sign_extend
  rcases hn with h | h | h | h <;> subst h <;> norm_num <;> split_ifs <;> omega

/-! ## The error message of a stream -/

theorem istream_set_error_sticky (s : usr_pb_istream_t) (msg e : String)
    (h : s.errmsg = some e) : (istream_set_error s msg).errmsg = some e := by
  unfold istream_set_error
  rw [h]

theorem ostream_set_error_sticky (s : usr_pb_ostream_t) (msg e : String)
    (h : s.errmsg = some e) : (ostream_set_error s msg).errmsg = some e := by
  unfold ostream_set_error
  rw [h]

/-- The function `usr_pb_write` keeps an error message that is already set. -/
theorem write_errmsg_sticky (s : usr_pb_ostream_t) (buf : List usr_pb_byte_t) (n : Nat)
    (e : String) (h : s.errmsg = some e) : (usr_pb_write s buf n).1.errmsg = some e := by
  unfold usr_pb_write
  split_ifs
  · exact ostream_set_error_sticky s _ e h
  · exact h
  · exact h

/-- The function `usr_pb_read` keeps an error message that is already set. -/
theorem read_errmsg_sticky (s : usr_pb_istream_t) (n : Nat) (e : String)
    (h : s.errmsg = some e) : (usr_pb_read s n).1.errmsg = some e := by
  unfold usr_pb_read
  split_ifs
  · exact h
  · exact istream_set_error_sticky s _ e h
  · exact h

/-- The function `usr_pb_close_string_substream` keeps an error message of the
parent that is already set, when the substream carries that message too (as
a substream does that `usr_pb_make_string_substream` copied from the
parent). -/
theorem close_substream_errmsg_sticky (stream substream : usr_pb_istream_t) (e : String)
    (h : stream.errmsg = some e) (hs : substream.errmsg = some e) :
    (usr_pb_close_string_substream stream substream).1.errmsg = some e := by
  unfold usr_pb_close_string_substream
  dsimp only
  by_cases hb : substream.bytes_left ≠ 0
  · rw [if_pos hb]
    dsimp only
    split_ifs
    · exact h
    · exact read_errmsg_sticky substream _ e hs
  · rw [if_neg hb]
    simp only [Bool.true_eq_false, if_false]
    exact hs

/-- The substream of `usr_pb_make_string_substream` carries the error message
of the parent. -/
theorem make_substream_errmsg (stream s1 sub : usr_pb_istream_t)
    (h : usr_pb_make_string_substream stream = (s1, some sub)) :
    sub.errmsg = s1.errmsg := by
  unfold usr_pb_make_string_substream at h
  rcases hd : usr_pb_decode_varint32 stream with ⟨s2, _ | size⟩
  · rw [hd] at h
    simp at h
  · rw [hd] at h
    dsimp only at h
    split_ifs at h
    · simp at h
    · simp only [Prod.mk.injEq, Option.some.injEq] at h
      rw [← h.1, ← h.2]

/-! ## Traversal of the fields -/

theorem record_width_le (desc : usr_pb_msgdesc_t) (start : Nat) :
    1 ≤ record_width desc start ∧ record_width desc start ≤ 8 := by
  unfold record_width
  rw [Nat.shiftLeft_eq, Nat.one_mul]
  have h : field_info_word desc start &&& 3 < 4 := by
    have := Nat.and_pow_two_sub_one_eq_mod (field_info_word desc start) 2
    have e : field_info_word desc start &&& 3 = field_info_word desc start % 4 := this
    rw [e]
    omega
  generalize field_info_word desc start &&& 3 = c at h
  interval_cases c <;> decide

theorem record_start_mono (desc : usr_pb_msgdesc_t) (i j : Nat) (h : i ≤ j) :
    record_start desc i ≤ record_start desc j := by
  induction j with
  | zero =>
    have : i = 0 := by omega
    rw [this]
  | succ j ih =>
    rcases Nat.eq_or_lt_of_le h with e | l
    · rw [e]
    · have := ih (by omega)
      show _ ≤ record_start desc j + record_width desc (record_start desc j)
      omega

theorem required_before_succ (desc : usr_pb_msgdesc_t) (k : Nat) :
    required_before desc (k + 1) = required_before desc k +
      (if usr_PB_HTYPE (record_type desc k) = usr_PB_HTYPE_REQUIRED then 1 else 0) := by
  unfold required_before
  rw [List.range_succ, List.filter_append, List.length_append]
  by_cases h : usr_PB_HTYPE (record_type desc k) = usr_PB_HTYPE_REQUIRED
  · simp [h]
  · simp [h]

theorem submsg_before_succ (desc : usr_pb_msgdesc_t) (k : Nat) :
    submsg_before desc (k + 1) = submsg_before desc k +
      (if usr_PB_LTYPE_IS_SUBMSG (record_type desc k) then 1 else 0) := by
  unfold submsg_before
  rw [List.range_succ, List.filter_append, List.length_append]
  by_cases h : usr_PB_LTYPE_IS_SUBMSG (record_type desc k) = true
  · simp [h]
  · simp [h]

theorem required_before_le (desc : usr_pb_msgdesc_t) (k : Nat) : required_before desc k ≤ k := by
  induction k with
  | zero => simp [required_before]
  | succ k ih => rw [required_before_succ]; split_ifs <;> omega

theorem submsg_before_le (desc : usr_pb_msgdesc_t) (k : Nat) : submsg_before desc k ≤ k := by
  induction k with
  | zero => simp [submsg_before]
  | succ k ih => rw [submsg_before_succ]; split_ifs <;> omega

/-- The position counters of the iterator on field `k`. -/
theorem field_at_counters (mem : List usr_pb_byte_t) (desc : usr_pb_msgdesc_t)
    (message : Option Nat) (hfc : desc.field_count < 65536)
    (hwords : record_start desc desc.field_count ≤ 65536) :
    ∀ k, k < desc.field_count →
      (field_at mem desc message k).index = k ∧
      (field_at mem desc message k).field_info_index = record_start desc k ∧
      (field_at mem desc message k).required_field_index = required_before desc k ∧
      (field_at mem desc message k).submessage_index = submsg_before desc k := by
  intro k
  induction k with
  | zero =>
    intro _
    obtain ⟨z1, z2, z3, z4⟩ := field_at_zero_pos mem desc message
    exact ⟨z1, z2, by rw [z3]; rfl, by rw [z4]; rfl⟩
  | succ k ih =>
    intro hk
    obtain ⟨i1, i2, i3, i4⟩ := ih (by omega)
    obtain ⟨-, p2, p3, p4, p5⟩ := field_at_succ_pos mem desc message k
    have hd := field_at_descriptor mem desc message k
    have hstep : ¬ toPbSize ((field_at mem desc message k).index + 1) ≥
        (field_at mem desc message k).descriptor.field_count := by
      rw [i1, hd, toPbSize_of_lt (by omega)]; omega
    have hw := record_width_le desc (record_start desc k)
    have hm := record_start_mono desc (k + 1) desc.field_count (by omega)
    have hs : record_start desc (k + 1) =
        record_start desc k + record_width desc (record_start desc k) := rfl
    have hr := required_before_le desc k
    have hsb := submsg_before_le desc k
    have hadv : (advance_iterator (field_at mem desc message k)).field_info_index =
          toPbSize (record_start desc k + toPbSize (record_width desc (record_start desc k))) ∧
        (advance_iterator (field_at mem desc message k)).required_field_index =
          toPbSize (required_before desc k +
            (if usr_PB_HTYPE (record_type desc k) = usr_PB_HTYPE_REQUIRED then 1 else 0)) ∧
        (advance_iterator (field_at mem desc message k)).submessage_index =
          toPbSize (submsg_before desc k +
            (if usr_PB_LTYPE_IS_SUBMSG (record_type desc k) then 1 else 0)) := by
      unfold advance_iterator
      dsimp only
      rw [if_neg hstep]
      dsimp only
      rw [i2, i3, i4, hd]
      exact ⟨rfl, rfl, rfl⟩
    refine ⟨field_at_index mem desc message hfc (k + 1) hk, ?_, ?_, ?_⟩
    · have hwid : toPbSize (record_width desc (record_start desc k)) =
          record_width desc (record_start desc k) := toPbSize_of_lt (by omega)
      have hk2 := record_start_mono desc (k + 2) desc.field_count (by omega)
      have hw2 := record_width_le desc (record_start desc (k + 1))
      have hs2 : record_start desc (k + 2) =
          record_start desc (k + 1) + record_width desc (record_start desc (k + 1)) := rfl
      rw [p3, hadv.1, hwid, ← hs]
      exact toPbSize_of_lt (by omega)
    · rw [p4, hadv.2.1, required_before_succ]
      apply toPbSize_of_lt
      split_ifs <;> omega
    · rw [p5, hadv.2.2, submsg_before_succ]
      apply toPbSize_of_lt
      split_ifs <;> omega

theorem next_field_at (mem : List usr_pb_byte_t) (desc : usr_pb_msgdesc_t)
    (message : Option Nat) (hfc : desc.field_count < 65536) (k : Nat)
    (hk : k < desc.field_count) :
    usr_pb_field_iter_next mem (field_at mem desc message k) =
      (field_at mem desc message ((k + 1) % desc.field_count),
        decide ((k + 1) % desc.field_count ≠ 0)) := by
  have hpos := at_pos_advance hfc hk (at_pos_field_at mem desc message k)
  have hlt : (k + 1) % desc.field_count < desc.field_count := Nat.mod_lt _ (by omega)
  have hload := at_pos_load_eq hfc hlt hpos
  unfold usr_pb_field_iter_next
  dsimp only
  rw [hload, field_at_index mem desc message hfc _ hlt]

theorem iter_visits_field_at (mem : List usr_pb_byte_t) (desc : usr_pb_msgdesc_t)
    (message : Option Nat) (hfc : desc.field_count < 65536) :
    ∀ (j k : Nat), k + j + 1 = desc.field_count →
      iter_visits mem (j + 1) (field_at mem desc message k) =
        some ((List.range (j + 1)).map (fun i => k + i)) := by
  intro j
  induction j with
  | zero =>
    intro k hk
    unfold iter_visits
    dsimp only
    rw [next_field_at mem desc message hfc k (by omega)]
    have h0 : (k + 1) % desc.field_count = 0 := by
      have : k + 1 = desc.field_count := by omega
      rw [this, Nat.mod_self]
    simp only [h0, field_at_index mem desc message hfc k (by omega), ne_eq,
      not_true_eq_false, decide_False, Bool.false_eq_true, if_false]
    rfl
  | succ j ih =>
    intro k hk
    unfold iter_visits
    dsimp only
    rw [next_field_at mem desc message hfc k (by omega)]
    have h1 : (k + 1) % desc.field_count = k + 1 := Nat.mod_eq_of_lt (by omega)
    rw [h1]
    simp only [ne_eq, Nat.add_one_ne_zero, not_false_eq_true, decide_True, if_true]
    rw [ih (k + 1) (by omega), field_at_index mem desc message hfc k (by omega)]
    simp only [Option.map_some']
    congr 1
    rw [List.range_succ_eq_map (j + 1), List.map_cons, List.map_map]
    simp only [Nat.add_zero, List.cons.injEq, true_and]
    apply List.map_congr_left
    intro i _
    simp only [Function.comp_apply]
    omega

/-! ## Descriptor records -/

theorem and_0F (x : Nat) : x &&& 0x0F = x % 16 := Nat.and_pow_two_sub_one_eq_mod x 4
theorem and_3 (x : Nat) : x &&& 3 = x % 4 := Nat.and_pow_two_sub_one_eq_mod x 2
theorem and_FFF (x : Nat) : x &&& 0xFFF = x % 4096 := Nat.and_pow_two_sub_one_eq_mod x 12
theorem and_0FFF (x : Nat) : x &&& 0x0FFF = x % 4096 := Nat.and_pow_two_sub_one_eq_mod x 12
theorem and_FFFF (x : Nat) : x &&& 0xFFFF = x % 65536 := Nat.and_pow_two_sub_one_eq_mod x 16

theorem fieldinfo_word0_1 (tag type data_offset data_size size_offset : Nat)
    (ht : tag < 64) (hty : type < 256) (ho : data_offset < 256) (hs : size_offset < 16)
    (hd : data_size < 16) :
    0 ||| ((tag <<< 2) &&& 0xFF) ||| (type <<< 8) ||| ((toU32 data_offset &&& 0xFF) <<< 16) |||
      ((toU32 size_offset &&& 0x0F) <<< 24) ||| ((toU32 data_size &&& 0x0F) <<< 28) =
    tag * 4 + type * 2 ^ 8 + data_offset * 2 ^ 16 + size_offset * 2 ^ 24 +
      data_size * 2 ^ 28 := by
  have e1 : (tag <<< 2) &&& 0xFF = tag * 4 := by
    rw [and_FF, Nat.shiftLeft_eq]; omega
  have e2 : toU32 data_offset &&& 0xFF = data_offset := by
    rw [and_FF]; unfold toU32; omega
  have e3 : toU32 size_offset &&& 0x0F = size_offset := by
    rw [and_0F]; unfold toU32; omega
  have e4 : toU32 data_size &&& 0x0F = data_size := by
    rw [and_0F]; unfold toU32; omega
  rw [e1, e2, e3, e4, Nat.zero_or, or_shift_eq_add _ _ 8 (by omega),
    or_shift_eq_add _ _ 16 (by omega), or_shift_eq_add _ _ 24 (by omega),
    or_shift_eq_add _ _ 28 (by omega)]

theorem toInt8_small (x : Nat) (h : x < 128) : toInt8 x = (x : Int) := by
  unfold toInt8
  rw [if_pos (by omega)]
  congr 1
  omega

theorem pSize_of_eq (type pField size_offset : Nat) :
    (if ((size_offset : Nat) : Int) ≠ 0 then
        size_ptr.mem (((pField : Nat) : Int) - ((size_offset : Nat) : Int)).toNat
      else if usr_PB_HTYPE type = usr_PB_HTYPE_REPEATED ∧
          (usr_PB_ATYPE type = usr_PB_ATYPE_STATIC ∨ usr_PB_ATYPE type = usr_PB_ATYPE_POINTER) then
        size_ptr.iter_array_size
      else size_ptr.null) = pSize_of type pField size_offset := by
  unfold pSize_of
  by_cases h : size_offset = 0
  · subst h
    simp
  · have h' : ((size_offset : Nat) : Int) ≠ 0 := by omega
    rw [if_pos h', if_pos h]
    congr 1
    omega

/-- What `load_descriptor_values` reads from a one-word record. -/
theorem load_fieldinfo_1 (mem : List usr_pb_byte_t) (it : usr_pb_field_iter_t) (m : Nat)
    (tag type data_offset data_size size_offset : Nat)
    (hi : it.index < it.descriptor.field_count) (hm : it.message = some m)
    (ht : tag < 64) (hty : type < 256) (ho : data_offset < 256) (hs : size_offset < 16)
    (hd : data_size < 16)
    (hw : field_info_word it.descriptor it.field_info_index =
      tag * 4 + type * 2 ^ 8 + data_offset * 2 ^ 16 + size_offset * 2 ^ 24 +
        data_size * 2 ^ 28) :
    (load_descriptor_values mem it).1.tag = tag ∧
    (load_descriptor_values mem it).1.type = type ∧
    (load_descriptor_values mem it).1.data_size = data_size ∧
    (load_descriptor_values mem it).1.array_size = 1 ∧
    (load_descriptor_values mem it).1.pField = some (m + data_offset) ∧
    (load_descriptor_values mem it).1.pSize = pSize_of type (m + data_offset) size_offset := by
  have ha : ¬ it.index ≥ it.descriptor.field_count := by omega
  have f0 : field_info_word it.descriptor it.field_info_index &&& 3 = 0 := by
    rw [and_3, hw]; omega
  have e_type : (field_info_word it.descriptor it.field_info_index >>> 8) &&& 0xFF = type := by
    rw [and_FF, Nat.shiftRight_eq_div_pow, hw]; omega
  have e_tag : toPbSize ((field_info_word it.descriptor it.field_info_index >>> 2) &&& 0x3F) =
      tag := by
    rw [and_3F, Nat.shiftRight_eq_div_pow, hw]; unfold toPbSize; omega
  have e_so : toInt8 ((field_info_word it.descriptor it.field_info_index >>> 24) &&& 0x0F) =
      ((size_offset : Nat) : Int) := by
    have : (field_info_word it.descriptor it.field_info_index >>> 24) &&& 0x0F = size_offset := by
      rw [and_0F, Nat.shiftRight_eq_div_pow, hw]; omega
    rw [this, toInt8_small _ (by omega)]
  have e_do : (field_info_word it.descriptor it.field_info_index >>> 16) &&& 0xFF =
      data_offset := by
    rw [and_FF, Nat.shiftRight_eq_div_pow, hw]; omega
  have e_ds : toPbSize ((field_info_word it.descriptor it.field_info_index >>> 28) &&& 0x0F) =
      data_size := by
    rw [and_0F, Nat.shiftRight_eq_div_pow, hw]; unfold toPbSize; omega
  unfold load_descriptor_values
  dsimp only
  rw [if_neg ha]
  dsimp only
  rw [if_pos f0, hm]
  dsimp only
  rw [e_type, e_tag, e_so, e_do, e_ds]
  exact ⟨rfl, rfl, rfl, rfl, rfl, pSize_of_eq type (m + data_offset) size_offset⟩

theorem and_shiftLeft_mask (x m k : Nat) : x &&& (m <<< k) = ((x >>> k) &&& m) <<< k := by
  apply Nat.eq_of_testBit_eq
  intro i
  simp only [Nat.testBit_and, Nat.testBit_shiftLeft, Nat.testBit_shiftRight]
  by_cases h : k ≤ i
  · have e : k + (i - k) = i := by omega
    simp [h, e]
  · simp [h]

theorem and_3c0 (x : Nat) : x &&& 0x3c0 = x / 64 % 16 * 64 := by
  have h := and_shiftLeft_mask x 0xF 6
  have e : (0xF : Nat) <<< 6 = 0x3c0 := by decide
  rw [e] at h
  rw [h, and_0F, Nat.shiftRight_eq_div_pow, Nat.shiftLeft_eq]

theorem and_FFFFFF00 (x : Nat) : x &&& 0xFFFFFF00 = x / 256 % 2 ^ 24 * 256 := by
  have h := and_shiftLeft_mask x 0xFFFFFF 8
  have e : (0xFFFFFF : Nat) <<< 8 = 0xFFFFFF00 := by decide
  rw [e] at h
  have e2 : (x >>> 8) &&& 0xFFFFFF = (x >>> 8) % 2 ^ 24 :=
    Nat.and_pow_two_sub_one_eq_mod (x >>> 8) 24
  rw [h, e2, Nat.shiftRight_eq_div_pow, Nat.shiftLeft_eq]

theorem low_tag_shift (tag : Nat) : (tag <<< 2) &&& 0xFF = (tag % 64) <<< 2 := by
  rw [and_FF, Nat.shiftLeft_eq, Nat.shiftLeft_eq]
  omega

theorem u32_of_int8_fits (x : Nat) (h : usr_PB_FITS (u32_of_int8 x) 8 = true) :
    x % 256 < 128 ∧ u32_of_int8 x = x % 256 := by
  unfold usr_PB_FITS at h
  have h' : toU32 (u32_of_int8 x) < 256 := by simpa [toU32] using h
  unfold toU32 u32_of_int8 to_unsigned sign_extend at h'
  unfold u32_of_int8 to_unsigned sign_extend
  norm_num at h' ⊢
  split_ifs at h' ⊢ with c
  · constructor
    · omega
    · omega
  · exfalso
    omega

theorem fits_lt (v b : Nat) (hv : v < 2 ^ 32) (hb : b < 32)
    (h : usr_PB_FITS v b = true) : v < 2 ^ b := by
  unfold usr_PB_FITS at h
  have h' : toU32 v < toU32 (1 <<< b) := by simpa using h
  unfold toU32 at h'
  rw [Nat.shiftLeft_eq, Nat.one_mul, Nat.mod_eq_of_lt hv,
    Nat.mod_eq_of_lt (Nat.pow_lt_pow_right (by decide) hb)] at h'
  exact h'

theorem toU32_shift6 (q : Nat) (h : q < 2 ^ 26) : toU32 (q <<< 6) = q <<< 6 := by
  unfold toU32
  rw [Nat.shiftLeft_eq]
  omega

/-- What `load_descriptor_values` reads from a two-word record. -/
theorem load_fieldinfo_2 (mem : List usr_pb_byte_t) (it : usr_pb_field_iter_t) (m : Nat)
    (tag type data_offset data_size size_offset array_size : Nat)
    (hi : it.index < it.descriptor.field_count) (hm : it.message = some m)
    (ht : tag < 1024) (hty : type < 256) (ho : data_offset < 65536) (hs : size_offset < 16)
    (hd : data_size < 4096) (ha : array_size < 4096)
    (hw0 : field_info_word it.descriptor it.field_info_index =
      1 + tag % 64 * 4 + type * 2 ^ 8 + array_size * 2 ^ 16 + size_offset * 2 ^ 28)
    (hw1 : field_info_word it.descriptor (it.field_info_index + 1) =
      data_offset + data_size * 2 ^ 16 + tag / 64 * 2 ^ 28) :
    (load_descriptor_values mem it).1.tag = tag ∧
    (load_descriptor_values mem it).1.type = type ∧
    (load_descriptor_values mem it).1.data_size = data_size ∧
    (load_descriptor_values mem it).1.array_size = array_size ∧
    (load_descriptor_values mem it).1.pField = some (m + data_offset) ∧
    (load_descriptor_values mem it).1.pSize = pSize_of type (m + data_offset) size_offset := by
  have hge : ¬ it.index ≥ it.descriptor.field_count := by omega
  have f0 : ¬ field_info_word it.descriptor it.field_info_index &&& 3 = 0 := by
    rw [and_3, hw0]; omega
  have f1 : field_info_word it.descriptor it.field_info_index &&& 3 = 1 := by
    rw [and_3, hw0]; omega
  have e_type : (field_info_word it.descriptor it.field_info_index >>> 8) &&& 0xFF = type := by
    rw [and_FF, Nat.shiftRight_eq_div_pow, hw0]; omega
  have e_as : toPbSize ((field_info_word it.descriptor it.field_info_index >>> 16) &&& 0x0FFF) =
      array_size := by
    rw [and_0FFF, Nat.shiftRight_eq_div_pow, hw0]; unfold toPbSize; omega
  have e_lo : (field_info_word it.descriptor it.field_info_index >>> 2) &&& 0x3F = tag % 64 := by
    rw [and_3F, Nat.shiftRight_eq_div_pow, hw0]; omega
  have e_hi : field_info_word it.descriptor (it.field_info_index + 1) >>> 28 = tag / 64 := by
    rw [Nat.shiftRight_eq_div_pow, hw1]; omega
  have e_tag : toPbSize (((field_info_word it.descriptor it.field_info_index >>> 2) &&& 0x3F) |||
      toU32 ((field_info_word it.descriptor (it.field_info_index + 1) >>> 28) <<< 6)) = tag := by
    rw [e_lo, e_hi, toU32_shift6 _ (by omega), or_shift_eq_add _ _ 6 (by omega)]
    unfold toPbSize; omega
  have e_so : toInt8 ((field_info_word it.descriptor it.field_info_index >>> 28) &&& 0x0F) =
      ((size_offset : Nat) : Int) := by
    have : (field_info_word it.descriptor it.field_info_index >>> 28) &&& 0x0F = size_offset := by
      rw [and_0F, Nat.shiftRight_eq_div_pow, hw0]; omega
    rw [this, toInt8_small _ (by omega)]
  have e_do : field_info_word it.descriptor (it.field_info_index + 1) &&& 0xFFFF =
      data_offset := by
    rw [and_FFFF, hw1]; omega
  have e_ds : toPbSize ((field_info_word it.descriptor (it.field_info_index + 1) >>> 16) &&&
      0x0FFF) = data_size := by
    rw [and_0FFF, Nat.shiftRight_eq_div_pow, hw1]; unfold toPbSize; omega
  unfold load_descriptor_values
  dsimp only
  rw [if_neg hge]
  dsimp only
  rw [if_neg f0, if_pos f1, hm]
  dsimp only
  rw [e_type, e_tag, e_so, e_do, e_ds, e_as]
  exact ⟨rfl, rfl, rfl, rfl, rfl, pSize_of_eq type (m + data_offset) size_offset⟩

/-- What `load_descriptor_values` reads from a four-word or eight-word record
(`code` 2 or 3); `array_word` is the place of the array size. -/
theorem load_fieldinfo_wide (mem : List usr_pb_byte_t) (it : usr_pb_field_iter_t) (m : Nat)
    (code tag type data_offset data_size size_offset array_size w0hi : Nat)
    (hi : it.index < it.descriptor.field_count) (hm : it.message = some m)
    (hc : code = 2 ∨ code = 3)
    (ht : tag < 65536) (hty : type < 256) (hs : size_offset < 128)
    (hd : data_size < 65536) (ha : array_size < 65536) (hhi : w0hi < 65536)
    (hw0 : field_info_word it.descriptor it.field_info_index =
      code + tag % 64 * 4 + type * 2 ^ 8 + w0hi * 2 ^ 16)
    (hw1 : field_info_word it.descriptor (it.field_info_index + 1) =
      size_offset + tag / 64 * 256)
    (hw2 : field_info_word it.descriptor (it.field_info_index + 2) = data_offset)
    (hw3 : field_info_word it.descriptor (it.field_info_index + 3) = data_size)
    (hw4 : if code = 2 then w0hi = array_size
      else field_info_word it.descriptor (it.field_info_index + 4) = array_size) :
    (load_descriptor_values mem it).1.tag = tag ∧
    (load_descriptor_values mem it).1.type = type ∧
    (load_descriptor_values mem it).1.data_size = data_size ∧
    (load_descriptor_values mem it).1.array_size = array_size ∧
    (load_descriptor_values mem it).1.pField = some (m + data_offset) ∧
    (load_descriptor_values mem it).1.pSize = pSize_of type (m + data_offset) size_offset := by
  have hge : ¬ it.index ≥ it.descriptor.field_count := by omega
  have f0 : ¬ field_info_word it.descriptor it.field_info_index &&& 3 = 0 := by
    rw [and_3, hw0]; omega
  have f1 : ¬ field_info_word it.descriptor it.field_info_index &&& 3 = 1 := by
    rw [and_3, hw0]; omega
  have e_type : (field_info_word it.descriptor it.field_info_index >>> 8) &&& 0xFF = type := by
    rw [and_FF, Nat.shiftRight_eq_div_pow, hw0]; omega
  have e_lo : (field_info_word it.descriptor it.field_info_index >>> 2) &&& 0x3F = tag % 64 := by
    rw [and_3F, Nat.shiftRight_eq_div_pow, hw0]; omega
  have e_hi : field_info_word it.descriptor (it.field_info_index + 1) >>> 8 = tag / 64 := by
    rw [Nat.shiftRight_eq_div_pow, hw1]; omega
  have e_tag : toPbSize (((field_info_word it.descriptor it.field_info_index >>> 2) &&& 0x3F) |||
      toU32 ((field_info_word it.descriptor (it.field_info_index + 1) >>> 8) <<< 6)) = tag := by
    rw [e_lo, e_hi, toU32_shift6 _ (by omega), or_shift_eq_add _ _ 6 (by omega)]
    unfold toPbSize; omega
  have e_so : toInt8 (field_info_word it.descriptor (it.field_info_index + 1) &&& 0xFF) =
      ((size_offset : Nat) : Int) := by
    have : field_info_word it.descriptor (it.field_info_index + 1) &&& 0xFF = size_offset := by
      rw [and_FF, hw1]; omega
    rw [this, toInt8_small _ hs]
  have e_ds : toPbSize (field_info_word it.descriptor (it.field_info_index + 3)) = data_size := by
    rw [hw3]; exact toPbSize_of_lt hd
  unfold load_descriptor_values
  dsimp only
  rw [if_neg hge]
  dsimp only
  rw [if_neg f0, if_neg f1, hm]
  rcases hc with hc | hc
  · have f2 : field_info_word it.descriptor it.field_info_index &&& 3 = 2 := by
      rw [and_3, hw0]; omega
    have e_as : toPbSize (field_info_word it.descriptor it.field_info_index >>> 16) =
        array_size := by
      rw [if_pos hc] at hw4
      rw [Nat.shiftRight_eq_div_pow, hw0]; unfold toPbSize; omega
    rw [if_pos f2]
    dsimp only
    rw [e_type, e_tag, e_so, hw2, e_ds, e_as]
    exact ⟨rfl, rfl, rfl, rfl, rfl, pSize_of_eq type (m + data_offset) size_offset⟩
  · have f2 : ¬ field_info_word it.descriptor it.field_info_index &&& 3 = 2 := by
      rw [and_3, hw0]; omega
    have e_as : toPbSize (field_info_word it.descriptor (it.field_info_index + 4)) =
        array_size := by
      rw [if_neg (by omega)] at hw4
      rw [hw4]; exact toPbSize_of_lt ha
    rw [if_neg f2]
    dsimp only
    rw [e_type, e_tag, e_so, hw2, e_ds, e_as]
    exact ⟨rfl, rfl, rfl, rfl, rfl, pSize_of_eq type (m + data_offset) size_offset⟩

theorem fieldinfo_word0_2 (tag type array_size size_offset : Nat)
    (hty : type < 256) (ha : array_size < 4096) (hs : size_offset < 16) :
    1 ||| ((tag <<< 2) &&& 0xFF) ||| (type <<< 8) ||| ((toU32 array_size &&& 0xFFF) <<< 16) |||
      ((toU32 size_offset &&& 0x0F) <<< 28) =
    1 + tag % 64 * 4 + type * 2 ^ 8 + array_size * 2 ^ 16 + size_offset * 2 ^ 28 := by
  have e2 : toU32 array_size &&& 0xFFF = array_size := by
    rw [and_FFF]; unfold toU32; omega
  have e3 : toU32 size_offset &&& 0x0F = size_offset := by
    rw [and_0F]; unfold toU32; omega
  rw [low_tag_shift, e2, e3, or_shift_eq_add _ _ 2 (by omega),
    or_shift_eq_add _ _ 8 (by omega), or_shift_eq_add _ _ 16 (by omega),
    or_shift_eq_add _ _ 28 (by omega)]
  omega

theorem fieldinfo_word1_2 (tag data_offset data_size : Nat)
    (ht : tag < 1024) (ho : data_offset < 65536) (hd : data_size < 4096) :
    (toU32 data_offset &&& 0xFFFF) ||| ((toU32 data_size &&& 0xFFF) <<< 16) |||
      ((toU32 tag &&& 0x3c0) <<< 22) =
    data_offset + data_size * 2 ^ 16 + tag / 64 * 2 ^ 28 := by
  have e1 : toU32 data_offset &&& 0xFFFF = data_offset := by
    rw [and_FFFF]; unfold toU32; omega
  have e2 : toU32 data_size &&& 0xFFF = data_size := by
    rw [and_FFF]; unfold toU32; omega
  have e3 : (toU32 tag &&& 0x3c0) <<< 22 = (tag / 64) <<< 28 := by
    rw [and_3c0, Nat.shiftLeft_eq, Nat.shiftLeft_eq]
    unfold toU32
    omega
  rw [e1, e2, e3, or_shift_eq_add _ _ 16 (by omega), or_shift_eq_add _ _ 28 (by omega)]

theorem fieldinfo_word0_4 (tag type array_size : Nat)
    (hty : type < 256) (ha : array_size < 65536) :
    2 ||| ((tag <<< 2) &&& 0xFF) ||| (type <<< 8) ||| ((toU32 array_size &&& 0xFFFF) <<< 16) =
    2 + tag % 64 * 4 + type * 2 ^ 8 + array_size * 2 ^ 16 := by
  have e2 : toU32 array_size &&& 0xFFFF = array_size := by
    rw [and_FFFF]; unfold toU32; omega
  rw [low_tag_shift, e2, or_shift_eq_add _ _ 2 (by omega),
    or_shift_eq_add _ _ 8 (by omega), or_shift_eq_add _ _ 16 (by omega)]
  omega

theorem fieldinfo_word0_8 (tag type : Nat) (hty : type < 256) :
    3 ||| ((tag <<< 2) &&& 0xFF) ||| (type <<< 8) =
    3 + tag % 64 * 4 + type * 2 ^ 8 + 0 * 2 ^ 16 := by
  rw [low_tag_shift, or_shift_eq_add _ _ 2 (by omega), or_shift_eq_add _ _ 8 (by omega)]
  omega

theorem fieldinfo_word1_wide (tag size_offset : Nat) (ht : tag < 65536)
    (hs : usr_PB_FITS (u32_of_int8 size_offset) 8 = true) :
    u32_of_int8 size_offset ||| (toU32 (toU32 tag <<< 2) &&& 0xFFFFFF00) =
      size_offset % 256 + tag / 64 * 256 := by
  obtain ⟨h1, h2⟩ := u32_of_int8_fits size_offset hs
  have e : toU32 (toU32 tag <<< 2) &&& 0xFFFFFF00 = (tag / 64) <<< 8 := by
    rw [and_FFFFFF00, Nat.shiftLeft_eq, Nat.shiftLeft_eq]
    unfold toU32
    omega
  rw [h2, e, or_shift_eq_add _ _ 8 (by omega)]
  omega

theorem holds_record_word (it : usr_pb_field_iter_t) (words : List Nat)
    (h : holds_record it words) (j : Nat) (hj : j < words.length) (w : Nat)
    (hw : words.getD j 0 = w) (hlt : w < 2 ^ 32) :
    field_info_word it.descriptor (it.field_info_index + j) = w := by
  unfold field_info_word toU32
  rw [h j hj, hw]
  exact Nat.mod_eq_of_lt hlt

theorem load_ok (mem : List usr_pb_byte_t) (it : usr_pb_field_iter_t)
    (hi : it.index < it.descriptor.field_count) : (load_descriptor_values mem it).2 = true := by
  unfold load_descriptor_values
  rw [if_neg (by omega)]

/-! ## UTF-8 validation -/

set_option maxRecDepth 100000 in
theorem byte_mask_e0_c0 : ∀ b : usr_pb_byte_t,
    (b.val &&& 0xe0 = 0xc0) ↔ (0xC0 ≤ b.val ∧ b.val ≤ 0xDF) := by decide
set_option maxRecDepth 100000 in
theorem byte_mask_c0_80 : ∀ b : usr_pb_byte_t,
    (b.val &&& 0xc0 = 0x80) ↔ (0x80 ≤ b.val ∧ b.val ≤ 0xBF) := by decide
set_option maxRecDepth 100000 in
theorem byte_mask_fe_c0 : ∀ b : usr_pb_byte_t,
    (b.val &&& 0xfe = 0xc0) ↔ (b.val = 0xC0 ∨ b.val = 0xC1) := by decide
set_option maxRecDepth 100000 in
theorem byte_mask_f0_e0 : ∀ b : usr_pb_byte_t,
    (b.val &&& 0xf0 = 0xe0) ↔ (0xE0 ≤ b.val ∧ b.val ≤ 0xEF) := by decide
set_option maxRecDepth 100000 in
theorem byte_mask_e0_80 : ∀ b : usr_pb_byte_t,
    (b.val &&& 0xe0 = 0x80) ↔ (0x80 ≤ b.val ∧ b.val ≤ 0x9F) := by decide
set_option maxRecDepth 100000 in
theorem byte_mask_e0_a0 : ∀ b : usr_pb_byte_t,
    (b.val &&& 0xe0 = 0xa0) ↔ (0xA0 ≤ b.val ∧ b.val ≤ 0xBF) := by decide
set_option maxRecDepth 100000 in
theorem byte_mask_fe_be : ∀ b : usr_pb_byte_t,
    (b.val &&& 0xfe = 0xbe) ↔ (b.val = 0xBE ∨ b.val = 0xBF) := by decide
set_option maxRecDepth 100000 in
theorem byte_mask_f8_f0 : ∀ b : usr_pb_byte_t,
    (b.val &&& 0xf8 = 0xf0) ↔ (0xF0 ≤ b.val ∧ b.val ≤ 0xF7) := by decide
set_option maxRecDepth 100000 in
theorem byte_mask_f0_80 : ∀ b : usr_pb_byte_t,
    (b.val &&& 0xf0 = 0x80) ↔ (0x80 ≤ b.val ∧ b.val ≤ 0x8F) := by decide

/-- The loop body of `usr_pb_validate_utf8` with the bit tests written as
ranges. -/
theorem validate_utf8_step_ranges (s : List usr_pb_byte_t) :
    validate_utf8_step s =
      if (s.getD 0 0).val < 0x80 then some 1
      else if 0xC0 ≤ (s.getD 0 0).val ∧ (s.getD 0 0).val ≤ 0xDF then
        if ¬ (0x80 ≤ (s.getD 1 0).val ∧ (s.getD 1 0).val ≤ 0xBF) then none
        else if (s.getD 0 0).val = 0xC0 ∨ (s.getD 0 0).val = 0xC1 then none
        else some 2
      else if 0xE0 ≤ (s.getD 0 0).val ∧ (s.getD 0 0).val ≤ 0xEF then
        if ¬ (0x80 ≤ (s.getD 1 0).val ∧ (s.getD 1 0).val ≤ 0xBF) then none
        else if ¬ (0x80 ≤ (s.getD 2 0).val ∧ (s.getD 2 0).val ≤ 0xBF) then none
        else if (s.getD 0 0).val = 0xe0 ∧
            (0x80 ≤ (s.getD 1 0).val ∧ (s.getD 1 0).val ≤ 0x9F) then none
        else if (s.getD 0 0).val = 0xed ∧
            (0xA0 ≤ (s.getD 1 0).val ∧ (s.getD 1 0).val ≤ 0xBF) then none
        else if (s.getD 0 0).val = 0xef ∧ (s.getD 1 0).val = 0xbf ∧
            ((s.getD 2 0).val = 0xBE ∨ (s.getD 2 0).val = 0xBF) then none
        else some 3
      else if 0xF0 ≤ (s.getD 0 0).val ∧ (s.getD 0 0).val ≤ 0xF7 then
        if ¬ (0x80 ≤ (s.getD 1 0).val ∧ (s.getD 1 0).val ≤ 0xBF) then none
        else if ¬ (0x80 ≤ (s.getD 2 0).val ∧ (s.getD 2 0).val ≤ 0xBF) then none
        else if ¬ (0x80 ≤ (s.getD 3 0).val ∧ (s.getD 3 0).val ≤ 0xBF) then none
        else if (s.getD 0 0).val = 0xf0 ∧
            (0x80 ≤ (s.getD 1 0).val ∧ (s.getD 1 0).val ≤ 0x8F) then none
        else if (s.getD 0 0).val = 0xf4 ∧ (s.getD 1 0).val > 0x8f then none
        else if (s.getD 0 0).val > 0xf4 then none
        else some 4
      else none := by
  unfold validate_utf8_step
  simp only [byte_mask_e0_c0, byte_mask_c0_80, byte_mask_fe_c0, byte_mask_f0_e0,
    byte_mask_e0_80, byte_mask_e0_a0, byte_mask_fe_be, byte_mask_f8_f0, byte_mask_f0_80,
    ne_eq]

theorem toByte_ne_zero (x : Nat) (h : x % 256 ≠ 0) : toByte x ≠ 0 := by
  intro h0
  have := congrArg Fin.val h0
  rw [toByte_val] at this
  exact h this

theorem getD_1 (a : usr_pb_byte_t) (l : List usr_pb_byte_t) :
    (a :: l).getD 1 0 = l.getD 0 0 := rfl
theorem getD_2 (a : usr_pb_byte_t) (l : List usr_pb_byte_t) :
    (a :: l).getD 2 0 = l.getD 1 0 := rfl
theorem getD_3 (a : usr_pb_byte_t) (l : List usr_pb_byte_t) :
    (a :: l).getD 3 0 = l.getD 2 0 := rfl
theorem getD_0 (a : usr_pb_byte_t) (l : List usr_pb_byte_t) :
    (a :: l).getD 0 0 = a := rfl

/-- The loop body of `usr_pb_validate_utf8` passes over the encoding of an
admitted code point. -/
theorem validate_utf8_step_encode (c : Nat) (hc : utf8_code_point c)
    (tail : List usr_pb_byte_t) :
    validate_utf8_step (utf8_encode c ++ tail) = some (utf8_encode c).length ∧
    (∀ b ∈ utf8_encode c, b ≠ 0) ∧ 1 ≤ (utf8_encode c).length := by
  obtain ⟨c1, c2, c3, c4, c5⟩ := hc
  rw [validate_utf8_step_ranges]
  unfold utf8_encode
  by_cases h1 : c < 0x80
  · rw [if_pos h1]
    simp only [List.cons_append, List.nil_append, getD_0, getD_1, getD_2, getD_3, toByte_val,
      List.length_cons, List.length_nil]
    refine ⟨by rw [if_pos (by omega)], ?_, by omega⟩
    intro b hb
    simp only [List.mem_singleton] at hb
    rw [hb]
    exact toByte_ne_zero _ (by omega)
  · rw [if_neg h1]
    by_cases h2 : c < 0x800
    · rw [if_pos h2]
      simp only [List.cons_append, List.nil_append, getD_0, getD_1, getD_2, getD_3, toByte_val,
        List.length_cons, List.length_nil]
      refine ⟨?_, ?_, by omega⟩
      · rw [if_neg (by omega), if_pos (by omega), if_neg (by omega), if_neg (by omega)]
      · intro b hb
        simp only [List.mem_cons, List.mem_singleton, List.not_mem_nil, or_false] at hb
        rcases hb with hb | hb <;> rw [hb] <;> exact toByte_ne_zero _ (by omega)
    · rw [if_neg h2]
      by_cases h3 : c < 0x10000
      · rw [if_pos h3]
        simp only [List.cons_append, List.nil_append, getD_0, getD_1, getD_2, getD_3,
          toByte_val, List.length_cons, List.length_nil]
        refine ⟨?_, ?_, by omega⟩
        · rw [if_neg (by omega), if_neg (by omega), if_pos (by omega), if_neg (by omega),
            if_neg (by omega), if_neg (by omega), if_neg (by omega), if_neg (by omega)]
        · intro b hb
          simp only [List.mem_cons, List.mem_singleton, List.not_mem_nil, or_false] at hb
          rcases hb with hb | hb | hb <;> rw [hb] <;> exact toByte_ne_zero _ (by omega)
      · rw [if_neg h3]
        simp only [List.cons_append, List.nil_append, getD_0, getD_1, getD_2, getD_3,
          toByte_val, List.length_cons, List.length_nil]
        refine ⟨?_, ?_, by omega⟩
        · rw [if_neg (by omega), if_neg (by omega), if_neg (by omega), if_pos (by omega),
            if_neg (by omega), if_neg (by omega), if_neg (by omega), if_neg (by omega),
            if_neg (by omega), if_neg (by omega)]
        · intro b hb
          simp only [List.mem_cons, List.mem_singleton, List.not_mem_nil, or_false] at hb
          rcases hb with hb | hb | hb | hb <;> rw [hb] <;> exact toByte_ne_zero _ (by omega)

theorem toByte_eq (x : Nat) (b : usr_pb_byte_t) (h : x % 256 = b.val) : toByte x = b := by
  apply Fin.ext
  rw [toByte_val]
  exact h

/-- What the loop body of `usr_pb_validate_utf8` passes over is the encoding
of an admitted code point. -/
theorem validate_utf8_step_decode (s : List usr_pb_byte_t) (k : Nat)
    (h0 : (s.getD 0 0).val ≠ 0) (h : validate_utf8_step s = some k) :
    ∃ c, utf8_code_point c ∧ (utf8_encode c).length = k ∧
      (∀ i, i < k → (utf8_encode c).getD i 0 = s.getD i 0) ∧
      (∀ i, i < k → (s.getD i 0).val ≠ 0) := by
  have l0 := (s.getD 0 0).isLt
  have l1 := (s.getD 1 0).isLt
  have l2 := (s.getD 2 0).isLt
  have l3 := (s.getD 3 0).isLt
  rw [validate_utf8_step_ranges] at h
  by_cases c0 : (s.getD 0 0).val < 0x80
  · rw [if_pos c0] at h
    have hk : k = 1 := by simpa using h.symm
    subst hk
    refine ⟨(s.getD 0 0).val, ⟨by omega, by omega, by omega, by omega, by omega⟩, ?_, ?_, ?_⟩
    · unfold utf8_encode; rw [if_pos c0]; rfl
    · intro i hi
      have : i = 0 := by omega
      subst this
      unfold utf8_encode; rw [if_pos c0]
      exact toByte_eq _ _ (by omega)
    · intro i hi
      have : i = 0 := by omega
      subst this
      exact h0
  · rw [if_neg c0] at h
    by_cases c1 : 0xC0 ≤ (s.getD 0 0).val ∧ (s.getD 0 0).val ≤ 0xDF
    · rw [if_pos c1] at h
      split_ifs at h with d1 d2
      have hk : k = 2 := by simpa using h.symm
      subst hk
      have d1' : 0x80 ≤ (s.getD 1 0).val ∧ (s.getD 1 0).val ≤ 0xBF := d1
      have hlt : ¬ ((s.getD 0 0).val - 0xC0) * 64 + ((s.getD 1 0).val - 0x80) < 0x80 := by omega
      have hlt2 : ((s.getD 0 0).val - 0xC0) * 64 + ((s.getD 1 0).val - 0x80) < 0x800 := by omega
      refine ⟨((s.getD 0 0).val - 0xC0) * 64 + ((s.getD 1 0).val - 0x80),
        ⟨by omega, by omega, by omega, by omega, by omega⟩, ?_, ?_, ?_⟩
      · unfold utf8_encode; rw [if_neg hlt, if_pos hlt2]; rfl
      · intro i hi
        unfold utf8_encode; rw [if_neg hlt, if_pos hlt2]
        interval_cases i
        · exact toByte_eq _ _ (by omega)
        · exact toByte_eq _ _ (by omega)
      · intro i hi
        interval_cases i <;> omega
    · rw [if_neg c1] at h
      by_cases c2 : 0xE0 ≤ (s.getD 0 0).val ∧ (s.getD 0 0).val ≤ 0xEF
      · rw [if_pos c2] at h
        split_ifs at h with d1 d2 d3 d4 d5
        have hk : k = 3 := by simpa using h.symm
        subst hk
        have d1' : 0x80 ≤ (s.getD 1 0).val ∧ (s.getD 1 0).val ≤ 0xBF := d1
        have d2' : 0x80 ≤ (s.getD 2 0).val ∧ (s.getD 2 0).val ≤ 0xBF := d2
        have hlt2 : ¬ ((s.getD 0 0).val - 0xE0) * 4096 + ((s.getD 1 0).val - 0x80) * 64 +
            ((s.getD 2 0).val - 0x80) < 0x800 := by omega
        have hlt : ¬ ((s.getD 0 0).val - 0xE0) * 4096 + ((s.getD 1 0).val - 0x80) * 64 +
            ((s.getD 2 0).val - 0x80) < 0x80 := by omega
        have hlt3 : ((s.getD 0 0).val - 0xE0) * 4096 + ((s.getD 1 0).val - 0x80) * 64 +
            ((s.getD 2 0).val - 0x80) < 0x10000 := by omega
        refine ⟨((s.getD 0 0).val - 0xE0) * 4096 + ((s.getD 1 0).val - 0x80) * 64 +
            ((s.getD 2 0).val - 0x80),
          ⟨by omega, by omega, by omega, by omega, by omega⟩, ?_, ?_, ?_⟩
        · unfold utf8_encode; rw [if_neg hlt, if_neg hlt2, if_pos hlt3]; rfl
        · intro i hi
          unfold utf8_encode; rw [if_neg hlt, if_neg hlt2, if_pos hlt3]
          interval_cases i
          · exact toByte_eq _ _ (by omega)
          · exact toByte_eq _ _ (by omega)
          · exact toByte_eq _ _ (by omega)
        · intro i hi
          interval_cases i <;> omega
      · rw [if_neg c2] at h
        by_cases c3 : 0xF0 ≤ (s.getD 0 0).val ∧ (s.getD 0 0).val ≤ 0xF7
        · rw [if_pos c3] at h
          split_ifs at h with d1 d2 d3 d4 d5 d6
          have hk : k = 4 := by simpa using h.symm
          subst hk
          have d1' : 0x80 ≤ (s.getD 1 0).val ∧ (s.getD 1 0).val ≤ 0xBF := d1
          have d2' : 0x80 ≤ (s.getD 2 0).val ∧ (s.getD 2 0).val ≤ 0xBF := d2
          have d3' : 0x80 ≤ (s.getD 3 0).val ∧ (s.getD 3 0).val ≤ 0xBF := d3
          have hlt3 : ¬ ((s.getD 0 0).val - 0xF0) * 262144 + ((s.getD 1 0).val - 0x80) * 4096 +
              ((s.getD 2 0).val - 0x80) * 64 + ((s.getD 3 0).val - 0x80) < 0x10000 := by omega
          have hlt2 : ¬ ((s.getD 0 0).val - 0xF0) * 262144 + ((s.getD 1 0).val - 0x80) * 4096 +
              ((s.getD 2 0).val - 0x80) * 64 + ((s.getD 3 0).val - 0x80) < 0x800 := by omega
          have hlt : ¬ ((s.getD 0 0).val - 0xF0) * 262144 + ((s.getD 1 0).val - 0x80) * 4096 +
              ((s.getD 2 0).val - 0x80) * 64 + ((s.getD 3 0).val - 0x80) < 0x80 := by omega
          refine ⟨((s.getD 0 0).val - 0xF0) * 262144 + ((s.getD 1 0).val - 0x80) * 4096 +
              ((s.getD 2 0).val - 0x80) * 64 + ((s.getD 3 0).val - 0x80),
            ⟨by omega, by omega, by omega, by omega, by omega⟩, ?_, ?_, ?_⟩
          · unfold utf8_encode; rw [if_neg hlt, if_neg hlt2, if_neg hlt3]; rfl
          · intro i hi
            unfold utf8_encode; rw [if_neg hlt, if_neg hlt2, if_neg hlt3]
            interval_cases i
            · exact toByte_eq _ _ (by omega)
            · exact toByte_eq _ _ (by omega)
            · exact toByte_eq _ _ (by omega)
            · exact toByte_eq _ _ (by omega)
          · intro i hi
            interval_cases i <;> omega
        · rw [if_neg c3] at h
          simp at h

theorem utf8_encode_length_pos (c : Nat) : 1 ≤ (utf8_encode c).length := by
  unfold utf8_encode
  split_ifs <;> simp

theorem validate_utf8_step_pos (s : List usr_pb_byte_t) (k : Nat)
    (h0 : (s.getD 0 0).val ≠ 0) (h : validate_utf8_step s = some k) : 1 ≤ k := by
  obtain ⟨c, -, hl, -, -⟩ := validate_utf8_step_decode s k h0 h
  rw [← hl]
  exact utf8_encode_length_pos c

/-- The loop of `usr_pb_validate_utf8` ends: it runs at most once per byte. -/
theorem validate_utf8_loop_total :
    ∀ (fuel : Nat) (s : List usr_pb_byte_t), s.length + 1 ≤ fuel →
      validate_utf8_loop fuel s = some true ∨ validate_utf8_loop fuel s = some false := by
  intro fuel
  induction fuel with
  | zero => intro s h; omega
  | succ fuel ih =>
    intro s h
    unfold validate_utf8_loop
    by_cases h0 : (s.getD 0 0).val ≠ 0
    · rw [if_pos h0]
      rcases hs : validate_utf8_step s with _ | k
      · exact Or.inr rfl
      · have hk := validate_utf8_step_pos s k h0 hs
        have hne : s ≠ [] := by
          intro e
          rw [e] at h0
          exact h0 rfl
        have hlen : 1 ≤ s.length := List.length_pos.mpr hne
        exact ih (s.drop k) (by rw [List.length_drop]; omega)
    · rw [if_neg h0]
      exact Or.inl rfl

theorem validate_utf8_loop_encoded (rest : List usr_pb_byte_t) :
    ∀ (cs : List Nat), (∀ c ∈ cs, utf8_code_point c) →
      ∀ fuel, (cs.flatMap utf8_encode).length + 1 ≤ fuel →
      validate_utf8_loop fuel (cs.flatMap utf8_encode ++ 0 :: rest) = some true := by
  intro cs
  induction cs with
  | nil =>
    intro _ fuel hf
    obtain ⟨fuel, rfl⟩ : ∃ f, fuel = f + 1 := ⟨fuel - 1, by omega⟩
    unfold validate_utf8_loop
    rw [if_neg (by simp)]
  | cons c cs ih =>
    intro hv fuel hf
    obtain ⟨fuel, rfl⟩ : ∃ f, fuel = f + 1 := ⟨fuel - 1, by omega⟩
    have hc := hv c (List.mem_cons_self _ _)
    rw [List.flatMap_cons] at hf
    rw [List.flatMap_cons, List.append_assoc]
    obtain ⟨hstep, hnz, hpos⟩ :=
      validate_utf8_step_encode c hc (cs.flatMap utf8_encode ++ 0 :: rest)
    have hhead : ((utf8_encode c ++ (cs.flatMap utf8_encode ++ 0 :: rest)).getD 0 0).val ≠ 0 := by
      rcases he : utf8_encode c with _ | ⟨b, l⟩
      · rw [he] at hpos; simp at hpos
      · have hb := hnz b (by rw [he]; exact List.mem_cons_self _ _)
        show (b : usr_pb_byte_t).val ≠ 0
        intro h0
        exact hb (Fin.ext h0)
    unfold validate_utf8_loop
    rw [if_pos hhead, hstep]
    dsimp only
    rw [List.drop_left]
    rw [List.length_append] at hf
    exact ih (fun c' hc' => hv c' (List.mem_cons_of_mem _ hc')) fuel (by omega)

theorem validate_utf8_loop_decoded (rest : List usr_pb_byte_t) :
    ∀ (fuel : Nat) (bytes : List usr_pb_byte_t), (∀ b ∈ bytes, b ≠ 0) →
      validate_utf8_loop fuel (bytes ++ 0 :: rest) = some true →
      ∃ cs : List Nat, (∀ c ∈ cs, utf8_code_point c) ∧ bytes = cs.flatMap utf8_encode := by
  intro fuel
  induction fuel with
  | zero =>
    intro bytes _ h
    simp [validate_utf8_loop] at h
  | succ fuel ih =>
    intro bytes hnul h
    rcases hb : bytes with _ | ⟨b0, bs⟩
    · exact ⟨[], by simp, rfl⟩
    · rw [← hb]
      have hhead : ((bytes ++ 0 :: rest).getD 0 0).val ≠ 0 := by
        rw [hb]
        show (b0 : usr_pb_byte_t).val ≠ 0
        intro h0
        exact hnul b0 (by rw [hb]; exact List.mem_cons_self _ _) (Fin.ext h0)
      unfold validate_utf8_loop at h
      rw [if_pos hhead] at h
      rcases hs : validate_utf8_step (bytes ++ 0 :: rest) with _ | k
      · rw [hs] at h
        simp at h
      · rw [hs] at h
        dsimp only at h
        obtain ⟨c, hc, hl, hget, hnz⟩ := validate_utf8_step_decode _ k hhead hs
        have hk : k ≤ bytes.length := by
          by_contra hlt
          have := hnz bytes.length (by omega)
          apply this
          rw [List.getD_eq_getElem?_getD, List.getElem?_append_right (le_refl _), Nat.sub_self]
          simp
        have htake : bytes.take k = utf8_encode c := by
          apply List.ext_getElem
          · rw [List.length_take, hl]; omega
          · intro i h1 h2
            have hi : i < k := by rw [List.length_take] at h1; omega
            have hg := hget i hi
            rw [List.getD_eq_getElem?_getD, List.getD_eq_getElem?_getD,
              List.getElem?_eq_getElem h2,
              List.getElem?_append_left (by omega : i < bytes.length),
              List.getElem?_eq_getElem (by omega : i < bytes.length)] at hg
            rw [List.getElem_take]
            simpa using hg.symm
        have hdrop : (bytes ++ 0 :: rest).drop k = bytes.drop k ++ 0 :: rest := by
          rw [List.drop_append_of_le_length hk]
        rw [hdrop] at h
        obtain ⟨cs, hcs, hbs⟩ := ih (bytes.drop k)
          (fun b hb' => hnul b (List.mem_of_mem_drop hb')) h
        refine ⟨c :: cs, ?_, ?_⟩
        · intro c' hc'
          rcases List.mem_cons.mp hc' with e | e
          · rw [e]; exact hc
          · exact hcs c' e
        · rw [List.flatMap_cons, ← htake, ← hbs, List.take_append_drop]

/-! ## Reading never lengthens a stream -/

theorem read_bytes_left (s : usr_pb_istream_t) (count : Nat) :
    (usr_pb_read s count).1.bytes_left ≤ s.bytes_left ∧
    ((usr_pb_read s count).2.isSome = true →
      (usr_pb_read s count).1.bytes_left + count = s.bytes_left) := by
  unfold usr_pb_read
  split_ifs with h1 h2
  · subst h1
    exact ⟨le_refl _, fun _ => rfl⟩
  · exact ⟨le_refl _, fun h => by simp at h⟩
  · simp only [buf_read]
    constructor
    · omega
    · intro _
      omega

theorem readbyte_bytes_left (s : usr_pb_istream_t) :
    (usr_pb_readbyte s).1.bytes_left ≤ s.bytes_left ∧
    ((usr_pb_readbyte s).2.isSome = true →
      (usr_pb_readbyte s).1.bytes_left + 1 = s.bytes_left) := by
  unfold usr_pb_readbyte
  split_ifs with h1
  · exact ⟨le_refl _, fun h => by simp at h⟩
  · simp only [buf_read]
    constructor
    · omega
    · intro _
      omega

theorem decode_varint32_loop_bytes_left : ∀ (fuel : Nat) (s : usr_pb_istream_t)
    (bitpos result : Nat),
    (decode_varint32_loop fuel s bitpos result).1.bytes_left ≤ s.bytes_left := by
  intro fuel
  induction fuel with
  | zero => intro s b r; exact le_refl _
  | succ fuel ih =>
    intro s b r
    unfold decode_varint32_loop
    have hr := (readbyte_bytes_left s).1
    rcases h : usr_pb_readbyte s with ⟨s1, _ | byte⟩
    · rw [h] at hr
      exact hr
    · rw [h] at hr
      dsimp only
      split_ifs
      all_goals first
        | exact hr
        | exact le_trans (ih _ _ _) hr

theorem decode_varint32_eof_bytes_left (s : usr_pb_istream_t) :
    (usr_pb_decode_varint32_eof s).1.bytes_left ≤ s.bytes_left ∧
    ((usr_pb_decode_varint32_eof s).2.2.isSome = true →
      (usr_pb_decode_varint32_eof s).1.bytes_left < s.bytes_left) := by
  unfold usr_pb_decode_varint32_eof
  have hr := readbyte_bytes_left s
  rcases h : usr_pb_readbyte s with ⟨s1, _ | byte⟩
  · rw [h] at hr
    exact ⟨hr.1, fun h => by simp at h⟩
  · rw [h] at hr
    have h1 : s1.bytes_left + 1 = s.bytes_left := hr.2 rfl
    dsimp only
    split_ifs with c
    · exact ⟨by (try dsimp only at *); omega, fun _ => by (try dsimp only at *); omega⟩
    · have hl := decode_varint32_loop_bytes_left 10 s1 7 (byte.val &&& 0x7F)
      rcases h2 : decode_varint32_loop 10 s1 7 (byte.val &&& 0x7F) with ⟨s2, _ | ⟨res, bp, b2⟩⟩
      · rw [h2] at hl
        exact ⟨by (try dsimp only at *); omega, fun h => by simp at h⟩
      · rw [h2] at hl
        dsimp only at hl ⊢
        split_ifs
        · exact ⟨by show s2.bytes_left ≤ s.bytes_left; omega, fun h => by simp at h⟩
        · exact ⟨by (try dsimp only at *); omega, fun _ => by (try dsimp only at *); omega⟩

theorem decode_varint32_bytes_left (s : usr_pb_istream_t) :
    (usr_pb_decode_varint32 s).1.bytes_left ≤ s.bytes_left ∧
    ((usr_pb_decode_varint32 s).2.isSome = true →
      (usr_pb_decode_varint32 s).1.bytes_left < s.bytes_left) :=
  decode_varint32_eof_bytes_left s

theorem decode_varint_loop_bytes_left : ∀ (fuel : Nat) (s : usr_pb_istream_t)
    (bitpos result : Nat),
    (decode_varint_loop fuel s bitpos result).1.bytes_left ≤ s.bytes_left ∧
    ((decode_varint_loop fuel s bitpos result).2.isSome = true →
      (decode_varint_loop fuel s bitpos result).1.bytes_left < s.bytes_left) := by
  intro fuel
  induction fuel with
  | zero => intro s b r; exact ⟨le_refl _, fun h => by simp [decode_varint_loop] at h⟩
  | succ fuel ih =>
    intro s b r
    unfold decode_varint_loop
    split_ifs with c
    · exact ⟨le_refl _, fun h => by simp at h⟩
    · have hr := readbyte_bytes_left s
      rcases h : usr_pb_readbyte s with ⟨s1, _ | byte⟩
      · rw [h] at hr
        exact ⟨hr.1, fun h => by simp at h⟩
      · rw [h] at hr
        have h1 : s1.bytes_left + 1 = s.bytes_left := hr.2 rfl
        dsimp only
        split_ifs
        · have hi := ih s1 ((b + 7) % 256) (r ||| toU64 ((byte.val &&& 0x7F) <<< b))
          exact ⟨by (try dsimp only at *); omega, fun _ => by (try dsimp only at *); omega⟩
        · exact ⟨by (try dsimp only at *); omega, fun _ => by (try dsimp only at *); omega⟩

theorem decode_varint_bytes_left (s : usr_pb_istream_t) :
    (usr_pb_decode_varint s).1.bytes_left ≤ s.bytes_left ∧
    ((usr_pb_decode_varint s).2.isSome = true →
      (usr_pb_decode_varint s).1.bytes_left < s.bytes_left) :=
  decode_varint_loop_bytes_left 11 s 0 0

theorem decode_svarint_bytes_left (s : usr_pb_istream_t) :
    (usr_pb_decode_svarint s).1.bytes_left ≤ s.bytes_left ∧
    ((usr_pb_decode_svarint s).2.isSome = true →
      (usr_pb_decode_svarint s).1.bytes_left < s.bytes_left) := by
  unfold usr_pb_decode_svarint
  have hv := decode_varint_bytes_left s
  rcases h : usr_pb_decode_varint s with ⟨s1, _ | v⟩
  · rw [h] at hv
    exact ⟨hv.1, fun h => by simp at h⟩
  · rw [h] at hv
    have h1 := hv.2 rfl
    dsimp only at h1 ⊢
    split_ifs
    · exact ⟨by (try dsimp only at *); omega, fun _ => by (try dsimp only at *); omega⟩
    · exact ⟨by (try dsimp only at *); omega, fun _ => by (try dsimp only at *); omega⟩

theorem decode_fixed32_bytes_left (s : usr_pb_istream_t) :
    (usr_pb_decode_fixed32 s).1.bytes_left ≤ s.bytes_left ∧
    ((usr_pb_decode_fixed32 s).2.isSome = true →
      (usr_pb_decode_fixed32 s).1.bytes_left < s.bytes_left) := by
  unfold usr_pb_decode_fixed32
  have hv := read_bytes_left s 4
  rcases h : usr_pb_read s 4 with ⟨s1, _ | v⟩
  · rw [h] at hv
    exact ⟨hv.1, fun h => by simp at h⟩
  · rw [h] at hv
    have h1 := hv.2 rfl
    dsimp only at h1 ⊢
    exact ⟨by (try dsimp only at *); omega, fun _ => by (try dsimp only at *); omega⟩

theorem decode_fixed64_bytes_left (s : usr_pb_istream_t) :
    (usr_pb_decode_fixed64 s).1.bytes_left ≤ s.bytes_left ∧
    ((usr_pb_decode_fixed64 s).2.isSome = true →
      (usr_pb_decode_fixed64 s).1.bytes_left < s.bytes_left) := by
  unfold usr_pb_decode_fixed64
  have hv := read_bytes_left s 8
  rcases h : usr_pb_read s 8 with ⟨s1, _ | v⟩
  · rw [h] at hv
    exact ⟨hv.1, fun h => by simp at h⟩
  · rw [h] at hv
    have h1 := hv.2 rfl
    dsimp only at h1 ⊢
    exact ⟨by (try dsimp only at *); omega, fun _ => by (try dsimp only at *); omega⟩

theorem decode_tag_bytes_left (s : usr_pb_istream_t) :
    (usr_pb_decode_tag s).stream.bytes_left ≤ s.bytes_left ∧
    ((usr_pb_decode_tag s).ok = true →
      (usr_pb_decode_tag s).stream.bytes_left < s.bytes_left) := by
  unfold usr_pb_decode_tag
  have hv := decode_varint32_eof_bytes_left s
  rcases h : usr_pb_decode_varint32_eof s with ⟨s1, eof, _ | v⟩
  · rw [h] at hv
    exact ⟨hv.1, fun h => by simp at h⟩
  · rw [h] at hv
    have h1 := hv.2 rfl
    dsimp only at h1 ⊢
    exact ⟨by (try dsimp only at *); omega, fun _ => by (try dsimp only at *); omega⟩

theorem skip_varint_loop_bytes_left : ∀ (fuel : Nat) (s : usr_pb_istream_t),
    (skip_varint_loop fuel s).1.bytes_left ≤ s.bytes_left := by
  intro fuel
  induction fuel with
  | zero => intro s; exact le_refl _
  | succ fuel ih =>
    intro s
    unfold skip_varint_loop
    have hr := (read_bytes_left s 1).1
    rcases h : usr_pb_read s 1 with ⟨s1, _ | buf⟩
    · rw [h] at hr
      exact hr
    · rw [h] at hr
      dsimp only at hr ⊢
      split_ifs
      · exact le_trans (ih s1) hr
      · exact hr

theorem skip_field_bytes_left (s : usr_pb_istream_t) (wire_type : Nat) :
    (usr_pb_skip_field s wire_type).1.bytes_left ≤ s.bytes_left := by
  unfold usr_pb_skip_field
  split_ifs
  · exact skip_varint_loop_bytes_left _ s
  · exact (read_bytes_left s 8).1
  · unfold usr_pb_skip_string
    have hv := (decode_varint32_bytes_left s).1
    rcases h : usr_pb_decode_varint32 s with ⟨s1, _ | v⟩
    · rw [h] at hv
      exact hv
    · rw [h] at hv
      exact le_trans (read_bytes_left s1 v).1 hv
  · exact (read_bytes_left s 4).1
  · exact le_refl _

/-- The substream that `usr_pb_make_string_substream` sets up is strictly
shorter than the stream it is taken from, and so is the parent together with
the substream. -/
theorem make_string_substream_bytes_left (s : usr_pb_istream_t) :
    (usr_pb_make_string_substream s).1.bytes_left ≤ s.bytes_left ∧
    (∀ sub, (usr_pb_make_string_substream s).2 = some sub →
      (usr_pb_make_string_substream s).1.bytes_left + sub.bytes_left < s.bytes_left) := by
  unfold usr_pb_make_string_substream
  have hv := decode_varint32_bytes_left s
  rcases h : usr_pb_decode_varint32 s with ⟨s1, _ | v⟩
  · rw [h] at hv
    exact ⟨hv.1, fun sub h => by simp at h⟩
  · rw [h] at hv
    have h1 := hv.2 rfl
    dsimp only at h1 ⊢
    split_ifs with c
    · exact ⟨by show s1.bytes_left ≤ s.bytes_left; omega, fun sub h => by simp at h⟩
    · refine ⟨by dsimp only; omega, fun sub h => ?_⟩
      simp only [Option.some.injEq] at h
      subst h
      dsimp only
      omega

theorem close_string_substream_bytes_left (s sub : usr_pb_istream_t) :
    (usr_pb_close_string_substream s sub).1.bytes_left = s.bytes_left := by
  unfold usr_pb_close_string_substream
  dsimp only
  split_ifs <;> rfl
/-! ## The field decoders never lengthen the stream -/

theorem varint32_le {s s1 : usr_pb_istream_t} {r : Option Nat}
    (h : usr_pb_decode_varint32 s = (s1, r)) : s1.bytes_left ≤ s.bytes_left := by
  have := (decode_varint32_bytes_left s).1
  rw [h] at this
  exact this

theorem varint32_lt {s s1 : usr_pb_istream_t} {v : Nat}
    (h : usr_pb_decode_varint32 s = (s1, some v)) : s1.bytes_left < s.bytes_left := by
  have := (decode_varint32_bytes_left s).2
  rw [h] at this
  exact this rfl

theorem varint_le {s s1 : usr_pb_istream_t} {r : Option Nat}
    (h : usr_pb_decode_varint s = (s1, r)) : s1.bytes_left ≤ s.bytes_left := by
  have := (decode_varint_bytes_left s).1
  rw [h] at this
  exact this

theorem varint_lt {s s1 : usr_pb_istream_t} {v : Nat}
    (h : usr_pb_decode_varint s = (s1, some v)) : s1.bytes_left < s.bytes_left := by
  have := (decode_varint_bytes_left s).2
  rw [h] at this
  exact this rfl

theorem svarint_le {s s1 : usr_pb_istream_t} {r : Option Int}
    (h : usr_pb_decode_svarint s = (s1, r)) : s1.bytes_left ≤ s.bytes_left := by
  have := (decode_svarint_bytes_left s).1
  rw [h] at this
  exact this

theorem svarint_lt {s s1 : usr_pb_istream_t} {v : Int}
    (h : usr_pb_decode_svarint s = (s1, some v)) : s1.bytes_left < s.bytes_left := by
  have := (decode_svarint_bytes_left s).2
  rw [h] at this
  exact this rfl

theorem read_le {s s1 : usr_pb_istream_t} {n : Nat} {r : Option (List usr_pb_byte_t)}
    (h : usr_pb_read s n = (s1, r)) : s1.bytes_left ≤ s.bytes_left := by
  have := (read_bytes_left s n).1
  rw [h] at this
  exact this

theorem close_eq {s sub s1 : usr_pb_istream_t} {b : Bool}
    (h : usr_pb_close_string_substream s sub = (s1, b)) : s1.bytes_left = s.bytes_left := by
  have := close_string_substream_bytes_left s sub
  rw [h] at this
  exact this

theorem substream_le {s s1 : usr_pb_istream_t} {r : Option usr_pb_istream_t}
    (h : usr_pb_make_string_substream s = (s1, r)) : s1.bytes_left ≤ s.bytes_left := by
  have := (make_string_substream_bytes_left s).1
  rw [h] at this
  exact this

theorem substream_lt {s s1 sub : usr_pb_istream_t}
    (h : usr_pb_make_string_substream s = (s1, some sub)) :
    s1.bytes_left + sub.bytes_left < s.bytes_left := by
  have := (make_string_substream_bytes_left s).2
  rw [h] at this
  exact this sub rfl

theorem dec_error_bytes_left {st st' : decode_state} {msg : String} {ok : Bool}
    (h : dec_error st msg = some (ok, st')) :
    st'.stream.bytes_left = st.stream.bytes_left ∧ ok = false := by
  unfold dec_error at h
  simp only [Option.some.injEq, Prod.mk.injEq] at h
  obtain ⟨rfl, rfl⟩ := h
  exact ⟨rfl, rfl⟩

theorem usr_pb_dec_submessage_bytes_left {inner : decode_inner_fn} {st st' : decode_state}
    {ok : Bool} (h : usr_pb_dec_submessage inner st = some (ok, st')) :
    st'.stream.bytes_left ≤ st.stream.bytes_left ∧
    (ok = true → st'.stream.bytes_left < st.stream.bytes_left) := by
  unfold usr_pb_dec_submessage at h
  repeat' (first | split_ifs at h | dsimp only at h | split at h)
  all_goals first
    | (simp at h; done)
    | (have he := dec_error_bytes_left h
       have hs := substream_lt (by assumption)
       (try dsimp only at he)
       exact ⟨by omega, fun hh => by simp [he.2] at hh⟩)
    | (have hs := substream_le (by assumption)
       simp only [Option.some.injEq, Prod.mk.injEq] at h
       obtain ⟨rfl, rfl⟩ := h
       exact ⟨hs, fun hh => by simp at hh⟩)
    | (have hs := substream_lt (by assumption)
       have hc := close_eq (by assumption)
       simp only [Option.some.injEq, Prod.mk.injEq] at h
       obtain ⟨rfl, rfl⟩ := h
       (try dsimp only)
       exact ⟨by omega, fun _ => by omega⟩)

theorem usr_pb_dec_bool_bytes_left {st st' : decode_state} {ok : Bool}
    (h : usr_pb_dec_bool st = some (ok, st')) :
    st'.stream.bytes_left ≤ st.stream.bytes_left ∧
    (ok = true → st'.stream.bytes_left < st.stream.bytes_left) := by
  unfold usr_pb_dec_bool at h
  rcases hd : usr_pb_decode_varint32 st.stream with ⟨s1, _ | v⟩
  · have hle := varint32_le hd
    rw [hd] at h
    simp only [Option.some.injEq, Prod.mk.injEq] at h
    obtain ⟨rfl, rfl⟩ := h
    exact ⟨hle, fun hh => by simp at hh⟩
  · have hlt := varint32_lt hd
    rw [hd] at h
    repeat' (first | split_ifs at h | dsimp only at h | split at h)
    all_goals first
      | (simp at h; done)
      | (simp only [Option.some.injEq, Prod.mk.injEq] at h
         obtain ⟨rfl, rfl⟩ := h
         (try dsimp only)
         exact ⟨by omega, fun _ => by omega⟩)

theorem usr_pb_dec_varint_bytes_left {st st' : decode_state} {ok : Bool}
    (h : usr_pb_dec_varint st = some (ok, st')) :
    st'.stream.bytes_left ≤ st.stream.bytes_left ∧
    (ok = true → st'.stream.bytes_left < st.stream.bytes_left) := by
  unfold usr_pb_dec_varint at h
  have tail : ∀ (s1 : usr_pb_istream_t) (r : dec_result), s1.bytes_left < st.stream.bytes_left →
      (r = some (ok, st') → st'.stream.bytes_left ≤ s1.bytes_left) →
      r = some (ok, st') →
      st'.stream.bytes_left ≤ st.stream.bytes_left ∧
        (ok = true → st'.stream.bytes_left < st.stream.bytes_left) := by
    intro s1 r h1 h2 h3
    have := h2 h3
    exact ⟨by omega, fun _ => by omega⟩
  by_cases c1 : usr_PB_LTYPE st.field.type = usr_PB_LTYPE_UVARINT
  · rw [if_pos c1] at h
    rcases hd : usr_pb_decode_varint st.stream with ⟨s1, _ | v⟩
    · have hle := varint_le hd
      rw [hd] at h
      simp only [Option.some.injEq, Prod.mk.injEq] at h
      obtain ⟨rfl, rfl⟩ := h
      exact ⟨hle, fun hh => by simp at hh⟩
    · have hlt := varint_lt hd
      rw [hd] at h
      refine tail s1 _ hlt ?_ h
      intro h
      repeat' (first | split_ifs at h | dsimp only at h | split at h)
      all_goals first
        | (simp at h; done)
        | (have he := dec_error_bytes_left h
           exact le_of_eq he.1)
        | (simp only [Option.some.injEq, Prod.mk.injEq] at h
           obtain ⟨rfl, rfl⟩ := h
           exact le_refl _)
  · rw [if_neg c1] at h
    dsimp only at h
    by_cases c2 : usr_PB_LTYPE st.field.type = usr_PB_LTYPE_SVARINT
    · rw [if_pos c2] at h
      rcases hd : usr_pb_decode_svarint st.stream with ⟨s1, _ | v⟩
      · have hle := svarint_le hd
        rw [hd] at h
        simp only [Option.some.injEq, Prod.mk.injEq] at h
        obtain ⟨rfl, rfl⟩ := h
        exact ⟨hle, fun hh => by simp at hh⟩
      · have hlt := svarint_lt hd
        rw [hd] at h
        refine tail s1 _ hlt ?_ h
        intro h
        repeat' (first | split_ifs at h | dsimp only at h | split at h)
        all_goals first
          | (simp at h; done)
          | (have he := dec_error_bytes_left h
             exact le_of_eq he.1)
          | (simp only [Option.some.injEq, Prod.mk.injEq] at h
             obtain ⟨rfl, rfl⟩ := h
             exact le_refl _)
    · rw [if_neg c2] at h
      rcases hd : usr_pb_decode_varint st.stream with ⟨s1, _ | v⟩
      · have hle := varint_le hd
        rw [hd] at h
        simp only [Option.some.injEq, Prod.mk.injEq] at h
        obtain ⟨rfl, rfl⟩ := h
        exact ⟨hle, fun hh => by simp at hh⟩
      · have hlt := varint_lt hd
        rw [hd] at h
        refine tail s1 _ hlt ?_ h
        intro h
        repeat' (first | split_ifs at h | dsimp only at h | split at h)
        all_goals first
          | (simp at h; done)
          | (have he := dec_error_bytes_left h
             exact le_of_eq he.1)
          | (simp only [Option.some.injEq, Prod.mk.injEq] at h
             obtain ⟨rfl, rfl⟩ := h
             exact le_refl _)

theorem dec_tail {st st' : decode_state} {ok : Bool} (s1 : usr_pb_istream_t) (r : dec_result)
    (h1 : s1.bytes_left < st.stream.bytes_left)
    (h2 : r = some (ok, st') → st'.stream.bytes_left ≤ s1.bytes_left)
    (h3 : r = some (ok, st')) :
    st'.stream.bytes_left ≤ st.stream.bytes_left ∧
      (ok = true → st'.stream.bytes_left < st.stream.bytes_left) := by
  have := h2 h3
  exact ⟨by omega, fun _ => by omega⟩

theorem usr_pb_dec_bytes_bytes_left {st st' : decode_state} {ok : Bool}
    (h : usr_pb_dec_bytes st = some (ok, st')) :
    st'.stream.bytes_left ≤ st.stream.bytes_left ∧
    (ok = true → st'.stream.bytes_left < st.stream.bytes_left) := by
  unfold usr_pb_dec_bytes at h
  rcases hd : usr_pb_decode_varint32 st.stream with ⟨s1, _ | v⟩
  · have hle := varint32_le hd
    rw [hd] at h
    simp only [Option.some.injEq, Prod.mk.injEq] at h
    obtain ⟨rfl, rfl⟩ := h
    exact ⟨hle, fun hh => by simp at hh⟩
  · have hlt := varint32_lt hd
    rw [hd] at h
    refine dec_tail s1 _ hlt ?_ h
    intro h
    repeat' (first | split_ifs at h | dsimp only at h | split at h)
    all_goals first
      | (simp at h; done)
      | (have he := dec_error_bytes_left h
         exact le_of_eq he.1)
      | (have hr := read_le (by assumption)
         simp only [Option.some.injEq, Prod.mk.injEq] at h
         obtain ⟨rfl, rfl⟩ := h
         exact hr)
      | (simp only [Option.some.injEq, Prod.mk.injEq] at h
         obtain ⟨rfl, rfl⟩ := h
         exact le_refl _)

theorem usr_pb_dec_string_bytes_left {st st' : decode_state} {ok : Bool}
    (h : usr_pb_dec_string st = some (ok, st')) :
    st'.stream.bytes_left ≤ st.stream.bytes_left ∧
    (ok = true → st'.stream.bytes_left < st.stream.bytes_left) := by
  unfold usr_pb_dec_string at h
  rcases hd : usr_pb_decode_varint32 st.stream with ⟨s1, _ | v⟩
  · have hle := varint32_le hd
    rw [hd] at h
    simp only [Option.some.injEq, Prod.mk.injEq] at h
    obtain ⟨rfl, rfl⟩ := h
    exact ⟨hle, fun hh => by simp at hh⟩
  · have hlt := varint32_lt hd
    rw [hd] at h
    refine dec_tail s1 _ hlt ?_ h
    intro h
    repeat' (first | split_ifs at h | dsimp only at h | split at h)
    all_goals first
      | (simp at h; done)
      | (have he := dec_error_bytes_left h
         exact le_of_eq he.1)
      | (have hr := read_le (by assumption)
         simp only [Option.some.injEq, Prod.mk.injEq] at h
         obtain ⟨rfl, rfl⟩ := h
         exact hr)
      | (simp only [Option.some.injEq, Prod.mk.injEq] at h
         obtain ⟨rfl, rfl⟩ := h
         exact le_refl _)

theorem usr_pb_dec_fixed_length_bytes_bytes_left {st st' : decode_state} {ok : Bool}
    (h : usr_pb_dec_fixed_length_bytes st = some (ok, st')) :
    st'.stream.bytes_left ≤ st.stream.bytes_left ∧
    (ok = true → st'.stream.bytes_left < st.stream.bytes_left) := by
  unfold usr_pb_dec_fixed_length_bytes at h
  rcases hd : usr_pb_decode_varint32 st.stream with ⟨s1, _ | v⟩
  · have hle := varint32_le hd
    rw [hd] at h
    simp only [Option.some.injEq, Prod.mk.injEq] at h
    obtain ⟨rfl, rfl⟩ := h
    exact ⟨hle, fun hh => by simp at hh⟩
  · have hlt := varint32_lt hd
    rw [hd] at h
    refine dec_tail s1 _ hlt ?_ h
    intro h
    repeat' (first | split_ifs at h | dsimp only at h | split at h)
    all_goals first
      | (simp at h; done)
      | (have he := dec_error_bytes_left h
         exact le_of_eq he.1)
      | (have hr := read_le (by assumption)
         simp only [Option.some.injEq, Prod.mk.injEq] at h
         obtain ⟨rfl, rfl⟩ := h
         exact hr)
      | (simp only [Option.some.injEq, Prod.mk.injEq] at h
         obtain ⟨rfl, rfl⟩ := h
         exact le_refl _)

theorem dec_fixed_bytes_left {n : Nat} {st st' : decode_state} {ok : Bool}
    (h : dec_fixed n st = some (ok, st')) :
    st'.stream.bytes_left ≤ st.stream.bytes_left ∧
    (ok = true → st'.stream.bytes_left < st.stream.bytes_left) := by
  unfold dec_fixed at h
  dsimp only at h
  have hv : (if n = 4 then usr_pb_decode_fixed32 st.stream
      else usr_pb_decode_fixed64 st.stream).1.bytes_left ≤ st.stream.bytes_left ∧
      ((if n = 4 then usr_pb_decode_fixed32 st.stream
        else usr_pb_decode_fixed64 st.stream).2.isSome = true →
        (if n = 4 then usr_pb_decode_fixed32 st.stream
          else usr_pb_decode_fixed64 st.stream).1.bytes_left < st.stream.bytes_left) := by
    split_ifs
    · exact decode_fixed32_bytes_left _
    · exact decode_fixed64_bytes_left _
  rcases hd : (if n = 4 then usr_pb_decode_fixed32 st.stream
      else usr_pb_decode_fixed64 st.stream) with ⟨s1, _ | v⟩
  · rw [hd] at h hv
    simp only [Option.some.injEq, Prod.mk.injEq] at h
    obtain ⟨rfl, rfl⟩ := h
    exact ⟨hv.1, fun hh => by simp at hh⟩
  · rw [hd] at h hv
    have hlt := hv.2 rfl
    dsimp only at h hlt
    split at h
    · simp at h
    · simp only [Option.some.injEq, Prod.mk.injEq] at h
      obtain ⟨rfl, rfl⟩ := h
      exact ⟨by (try dsimp only); omega, fun _ => by (try dsimp only); omega⟩

theorem decode_basic_field_bytes_left {inner : decode_inner_fn} {st st' : decode_state}
    {wire_type : Nat} {ok : Bool}
    (h : decode_basic_field inner st wire_type = some (ok, st')) :
    st'.stream.bytes_left ≤ st.stream.bytes_left ∧
    (ok = true → st'.stream.bytes_left < st.stream.bytes_left) := by
  unfold decode_basic_field at h
  dsimp only at h
  split_ifs at h
  all_goals first
    | (have he := dec_error_bytes_left h
       exact ⟨le_of_eq he.1, fun hh => by simp [he.2] at hh⟩)
    | with_reducible exact usr_pb_dec_bool_bytes_left h
    | with_reducible exact usr_pb_dec_varint_bytes_left h
    | with_reducible exact dec_fixed_bytes_left h
    | with_reducible exact usr_pb_dec_bytes_bytes_left h
    | with_reducible exact usr_pb_dec_string_bytes_left h
    | with_reducible exact usr_pb_dec_submessage_bytes_left h
    | with_reducible exact usr_pb_dec_fixed_length_bytes_bytes_left h

/-- The packed-array loop never lengthens the substream it reads. -/
theorem decode_packed_loop_bytes_left (inner : decode_inner_fn) :
    ∀ (fuel : Nat) (st st' : decode_state) (ok : Bool),
      decode_packed_loop inner fuel st = some (ok, st') →
      st'.stream.bytes_left ≤ st.stream.bytes_left := by
  intro fuel
  induction fuel with
  | zero => intro st st' ok h; simp [decode_packed_loop] at h
  | succ fuel ih =>
    intro st st' ok h
    unfold decode_packed_loop at h
    rcases h1 : load_size st with _ | size
    · simp [h1] at h
    · simp only [h1] at h
      split_ifs at h
      · rcases h2 : decode_basic_field inner st usr_PB_WT_PACKED with _ | ⟨ok1, st1⟩
        · simp [h2] at h
        · have hf1 := (decode_basic_field_bytes_left h2).1
          simp only [h2] at h
          cases ok1
          · simp only [Option.some.injEq, Prod.mk.injEq] at h
            obtain ⟨-, rfl⟩ := h
            exact hf1
          · simp only at h
            rcases h3 : load_size st1 with _ | size1
            · simp [h3] at h
            · rcases h4 : st1.field.pData with _ | p
              · simp [h3, h4] at h
              · simp only [h3, h4] at h
                rcases h5 : store_size st1 (size1 + 1) with _ | st2
                · simp [h5] at h
                · simp only [h5] at h
                  have hf2 := (store_size_field h5).2
                  have hf3 := ih _ _ _ h
                  dsimp only at hf3
                  rw [hf2] at hf3
                  exact le_trans hf3 hf1
      · simp only [Option.some.injEq, Prod.mk.injEq] at h
        obtain ⟨-, rfl⟩ := h
        exact le_refl _

theorem oneof_clear_member_bytes_left {defaults : set_to_defaults_fn} {st st' : decode_state}
    {which : Nat} {ok : Bool} (h : oneof_clear_member defaults st which = some (ok, st')) :
    st'.stream.bytes_left = st.stream.bytes_left := by
  unfold oneof_clear_member at h
  repeat' (first | split_ifs at h | dsimp only at h | split at h)
  all_goals first
    | (simp at h; done)
    | (have hx := dec_error_bytes_left h; exact hx.1)
    | (simp only [Option.some.injEq, Prod.mk.injEq] at h; obtain ⟨-, rfl⟩ := h; rfl)

theorem store_bool_stream {st st' : decode_state} {b : Bool} (h : store_bool st b = some st') :
    st'.stream = st.stream := (store_bool_field h).2

theorem store_size_stream {st st' : decode_state} {v : Nat} (h : store_size st v = some st') :
    st'.stream = st.stream := (store_size_field h).2

theorem decode_static_field_bytes_left {inner : decode_inner_fn}
    {defaults : set_to_defaults_fn} {st st' : decode_state} {wire_type : Nat} {ok : Bool}
    (h : decode_static_field inner defaults st wire_type = some (ok, st')) :
    st'.stream.bytes_left ≤ st.stream.bytes_left := by
  unfold decode_static_field at h
  dsimp only at h
  split_ifs at h with c1 c2 c3 c4 c5 c6
  · exact (decode_basic_field_bytes_left h).1
  · rcases h1 : store_bool st true with _ | st1
    · simp [h1] at h
    · simp only [h1] at h
      have := (decode_basic_field_bytes_left h).1
      rw [store_bool_stream h1] at this
      exact this
  · exact (decode_basic_field_bytes_left h).1
  · -- packed array
    rcases h1 : load_size st with _ | size
    · simp [h1] at h
    · rcases h2 : st.field.pField with _ | pField
      · simp [h1, h2] at h
      · simp only [h1, h2] at h
        rcases hm : usr_pb_make_string_substream st.stream with ⟨s1, _ | sub⟩
        · have hle := substream_le hm
          rw [hm] at h
          simp only [Option.some.injEq, Prod.mk.injEq] at h
          obtain ⟨-, rfl⟩ := h
          exact hle
        · have hle := substream_le hm
          rw [hm] at h
          dsimp only at h
          split at h
          · simp at h
          · split_ifs at h
            · have := (dec_error_bytes_left h).1
              dsimp only at this
              omega
            · split at h
              all_goals
                rename_i hc
                have hc := close_eq hc
                (try dsimp only at hc)
                simp only [Option.some.injEq, Prod.mk.injEq] at h
                obtain ⟨-, rfl⟩ := h
                dsimp only
                omega
  · -- unpacked element
    rcases h1 : load_size st with _ | size
    · simp [h1] at h
    · rcases h2 : st.field.pField with _ | pField
      · simp [h1, h2] at h
      · simp only [h1, h2] at h
        split at h
        · simp at h
        · rename_i st1 hs
          have hf := store_size_stream hs
          (try dsimp only at hf)
          split_ifs at h
          · have := (dec_error_bytes_left h).1
            rw [hf] at this
            exact le_of_eq this
          · have := (decode_basic_field_bytes_left h).1
            rw [hf] at this
            exact this
  · -- oneof
    rcases h1 : load_size st with _ | which
    · simp [h1] at h
    · simp only [h1] at h
      rcases h2 : oneof_clear_member defaults st which with _ | ⟨ok1, st1⟩
      · simp [h2] at h
      · have hf1 := oneof_clear_member_bytes_left h2
        simp only [h2] at h
        cases ok1
        · simp only [Option.some.injEq, Prod.mk.injEq] at h
          obtain ⟨-, rfl⟩ := h
          exact le_of_eq hf1
        · simp only at h
          rcases h3 : store_size st1 st1.field.tag with _ | st2
          · simp [h3] at h
          · simp only [h3] at h
            have := (decode_basic_field_bytes_left h).1
            rw [store_size_stream h3] at this
            omega
  · exact le_of_eq (dec_error_bytes_left h).1

theorem decode_field_bytes_left {inner : decode_inner_fn} {defaults : set_to_defaults_fn}
    {st st' : decode_state} {wire_type : Nat} {ok : Bool}
    (h : decode_field inner defaults st wire_type = some (ok, st')) :
    st'.stream.bytes_left ≤ st.stream.bytes_left := by
  unfold decode_field at h
  dsimp only at h
  split_ifs at h
  · exact decode_static_field_bytes_left h
  · exact le_of_eq (dec_error_bytes_left h).1
  · unfold decode_callback_field at h
    split_ifs at h
    simp only [Option.some.injEq, Prod.mk.injEq] at h
    obtain ⟨-, rfl⟩ := h
    exact skip_field_bytes_left _ _
  · exact le_of_eq (dec_error_bytes_left h).1

theorem fixed_count_update_stream (s : inner_state) :
    (fixed_count_update s).2.stream.bytes_left = s.stream.bytes_left := by
  unfold fixed_count_update
  split_ifs <;> rfl

theorem mark_required_seen_stream (s : inner_state) :
    (mark_required_seen s).stream = s.stream := by
  unfold mark_required_seen
  split_ifs <;> rfl

theorem decode_known_field_bytes_left {inner : decode_inner_fn}
    {defaults : set_to_defaults_fn} {s : inner_state} {wire_type : Nat} {ls : loop_step}
    (h : decode_known_field inner defaults s wire_type = some ls) :
    ls.state.stream.bytes_left ≤ s.stream.bytes_left := by
  unfold decode_known_field at h
  dsimp only at h
  have h1 := fixed_count_update_stream s
  have h2 := mark_required_seen_stream (fixed_count_update s).2
  split_ifs at h with c
  · simp only [Option.some.injEq] at h
    subst h
    exact le_of_eq h1
  · rcases hd : decode_field inner defaults
        { stream := (mark_required_seen (fixed_count_update s).2).stream,
          field := (mark_required_seen (fixed_count_update s).2).iter,
          mem := (mark_required_seen (fixed_count_update s).2).mem,
          fixed_count_size := (mark_required_seen (fixed_count_update s).2).fixed_count_size }
        wire_type with _ | ⟨ok, st⟩
    · simp [hd] at h
    · have hle := decode_field_bytes_left hd
      dsimp only at hle
      rw [h2, h1] at hle
      simp only [hd] at h
      split_ifs at h
      all_goals
        simp only [Option.some.injEq] at h
        subst h
        exact hle

theorem find_extension_range_stream {s s' : inner_state} (h : find_extension_range s = some s') :
    s'.stream = s.stream := by
  unfold find_extension_range at h
  split_ifs at h with c
  · dsimp only at h
    rw [Option.map_eq_some'] at h
    obtain ⟨s1, hs1, rfl⟩ := h
    have h1 : s1.stream = s.stream := by
      split_ifs at hs1
      · split at hs1
        · simp at hs1
        · simp only [Option.some.injEq] at hs1
          subst hs1
          rfl
      · simp only [Option.some.injEq] at hs1
        subst hs1
        rfl
    split_ifs
    · exact h1
    · exact h1
  · simp only [Option.some.injEq] at h
    subst h
    rfl

/-- A round of the field loop that does not return has read a tag: it leaves
the stream strictly shorter. -/
theorem decode_inner_step_bytes_left {inner : decode_inner_fn}
    {defaults : set_to_defaults_fn} {flags : Nat} {s s' : inner_state}
    (h : decode_inner_step inner defaults flags s = some (loop_step.next s')) :
    s'.stream.bytes_left < s.stream.bytes_left := by
  unfold decode_inner_step at h
  dsimp only at h
  have ht := decode_tag_bytes_left s.stream
  by_cases c1 : (usr_pb_decode_tag s.stream).ok = false
  · rw [if_pos c1] at h
    split_ifs at h <;> simp at h
  · rw [if_neg c1] at h
    have hlt := ht.2 (by simpa using c1)
    by_cases c2 : (usr_pb_decode_tag s.stream).tag = 0
    · rw [if_pos c2] at h
      split_ifs at h <;> simp at h
    · rw [if_neg c2] at h
      split_ifs at h with c3
      · -- unknown field or extension
        rcases he : find_extension_range
            { s with stream := (usr_pb_decode_tag s.stream).stream,
                     iter := (usr_pb_field_iter_find s.mem s.iter
                       (usr_pb_decode_tag s.stream).tag).1 } with _ | s1
        · simp [he] at h
        · have hs1 := find_extension_range_stream he
          dsimp only at hs1
          simp only [he] at h
          have hb : s1.stream.bytes_left = (usr_pb_decode_tag s.stream).stream.bytes_left := by
            rw [hs1]
          have hk := skip_field_bytes_left s1.stream (usr_pb_decode_tag s.stream).wire_type
          by_cases c6 : (usr_pb_decode_tag s.stream).tag ≥ s1.extension_range_start
          · rw [if_pos c6] at h
            unfold decode_extension at h
            rcases hx : s1.extensions with _ | e
            · simp only [hx] at h
              split_ifs at h
              all_goals first
                | (simp at h; done)
                | (simp only [Option.some.injEq, loop_step.next.injEq] at h
                   subst h
                   dsimp only
                   omega)
            · simp [hx] at h
          · rw [if_neg c6] at h
            split_ifs at h
            all_goals first
              | (simp at h; done)
              | (simp only [Option.some.injEq, loop_step.next.injEq] at h
                 subst h
                 dsimp only
                 omega)
      · have hk := decode_known_field_bytes_left h
        dsimp only [loop_step.state] at hk
        omega

/-! ## The loops end within their bounds -/

/-- The field loop of `usr_pb_decode_inner` ends within `bytes_left` rounds:
any larger bound gives the same result. -/
theorem decode_inner_loop_fuel (inner : decode_inner_fn) (defaults : set_to_defaults_fn)
    (flags : Nat) : ∀ (fuel fuel' : Nat) (s : inner_state),
      s.stream.bytes_left < fuel → s.stream.bytes_left < fuel' →
      decode_inner_loop inner defaults flags fuel s =
        decode_inner_loop inner defaults flags fuel' s := by
  intro fuel
  induction fuel with
  | zero => intro fuel' s h; omega
  | succ fuel ih =>
    intro fuel' s h1 h2
    obtain ⟨f', rfl⟩ : ∃ f', fuel' = f' + 1 := ⟨fuel' - 1, by omega⟩
    unfold decode_inner_loop
    by_cases c : s.stream.bytes_left ≠ 0
    · rw [if_pos c, if_pos c]
      rcases hs : decode_inner_step inner defaults flags s with _ | ⟨s1⟩ | ⟨s1⟩ | ⟨s1⟩
      · rfl
      · have hlt := decode_inner_step_bytes_left hs
        exact ih f' s1 (by omega) (by omega)
      · rfl
      · rfl
    · rw [if_neg c, if_neg c]

/-- The packed-array loop ends within `bytes_left` rounds. -/
theorem decode_packed_loop_fuel (inner : decode_inner_fn) :
    ∀ (fuel fuel' : Nat) (st : decode_state),
      st.stream.bytes_left < fuel → st.stream.bytes_left < fuel' →
      decode_packed_loop inner fuel st = decode_packed_loop inner fuel' st := by
  intro fuel
  induction fuel with
  | zero => intro fuel' s h; omega
  | succ fuel ih =>
    intro fuel' st h1 h2
    obtain ⟨f', rfl⟩ : ∃ f', fuel' = f' + 1 := ⟨fuel' - 1, by omega⟩
    unfold decode_packed_loop
    rcases hl : load_size st with _ | size
    · rfl
    · dsimp only
      split_ifs with c
      · rcases hd : decode_basic_field inner st usr_PB_WT_PACKED with _ | ⟨ok1, st1⟩
        · rfl
        · have hlt := (decode_basic_field_bytes_left hd).2
          cases ok1
          · rfl
          · dsimp only
            rcases h3 : load_size st1 with _ | size1
            · rfl
            · rcases h4 : st1.field.pData with _ | p
              · rfl
              · dsimp only
                rcases h5 : store_size st1 (size1 + 1) with _ | st2
                · rfl
                · dsimp only
                  have hs := store_size_stream h5
                  have := hlt rfl
                  exact ih f' _ (by dsimp only; rw [hs]; omega) (by dsimp only; rw [hs]; omega)
      · rfl

/-- The loop of `usr_pb_skip_varint` ends within `bytes_left + 1` rounds. -/
theorem skip_varint_loop_fuel : ∀ (fuel fuel' : Nat) (s : usr_pb_istream_t),
    s.bytes_left < fuel → s.bytes_left < fuel' →
    skip_varint_loop fuel s = skip_varint_loop fuel' s := by
  intro fuel
  induction fuel with
  | zero => intro fuel' s h; omega
  | succ fuel ih =>
    intro fuel' s h1 h2
    obtain ⟨f', rfl⟩ : ∃ f', fuel' = f' + 1 := ⟨fuel' - 1, by omega⟩
    unfold skip_varint_loop
    have hr := read_bytes_left s 1
    rcases h : usr_pb_read s 1 with ⟨s1, _ | buf⟩
    · rfl
    · rw [h] at hr
      have := hr.2 rfl
      dsimp only at this ⊢
      split_ifs
      · exact ih f' s1 (by omega) (by omega)
      · rfl

/-! ## Nested messages are decoded from strictly shorter streams -/

theorem dec_submessage_on_shorter (inner : decode_inner_fn) (n : Nat) (st : decode_state)
    (hn : st.stream.bytes_left ≤ n) :
    usr_pb_dec_submessage (on_shorter n inner) st = usr_pb_dec_submessage inner st := by
  unfold usr_pb_dec_submessage
  rcases hm : usr_pb_make_string_substream st.stream with ⟨s1, _ | sub⟩
  · rfl
  · have hlt := substream_lt hm
    have e : ∀ d p f m, on_shorter n inner sub d p f m = inner sub d p f m := by
      intro d p f m
      unfold on_shorter
      rw [if_pos (by omega)]
    simp only [e]

theorem decode_basic_field_on_shorter (inner : decode_inner_fn) (n : Nat) (st : decode_state)
    (wire_type : Nat) (hn : st.stream.bytes_left ≤ n) :
    decode_basic_field (on_shorter n inner) st wire_type =
      decode_basic_field inner st wire_type := by
  unfold decode_basic_field
  rw [dec_submessage_on_shorter inner n st hn]

theorem decode_packed_loop_on_shorter (inner : decode_inner_fn) (n : Nat) :
    ∀ (fuel : Nat) (st : decode_state), st.stream.bytes_left ≤ n →
      decode_packed_loop (on_shorter n inner) fuel st = decode_packed_loop inner fuel st := by
  intro fuel
  induction fuel with
  | zero => intro st _; rfl
  | succ fuel ih =>
    intro st hn
    unfold decode_packed_loop
    rw [decode_basic_field_on_shorter inner n st _ hn]
    rcases hl : load_size st with _ | size
    · rfl
    · dsimp only
      split_ifs with c
      · rcases hd : decode_basic_field inner st usr_PB_WT_PACKED with _ | ⟨ok1, st1⟩
        · rfl
        · have hle := (decode_basic_field_bytes_left hd).1
          cases ok1
          · rfl
          · dsimp only
            rcases h3 : load_size st1 with _ | size1
            · rfl
            · rcases h4 : st1.field.pData with _ | p
              · rfl
              · dsimp only
                rcases h5 : store_size st1 (size1 + 1) with _ | st2
                · rfl
                · dsimp only
                  have hs := store_size_stream h5
                  exact ih _ (by dsimp only; rw [hs]; omega)
      · rfl

theorem decode_static_field_on_shorter (inner : decode_inner_fn)
    (defaults : set_to_defaults_fn) (n : Nat) (st : decode_state) (wire_type : Nat)
    (hn : st.stream.bytes_left ≤ n) :
    decode_static_field (on_shorter n inner) defaults st wire_type =
      decode_static_field inner defaults st wire_type := by
  unfold decode_static_field
  dsimp only
  split_ifs with c1 c2 c3 c4 c5 c6
  · exact decode_basic_field_on_shorter inner n st _ hn
  · rcases h1 : store_bool st true with _ | st1
    · rfl
    · dsimp only
      exact decode_basic_field_on_shorter inner n st1 _ (by rw [store_bool_stream h1]; exact hn)
  · exact decode_basic_field_on_shorter inner n st _ hn
  · rcases h1 : load_size st with _ | size
    · rfl
    · rcases h2 : st.field.pField with _ | pField
      · rfl
      · dsimp only
        rcases hm : usr_pb_make_string_substream st.stream with ⟨s1, _ | sub⟩
        · rfl
        · dsimp only
          have hlt := substream_lt hm
          rw [decode_packed_loop_on_shorter inner n _ _ (by dsimp only; omega)]
  · rcases h1 : load_size st with _ | size
    · rfl
    · rcases h2 : st.field.pField with _ | pField
      · rfl
      · dsimp only
        split
        · rfl
        · rename_i st1 h3
          have hs := store_size_stream h3
          dsimp only at hs
          rw [decode_basic_field_on_shorter inner n st1 _ (by rw [hs]; exact hn)]
  · rcases h1 : load_size st with _ | which
    · rfl
    · dsimp only
      rcases h2 : oneof_clear_member defaults st which with _ | ⟨ok1, st1⟩
      · rfl
      · have hb := oneof_clear_member_bytes_left h2
        cases ok1
        · rfl
        · dsimp only
          rcases h3 : store_size st1 st1.field.tag with _ | st2
          · rfl
          · dsimp only
            exact decode_basic_field_on_shorter inner n st2 _
              (by rw [store_size_stream h3, hb]; exact hn)
  · rfl

theorem decode_field_on_shorter (inner : decode_inner_fn) (defaults : set_to_defaults_fn)
    (n : Nat) (st : decode_state) (wire_type : Nat) (hn : st.stream.bytes_left ≤ n) :
    decode_field (on_shorter n inner) defaults st wire_type =
      decode_field inner defaults st wire_type := by
  unfold decode_field
  rw [decode_static_field_on_shorter inner defaults n st wire_type hn]

theorem decode_known_field_on_shorter (inner : decode_inner_fn)
    (defaults : set_to_defaults_fn) (n : Nat) (s : inner_state) (wire_type : Nat)
    (hn : s.stream.bytes_left ≤ n) :
    decode_known_field (on_shorter n inner) defaults s wire_type =
      decode_known_field inner defaults s wire_type := by
  unfold decode_known_field
  dsimp only
  rw [decode_field_on_shorter inner defaults n _ wire_type
    (by dsimp only; rw [mark_required_seen_stream, fixed_count_update_stream]; exact hn)]

/-- In a round of the field loop, `usr_pb_decode_inner` is called for a
submessage only on a stream strictly shorter than the stream of the round. -/
theorem decode_inner_step_on_shorter (inner : decode_inner_fn)
    (defaults : set_to_defaults_fn) (flags : Nat) (s : inner_state) :
    decode_inner_step (on_shorter s.stream.bytes_left inner) defaults flags s =
      decode_inner_step inner defaults flags s := by
  unfold decode_inner_step
  dsimp only
  rw [decode_known_field_on_shorter inner defaults s.stream.bytes_left _ _
    (by dsimp only; exact (decode_tag_bytes_left s.stream).1)]
/-! ## What the field decoders keep of the iterator -/

theorem keeps_refl (a : usr_pb_field_iter_t) : keeps a a :=
  ⟨same_field_refl a, rfl, rfl, rfl, rfl, fun h => h⟩

theorem keeps_of_eq {a b : usr_pb_field_iter_t} (h : b = a) : keeps a b :=
  h ▸ keeps_refl a

theorem keeps_trans {a b c : usr_pb_field_iter_t} (h1 : keeps a b) (h2 : keeps b c) :
    keeps a c := by
  obtain ⟨a1, a2, a3, a4, a5, a6⟩ := h1
  obtain ⟨b1, b2, b3, b4, b5, b6⟩ := h2
  exact ⟨same_field_trans b1 a1, b2.trans a2, b3.trans a3, b4.trans a4, b5.trans a5,
    fun h => b6 (a6 h)⟩

theorem store_size_keeps {st st' : decode_state} {v : Nat} (h : store_size st v = some st') :
    keeps st.field st'.field := by
  unfold store_size at h
  split at h <;> simp at h <;> subst h <;> exact keeps_refl _

theorem store_bool_keeps {st st' : decode_state} {b : Bool} (h : store_bool st b = some st') :
    keeps st.field st'.field := by
  unfold store_bool at h
  split at h <;> simp at h <;> subst h <;> exact keeps_refl _

theorem keeps_pData (a : usr_pb_field_iter_t) (p : Nat) : keeps a { a with pData := some p } :=
  ⟨same_field_refl _, rfl, rfl, rfl, rfl, fun _ => rfl⟩

theorem keeps_pField_pData (a : usr_pb_field_iter_t) (pf : Option Nat) (p : Nat)
    (h : a.pField = pf) : keeps a { a with pField := pf, pData := some p } :=
  ⟨same_field_refl _, rfl, h.symm, rfl, rfl, fun _ => rfl⟩

theorem decode_packed_loop_keeps (inner : decode_inner_fn) :
    ∀ (fuel : Nat) (st st' : decode_state) (ok : Bool),
      decode_packed_loop inner fuel st = some (ok, st') → keeps st.field st'.field := by
  intro fuel
  induction fuel with
  | zero => intro st st' ok h; simp [decode_packed_loop] at h
  | succ fuel ih =>
    intro st st' ok h
    unfold decode_packed_loop at h
    rcases h1 : load_size st with _ | size
    · simp [h1] at h
    · simp only [h1] at h
      split_ifs at h
      · rcases h2 : decode_basic_field inner st usr_PB_WT_PACKED with _ | ⟨ok1, st1⟩
        · simp [h2] at h
        · have hf1 := decode_basic_field_field h2
          simp only [h2] at h
          cases ok1
          · simp only [Option.some.injEq, Prod.mk.injEq] at h
            obtain ⟨-, rfl⟩ := h
            exact keeps_of_eq hf1
          · simp only at h
            rcases h3 : load_size st1 with _ | size1
            · simp [h3] at h
            · rcases h4 : st1.field.pData with _ | p
              · simp [h3, h4] at h
              · simp only [h3, h4] at h
                rcases h5 : store_size st1 (size1 + 1) with _ | st2
                · simp [h5] at h
                · simp only [h5] at h
                  have hf2 := store_size_keeps h5
                  have hf3 := ih _ _ _ h
                  exact keeps_trans (keeps_trans (keeps_trans (keeps_of_eq hf1) hf2)
                    (keeps_pData _ _)) hf3
      · simp only [Option.some.injEq, Prod.mk.injEq] at h
        obtain ⟨-, rfl⟩ := h
        exact keeps_refl _

theorem decode_static_field_keeps {inner : decode_inner_fn} {defaults : set_to_defaults_fn}
    {st st' : decode_state} {wire_type : Nat} {ok : Bool}
    (h : decode_static_field inner defaults st wire_type = some (ok, st')) :
    keeps st.field st'.field := by
  unfold decode_static_field at h
  dsimp only at h
  split_ifs at h with c1 c2 c3 c4 c5 c6
  · exact keeps_of_eq (decode_basic_field_field h)
  · rcases h1 : store_bool st true with _ | st1
    · simp [h1] at h
    · simp only [h1] at h
      exact keeps_trans (store_bool_keeps h1) (keeps_of_eq (decode_basic_field_field h))
  · exact keeps_of_eq (decode_basic_field_field h)
  · -- packed array
    rcases h1 : load_size st with _ | size
    · simp [h1] at h
    · rcases h2 : st.field.pField with _ | pField
      · simp [h1, h2] at h
      · simp only [h1, h2] at h
        split at h
        · simp only [Option.some.injEq, Prod.mk.injEq] at h
          obtain ⟨-, rfl⟩ := h
          exact keeps_pField_pData _ _ _ h2
        · split at h
          · simp at h
          · rename_i hl
            have hf := decode_packed_loop_keeps _ _ _ _ _ hl
            have hf : keeps st.field _ := keeps_trans (keeps_pField_pData st.field _ _ h2) hf
            split_ifs at h
            · have := dec_error_field h
              exact keeps_trans hf (keeps_of_eq this)
            · split at h
              all_goals
                simp only [Option.some.injEq, Prod.mk.injEq] at h
                obtain ⟨-, rfl⟩ := h
                exact hf
  · -- unpacked element
    rcases h1 : load_size st with _ | size
    · simp [h1] at h
    · rcases h2 : st.field.pField with _ | pField
      · simp [h1, h2] at h
      · simp only [h1, h2] at h
        split at h
        · simp at h
        · rename_i st1 hs
          have hf := store_size_keeps hs
          have hf : keeps st.field _ := keeps_trans (keeps_pField_pData st.field _ _ h2) hf
          split_ifs at h
          · have := dec_error_field h
            exact keeps_trans hf (keeps_of_eq this)
          · exact keeps_trans hf (keeps_of_eq (decode_basic_field_field h))
  · -- oneof
    rcases h1 : load_size st with _ | which
    · simp [h1] at h
    · simp only [h1] at h
      rcases h2 : oneof_clear_member defaults st which with _ | ⟨ok1, st1⟩
      · simp [h2] at h
      · have hf1 := oneof_clear_member_field h2
        simp only [h2] at h
        cases ok1
        · simp only [Option.some.injEq, Prod.mk.injEq] at h
          obtain ⟨-, rfl⟩ := h
          exact keeps_of_eq hf1
        · simp only at h
          rcases h3 : store_size st1 st1.field.tag with _ | st2
          · simp [h3] at h
          · simp only [h3] at h
            exact keeps_trans (keeps_trans (keeps_of_eq hf1) (store_size_keeps h3))
              (keeps_of_eq (decode_basic_field_field h))
  · exact keeps_of_eq (dec_error_field h)

theorem decode_field_keeps {inner : decode_inner_fn} {defaults : set_to_defaults_fn}
    {st st' : decode_state} {wire_type : Nat} {ok : Bool}
    (h : decode_field inner defaults st wire_type = some (ok, st')) :
    keeps st.field st'.field := by
  unfold decode_field at h
  dsimp only at h
  split_ifs at h
  · exact decode_static_field_keeps h
  · exact keeps_of_eq (dec_error_field h)
  · unfold decode_callback_field at h
    split_ifs at h
    simp only [Option.some.injEq, Prod.mk.injEq] at h
    obtain ⟨-, rfl⟩ := h
    exact keeps_refl _
  · exact keeps_of_eq (dec_error_field h)

theorem ready_keeps {D : usr_pb_msgdesc_t → Prop} {desc : usr_pb_msgdesc_t}
    {a b : usr_pb_field_iter_t} (h : ready D desc a) (hk : keeps a b) : ready D desc b := by
  obtain ⟨h1, h2, h3, h4, h5, h6, h7, h8, h9⟩ := h
  obtain ⟨k1, k2, k3, k4, k5, k6⟩ := hk
  have ht : b.type = a.type := k1.2.2.2.2.2.2
  refine ⟨on_field_congr k1 h1, by rw [k2]; exact h2, by rw [k3]; exact h3, ?_, ?_⟩
  · intro hp
    rw [ht] at hp
    exact k6 (h4 hp)
  · unfold field_fit
    rw [ht, k5, k4]
    exact ⟨h5, h6, h7, h8, h9⟩
/-! ## Iterators on decodable fields -/

theorem load_pointers (m : List usr_pb_byte_t) (it : usr_pb_field_iter_t)
    (hi : it.index < it.descriptor.field_count) (hm : it.message.isSome = true) :
    (load_descriptor_values m it).1.pField.isSome = true ∧
    (usr_PB_ATYPE (load_descriptor_values m it).1.type ≠ usr_PB_ATYPE_POINTER →
      (load_descriptor_values m it).1.pData.isSome = true) ∧
    (usr_PB_HTYPE (load_descriptor_values m it).1.type = usr_PB_HTYPE_REPEATED →
      usr_PB_ATYPE (load_descriptor_values m it).1.type = usr_PB_ATYPE_STATIC ∨
        usr_PB_ATYPE (load_descriptor_values m it).1.type = usr_PB_ATYPE_POINTER →
      (load_descriptor_values m it).1.pSize ≠ size_ptr.null) := by
  have ha : ¬ it.index ≥ it.descriptor.field_count := by omega
  obtain ⟨msg, hmsg⟩ := Option.isSome_iff_exists.mp hm
  unfold load_descriptor_values
  dsimp only
  rw [if_neg ha]
  dsimp only
  rw [hmsg]
  dsimp only
  refine ⟨rfl, ?_, ?_⟩
  · intro h
    rw [if_neg h]
    rfl
  · intro h1 h2
    split_ifs
    all_goals first
      | (simp; done)
      | (rename_i hx; exact absurd ⟨h1, h2⟩ hx)

theorem load_pSize_null (m1 m2 : List usr_pb_byte_t) {a b : usr_pb_field_iter_t}
    (h : same_pos a b) (hi : a.index < a.descriptor.field_count)
    (ha : a.message.isSome = true) (hb : b.message.isSome = true) :
    (load_descriptor_values m1 a).1.pSize = size_ptr.null ↔
      (load_descriptor_values m2 b).1.pSize = size_ptr.null := by
  obtain ⟨h1, h2, h3, h4, h5⟩ := h
  have hi2 : b.index < b.descriptor.field_count := by rw [← h1, ← h2]; exact hi
  have hna : ¬ a.index ≥ a.descriptor.field_count := by omega
  have hnb : ¬ b.index ≥ b.descriptor.field_count := by omega
  obtain ⟨ma, hma⟩ := Option.isSome_iff_exists.mp ha
  obtain ⟨mb, hmb⟩ := Option.isSome_iff_exists.mp hb
  unfold load_descriptor_values
  dsimp only
  rw [if_neg hna, if_neg hnb]
  dsimp only
  rw [h1, h3, hma, hmb]
  dsimp only
  split_ifs <;> simp

theorem valid_pos_advance {desc : usr_pb_msgdesc_t} {it : usr_pb_field_iter_t}
    (hfc : desc.field_count < 65536) (h : valid_pos desc it) :
    valid_pos desc (advance_iterator it) :=
  ⟨on_pos_advance hfc h.1, by rw [advance_message]; exact h.2⟩

theorem valid_pos_load {desc : usr_pb_msgdesc_t} {it : usr_pb_field_iter_t}
    (h : valid_pos desc it) (m : List usr_pb_byte_t) :
    valid_pos desc (load_descriptor_values m it).1 :=
  ⟨on_pos_congr (load_same_pos m it) h.1, by rw [load_message]; exact h.2⟩

theorem ready_valid_pos {D : usr_pb_msgdesc_t → Prop} {desc : usr_pb_msgdesc_t}
    {it : usr_pb_field_iter_t} (h : ready D desc it) : valid_pos desc it :=
  ⟨on_field_pos h.1, h.2.1⟩

/-- The descriptor loads decodable fields at all its positions. -/
theorem ready_load {D : usr_pb_msgdesc_t → Prop} {desc : usr_pb_msgdesc_t}
    (hfc : desc.field_count < 65536)
    (hfit : ∀ m x, valid_pos desc x → field_fit D (load_descriptor_values m x).1)
    {it : usr_pb_field_iter_t} (h : valid_pos desc it) (m : List usr_pb_byte_t) :
    ready D desc (load_descriptor_values m it).1 := by
  have hi := on_pos_index_lt hfc h.1
  have hp := load_pointers m it hi h.2
  exact ⟨on_field_load hfc h.1 m, by rw [load_message]; exact h.2, hp.1, hp.2.1, hfit m it h⟩

theorem ready_begin {D : usr_pb_msgdesc_t → Prop} {desc : usr_pb_msgdesc_t}
    (hfc : desc.field_count < 65536) (h0 : 0 < desc.field_count)
    (hfit : ∀ m x, valid_pos desc x → field_fit D (load_descriptor_values m x).1)
    (m : List usr_pb_byte_t) (dest : Nat) :
    ready D desc (usr_pb_field_iter_begin m desc (some dest)).1 ∧
    (usr_pb_field_iter_begin m desc (some dest)).2 = true := by
  unfold usr_pb_field_iter_begin
  have hv : valid_pos desc
      { descriptor := desc, message := some dest, index := 0, field_info_index := 0,
        required_field_index := 0, submessage_index := 0, tag := 0, data_size := 0,
        array_size := 0, type := 0, pField := none, pData := none, pSize := size_ptr.null,
        submsg_desc := none } :=
    ⟨on_pos_zero [] desc none h0 _ rfl rfl rfl rfl rfl, rfl⟩
  refine ⟨ready_load hfc hfit hv m, ?_⟩
  unfold load_descriptor_values
  dsimp only
  rw [if_neg (by omega)]

theorem ready_next {D : usr_pb_msgdesc_t → Prop} {desc : usr_pb_msgdesc_t}
    (hfc : desc.field_count < 65536)
    (hfit : ∀ m x, valid_pos desc x → field_fit D (load_descriptor_values m x).1)
    {it : usr_pb_field_iter_t} (h : valid_pos desc it) (m : List usr_pb_byte_t) :
    ready D desc (usr_pb_field_iter_next m it).1 := by
  unfold usr_pb_field_iter_next
  exact ready_load hfc hfit (valid_pos_advance hfc h) m

theorem ready_pSize {D : usr_pb_msgdesc_t → Prop} {desc : usr_pb_msgdesc_t}
    {it : usr_pb_field_iter_t} (h : ready D desc it) (p : size_ptr) (hp : p ≠ size_ptr.null) :
    ready D desc { it with pSize := p } := by
  obtain ⟨h1, h2, h3, h4, h5, h6, h7, h8, h9⟩ := h
  exact ⟨on_field_congr ⟨rfl, rfl, rfl, rfl, rfl, rfl, rfl⟩ h1, h2, h3, h4, h5, h6,
    fun _ => hp, fun _ _ => hp, h9⟩
/-! ## The field decoders stay within the embedding -/

theorem dec_error_total (st : decode_state) (msg : String) :
    (dec_error st msg).isSome = true := rfl

theorem load_size_total {st : decode_state} (h : st.field.pSize ≠ size_ptr.null) :
    ∃ v, load_size st = some v := by
  unfold load_size
  split
  · exact absurd ‹_› h
  · exact ⟨_, rfl⟩
  · exact ⟨_, rfl⟩
  · exact ⟨_, rfl⟩

theorem store_size_total (st : decode_state) (v : Nat) (h : st.field.pSize ≠ size_ptr.null) :
    ∃ st', store_size st v = some st' := by
  unfold store_size
  split
  · exact absurd ‹_› h
  · exact ⟨_, rfl⟩
  · exact ⟨_, rfl⟩
  · exact ⟨_, rfl⟩

theorem store_bool_total (st : decode_state) (b : Bool) (h : st.field.pSize ≠ size_ptr.null) :
    ∃ st', store_bool st b = some st' := by
  unfold store_bool
  split
  · exact absurd ‹_› h
  · exact ⟨_, rfl⟩
  · exact ⟨_, rfl⟩
  · exact ⟨_, rfl⟩

theorem usr_pb_dec_bool_total {st : decode_state} (h : st.field.pData.isSome = true) :
    (usr_pb_dec_bool st).isSome = true := by
  obtain ⟨p, hp⟩ := Option.isSome_iff_exists.mp h
  unfold usr_pb_dec_bool
  simp only [hp]
  repeat' split
  all_goals rfl

theorem usr_pb_dec_varint_total {st : decode_state} (h : st.field.pData.isSome = true) :
    (usr_pb_dec_varint st).isSome = true := by
  obtain ⟨p, hp⟩ := Option.isSome_iff_exists.mp h
  unfold usr_pb_dec_varint dec_error
  simp only [hp]
  repeat' split
  all_goals rfl

theorem usr_pb_dec_bytes_total {st : decode_state} (h : st.field.pData.isSome = true) :
    (usr_pb_dec_bytes st).isSome = true := by
  obtain ⟨p, hp⟩ := Option.isSome_iff_exists.mp h
  unfold usr_pb_dec_bytes dec_error
  simp only [hp]
  repeat' split
  all_goals rfl

theorem usr_pb_dec_string_total {st : decode_state} (h : st.field.pData.isSome = true) :
    (usr_pb_dec_string st).isSome = true := by
  obtain ⟨p, hp⟩ := Option.isSome_iff_exists.mp h
  unfold usr_pb_dec_string dec_error
  simp only [hp]
  repeat' split
  all_goals rfl

theorem usr_pb_dec_fixed_length_bytes_total {st : decode_state}
    (h : st.field.pData.isSome = true) :
    (usr_pb_dec_fixed_length_bytes st).isSome = true := by
  obtain ⟨p, hp⟩ := Option.isSome_iff_exists.mp h
  unfold usr_pb_dec_fixed_length_bytes dec_error
  simp only [hp]
  repeat' split
  all_goals rfl

theorem dec_fixed_total {n : Nat} {st : decode_state} (h : st.field.pData.isSome = true) :
    (dec_fixed n st).isSome = true := by
  obtain ⟨p, hp⟩ := Option.isSome_iff_exists.mp h
  unfold dec_fixed
  simp only [hp]
  repeat' split
  all_goals rfl

theorem usr_pb_dec_submessage_total {D : usr_pb_msgdesc_t → Prop} {inner : decode_inner_fn}
    {st : decode_state} (hi : inner_total D inner) (hp : st.field.pData.isSome = true)
    (hl : usr_PB_LTYPE st.field.type ≠ usr_PB_LTYPE_SUBMSG_W_CB)
    (hd : ∀ d, st.field.submsg_desc = some d → D d) :
    (usr_pb_dec_submessage inner st).isSome = true := by
  obtain ⟨p, hp⟩ := Option.isSome_iff_exists.mp hp
  unfold usr_pb_dec_submessage
  rcases hm : usr_pb_make_string_substream st.stream with ⟨s1, _ | sub⟩
  · rfl
  · dsimp only
    rcases hs : st.field.submsg_desc with _ | d
    · rfl
    · dsimp only
      have hcb : ¬ (usr_PB_LTYPE st.field.type = usr_PB_LTYPE_SUBMSG_W_CB ∧
          st.field.pSize ≠ size_ptr.null) := fun h => hl h.1
      rw [if_neg hcb]
      dsimp only
      rw [hp]
      have := hi d (hd d hs) sub p
        (if usr_PB_ATYPE st.field.type = usr_PB_ATYPE_STATIC ∧
            usr_PB_HTYPE st.field.type ≠ usr_PB_HTYPE_REPEATED then usr_PB_DECODE_NOINIT
          else 0) st.mem
      obtain ⟨r, hr⟩ := Option.isSome_iff_exists.mp this
      rw [hr]
      obtain ⟨status, sub2, mem2⟩ := r
      dsimp only
      repeat' split
      all_goals rfl

theorem none_absurd {α : Type} {o : Option α} (h : o.isSome = true) (e : o = none) : False := by
  rw [e] at h
  simp at h

set_option maxHeartbeats 2000000 in
theorem decode_basic_field_total {D : usr_pb_msgdesc_t → Prop} {inner : decode_inner_fn}
    {st : decode_state} (wire_type : Nat) (hi : inner_total D inner)
    (hp : st.field.pData.isSome = true) (hfit : field_fit D st.field) :
    (decode_basic_field inner st wire_type).isSome = true := by
  rcases h : decode_basic_field inner st wire_type with _ | r
  · exfalso
    unfold decode_basic_field at h
    dsimp only at h
    split_ifs at h
    all_goals first
      | with_reducible exact none_absurd (dec_error_total _ _) h
      | with_reducible exact none_absurd (usr_pb_dec_bool_total hp) h
      | with_reducible exact none_absurd (usr_pb_dec_varint_total hp) h
      | with_reducible exact none_absurd (dec_fixed_total hp) h
      | with_reducible exact none_absurd (usr_pb_dec_bytes_total hp) h
      | with_reducible exact none_absurd (usr_pb_dec_string_total hp) h
      | with_reducible exact none_absurd (usr_pb_dec_fixed_length_bytes_total hp) h
      | (refine none_absurd (usr_pb_dec_submessage_total hi hp hfit.2.1 ?_) h
         intro d hd
         have hsub : usr_PB_LTYPE_IS_SUBMSG st.field.type = true := by
           unfold usr_PB_LTYPE_IS_SUBMSG
           simp only [Bool.or_eq_true, beq_iff_eq]
           assumption
         obtain ⟨d0, h0, hD⟩ := hfit.2.2.2.2 hsub
         rw [h0] at hd
         simp only [Option.some.injEq] at hd
         subst hd
         exact hD)
  · rfl

theorem some_of_isSome {α : Type} {o : Option α} (h : o.isSome = true) : ∃ r, o = some r :=
  Option.isSome_iff_exists.mp h

theorem decode_packed_loop_total {D : usr_pb_msgdesc_t → Prop} {inner : decode_inner_fn}
    (hi : inner_total D inner) :
    ∀ (fuel : Nat) (st : decode_state), st.stream.bytes_left < fuel →
      st.field.pData.isSome = true → st.field.pSize ≠ size_ptr.null → field_fit D st.field →
      (decode_packed_loop inner fuel st).isSome = true := by
  intro fuel
  induction fuel with
  | zero => intro st h; omega
  | succ fuel ih =>
    intro st hlt hp hs hfit
    unfold decode_packed_loop
    obtain ⟨size, hl⟩ := load_size_total hs
    rw [hl]
    dsimp only
    split_ifs with c
    · obtain ⟨⟨ok1, st1⟩, hd⟩ := some_of_isSome
        (decode_basic_field_total usr_PB_WT_PACKED hi hp hfit)
      rw [hd]
      have hf := decode_basic_field_field hd
      have hb := (decode_basic_field_bytes_left hd).2
      cases ok1
      · rfl
      · dsimp only
        have hs1 : st1.field.pSize ≠ size_ptr.null := by rw [hf]; exact hs
        obtain ⟨size1, hl1⟩ := load_size_total hs1
        obtain ⟨p, hp1⟩ := some_of_isSome (by rw [hf]; exact hp : st1.field.pData.isSome = true)
        rw [hl1, hp1]
        dsimp only
        obtain ⟨st2, h5⟩ := store_size_total st1 (size1 + 1) hs1
        rw [h5]
        dsimp only
        have hk := store_size_keeps h5
        have hstr := store_size_stream h5
        have := hb rfl
        refine ih _ (by dsimp only; rw [hstr]; omega) rfl ?_ ?_
        · dsimp only
          rw [hk.2.2.2.2.1]
          exact hs1
        · have hfit2 : field_fit D st2.field := by
            unfold field_fit
            rw [hk.1.2.2.2.2.2.2, hk.2.2.2.2.1, hk.2.2.2.1, hf]
            exact hfit
          exact hfit2
    · rfl
theorem oneof_clear_member_total {D : usr_pb_msgdesc_t → Prop} {defaults : set_to_defaults_fn}
    {st : decode_state} (which : Nat) (hd : defaults_total D defaults)
    (hp : st.field.pData.isSome = true) (hfit : field_fit D st.field) :
    (oneof_clear_member defaults st which).isSome = true := by
  unfold oneof_clear_member
  split_ifs with c
  · obtain ⟨p, hp⟩ := some_of_isSome hp
    obtain ⟨d, hs, hD⟩ := hfit.2.2.2.2 c.1
    dsimp only
    simp only [hp, hs]
    split_ifs with c2 c3
    · obtain ⟨⟨ok, it, m⟩, hr⟩ := some_of_isSome (hd d hD _ p (mem_zero st.mem p st.field.data_size) c3)
      rw [hr]
      cases ok <;> rfl
    · rfl
    · rfl
  · rfl

set_option maxHeartbeats 2000000 in
theorem decode_static_field_total {D : usr_pb_msgdesc_t → Prop} {inner : decode_inner_fn}
    {defaults : set_to_defaults_fn} {st : decode_state} (wire_type : Nat)
    (hi : inner_total D inner) (hd : defaults_total D defaults)
    (hp : st.field.pData.isSome = true) (hpf : st.field.pField.isSome = true)
    (hat : usr_PB_ATYPE st.field.type = usr_PB_ATYPE_STATIC) (hfit : field_fit D st.field) :
    (decode_static_field inner defaults st wire_type).isSome = true := by
  have fit_keeps : ∀ {b : usr_pb_field_iter_t}, keeps st.field b → field_fit D b := by
    intro b hk
    unfold field_fit
    rw [hk.1.2.2.2.2.2.2, hk.2.2.2.2.1, hk.2.2.2.1]
    exact hfit
  rcases h : decode_static_field inner defaults st wire_type with _ | r
  · exfalso
    unfold decode_static_field at h
    dsimp only at h
    split_ifs at h with c1 c2 c3 c4 c5 c6
    · exact none_absurd (decode_basic_field_total wire_type hi hp hfit) h
    · obtain ⟨st1, h1⟩ := store_bool_total st true c3
      rw [h1] at h
      have hk := store_bool_keeps h1
      exact none_absurd (decode_basic_field_total wire_type hi (hk.2.2.2.2.2 hp) (fit_keeps hk)) h
    · exact none_absurd (decode_basic_field_total wire_type hi hp hfit) h
    · -- packed array
      have hs : st.field.pSize ≠ size_ptr.null := hfit.2.2.2.1 c4 (Or.inl hat)
      obtain ⟨size, h1⟩ := load_size_total hs
      obtain ⟨pField, h2⟩ := some_of_isSome hpf
      simp only [h1, h2] at h
      rcases hm : usr_pb_make_string_substream st.stream with ⟨s1, _ | sub⟩
      · simp [hm] at h
      · simp only [hm] at h
        have hk : keeps st.field
            { st.field with pField := some pField,
                            pData := some (pField + st.field.data_size * size) } :=
          keeps_pField_pData st.field _ _ h2
        have ht := decode_packed_loop_total hi (sub.bytes_left + 1)
          { stream := sub,
            field := { st.field with pField := some pField,
                                     pData := some (pField + st.field.data_size * size) },
            mem := st.mem, fixed_count_size := st.fixed_count_size }
          (Nat.lt_succ_self _) rfl hs (fit_keeps hk)
        obtain ⟨⟨status, st2⟩, hl⟩ := some_of_isSome ht
        simp only [hl] at h
        split_ifs at h
        · simp [dec_error] at h
        · split at h
          all_goals simp at h
    · -- unpacked element
      have hs : st.field.pSize ≠ size_ptr.null := hfit.2.2.2.1 c4 (Or.inl hat)
      obtain ⟨size, h1⟩ := load_size_total hs
      obtain ⟨pField, h2⟩ := some_of_isSome hpf
      simp only [h1, h2] at h
      have hk : keeps st.field
          { st.field with pField := some pField,
                          pData := some (pField + st.field.data_size * size) } :=
        keeps_pField_pData st.field _ _ h2
      obtain ⟨st1, h3⟩ := store_size_total
          { stream := st.stream,
            field := { st.field with pField := some pField,
                                     pData := some (pField + st.field.data_size * size) },
            mem := st.mem, fixed_count_size := st.fixed_count_size } (size + 1) hs
      simp only [h3] at h
      have hk1 := keeps_trans hk (store_size_keeps h3)
      split_ifs at h
      · simp [dec_error] at h
      · exact none_absurd (decode_basic_field_total wire_type hi (hk1.2.2.2.2.2 hp)
          (fit_keeps hk1)) h
    · -- oneof
      have hs : st.field.pSize ≠ size_ptr.null := hfit.2.2.1 c6
      obtain ⟨which, h1⟩ := load_size_total hs
      simp only [h1] at h
      obtain ⟨⟨ok1, st1⟩, h2⟩ := some_of_isSome (oneof_clear_member_total which hd hp hfit)
      simp only [h2] at h
      have hf1 := oneof_clear_member_field h2
      cases ok1
      · simp at h
      · simp only at h
        obtain ⟨st2, h3⟩ := store_size_total st1 st1.field.tag (by rw [hf1]; exact hs)
        simp only [h3] at h
        have hk := keeps_trans (keeps_of_eq hf1) (store_size_keeps h3)
        exact none_absurd (decode_basic_field_total wire_type hi (hk.2.2.2.2.2 hp)
          (fit_keeps hk)) h
    · simp [dec_error] at h
  · rfl

/-- On a decodable field of a callback-free descriptor `decode_field` stays
within the embedding. -/
theorem decode_field_total {D : usr_pb_msgdesc_t → Prop} {desc : usr_pb_msgdesc_t}
    {inner : decode_inner_fn} {defaults : set_to_defaults_fn} (st : decode_state)
    (wire_type : Nat) (hi : inner_total D inner) (hd : defaults_total D defaults)
    (hcb : desc.field_callback = false) (hr : ready D desc st.field) :
    (decode_field inner defaults st wire_type).isSome = true := by
  have hdesc : st.field.descriptor = desc := on_pos_descriptor (on_field_pos hr.1)
  unfold decode_field
  dsimp only
  split_ifs with c1 c2 c3
  · have hne : usr_PB_ATYPE st.field.type ≠ usr_PB_ATYPE_POINTER := by
      rw [c1]; decide
    exact decode_static_field_total wire_type hi hd (hr.2.2.2.1 hne) hr.2.2.1 c1 hr.2.2.2.2
  · rfl
  · unfold decode_callback_field
    rw [hdesc, if_pos hcb]
    rfl
  · rfl
theorem usr_pb_field_set_to_default_keeps {defaults : set_to_defaults_fn}
    {st st' : decode_state} {ok : Bool}
    (h : usr_pb_field_set_to_default defaults st = some (ok, st')) :
    keeps st.field st'.field := by
  unfold usr_pb_field_set_to_default at h
  dsimp only at h
  by_cases c1 : usr_PB_LTYPE st.field.type = usr_PB_LTYPE_EXTENSION
  · rw [if_pos c1] at h
    split at h
    · simp at h
    · split_ifs at h
      simp only [Option.some.injEq, Prod.mk.injEq] at h
      obtain ⟨-, rfl⟩ := h
      exact keeps_refl _
  · rw [if_neg c1] at h
    by_cases c2 : usr_PB_ATYPE st.field.type = usr_PB_ATYPE_STATIC
    · rw [if_pos c2] at h
      have key : ∀ (r : Option (Bool × decode_state)),
          (∀ b s, r = some (b, s) → keeps st.field s.field) →
          (match r with
            | none => none
            | some (false, st) => some (true, st)
            | some (true, st) => field_init_data defaults st) = some (ok, st') →
          keeps st.field st'.field := by
        intro r hr hm
        rcases r with _ | ⟨b, s⟩
        · simp at hm
        · have hs := hr b s rfl
          cases b
          · simp only [Option.some.injEq, Prod.mk.injEq] at hm
            obtain ⟨-, rfl⟩ := hm
            exact hs
          · exact keeps_trans hs (keeps_of_eq (field_init_data_field hm))
      refine key _ ?_ h
      intro b s hbs
      split_ifs at hbs
      · rcases h1 : store_bool st false with _ | s1
        · simp [h1] at hbs
        · simp only [h1, Option.map_some', Option.some.injEq, Prod.mk.injEq] at hbs
          obtain ⟨-, rfl⟩ := hbs
          exact (by have hk := store_bool_keeps h1; exact hk)
      · rcases h1 : store_size st 0 with _ | s1
        · simp [h1] at hbs
        · simp only [h1, Option.map_some', Option.some.injEq, Prod.mk.injEq] at hbs
          obtain ⟨-, rfl⟩ := hbs
          exact (by have hk := store_size_keeps h1; exact hk)
      · simp only [Option.some.injEq, Prod.mk.injEq] at hbs
        obtain ⟨-, rfl⟩ := hbs
        exact keeps_refl _
    · rw [if_neg c2] at h
      by_cases c3 : usr_PB_ATYPE st.field.type = usr_PB_ATYPE_POINTER
      · rw [if_pos c3] at h
        split at h
        · simp at h
        · split_ifs at h
          · rename_i pField _ _
            rcases h1 : store_size { st with mem := store_uint st.mem pField 8 0 } 0 with _ | s1
            · simp [h1] at h
            · simp only [h1, Option.map_some', Option.some.injEq, Prod.mk.injEq] at h
              obtain ⟨-, rfl⟩ := h
              exact (by have hk := store_size_keeps h1; exact hk)
          · simp only [Option.some.injEq, Prod.mk.injEq] at h
            obtain ⟨-, rfl⟩ := h
            exact keeps_refl _
      · rw [if_neg c3] at h
        simp only [Option.some.injEq, Prod.mk.injEq] at h
        obtain ⟨-, rfl⟩ := h
        exact keeps_refl _

theorem set_to_defaults_round_keeps {inner : decode_inner_fn} {defaults : set_to_defaults_fn}
    {s s' : defaults_state} {ok : Bool}
    (h : set_to_defaults_round inner defaults s = some (ok, s')) :
    keeps s.iter s'.iter := by
  unfold set_to_defaults_round at h
  rcases h1 : usr_pb_field_set_to_default defaults
      { stream := s.defstream, field := s.iter, mem := s.mem, fixed_count_size := 0 }
    with _ | ⟨ok1, st1⟩
  · simp [h1] at h
  · have hf1 : keeps s.iter st1.field := usr_pb_field_set_to_default_keeps h1
    simp only [h1] at h
    cases ok1
    · simp only [Option.some.injEq, Prod.mk.injEq] at h
      obtain ⟨-, rfl⟩ := h
      exact hf1
    · dsimp only at h
      split_ifs at h with c
      · rcases h2 : decode_field inner defaults
            { stream := s.defstream, field := st1.field, mem := st1.mem, fixed_count_size := 0 }
            s.wire_type with _ | ⟨ok2, st2⟩
        · simp [h2] at h
        · have hf2 : keeps st1.field st2.field := by
            have := decode_field_keeps h2; exact this
          simp only [h2] at h
          cases ok2
          · simp only [Option.some.injEq, Prod.mk.injEq] at h
            obtain ⟨-, rfl⟩ := h
            exact keeps_trans hf1 hf2
          · dsimp only at h
            split_ifs at h
            · simp only [Option.some.injEq, Prod.mk.injEq] at h
              obtain ⟨-, rfl⟩ := h
              exact keeps_trans hf1 hf2
            · split at h
              · simp at h
              · rename_i st3 h3
                simp only [Option.some.injEq, Prod.mk.injEq] at h
                obtain ⟨-, rfl⟩ := h
                exact keeps_trans (keeps_trans hf1 hf2) (by have hk := store_bool_keeps h3; exact hk)
            · simp only [Option.some.injEq, Prod.mk.injEq] at h
              obtain ⟨-, rfl⟩ := h
              exact keeps_trans hf1 hf2
      · simp only [Option.some.injEq, Prod.mk.injEq] at h
        obtain ⟨-, rfl⟩ := h
        exact hf1



/-! ## The defaulting pass stays within the embedding -/

theorem field_init_data_total {D : usr_pb_msgdesc_t → Prop} {defaults : set_to_defaults_fn}
    {st : decode_state} (hd : defaults_total D defaults)
    (hp : st.field.pData.isSome = true) (hfit : field_fit D st.field) :
    (field_init_data defaults st).isSome = true := by
  obtain ⟨p, hp⟩ := some_of_isSome hp
  unfold field_init_data
  split_ifs with c
  · obtain ⟨d, hs, hD⟩ := hfit.2.2.2.2 c
    simp only [hs, hp]
    split_ifs with c2 c3
    · obtain ⟨⟨ok, it, m⟩, hr⟩ := some_of_isSome (hd d hD st.mem p st.mem c3)
      rw [hr]
      rfl
    · rfl
    · rfl
  · simp only [hp]
    rfl

theorem usr_pb_field_set_to_default_total {D : usr_pb_msgdesc_t → Prop}
    {desc : usr_pb_msgdesc_t} {defaults : set_to_defaults_fn} (st : decode_state)
    (hd : defaults_total D defaults) (hr : ready D desc st.field) :
    (usr_pb_field_set_to_default defaults st).isSome = true := by
  obtain ⟨-, -, hpf, hpd, hfit⟩ := hr
  have fit_keeps : ∀ {b : usr_pb_field_iter_t}, keeps st.field b → field_fit D b := by
    intro b hk
    unfold field_fit
    rw [hk.1.2.2.2.2.2.2, hk.2.2.2.2.1, hk.2.2.2.1]
    exact hfit
  rcases h : usr_pb_field_set_to_default defaults st with _ | r
  · exfalso
    unfold usr_pb_field_set_to_default at h
    dsimp only at h
    rw [if_neg hfit.1] at h
    by_cases c2 : usr_PB_ATYPE st.field.type = usr_PB_ATYPE_STATIC
    · rw [if_pos c2] at h
      have hne : usr_PB_ATYPE st.field.type ≠ usr_PB_ATYPE_POINTER := by
        rw [c2]; decide
      have hp := hpd hne
      by_cases c3 : usr_PB_HTYPE st.field.type = usr_PB_HTYPE_OPTIONAL ∧
          st.field.pSize ≠ size_ptr.null
      · rw [if_pos c3] at h
        obtain ⟨st1, h1⟩ := store_bool_total st false c3.2
        rw [h1] at h
        simp only [Option.map_some'] at h
        have hk := store_bool_keeps h1
        exact none_absurd (field_init_data_total hd (hk.2.2.2.2.2 hp) (fit_keeps hk)) h
      · rw [if_neg c3] at h
        by_cases c4 : usr_PB_HTYPE st.field.type = usr_PB_HTYPE_REPEATED ∨
            usr_PB_HTYPE st.field.type = usr_PB_HTYPE_ONEOF
        · rw [if_pos c4] at h
          have hs : st.field.pSize ≠ size_ptr.null := by
            rcases c4 with c | c
            · exact hfit.2.2.2.1 c (Or.inl c2)
            · exact hfit.2.2.1 c
          obtain ⟨st1, h1⟩ := store_size_total st 0 hs
          rw [h1] at h
          simp at h
        · rw [if_neg c4] at h
          exact none_absurd (field_init_data_total hd hp hfit) h
    · rw [if_neg c2] at h
      by_cases c3 : usr_PB_ATYPE st.field.type = usr_PB_ATYPE_POINTER
      · rw [if_pos c3] at h
        obtain ⟨pField, hpf⟩ := some_of_isSome hpf
        simp only [hpf] at h
        split_ifs at h with c4
        have hs : st.field.pSize ≠ size_ptr.null := by
          rcases c4 with c | c
          · exact hfit.2.2.2.1 c (Or.inr c3)
          · exact hfit.2.2.1 c
        obtain ⟨st1, h1⟩ := store_size_total
          { st with mem := store_uint st.mem pField 8 0 } 0 hs
        rw [h1] at h
        simp at h
      · rw [if_neg c3] at h
        simp at h
  · rfl

set_option maxHeartbeats 1000000 in
theorem set_to_defaults_round_total {D : usr_pb_msgdesc_t → Prop} {desc : usr_pb_msgdesc_t}
    {inner : decode_inner_fn} {defaults : set_to_defaults_fn} {s : defaults_state}
    (hi : inner_total D inner) (hd : defaults_total D defaults)
    (hcb : desc.field_callback = false) (hr : ready D desc s.iter) :
    (set_to_defaults_round inner defaults s).isSome = true := by
  rcases h : set_to_defaults_round inner defaults s with _ | r
  · exfalso
    unfold set_to_defaults_round at h
    obtain ⟨⟨ok1, st1⟩, h1⟩ := some_of_isSome (usr_pb_field_set_to_default_total
      { stream := s.defstream, field := s.iter, mem := s.mem, fixed_count_size := 0 }
      hd hr)
    have hk1 := usr_pb_field_set_to_default_keeps h1
    have hr1 : ready D desc st1.field := ready_keeps hr hk1
    simp only [h1] at h
    cases ok1
    · simp at h
    · dsimp only at h
      split_ifs at h with c
      obtain ⟨⟨ok2, st2⟩, h2⟩ := some_of_isSome (decode_field_total
        { stream := s.defstream, field := st1.field, mem := st1.mem,
                 fixed_count_size := 0 } s.wire_type hi hd hcb hr1)
      have hk2 := decode_field_keeps h2
      simp only [h2] at h
      cases ok2
      · simp at h
      · dsimp only at h
        split_ifs at h with c2 c3
        obtain ⟨st3, h3⟩ := store_bool_total
          { stream := (usr_pb_decode_tag st2.stream).stream, field := st2.field,
                   mem := st2.mem, fixed_count_size := 0 } false c3
        rw [h3] at h
        simp at h
  · rfl

theorem next_index {desc : usr_pb_msgdesc_t} {it : usr_pb_field_iter_t}
    (hfc : desc.field_count < 65536) (h : valid_pos desc it) (m : List usr_pb_byte_t)
    (hn : (usr_pb_field_iter_next m it).2 = true) :
    (usr_pb_field_iter_next m it).1.index = it.index + 1 := by
  have hd := on_pos_descriptor h.1
  have hi := on_pos_index_lt hfc h.1
  rw [hd] at hi
  unfold usr_pb_field_iter_next at hn ⊢
  dsimp only at hn ⊢
  have hidx := (load_same_pos m (advance_iterator it)).2.1
  rw [hidx] at hn ⊢
  by_cases c : toPbSize (it.index + 1) ≥ it.descriptor.field_count
  · rw [advance_wrap it c] at hn
    simp at hn
  · rw [(advance_step it c).1]
    exact toPbSize_of_lt (by omega)

theorem set_to_defaults_loop_total {D : usr_pb_msgdesc_t → Prop} {desc : usr_pb_msgdesc_t}
    {inner : decode_inner_fn} {defaults : set_to_defaults_fn}
    (hfc : desc.field_count < 65536)
    (hfit : ∀ m x, valid_pos desc x → field_fit D (load_descriptor_values m x).1)
    (hi : inner_total D inner) (hd : defaults_total D defaults)
    (hcb : desc.field_callback = false) :
    ∀ (fuel : Nat) (s : defaults_state), ready D desc s.iter →
      desc.field_count ≤ s.iter.index + fuel →
      ∃ ok s', set_to_defaults_loop inner defaults fuel s = some (ok, s') ∧
        ready D desc s'.iter := by
  intro fuel
  induction fuel with
  | zero =>
    intro s hr hf
    have hi := on_pos_index_lt hfc (on_field_pos hr.1)
    rw [on_pos_descriptor (on_field_pos hr.1)] at hi
    omega
  | succ fuel ih =>
    intro s hr hf
    unfold set_to_defaults_loop
    obtain ⟨⟨ok1, s1⟩, h1⟩ := some_of_isSome (set_to_defaults_round_total hi hd hcb hr)
    have hk := set_to_defaults_round_keeps h1
    have hr1 := ready_keeps hr hk
    have hidx : s1.iter.index = s.iter.index := hk.1.2.1
    rw [h1]
    cases ok1
    · exact ⟨false, s1, rfl, hr1⟩
    · dsimp only
      have hrn := ready_next hfc hfit (ready_valid_pos hr1) s1.mem
      by_cases c : (usr_pb_field_iter_next s1.mem s1.iter).2 = true
      · rw [if_pos c]
        have hni := next_index hfc (ready_valid_pos hr1) s1.mem c
        exact ih _ hrn (by dsimp only; rw [hni, hidx]; omega)
      · rw [if_neg c]
        exact ⟨true, _, rfl, hrn⟩

/-- The body of `usr_pb_message_set_to_defaults` stays within the embedding
and leaves the iterator on a field of the descriptor. -/
theorem message_set_to_defaults_body_total {D : usr_pb_msgdesc_t → Prop}
    {desc : usr_pb_msgdesc_t} {inner : decode_inner_fn} {defaults : set_to_defaults_fn}
    (hfc : desc.field_count < 65536)
    (hfit : ∀ m x, valid_pos desc x → field_fit D (load_descriptor_values m x).1)
    (hi : inner_total D inner) (hd : defaults_total D defaults)
    (hcb : desc.field_callback = false) (iter : usr_pb_field_iter_t)
    (mem : List usr_pb_byte_t) (hr : ready D desc iter) :
    ∃ ok it m, message_set_to_defaults_body inner defaults iter mem = some (ok, it, m) ∧
      ready D desc it := by
  have hdesc : iter.descriptor = desc := on_pos_descriptor (on_field_pos hr.1)
  have run : ∀ s0 : defaults_state, s0.iter = iter →
      ∃ ok it m,
        (match set_to_defaults_loop inner defaults (iter.descriptor.field_count + 1) s0 with
          | none => none
          | some (ok, s) => some (ok, s.iter, s.mem)) = some (ok, it, m) ∧
        ready D desc it := by
    intro s0 hs0
    obtain ⟨ok, s', hl, hr'⟩ := set_to_defaults_loop_total hfc hfit hi hd hcb
      (iter.descriptor.field_count + 1) s0 (by rw [hs0]; exact hr) (by rw [hdesc]; omega)
    rw [hl]
    exact ⟨ok, s'.iter, s'.mem, rfl, hr'⟩
  unfold message_set_to_defaults_body
  dsimp only
  split
  · exact run _ rfl
  · split_ifs
    · exact ⟨false, iter, mem, rfl, hr⟩
    · exact run _ rfl
theorem field_iter_find_loop_ready {D : usr_pb_msgdesc_t → Prop} {desc : usr_pb_msgdesc_t}
    (hfc : desc.field_count < 65536)
    (hfit : ∀ m x, valid_pos desc x → field_fit D (load_descriptor_values m x).1)
    (m : List usr_pb_byte_t)
    (tag start : Nat) :
    ∀ (fuel : Nat) (it : usr_pb_field_iter_t),
      valid_pos desc (advance_iterator it) →
      ((field_iter_find_loop m tag start (fuel + 1) it).2 = true →
        ready D desc (field_iter_find_loop m tag start (fuel + 1) it).1 ∧
        (field_iter_find_loop m tag start (fuel + 1) it).1.tag = tag) ∧
      ((field_iter_find_loop m tag start (fuel + 1) it).2 = false →
        valid_pos desc (field_iter_find_loop m tag start (fuel + 1) it).1) := by
  intro fuel
  induction fuel with
  | zero =>
    intro it hp
    unfold field_iter_find_loop
    dsimp only
    by_cases c1 : (field_info_word (advance_iterator it).descriptor
        (advance_iterator it).field_info_index >>> 2) &&& 0x3F = tag &&& 0x3F
    · rw [if_pos c1]
      dsimp only
      have hl := ready_load hfc hfit hp m
      by_cases c2 : (load_descriptor_values m (advance_iterator it)).1.tag = tag ∧
          usr_PB_LTYPE (load_descriptor_values m (advance_iterator it)).1.type ≠
            usr_PB_LTYPE_EXTENSION
      · simp only [c2, decide_True, if_true, and_self, ne_eq, not_false_eq_true]
        exact ⟨fun _ => ⟨hl, trivial⟩, fun h => by simp at h⟩
      · simp only [c2, decide_False, if_false, Bool.false_eq_true]
        split_ifs <;> simp [field_iter_find_loop, ready_valid_pos hl]
    · rw [if_neg c1]
      simp only [Bool.false_eq_true, if_false]
      split_ifs <;> simp [field_iter_find_loop, hp]
  | succ fuel ih =>
    intro it hp
    unfold field_iter_find_loop
    dsimp only
    by_cases c1 : (field_info_word (advance_iterator it).descriptor
        (advance_iterator it).field_info_index >>> 2) &&& 0x3F = tag &&& 0x3F
    · rw [if_pos c1]
      dsimp only
      have hl := ready_load hfc hfit hp m
      by_cases c2 : (load_descriptor_values m (advance_iterator it)).1.tag = tag ∧
          usr_PB_LTYPE (load_descriptor_values m (advance_iterator it)).1.type ≠
            usr_PB_LTYPE_EXTENSION
      · simp only [c2, decide_True, if_true, and_self, ne_eq, not_false_eq_true]
        exact ⟨fun _ => ⟨hl, trivial⟩, fun h => by simp at h⟩
      · simp only [c2, decide_False, if_false, Bool.false_eq_true]
        split_ifs
        · exact ih _ (valid_pos_advance hfc (ready_valid_pos hl))
        · simp [ready_valid_pos hl]
    · rw [if_neg c1]
      simp only [Bool.false_eq_true, if_false]
      split_ifs
      · exact ih _ (valid_pos_advance hfc hp)
      · simp [hp]

theorem ready_find {D : usr_pb_msgdesc_t → Prop} {desc : usr_pb_msgdesc_t}
    {it : usr_pb_field_iter_t} (hfc : desc.field_count < 65535)
    (hfit : ∀ m x, valid_pos desc x → field_fit D (load_descriptor_values m x).1)
    (h : ready D desc it) (m : List usr_pb_byte_t) (tag : Nat) :
    ready D desc (usr_pb_field_iter_find m it tag).1 ∧
    ((usr_pb_field_iter_find m it tag).2 = true → (usr_pb_field_iter_find m it tag).1.tag = tag) := by
  have hd := on_pos_descriptor (on_field_pos h.1)
  have h0 : 0 < desc.field_count := by obtain ⟨n, hn, -⟩ := h.1; omega
  unfold usr_pb_field_iter_find
  by_cases c1 : it.tag = tag
  · rw [if_pos c1]; exact ⟨h, fun _ => c1⟩
  · rw [if_neg c1]
    by_cases c2 : tag > it.descriptor.largest_tag
    · rw [if_pos c2]; exact ⟨h, fun hh => by simp at hh⟩
    · rw [if_neg c2]
      dsimp only
      have hpre : valid_pos desc (advance_iterator
          (if tag < it.tag then { it with index := it.descriptor.field_count } else it)) := by
        split_ifs
        · exact ⟨on_pos_restart hfc h0 hd, by rw [advance_message]; exact h.2.1⟩
        · exact valid_pos_advance (by omega) (ready_valid_pos h)
      have hfuel : it.descriptor.field_count + 1 =
          ((if tag < it.tag then { it with index := it.descriptor.field_count } else it) :
            usr_pb_field_iter_t).descriptor.field_count + 1 := by
        split_ifs <;> rfl
      have key := field_iter_find_loop_ready (by omega : desc.field_count < 65536) hfit m tag it.index
        it.descriptor.field_count _ hpre
      rw [← hfuel]
      cases hr : (field_iter_find_loop m tag it.index (it.descriptor.field_count + 1)
          (if tag < it.tag then { it with index := it.descriptor.field_count } else it)).2
      · simp only [Bool.false_eq_true, if_false]
        exact ⟨ready_load (by omega) hfit (key.2 hr) m, fun hh => by simp at hh⟩
      · simp only [if_true]
        exact ⟨(key.1 hr).1, fun _ => (key.1 hr).2⟩
theorem field_iter_find_extension_loop_ready {D : usr_pb_msgdesc_t → Prop}
    {desc : usr_pb_msgdesc_t} (hfc : desc.field_count < 65536)
    (hfit : ∀ m x, valid_pos desc x → field_fit D (load_descriptor_values m x).1)
    (m : List usr_pb_byte_t)
    (start : Nat) :
    ∀ (fuel : Nat) (it : usr_pb_field_iter_t),
      valid_pos desc (advance_iterator it) →
      ((field_iter_find_extension_loop m start (fuel + 1) it).2 = none →
        valid_pos desc (field_iter_find_extension_loop m start (fuel + 1) it).1) ∧
      (∀ b, (field_iter_find_extension_loop m start (fuel + 1) it).2 = some b →
        ready D desc (field_iter_find_extension_loop m start (fuel + 1) it).1) := by
  intro fuel
  induction fuel with
  | zero =>
    intro it hp
    unfold field_iter_find_extension_loop
    dsimp only
    split_ifs
    · exact ⟨fun h => by simp at h, fun _ _ => ready_load hfc hfit hp m⟩
    · simp [field_iter_find_extension_loop, hp]
    · simp [hp]
  | succ fuel ih =>
    intro it hp
    unfold field_iter_find_extension_loop
    dsimp only
    split_ifs
    · exact ⟨fun h => by simp at h, fun _ _ => ready_load hfc hfit hp m⟩
    · exact ih _ (valid_pos_advance hfc hp)
    · simp [hp]

theorem ready_find_extension {D : usr_pb_msgdesc_t → Prop} {desc : usr_pb_msgdesc_t}
    {it : usr_pb_field_iter_t} (hfc : desc.field_count < 65536)
    (hfit : ∀ m x, valid_pos desc x → field_fit D (load_descriptor_values m x).1)
    (h : ready D desc it) (m : List usr_pb_byte_t) :
    ready D desc (usr_pb_field_iter_find_extension m it).1 := by
  unfold usr_pb_field_iter_find_extension
  split_ifs
  · exact h
  · have key := field_iter_find_extension_loop_ready hfc hfit m it.index it.descriptor.field_count it
      (valid_pos_advance hfc (ready_valid_pos h))
    split
    · rename_i it2 b heq
      have := key.2 b (by rw [heq])
      rw [heq] at this
      exact this
    · rename_i it2 heq
      have := key.1 (by rw [heq])
      rw [heq] at this
      exact ready_load hfc hfit this m


/-! ## The field loop stays within the embedding -/

theorem field_iter_find_extension_loop_none {D : usr_pb_msgdesc_t → Prop}
    {desc : usr_pb_msgdesc_t} (hfc : desc.field_count < 65536)
    (hfit : ∀ m x, valid_pos desc x → field_fit D (load_descriptor_values m x).1)
    (m : List usr_pb_byte_t) (start : Nat) :
    ∀ (fuel : Nat) (it : usr_pb_field_iter_t), valid_pos desc (advance_iterator it) →
      (field_iter_find_extension_loop m start fuel it).2 = none := by
  intro fuel
  induction fuel with
  | zero => intro it _; rfl
  | succ fuel ih =>
    intro it hv
    unfold field_iter_find_extension_loop
    dsimp only
    have hne := (hfit m _ hv).1
    rw [load_type m _ (on_pos_index_lt hfc hv.1)] at hne
    rw [if_neg hne]
    split_ifs
    · exact ih _ (valid_pos_advance hfc hv)
    · rfl

theorem find_extension_false {D : usr_pb_msgdesc_t → Prop} {desc : usr_pb_msgdesc_t}
    {it : usr_pb_field_iter_t} (hfc : desc.field_count < 65536)
    (hfit : ∀ m x, valid_pos desc x → field_fit D (load_descriptor_values m x).1)
    (h : ready D desc it) (m : List usr_pb_byte_t) :
    (usr_pb_field_iter_find_extension m it).2 = false := by
  unfold usr_pb_field_iter_find_extension
  rw [if_neg h.2.2.2.2.1]
  have key := field_iter_find_extension_loop_none hfc hfit m it.index
    (it.descriptor.field_count + 1) it (valid_pos_advance hfc (ready_valid_pos h))
  split
  · rename_i it2 b heq
    rw [heq] at key
    simp at key
  · rfl

/-- The state of the field loop on a decodable descriptor: the iterator is on
a field and no extension list has been found. -/
theorem find_extension_range_total {D : usr_pb_msgdesc_t → Prop} {desc : usr_pb_msgdesc_t}
    (hfc : desc.field_count < 65536)
    (hfit : ∀ m x, valid_pos desc x → field_fit D (load_descriptor_values m x).1)
    (s : inner_state) (hr : ready D desc s.iter) (he : s.extensions = none) :
    ∃ s', find_extension_range s = some s' ∧ ready D desc s'.iter ∧ s'.extensions = none := by
  unfold find_extension_range
  split_ifs with c
  · dsimp only
    have hf := find_extension_false hfc hfit hr s.mem
    have hre := ready_find_extension hfc hfit hr s.mem
    rw [hf]
    simp only [Bool.false_eq_true, if_false, Option.map_some', he, Option.isNone_none, if_true]
    exact ⟨_, rfl, hre, rfl⟩
  · exact ⟨s, rfl, hr, he⟩

theorem fixed_count_update_ready {D : usr_pb_msgdesc_t → Prop} {desc : usr_pb_msgdesc_t}
    {s : inner_state} (hr : ready D desc s.iter) :
    ready D desc (fixed_count_update s).2.iter ∧
    (fixed_count_update s).2.extensions = s.extensions := by
  unfold fixed_count_update
  split_ifs
  · exact ⟨hr, rfl⟩
  · exact ⟨ready_pSize hr _ (by decide), rfl⟩
  · exact ⟨ready_pSize hr _ (by decide), rfl⟩
  · exact ⟨hr, rfl⟩

theorem mark_required_seen_same (s : inner_state) :
    (mark_required_seen s).iter = s.iter ∧ (mark_required_seen s).extensions = s.extensions := by
  unfold mark_required_seen
  split_ifs <;> exact ⟨rfl, rfl⟩

theorem decode_known_field_total {D : usr_pb_msgdesc_t → Prop} {desc : usr_pb_msgdesc_t}
    {inner : decode_inner_fn} {defaults : set_to_defaults_fn}
    (hi : inner_total D inner) (hd : defaults_total D defaults)
    (hcb : desc.field_callback = false) {s : inner_state} (wire_type : Nat)
    (hr : ready D desc s.iter) (he : s.extensions = none) :
    ∃ ls, decode_known_field inner defaults s wire_type = some ls ∧
      ready D desc ls.state.iter ∧ ls.state.extensions = none := by
  unfold decode_known_field
  dsimp only
  have h1 := fixed_count_update_ready hr
  have h2 := mark_required_seen_same (fixed_count_update s).2
  split_ifs with c
  · exact ⟨_, rfl, h1.1, by rw [loop_step.state, h1.2]; exact he⟩
  · have hr2 : ready D desc (mark_required_seen (fixed_count_update s).2).iter := by
      rw [h2.1]; exact h1.1
    obtain ⟨⟨ok, st⟩, hd2⟩ := some_of_isSome (decode_field_total
      { stream := (mark_required_seen (fixed_count_update s).2).stream,
               field := (mark_required_seen (fixed_count_update s).2).iter,
               mem := (mark_required_seen (fixed_count_update s).2).mem,
               fixed_count_size := (mark_required_seen (fixed_count_update s).2).fixed_count_size }
      wire_type hi hd hcb hr2)
    have hk := decode_field_keeps hd2
    have hr3 := ready_keeps hr2 hk
    rw [hd2]
    dsimp only
    have hex : (mark_required_seen (fixed_count_update s).2).extensions = none := by
      rw [h2.2, h1.2]; exact he
    split_ifs
    · exact ⟨_, rfl, hr3, hex⟩
    · exact ⟨_, rfl, hr3, hex⟩

theorem decode_inner_step_total {D : usr_pb_msgdesc_t → Prop} {desc : usr_pb_msgdesc_t}
    {inner : decode_inner_fn} {defaults : set_to_defaults_fn}
    (hfc : desc.field_count < 65535)
    (hfit : ∀ m x, valid_pos desc x → field_fit D (load_descriptor_values m x).1)
    (hi : inner_total D inner) (hd : defaults_total D defaults)
    (hcb : desc.field_callback = false) (flags : Nat) {s : inner_state}
    (hr : ready D desc s.iter) (he : s.extensions = none) :
    ∃ ls, decode_inner_step inner defaults flags s = some ls ∧
      ready D desc ls.state.iter ∧ ls.state.extensions = none := by
  unfold decode_inner_step
  dsimp only
  by_cases c1 : (usr_pb_decode_tag s.stream).ok = false
  · rw [if_pos c1]
    split_ifs
    · exact ⟨_, rfl, hr, he⟩
    · exact ⟨_, rfl, hr, he⟩
  · rw [if_neg c1]
    by_cases c2 : (usr_pb_decode_tag s.stream).tag = 0
    · rw [if_pos c2]
      split_ifs
      · exact ⟨_, rfl, hr, he⟩
      · exact ⟨_, rfl, hr, he⟩
    · rw [if_neg c2]
      have hrf := ready_find hfc hfit hr s.mem (usr_pb_decode_tag s.stream).tag
      by_cases c3 : (usr_pb_field_iter_find s.mem s.iter (usr_pb_decode_tag s.stream).tag).2 =
          false ∨ usr_PB_LTYPE (usr_pb_field_iter_find s.mem s.iter
            (usr_pb_decode_tag s.stream).tag).1.type = usr_PB_LTYPE_EXTENSION
      · rw [if_pos c3]
        obtain ⟨s1, h1, hr1, he1⟩ := find_extension_range_total (by omega) hfit
          { s with stream := (usr_pb_decode_tag s.stream).stream,
                         iter := (usr_pb_field_iter_find s.mem s.iter
                           (usr_pb_decode_tag s.stream).tag).1 } hrf.1 he
        rw [h1]
        dsimp only
        unfold decode_extension
        rw [he1]
        dsimp only
        split_ifs
        all_goals first | exact ⟨_, rfl, hr1, rfl⟩ | exact ⟨_, rfl, hr1, he1⟩
      · rw [if_neg c3]
        exact decode_known_field_total hi hd hcb _ hrf.1 he

theorem decode_inner_loop_total {D : usr_pb_msgdesc_t → Prop} {desc : usr_pb_msgdesc_t}
    {inner : decode_inner_fn} {defaults : set_to_defaults_fn}
    (hfc : desc.field_count < 65535)
    (hfit : ∀ m x, valid_pos desc x → field_fit D (load_descriptor_values m x).1)
    (hi : inner_total D inner) (hd : defaults_total D defaults)
    (hcb : desc.field_callback = false) (flags : Nat) :
    ∀ (fuel : Nat) (s : inner_state), s.stream.bytes_left < fuel →
      ready D desc s.iter → s.extensions = none →
      (decode_inner_loop inner defaults flags fuel s).isSome = true := by
  intro fuel
  induction fuel with
  | zero => intro s h; omega
  | succ fuel ih =>
    intro s hlt hr he
    unfold decode_inner_loop
    split_ifs with c
    · obtain ⟨ls, hs, hr1, he1⟩ := decode_inner_step_total hfc hfit hi hd hcb flags hr he
      rw [hs]
      cases ls with
      | next s1 =>
        have := decode_inner_step_bytes_left hs
        exact ih s1 (by omega) hr1 he1
      | exit s1 => rfl
      | fail s1 => rfl
    · rfl

theorem decode_inner_init_total {D : usr_pb_msgdesc_t → Prop} {desc : usr_pb_msgdesc_t}
    {defaults : set_to_defaults_fn} (hfc : desc.field_count < 65536)
    (h0 : 0 < desc.field_count)
    (hfit : ∀ m x, valid_pos desc x → field_fit D (load_descriptor_values m x).1)
    (hself : ∀ it mem, ready D desc it →
      ∃ ok it' m', defaults it mem = some (ok, it', m') ∧ ready D desc it')
    (stream : usr_pb_istream_t) (dest flags : Nat) (mem : List usr_pb_byte_t) :
    ∃ ok s, decode_inner_init defaults stream desc (some dest) flags mem = some (ok, s) ∧
      ready D desc s.iter ∧ s.extensions = none ∧ s.stream.bytes_left = stream.bytes_left := by
  have hb := ready_begin hfc h0 hfit mem dest
  unfold decode_inner_init
  dsimp only
  split_ifs with c
  · obtain ⟨ok, it', m', hd, hr'⟩ := hself _ mem hb.1
    rw [hd]
    cases ok
    · exact ⟨false, _, rfl, hr', rfl, rfl⟩
    · exact ⟨true, _, rfl, hr', rfl, rfl⟩
  · exact ⟨true, _, rfl, hb.1, rfl, rfl⟩

/-- The body of `usr_pb_decode_inner` returns on every stream, destination and
memory, for a callback-free descriptor whose submessages are decoded and set
to their defaults by `inner` and `defaults`. -/
theorem decode_inner_body_total {D : usr_pb_msgdesc_t → Prop} {desc : usr_pb_msgdesc_t}
    {inner : decode_inner_fn} {defaults : set_to_defaults_fn}
    (hfc : desc.field_count < 65535) (h0 : 0 < desc.field_count)
    (hcb : desc.field_callback = false)
    (hfit : ∀ m x, valid_pos desc x → field_fit D (load_descriptor_values m x).1)
    (hi : inner_total D inner) (hd : defaults_total D defaults)
    (hself : ∀ it mem, ready D desc it →
      ∃ ok it' m', defaults it mem = some (ok, it', m') ∧ ready D desc it')
    (stream : usr_pb_istream_t) (dest flags : Nat) (mem : List usr_pb_byte_t) :
    (decode_inner_body inner defaults stream desc (some dest) flags mem).isSome = true := by
  unfold decode_inner_body
  obtain ⟨ok, s, hinit, hr, he, -⟩ := decode_inner_init_total (by omega) h0 hfit hself
    stream dest flags mem
  rw [hinit]
  cases ok
  · rfl
  · dsimp only
    obtain ⟨⟨ok2, s2⟩, hl⟩ := some_of_isSome (decode_inner_loop_total hfc hfit hi hd hcb flags
      (s.stream.bytes_left + 1) s (Nat.lt_succ_self _) hr he)
    rw [hl]
    cases ok2 <;> rfl

/-- What `decodable` says of a descriptor: it has no field callback, fewer
than 65535 fields, and loads a decodable field at each of its positions. -/
theorem decodable_fit (k : Nat) (desc : usr_pb_msgdesc_t) (h : decodable (k + 1) desc = true) :
    desc.field_callback = false ∧ desc.field_count < 65535 ∧
    ∀ m x, valid_pos desc x →
      field_fit (fun d => decodable k d = true) (load_descriptor_values m x).1 := by
  unfold decodable at h
  simp only [Bool.and_eq_true, Bool.not_eq_true', decide_eq_true_eq, List.all_eq_true,
    List.mem_range] at h
  obtain ⟨⟨hcb, hfc⟩, hall⟩ := h
  refine ⟨hcb, hfc, ?_⟩
  intro m x hv
  obtain ⟨⟨n, hn, hs⟩, hmsg⟩ := hv
  have hfc' : desc.field_count < 65536 := by omega
  have hs2 : same_pos x (field_at [] desc (some 0) n) :=
    same_pos_trans hs (field_at_same_pos [] [] desc none (some 0) n)
  have hxi : x.index < x.descriptor.field_count := by
    rw [hs.1, hs.2.1, field_at_descriptor, field_at_index [] desc none hfc' n hn]
    exact hn
  have hF := field_at_load [] desc (some 0) n
  have hst := load_static m [] hs2 hxi
  rw [hF] at hst
  have hnull := load_pSize_null m [] hs2 hxi hmsg
    (by rw [field_at_message]; rfl)
  rw [hF] at hnull
  have hp := load_pointers m x hxi hmsg
  obtain ⟨hdec, hsub⟩ := hall n hn
  unfold field_decodable at hdec
  simp only [Bool.and_eq_true, decide_eq_true_eq] at hdec
  obtain ⟨⟨hd1, hd2⟩, hd3⟩ := hdec
  unfold field_fit
  rw [hst.1]
  refine ⟨hd1, hd2, ?_, ?_, ?_⟩
  · intro ho hn'
    exact hd3 ho (hnull.mp hn')
  · intro hrep hat
    rw [← hst.1] at hrep hat
    exact hp.2.2 hrep hat
  · intro hsm
    rw [if_pos hsm] at hsub
    rw [hst.2.2.2.1]
    rcases hdsc : (field_at [] desc (some 0) n).submsg_desc with _ | d
    · rw [hdsc] at hsub
      simp at hsub
    · rw [hdsc] at hsub
      exact ⟨d, rfl, hsub⟩


/-! ## Descriptors without fields -/

theorem load_empty {desc : usr_pb_msgdesc_t} (hN : desc.field_count = 0)
    (m : List usr_pb_byte_t) {it : usr_pb_field_iter_t} (hd : it.descriptor = desc) :
    load_descriptor_values m it = (it, false) := by
  unfold load_descriptor_values
  rw [if_pos (by rw [hd, hN]; omega)]

theorem advance_empty {desc : usr_pb_msgdesc_t} (hN : desc.field_count = 0)
    {it : usr_pb_field_iter_t} (h : empty_iter desc it) :
    empty_iter desc (advance_iterator it) ∧ (advance_iterator it).index = 0 := by
  have hw : toPbSize (it.index + 1) ≥ it.descriptor.field_count := by
    rw [h.1, hN]; omega
  rw [advance_wrap it hw]
  exact ⟨⟨h.1, rfl, h.2.2.1, h.2.2.2⟩, rfl⟩

theorem find_loop_empty {desc : usr_pb_msgdesc_t} (hN : desc.field_count = 0)
    (m : List usr_pb_byte_t) (tag : Nat) (ht : tag ≠ 0) (fuel : Nat)
    {it : usr_pb_field_iter_t} (h : empty_iter desc it) :
    field_iter_find_loop m tag 0 (fuel + 1) it = (advance_iterator it, false) := by
  have ha := advance_empty hN h
  have hla := load_empty hN m ha.1.1
  unfold field_iter_find_loop
  dsimp only
  rw [hla]
  dsimp only
  have htag : ¬ ((advance_iterator it).tag = tag ∧
      usr_PB_LTYPE (advance_iterator it).type ≠ usr_PB_LTYPE_EXTENSION) := by
    rw [ha.1.2.2.1]
    exact fun e => ht e.1.symm
  simp only [htag, decide_False, Bool.false_eq_true, if_false, ite_self]
  rw [ha.2]
  simp

theorem find_empty {desc : usr_pb_msgdesc_t} (hN : desc.field_count = 0)
    (m : List usr_pb_byte_t) {it : usr_pb_field_iter_t} (h : empty_iter desc it) (tag : Nat)
    (ht : tag ≠ 0) :
    (usr_pb_field_iter_find m it tag).2 = false ∧
    empty_iter desc (usr_pb_field_iter_find m it tag).1 := by
  have ha := advance_empty hN h
  have hla := load_empty hN m ha.1.1
  unfold usr_pb_field_iter_find
  rw [if_neg (by rw [h.2.2.1]; exact fun e => ht e.symm)]
  by_cases c : tag > it.descriptor.largest_tag
  · rw [if_pos c]
    exact ⟨rfl, h⟩
  · rw [if_neg c]
    dsimp only
    have hlt : ¬ tag < it.tag := by rw [h.2.2.1]; omega
    rw [if_neg hlt, h.2.1, find_loop_empty hN m tag ht _ h]
    simp only [Bool.false_eq_true, if_false]
    rw [hla]
    exact ⟨trivial, ha.1⟩

theorem find_extension_empty {desc : usr_pb_msgdesc_t} (hN : desc.field_count = 0)
    (m : List usr_pb_byte_t) {it : usr_pb_field_iter_t} (h : empty_iter desc it) :
    (usr_pb_field_iter_find_extension m it).2 = false ∧
    empty_iter desc (usr_pb_field_iter_find_extension m it).1 := by
  have ha := advance_empty hN h
  have hla := load_empty hN m ha.1.1
  unfold usr_pb_field_iter_find_extension
  rw [if_neg (by rw [h.2.2.2]; decide), h.1, hN]
  have hloop : field_iter_find_extension_loop m it.index (0 + 1) it =
        (advance_iterator it, some false) ∨
      field_iter_find_extension_loop m it.index (0 + 1) it = (advance_iterator it, none) := by
    unfold field_iter_find_extension_loop
    dsimp only
    split_ifs with c1 c2
    · left
      rw [hla]
    · exact absurd (by rw [ha.2, h.2.1]) c2
    · right
      rfl
  rcases hloop with e | e
  · rw [e]
    exact ⟨rfl, ha.1⟩
  · rw [e]
    dsimp only
    rw [hla]
    exact ⟨rfl, ha.1⟩

theorem find_extension_range_empty {desc : usr_pb_msgdesc_t} (hN : desc.field_count = 0)
    (s : inner_state) (hr : empty_iter desc s.iter) (he : s.extensions = none) :
    ∃ s', find_extension_range s = some s' ∧ empty_iter desc s'.iter ∧
      s'.extensions = none := by
  unfold find_extension_range
  split_ifs with c
  · dsimp only
    have hf := find_extension_empty hN s.mem hr
    rw [hf.1]
    simp only [Bool.false_eq_true, if_false, Option.map_some', he, Option.isNone_none, if_true]
    exact ⟨_, rfl, hf.2, rfl⟩
  · exact ⟨s, rfl, hr, he⟩

theorem decode_inner_step_empty {desc : usr_pb_msgdesc_t} (hN : desc.field_count = 0)
    (inner : decode_inner_fn) (defaults : set_to_defaults_fn) (flags : Nat) {s : inner_state}
    (hr : empty_iter desc s.iter) (he : s.extensions = none) :
    ∃ ls, decode_inner_step inner defaults flags s = some ls ∧
      empty_iter desc ls.state.iter ∧ ls.state.extensions = none := by
  unfold decode_inner_step
  dsimp only
  by_cases c1 : (usr_pb_decode_tag s.stream).ok = false
  · rw [if_pos c1]
    split_ifs
    · exact ⟨_, rfl, hr, he⟩
    · exact ⟨_, rfl, hr, he⟩
  · rw [if_neg c1]
    by_cases c2 : (usr_pb_decode_tag s.stream).tag = 0
    · rw [if_pos c2]
      split_ifs
      · exact ⟨_, rfl, hr, he⟩
      · exact ⟨_, rfl, hr, he⟩
    · rw [if_neg c2]
      have hf := find_empty hN s.mem hr (usr_pb_decode_tag s.stream).tag c2
      rw [if_pos (Or.inl hf.1)]
      obtain ⟨s1, h1, hr1, he1⟩ := find_extension_range_empty hN
        { s with stream := (usr_pb_decode_tag s.stream).stream,
                       iter := (usr_pb_field_iter_find s.mem s.iter
                         (usr_pb_decode_tag s.stream).tag).1 } hf.2 he
      rw [h1]
      dsimp only
      unfold decode_extension
      rw [he1]
      dsimp only
      split_ifs
      all_goals first | exact ⟨_, rfl, hr1, rfl⟩ | exact ⟨_, rfl, hr1, he1⟩

theorem decode_inner_loop_empty {desc : usr_pb_msgdesc_t} (hN : desc.field_count = 0)
    (inner : decode_inner_fn) (defaults : set_to_defaults_fn) (flags : Nat) :
    ∀ (fuel : Nat) (s : inner_state), s.stream.bytes_left < fuel →
      empty_iter desc s.iter → s.extensions = none →
      (decode_inner_loop inner defaults flags fuel s).isSome = true := by
  intro fuel
  induction fuel with
  | zero => intro s h; omega
  | succ fuel ih =>
    intro s hlt hr he
    unfold decode_inner_loop
    split_ifs with c
    · obtain ⟨ls, hs, hr1, he1⟩ := decode_inner_step_empty hN inner defaults flags hr he
      rw [hs]
      cases ls with
      | next s1 =>
        have := decode_inner_step_bytes_left hs
        exact ih s1 (by omega) hr1 he1
      | exit s1 => rfl
      | fail s1 => rfl
    · rfl

/-- The body of `usr_pb_decode_inner` returns for a descriptor without
fields: every field of the input is skipped. -/
theorem decode_inner_body_empty {desc : usr_pb_msgdesc_t} (hN : desc.field_count = 0)
    (inner : decode_inner_fn) (defaults : set_to_defaults_fn) (stream : usr_pb_istream_t)
    (dest : Option Nat) (flags : Nat) (mem : List usr_pb_byte_t) :
    (decode_inner_body inner defaults stream desc dest flags mem).isSome = true := by
  have hb := begin_false mem desc dest hN
  have hbi : empty_iter desc (usr_pb_field_iter_begin mem desc dest).1 := by
    unfold usr_pb_field_iter_begin
    rw [load_empty hN mem rfl]
    exact ⟨rfl, rfl, rfl, rfl⟩
  have hinit : decode_inner_init defaults stream desc dest flags mem =
      some (true,
                  { stream := stream, iter := (usr_pb_field_iter_begin mem desc dest).1,
                    mem := mem, fixed_count_field := usr_PB_SIZE_MAX, fixed_count_size := 0,
                    fixed_count_total_size := 0, fields_seen := [0, 0],
                    extension_range_start := 0, extensions := none }) := by
    unfold decode_inner_init
    dsimp only
    rw [hb]
    simp
  unfold decode_inner_body
  rw [hinit]
  dsimp only
  obtain ⟨⟨ok2, s2⟩, hl⟩ := some_of_isSome (decode_inner_loop_empty hN inner defaults flags
    (stream.bytes_left + 1)
    { stream := stream, iter := (usr_pb_field_iter_begin mem desc dest).1,
      mem := mem, fixed_count_field := usr_PB_SIZE_MAX, fixed_count_size := 0,
      fixed_count_total_size := 0, fields_seen := [0, 0],
      extension_range_start := 0, extensions := none } (Nat.lt_succ_self _) hbi rfl)
  rw [hl]
  cases ok2 <;> rfl

theorem begin_true_pos (mem : List usr_pb_byte_t) (d : usr_pb_msgdesc_t) (msg : Option Nat)
    (h : (usr_pb_field_iter_begin mem d msg).2 = true) : 0 < d.field_count := by
  by_contra c
  rw [begin_false mem d msg (by omega)] at h
  simp at h

/-- The decoder returns on every callback-free descriptor once the recursion
bound covers two levels for each level of nesting. -/
theorem decode_fns_total : ∀ (k : Nat),
    (∀ m, 2 * k ≤ m → inner_total (fun d => decodable k d = true) (decode_fns m).1) ∧
    (∀ m, 2 * k ≤ m + 1 → defaults_total (fun d => decodable k d = true) (decode_fns m).2) := by
  intro k
  induction k with
  | zero =>
    constructor
    · intro m _ d hd
      simp [decodable] at hd
    · intro m _ d hd
      simp [decodable] at hd
  | succ k ih =>
    obtain ⟨ihA, ihB⟩ := ih
    -- the defaulting pass on a descriptor of this level
    have hC : ∀ m, 2 * k + 1 ≤ m → ∀ d, decodable (k + 1) d = true →
        ∀ it mem, ready (fun d => decodable k d = true) d it →
        ∃ ok it' m', (decode_fns m).2 it mem = some (ok, it', m') ∧
          ready (fun d => decodable k d = true) d it' := by
      intro m hm d hd it mem hr
      obtain ⟨m', rfl⟩ : ∃ m', m = m' + 1 := ⟨m - 1, by omega⟩
      obtain ⟨hcb, hfc, hfit⟩ := decodable_fit k d hd
      exact message_set_to_defaults_body_total (by omega) hfit (ihA m' (by omega))
        (ihB m' (by omega)) hcb it mem hr
    constructor
    · intro m hm d hd stream dest flags mem
      obtain ⟨m', rfl⟩ : ∃ m', m = m' + 1 := ⟨m - 1, by omega⟩
      obtain ⟨hcb, hfc, hfit⟩ := decodable_fit k d hd
      by_cases h0 : 0 < d.field_count
      · exact decode_inner_body_total hfc h0 hcb hfit (ihA m' (by omega)) (ihB m' (by omega))
          (hC m' (by omega) d hd) stream dest flags mem
      · exact decode_inner_body_empty (by omega) _ _ stream (some dest) flags mem
    · intro m hm d hd m0 dest mem hb
      obtain ⟨hcb, hfc, hfit⟩ := decodable_fit k d hd
      have h0 := begin_true_pos m0 d (some dest) hb
      obtain ⟨ok, it', m', h, -⟩ := hC m (by omega) d hd _ mem
        (ready_begin (by omega) h0 hfit m0 dest).1
      rw [h]
      rfl

/-- The function `usr_pb_decode` returns, within the embedding, on every input
stream, destination and memory, for a callback-free descriptor. -/
theorem usr_pb_decode_total (fields : usr_pb_msgdesc_t)
    (h : decodable fields.depth fields = true) (stream : usr_pb_istream_t) (dest : Nat)
    (mem : List usr_pb_byte_t) :
    (usr_pb_decode stream fields (some dest) mem).isSome = true :=
  (decode_fns_total fields.depth).1 (2 * fields.depth + 1) (by omega) fields h stream dest 0 mem

/-- The packed-array branch of `decode_static_field`: the elements are decoded
by the packed loop from the substream that `usr_pb_make_string_substream` sets
up, which is strictly shorter than the stream of the field. -/
theorem decode_static_field_packed (inner : decode_inner_fn) (defaults : set_to_defaults_fn)
    (st : decode_state) (size pField : Nat) (parent sub : usr_pb_istream_t)
    (hh : usr_PB_HTYPE st.field.type = usr_PB_HTYPE_REPEATED)
    (hl : usr_PB_LTYPE st.field.type ≤ usr_PB_LTYPE_LAST_PACKABLE)
    (hs : load_size st = some size) (hp : st.field.pField = some pField)
    (hm : usr_pb_make_string_substream st.stream = (parent, some sub)) :
    sub.bytes_left < st.stream.bytes_left ∧
    decode_static_field inner defaults st usr_PB_WT_STRING =
      (decode_packed_loop inner (sub.bytes_left + 1)
        { st with stream := sub,
                  field := { st.field with
                    pData := some (pField + st.field.data_size * size) } }).bind
        (fun r =>
          if r.2.stream.bytes_left ≠ 0 then
            dec_error { r.2 with stream := parent } "array overflow"
          else
            match usr_pb_close_string_substream parent r.2.stream with
            | (stream, false) => some (false, { r.2 with stream := stream })
            | (stream, true) => some (r.1, { r.2 with stream := stream })) := by
  have hlt := substream_lt hm
  refine ⟨by omega, ?_⟩
  have c1 : ¬ usr_PB_HTYPE st.field.type = usr_PB_HTYPE_REQUIRED := by rw [hh]; decide
  have c2 : ¬ usr_PB_HTYPE st.field.type = usr_PB_HTYPE_OPTIONAL := by rw [hh]; decide
  unfold decode_static_field
  dsimp only
  rw [if_neg c1, if_neg c2, if_pos hh, if_pos ⟨rfl, hl⟩, hs, hp]
  dsimp only
  rw [hm]
  dsimp only
  rcases hloop : decode_packed_loop inner (sub.bytes_left + 1)
      { stream := sub,
        field := { st.field with pField := some pField,
                                 pData := some (pField + st.field.data_size * size) },
        mem := st.mem, fixed_count_size := st.fixed_count_size } with _ | ⟨status, st2⟩
  · rfl
  · rfl
/-! ## The zero tag under `usr_PB_DECODE_DELIMITED` -/

/-- On a buffer stream `usr_pb_close_string_substream` succeeds: it skips the
`bytes_left` bytes that remain in the substream and hands the read position and
the error message of the substream to the parent stream. -/
theorem close_string_substream_eq (stream substream : usr_pb_istream_t) :
    usr_pb_close_string_substream stream substream =
      ({ stream with state := substream.state.drop substream.bytes_left,
                     errmsg := substream.errmsg }, true) := by
  unfold usr_pb_close_string_substream
  by_cases h : substream.bytes_left = 0
  · simp [h]
  · simp [h, usr_pb_read, buf_read]

/-- The call of `usr_pb_decode_inner` from `usr_pb_decode` or `usr_pb_decode_ex`
on the stream `run`, when a round of its loop reads a tag with field number 0. -/
theorem decode_inner_zero_tag (run : usr_pb_istream_t) (fields : usr_pb_msgdesc_t)
    (dest_struct : Option Nat) (flags : Nat) (mem : List usr_pb_byte_t) (s : inner_state)
    (hs : s ∈ usr_pb_decode_heads run fields dest_struct flags mem)
    (hok : (usr_pb_decode_tag s.stream).ok = true)
    (hz : (usr_pb_decode_tag s.stream).tag = 0) :
    usr_pb_decode_inner (2 * fields.depth + 1) run fields dest_struct flags mem =
      if flags &&& usr_PB_DECODE_NULLTERMINATED ≠ 0 then
        some (decode_inner_finish { s with stream := (usr_pb_decode_tag s.stream).stream })
      else
        some (false, istream_set_error (usr_pb_decode_tag s.stream).stream "zero tag",
          s.mem) := by
  have hex : usr_pb_decode_inner (2 * fields.depth + 1) run fields dest_struct flags mem =
      decode_inner_body (decode_fns (2 * fields.depth)).1 (decode_fns (2 * fields.depth)).2
        run fields dest_struct flags mem := rfl
  rw [hex]
  unfold usr_pb_decode_heads at hs
  rcases hinit : decode_inner_init (decode_fns (2 * fields.depth)).2 run fields dest_struct
      flags mem with _ | ⟨ok, s0⟩
  · simp [hinit] at hs
  · rw [hinit] at hs
    cases ok
    · simp at hs
    · dsimp only at hs
      obtain ⟨hb, fuel', hloop⟩ := decode_inner_heads_loop _ _ _ _ _ _ hs
      rw [decode_inner_loop_zero_tag _ _ _ _ _ hb hok hz] at hloop
      unfold decode_inner_body
      by_cases hn : flags &&& usr_PB_DECODE_NULLTERMINATED ≠ 0
      · rw [if_pos hn] at hloop ⊢
        simp only [hinit, hloop]
      · rw [if_neg hn] at hloop ⊢
        simp only [hinit, hloop]
/-! ## Claims C2 and C3 -/

/-- C2. Varint round trip: for every `x < 2 ^ 64`, `usr_pb_encode_varint` on a
buffer stream with room for 10 bytes succeeds and appends between 1 and 10
bytes `bs`; `usr_pb_decode_varint` on any input stream that starts with `bs`
(in particular the buffer stream over `bs` alone) succeeds, returns exactly `x`
and consumes exactly `bs`. -/
theorem C2_varint_round_trip (x : Nat) (hx : x < 2 ^ 64)
    (out : usr_pb_ostream_t) (hcb : out.callback = true)
    (hroom : out.bytes_written + 10 ≤ out.max_size) (hmax : out.max_size < 2 ^ 64) :
    ∃ bs : List usr_pb_byte_t,
      usr_pb_encode_varint out x =
        ({ out with state := out.state ++ bs,
                    bytes_written := out.bytes_written + bs.length }, true) ∧
      1 ≤ bs.length ∧ bs.length ≤ 10 ∧
      usr_pb_decode_varint (usr_pb_istream_from_buffer bs) = (⟨[], 0, none⟩, some x) ∧
      ∀ (rest : List usr_pb_byte_t) (n : Nat) (e : Option String), bs.length ≤ n →
        usr_pb_decode_varint ⟨bs ++ rest, n, e⟩ = (⟨rest, n - bs.length, e⟩, some x) := by
  have hl := leb128_length_le_ten x hx
  refine ⟨leb128 x, ?_, leb128_length_pos x, hl, ?_, ?_⟩
  · rw [encode_varint_eq_write out x hx]
    exact write_ok out (leb128 x) hcb (by omega) hmax
  · have := decode_varint_leb128 x hx [] (leb128 x).length none (le_refl _)
    simpa [usr_pb_istream_from_buffer] using this
  · intro rest n e hn
    exact decode_varint_leb128 x hx rest n e hn

/-- Witness of C2 at `x = 300` and a fresh 16-byte output buffer. -/
theorem C2_varint_round_trip_witness :
    (300 < 2 ^ 64 ∧ (usr_pb_ostream_from_buffer 16).callback = true ∧
      (usr_pb_ostream_from_buffer 16).bytes_written + 10 ≤ (usr_pb_ostream_from_buffer 16).max_size ∧
      (usr_pb_ostream_from_buffer 16).max_size < 2 ^ 64) ∧
    ∃ bs : List usr_pb_byte_t,
      usr_pb_encode_varint (usr_pb_ostream_from_buffer 16) 300 =
        ({ usr_pb_ostream_from_buffer 16 with
            state := (usr_pb_ostream_from_buffer 16).state ++ bs,
            bytes_written := (usr_pb_ostream_from_buffer 16).bytes_written + bs.length }, true) ∧
      1 ≤ bs.length ∧ bs.length ≤ 10 ∧
      usr_pb_decode_varint (usr_pb_istream_from_buffer bs) = (⟨[], 0, none⟩, some 300) ∧
      ∀ (rest : List usr_pb_byte_t) (n : Nat) (e : Option String), bs.length ≤ n →
        usr_pb_decode_varint ⟨bs ++ rest, n, e⟩ = (⟨rest, n - bs.length, e⟩, some 300) :=
  ⟨⟨by decide, rfl, by decide, by decide⟩,
    C2_varint_round_trip 300 (by decide) (usr_pb_ostream_from_buffer 16) rfl (by decide)
      (by decide)⟩

/-- C3. Svarint round trip: for every signed 64-bit `x` (from `INT64_MIN` to
`INT64_MAX`), `usr_pb_encode_svarint` on a buffer stream with room for 10
bytes succeeds and `usr_pb_decode_svarint` on the bytes written succeeds and
returns `x`, consuming exactly those bytes; `-1` is written as the single byte
`01` and decodes back to `-1`. -/
theorem C3_svarint_round_trip (x : Int) (hlo : -2 ^ 63 ≤ x) (hhi : x < 2 ^ 63)
    (out : usr_pb_ostream_t) (hcb : out.callback = true)
    (hroom : out.bytes_written + 10 ≤ out.max_size) (hmax : out.max_size < 2 ^ 64) :
    (∃ bs : List usr_pb_byte_t,
      usr_pb_encode_svarint out x =
        ({ out with state := out.state ++ bs,
                    bytes_written := out.bytes_written + bs.length }, true) ∧
      usr_pb_decode_svarint (usr_pb_istream_from_buffer bs) = (⟨[], 0, none⟩, some x) ∧
      ∀ (rest : List usr_pb_byte_t) (n : Nat) (e : Option String), bs.length ≤ n →
        usr_pb_decode_svarint ⟨bs ++ rest, n, e⟩ = (⟨rest, n - bs.length, e⟩, some x)) ∧
    (usr_pb_encode_svarint (usr_pb_ostream_from_buffer 10) (-1)).1.state = [0x01] ∧
    (usr_pb_encode_svarint (usr_pb_ostream_from_buffer 10) (-1)).2 = true ∧
    usr_pb_decode_svarint (usr_pb_istream_from_buffer [0x01]) = (⟨[], 0, none⟩, some (-1)) := by
  refine ⟨?_, by decide, by decide, by decide⟩
  rw [encode_svarint_eq]
  have key : ∃ z : Nat, z < 2 ^ 64 ∧
      (if x < 0 then 2 ^ 64 - 1 - toU64 (i64ToU64 x <<< 1) else toU64 (i64ToU64 x <<< 1)) = z ∧
      (if z % 2 ≠ 0 then u64ToI64 (2 ^ 64 - 1 - z / 2) else u64ToI64 (z / 2)) = x := by
    by_cases hneg : x < 0
    · refine ⟨2 * (-x).toNat - 1, by omega, ?_, ?_⟩
      · simp only [hneg, if_true]; exact zigzag_neg x hneg hlo
      · have h1 : (2 * (-x).toNat - 1) % 2 ≠ 0 := by omega
        simp only [h1, ne_eq, not_false_eq_true, if_true]
        unfold u64ToI64
        have h2 : ¬ (2 ^ 64 - 1 - (2 * (-x).toNat - 1) / 2 < 2 ^ 63) := by omega
        simp only [h2, if_false]
        omega
    · refine ⟨2 * x.toNat, by omega, ?_, ?_⟩
      · simp only [hneg, if_false]; exact zigzag_nonneg x (by omega) hhi
      · have h1 : ¬ ((2 * x.toNat) % 2 ≠ 0) := by omega
        simp only [h1, if_false]
        unfold u64ToI64
        have h2 : 2 * x.toNat / 2 < 2 ^ 63 := by omega
        simp only [h2, if_true]
        omega
  obtain ⟨z, hz, hzz, hback⟩ := key
  rw [hzz]
  have hl := leb128_length_le_ten z hz
  refine ⟨leb128 z, ?_, ?_, ?_⟩
  · rw [encode_varint_eq_write out z hz]
    exact write_ok out (leb128 z) hcb (by omega) hmax
  · have h := decode_varint_leb128 z hz [] (leb128 z).length none (le_refl _)
    have h2 := decode_svarint_of_varint _ _ _ h
    rw [hback] at h2
    simpa [usr_pb_istream_from_buffer] using h2
  · intro rest n e hn
    have h := decode_varint_leb128 z hz rest n e hn
    have h2 := decode_svarint_of_varint _ _ _ h
    rw [hback] at h2
    exact h2

/-! ## Claims C8, C9 and C10 -/

/-- C8. The 32-bit varint decoder accepts what the encoder emits: for every
`x < 2 ^ 32`, `usr_pb_decode_varint32` on the bytes written by
`usr_pb_encode_varint(x)` returns `x`; and for every negative int32 `v`,
`usr_pb_encode_varint` applied to the 64-bit sign extension of `v` writes 10
bytes on which `usr_pb_decode_varint32` succeeds and returns `v` reinterpreted
as `uint32_t`. In both cases exactly the bytes written are consumed. -/
theorem C8_varint32_accepts_encoder_output (x : Nat) (hx : x < 2 ^ 32)
    (v : Int) (hv1 : -2 ^ 31 ≤ v) (hv2 : v < 0)
    (out : usr_pb_ostream_t) (hcb : out.callback = true)
    (hroom : out.bytes_written + 10 ≤ out.max_size) (hmax : out.max_size < 2 ^ 64) :
    (∃ bs : List usr_pb_byte_t,
      usr_pb_encode_varint out x =
        ({ out with state := out.state ++ bs,
                    bytes_written := out.bytes_written + bs.length }, true) ∧
      usr_pb_decode_varint32 (usr_pb_istream_from_buffer bs) = (⟨[], 0, none⟩, some x) ∧
      ∀ (rest : List usr_pb_byte_t) (n : Nat) (e : Option String), bs.length ≤ n →
        usr_pb_decode_varint32 ⟨bs ++ rest, n, e⟩ = (⟨rest, n - bs.length, e⟩, some x)) ∧
    (∃ bs : List usr_pb_byte_t,
      usr_pb_encode_varint out (i64ToU64 v) =
        ({ out with state := out.state ++ bs,
                    bytes_written := out.bytes_written + bs.length }, true) ∧
      bs.length = 10 ∧
      usr_pb_decode_varint32 (usr_pb_istream_from_buffer bs) =
        (⟨[], 0, none⟩, some (v % 2 ^ 32).toNat) ∧
      ∀ (rest : List usr_pb_byte_t) (n : Nat) (e : Option String), bs.length ≤ n →
        usr_pb_decode_varint32 ⟨bs ++ rest, n, e⟩ =
          (⟨rest, n - bs.length, e⟩, some (v % 2 ^ 32).toNat)) := by
  constructor
  · have hx64 : x < 2 ^ 64 := by omega
    have hl := leb128_length_le_ten x hx64
    have hdec : ∀ (rest : List usr_pb_byte_t) (n : Nat) (e : Option String),
        (leb128 x).length ≤ n →
        usr_pb_decode_varint32 ⟨leb128 x ++ rest, n, e⟩ =
          (⟨rest, n - (leb128 x).length, e⟩, some x) := by
      intro rest n e hn
      unfold usr_pb_decode_varint32
      rw [decode_varint32_eof_leb128 x hx rest n e hn]
    refine ⟨leb128 x, ?_, ?_, hdec⟩
    · rw [encode_varint_eq_write out x hx64]
      exact write_ok out (leb128 x) hcb (by omega) hmax
    · have := hdec [] (leb128 x).length none (le_refl _)
      simpa [usr_pb_istream_from_buffer] using this
  · have hX1 : 2 ^ 64 - 2 ^ 31 ≤ i64ToU64 v := by unfold i64ToU64; omega
    have hX2 : i64ToU64 v < 2 ^ 64 := by unfold i64ToU64; omega
    have hres : i64ToU64 v % 2 ^ 32 = (v % 2 ^ 32).toNat := by unfold i64ToU64; omega
    have hlen := leb128_sign_extended_length _ hX1 hX2
    have hdec : ∀ (rest : List usr_pb_byte_t) (n : Nat) (e : Option String),
        (leb128 (i64ToU64 v)).length ≤ n →
        usr_pb_decode_varint32 ⟨leb128 (i64ToU64 v) ++ rest, n, e⟩ =
          (⟨rest, n - (leb128 (i64ToU64 v)).length, e⟩, some (v % 2 ^ 32).toNat) := by
      intro rest n e hn
      unfold usr_pb_decode_varint32
      rw [decode_varint32_eof_sign_extended _ hX1 hX2 rest n e (by omega), hres, hlen]
    refine ⟨leb128 (i64ToU64 v), ?_, hlen, ?_, hdec⟩
    · rw [encode_varint_eq_write out _ hX2]
      exact write_ok out _ hcb (by omega) hmax
    · have := hdec [] (leb128 (i64ToU64 v)).length none (le_refl _)
      simpa [usr_pb_istream_from_buffer] using this

/-- C9. Tag framing round trip: for every field number `n` in `[1, 2^29 - 1]`
and wire type `w` in `{0, 1, 2, 5}`, `usr_pb_encode_tag` writes what
`usr_pb_encode_varint` writes for `(n << 3) | w`, and `usr_pb_decode_tag` on
those bytes succeeds with `tag = n`, `wire_type = w` and `eof = false`,
consuming exactly the bytes written. -/
theorem C9_tag_round_trip (n w : Nat) (hn1 : 1 ≤ n) (hn2 : n ≤ 2 ^ 29 - 1)
    (hw : w = 0 ∨ w = 1 ∨ w = 2 ∨ w = 5)
    (out : usr_pb_ostream_t) (hcb : out.callback = true)
    (hroom : out.bytes_written + 10 ≤ out.max_size) (hmax : out.max_size < 2 ^ 64) :
    usr_pb_encode_tag out w n = usr_pb_encode_varint out ((n <<< 3) ||| w) ∧
    ∃ bs : List usr_pb_byte_t,
      usr_pb_encode_tag out w n =
        ({ out with state := out.state ++ bs,
                    bytes_written := out.bytes_written + bs.length }, true) ∧
      usr_pb_decode_tag (usr_pb_istream_from_buffer bs) =
        { stream := ⟨[], 0, none⟩, ok := true, wire_type := w, tag := n, eof := false } ∧
      ∀ (rest : List usr_pb_byte_t) (m : Nat) (e : Option String), bs.length ≤ m →
        usr_pb_decode_tag ⟨bs ++ rest, m, e⟩ =
          { stream := ⟨rest, m - bs.length, e⟩, ok := true, wire_type := w, tag := n,
            eof := false } := by
  have hw8 : w < 8 := by omega
  have hT := tag_value n w (by omega) hw8
  have hsh : (n <<< 3) ||| w = n * 8 + w := by
    have := or_mul_eq_add w n 3 (by omega)
    rw [Nat.shiftLeft_eq, Nat.or_comm]
    simpa [Nat.add_comm] using this
  have hTlt : n * 8 + w < 2 ^ 32 := by omega
  have hl := leb128_length_le_ten (n * 8 + w) (by omega)
  have hdec : ∀ (rest : List usr_pb_byte_t) (m : Nat) (e : Option String),
      (leb128 (n * 8 + w)).length ≤ m →
      usr_pb_decode_tag ⟨leb128 (n * 8 + w) ++ rest, m, e⟩ =
        { stream := ⟨rest, m - (leb128 (n * 8 + w)).length, e⟩, ok := true, wire_type := w,
          tag := n, eof := false } := by
    intro rest m e hm
    unfold usr_pb_decode_tag
    rw [decode_varint32_eof_leb128 (n * 8 + w) hTlt rest m e hm]
    have e1 : (n * 8 + w) &&& 7 = w := by
      rw [show (7 : Nat) = 0x07 from rfl, and_07]; omega
    have e2 : (n * 8 + w) >>> 3 = n := by
      rw [Nat.shiftRight_eq_div_pow]; omega
    simp only [e1, e2]
  refine ⟨?_, leb128 (n * 8 + w), ?_, ?_, hdec⟩
  · unfold usr_pb_encode_tag
    rw [hT, hsh]
  · unfold usr_pb_encode_tag
    rw [hT, encode_varint_eq_write out _ (by omega)]
    exact write_ok out _ hcb (by omega) hmax
  · have := hdec [] (leb128 (n * 8 + w)).length none (le_refl _)
    simpa [usr_pb_istream_from_buffer] using this

/-- C10. Fixed-width round trip: for every 32-bit value `v`,
`usr_pb_encode_fixed32` writes exactly the 4 bytes of `v`, least significant
byte first, and `usr_pb_decode_fixed32` on them returns `v`; likewise
`usr_pb_encode_fixed64` and `usr_pb_decode_fixed64` for every 64-bit value `w`
with 8 little-endian bytes. -/
theorem C10_fixed_round_trip (v : Nat) (hv : v < 2 ^ 32) (w : Nat) (hw : w < 2 ^ 64)
    (out : usr_pb_ostream_t) (hcb : out.callback = true)
    (hroom : out.bytes_written + 8 ≤ out.max_size) (hmax : out.max_size < 2 ^ 64) :
    (usr_pb_encode_fixed32 out v =
        ({ out with
            state := out.state ++
              [toByte v, toByte (v / 2 ^ 8), toByte (v / 2 ^ 16), toByte (v / 2 ^ 24)],
            bytes_written := out.bytes_written + 4 }, true) ∧
      ∀ (rest : List usr_pb_byte_t) (n : Nat) (e : Option String), 4 ≤ n →
        usr_pb_decode_fixed32
          ⟨[toByte v, toByte (v / 2 ^ 8), toByte (v / 2 ^ 16), toByte (v / 2 ^ 24)] ++ rest,
            n, e⟩ = (⟨rest, n - 4, e⟩, some v)) ∧
    (usr_pb_encode_fixed64 out w =
        ({ out with
            state := out.state ++
              [toByte w, toByte (w / 2 ^ 8), toByte (w / 2 ^ 16), toByte (w / 2 ^ 24),
                toByte (w / 2 ^ 32), toByte (w / 2 ^ 40), toByte (w / 2 ^ 48),
                toByte (w / 2 ^ 56)],
            bytes_written := out.bytes_written + 8 }, true) ∧
      ∀ (rest : List usr_pb_byte_t) (n : Nat) (e : Option String), 8 ≤ n →
        usr_pb_decode_fixed64
          ⟨[toByte w, toByte (w / 2 ^ 8), toByte (w / 2 ^ 16), toByte (w / 2 ^ 24),
              toByte (w / 2 ^ 32), toByte (w / 2 ^ 40), toByte (w / 2 ^ 48),
              toByte (w / 2 ^ 56)] ++ rest, n, e⟩ = (⟨rest, n - 8, e⟩, some w)) := by
  refine ⟨⟨?_, ?_⟩, ⟨?_, ?_⟩⟩
  · unfold usr_pb_encode_fixed32
    rw [fixed32_bytes]
    exact write_ok out _ hcb (by simpa using (by omega : out.bytes_written + 4 ≤ out.max_size))
      hmax
  · intro rest n e hn
    rw [← fixed32_bytes]
    unfold usr_pb_decode_fixed32
    have := read_append [toByte (v &&& 0xFF), toByte ((v >>> 8) &&& 0xFF),
      toByte ((v >>> 16) &&& 0xFF), toByte ((v >>> 24) &&& 0xFF)] rest n e (by simp)
      (by simpa using hn)
    simp only [List.length_cons, List.length_nil, Nat.zero_add, Nat.reduceAdd] at this
    rw [this]
    simp only [List.getD_cons_zero, List.getD_cons_succ]
    rw [fixed32_value v hv]
  · unfold usr_pb_encode_fixed64
    rw [fixed64_bytes]
    exact write_ok out _ hcb (by simpa using hroom) hmax
  · intro rest n e hn
    rw [← fixed64_bytes]
    unfold usr_pb_decode_fixed64
    have := read_append [toByte (w &&& 0xFF), toByte ((w >>> 8) &&& 0xFF),
      toByte ((w >>> 16) &&& 0xFF), toByte ((w >>> 24) &&& 0xFF),
      toByte ((w >>> 32) &&& 0xFF), toByte ((w >>> 40) &&& 0xFF),
      toByte ((w >>> 48) &&& 0xFF), toByte ((w >>> 56) &&& 0xFF)] rest n e (by simp)
      (by simpa using hn)
    simp only [List.length_cons, List.length_nil, Nat.zero_add, Nat.reduceAdd] at this
    rw [this]
    simp only [List.getD_cons_zero, List.getD_cons_succ]
    rw [fixed64_value w hw]

/-! ## Claims C6 and C7: inputs the varint decoders accept although they overflow -/

/-- C6 (evaluation at the failing input). The ten bytes `80 80 80 80 80 80 80
80 80 02` denote the integer `2 ^ 64`, which does not fit in 64 bits, yet
`usr_pb_decode_varint` succeeds on them, returns 0 and sets no error: the bits
of the tenth byte above bit 0 are shifted out without a check. -/
theorem C6_decode_varint_tenth_byte_unchecked :
    varint_value [0x80, 0x80, 0x80, 0x80, 0x80, 0x80, 0x80, 0x80, 0x80, 0x02] = 2 ^ 64 ∧
    usr_pb_decode_varint
      (usr_pb_istream_from_buffer [0x80, 0x80, 0x80, 0x80, 0x80, 0x80, 0x80, 0x80, 0x80, 0x02]) =
      (⟨[], 0, none⟩, some 0) := by
  constructor
  · decide
  · decide

/-- C7 (evaluation at the failing input). The six bytes `80 80 80 80 90 00`
denote the integer `2 ^ 32`, which is neither below `2 ^ 32` nor the sign
extension of a negative int32, yet `usr_pb_decode_varint32` succeeds on them,
returns 0 and sets no error: bits 4 to 6 of the fifth byte are dropped
unchecked when that byte has its continuation bit set. -/
theorem C7_decode_varint32_fifth_byte_unchecked :
    varint_value [0x80, 0x80, 0x80, 0x80, 0x90, 0x00] = 2 ^ 32 ∧
    ¬ (2 ^ 32 < 2 ^ 32) ∧ ¬ (2 ^ 64 - 2 ^ 31 ≤ 2 ^ 32) ∧
    usr_pb_decode_varint32
      (usr_pb_istream_from_buffer [0x80, 0x80, 0x80, 0x80, 0x90, 0x00]) =
      (⟨[], 0, none⟩, some 0) := by
  refine ⟨by decide, by decide, by decide, by decide⟩

/-! ## Witnesses at concrete inputs -/

/-- Witness of C3 at `x = -3` and a fresh 16-byte output buffer. -/
theorem C3_svarint_round_trip_witness :
    ((-2 : Int) ^ 63 ≤ -3 ∧ (-3 : Int) < 2 ^ 63 ∧
      (usr_pb_ostream_from_buffer 16).callback = true ∧
      (usr_pb_ostream_from_buffer 16).bytes_written + 10 ≤
        (usr_pb_ostream_from_buffer 16).max_size ∧
      (usr_pb_ostream_from_buffer 16).max_size < 2 ^ 64) ∧
    ∃ bs : List usr_pb_byte_t,
      usr_pb_encode_svarint (usr_pb_ostream_from_buffer 16) (-3) =
        ({ usr_pb_ostream_from_buffer 16 with
            state := (usr_pb_ostream_from_buffer 16).state ++ bs,
            bytes_written := (usr_pb_ostream_from_buffer 16).bytes_written + bs.length },
          true) ∧
      usr_pb_decode_svarint (usr_pb_istream_from_buffer bs) = (⟨[], 0, none⟩, some (-3)) :=
  ⟨⟨by decide, by decide, rfl, by decide, by decide⟩,
    let h := (C3_svarint_round_trip (-3) (by decide) (by decide)
      (usr_pb_ostream_from_buffer 16) rfl (by decide) (by decide)).1
    h.elim fun bs hb => ⟨bs, hb.1, hb.2.1⟩⟩

/-- Witness of C8 at `x = 300`, `v = -1` and a fresh 16-byte output buffer. -/
theorem C8_varint32_accepts_encoder_output_witness :
    (300 < 2 ^ 32 ∧ (-2 : Int) ^ 31 ≤ -1 ∧ (-1 : Int) < 0) ∧
    (∃ bs : List usr_pb_byte_t,
      usr_pb_encode_varint (usr_pb_ostream_from_buffer 16) 300 =
        ({ usr_pb_ostream_from_buffer 16 with
            state := (usr_pb_ostream_from_buffer 16).state ++ bs,
            bytes_written := (usr_pb_ostream_from_buffer 16).bytes_written + bs.length },
          true) ∧
      usr_pb_decode_varint32 (usr_pb_istream_from_buffer bs) = (⟨[], 0, none⟩, some 300)) ∧
    (∃ bs : List usr_pb_byte_t,
      usr_pb_encode_varint (usr_pb_ostream_from_buffer 16) (i64ToU64 (-1)) =
        ({ usr_pb_ostream_from_buffer 16 with
            state := (usr_pb_ostream_from_buffer 16).state ++ bs,
            bytes_written := (usr_pb_ostream_from_buffer 16).bytes_written + bs.length },
          true) ∧
      bs.length = 10 ∧
      usr_pb_decode_varint32 (usr_pb_istream_from_buffer bs) =
        (⟨[], 0, none⟩, some ((-1 : Int) % 2 ^ 32).toNat)) :=
  let h := C8_varint32_accepts_encoder_output 300 (by decide) (-1) (by decide) (by decide)
    (usr_pb_ostream_from_buffer 16) rfl (by decide) (by decide)
  ⟨⟨by decide, by decide, by decide⟩,
    h.1.elim fun bs hb => ⟨bs, hb.1, hb.2.1⟩,
    h.2.elim fun bs hb => ⟨bs, hb.1, hb.2.1, hb.2.2.1⟩⟩

/-- Witness of C9 at field number 1, wire type 2 and a fresh 16-byte output
buffer. -/
theorem C9_tag_round_trip_witness :
    (1 ≤ 1 ∧ 1 ≤ 2 ^ 29 - 1 ∧ ((2 : Nat) = 0 ∨ (2 : Nat) = 1 ∨ (2 : Nat) = 2 ∨ (2 : Nat) = 5)) ∧
    usr_pb_encode_tag (usr_pb_ostream_from_buffer 16) 2 1 =
      usr_pb_encode_varint (usr_pb_ostream_from_buffer 16) ((1 <<< 3) ||| 2) ∧
    ∃ bs : List usr_pb_byte_t,
      usr_pb_encode_tag (usr_pb_ostream_from_buffer 16) 2 1 =
        ({ usr_pb_ostream_from_buffer 16 with
            state := (usr_pb_ostream_from_buffer 16).state ++ bs,
            bytes_written := (usr_pb_ostream_from_buffer 16).bytes_written + bs.length },
          true) ∧
      usr_pb_decode_tag (usr_pb_istream_from_buffer bs) =
        { stream := ⟨[], 0, none⟩, ok := true, wire_type := 2, tag := 1, eof := false } :=
  let h := C9_tag_round_trip 1 2 (by decide) (by decide) (by decide)
    (usr_pb_ostream_from_buffer 16) rfl (by decide) (by decide)
  ⟨⟨by decide, by decide, by decide⟩, h.1,
    h.2.elim fun bs hb => ⟨bs, hb.1, hb.2.1⟩⟩

/-- Witness of C10 at `v = 0x12345678`, `w = 0x0102030405060708` and a fresh
16-byte output buffer. -/
theorem C10_fixed_round_trip_witness :
    (0x12345678 < 2 ^ 32 ∧ 0x0102030405060708 < 2 ^ 64) ∧
    usr_pb_encode_fixed32 (usr_pb_ostream_from_buffer 16) 0x12345678 =
      ({ usr_pb_ostream_from_buffer 16 with
          state := (usr_pb_ostream_from_buffer 16).state ++
            [toByte 0x12345678, toByte (0x12345678 / 2 ^ 8), toByte (0x12345678 / 2 ^ 16),
              toByte (0x12345678 / 2 ^ 24)],
          bytes_written := (usr_pb_ostream_from_buffer 16).bytes_written + 4 }, true) ∧
    usr_pb_encode_fixed64 (usr_pb_ostream_from_buffer 16) 0x0102030405060708 =
      ({ usr_pb_ostream_from_buffer 16 with
          state := (usr_pb_ostream_from_buffer 16).state ++
            [toByte 0x0102030405060708, toByte (0x0102030405060708 / 2 ^ 8),
              toByte (0x0102030405060708 / 2 ^ 16), toByte (0x0102030405060708 / 2 ^ 24),
              toByte (0x0102030405060708 / 2 ^ 32), toByte (0x0102030405060708 / 2 ^ 40),
              toByte (0x0102030405060708 / 2 ^ 48), toByte (0x0102030405060708 / 2 ^ 56)],
          bytes_written := (usr_pb_ostream_from_buffer 16).bytes_written + 8 }, true) :=
  let h := C10_fixed_round_trip 0x12345678 (by decide) 0x0102030405060708 (by decide)
    (usr_pb_ostream_from_buffer 16) rfl (by decide) (by decide)
  ⟨⟨by decide, by decide⟩, h.1.1, h.2.1⟩

/-! ## Claim C5: the error reported for a packed static array -/

set_option maxRecDepth 100000 in
/-- C5 (evaluation at the failing input). The descriptor has one statically
allocated repeated field of capacity 4. The packed input `0A 03 80 02 01`
carries two elements, 256 and 1; the first does not fit the 8-bit element.
`usr_pb_decode` rejects the input with the error `array overflow`, although it
carries fewer than `array_size` elements, whereas the same two elements sent
unpacked (`08 80 02 08 01`) are rejected with `integer too large`. -/
theorem C5_packed_element_error_reported_as_array_overflow :
    uint8_array_msgdesc.field_count = 1 ∧
    (field_at [0, 0, 0, 0, 0, 0] uint8_array_msgdesc (some 0) 0).array_size = 4 ∧
    usr_pb_decode (usr_pb_istream_from_buffer [0x0A, 0x03, 0x80, 0x02, 0x01])
        uint8_array_msgdesc (some 0) [0, 0, 0, 0, 0, 0] =
      some (false, ⟨[0x80, 0x02, 0x01], 0, some "array overflow"⟩, [0, 0, 0, 0, 0, 0]) ∧
    usr_pb_decode (usr_pb_istream_from_buffer [0x08, 0x80, 0x02, 0x08, 0x01])
        uint8_array_msgdesc (some 0) [0, 0, 0, 0, 0, 0] =
      some (false, ⟨[0x08, 0x01], 2, some "integer too large"⟩, [1, 0, 0, 0, 0, 0]) := by
  refine ⟨by decide, by decide, by decide, by decide⟩

/-! ## Claim C4: enforcement of required fields -/

set_option maxRecDepth 1000000 in
/-- C4 (counterexample to the claim as stated). In the descriptor with the 65
required fields `1 .. 65`, field number 64 (counted from 0) is REQUIRED, has
tag 65 and index 64 among the required fields. The input is what the encoder
writes for the fields `1 .. 64`, so the tags read by `usr_pb_decode` are
`1 .. 64` and the required field 65 never occurs. `usr_pb_decode` returns true
and sets no error: required fields from index `usr_PB_MAX_REQUIRED_FIELDS` on
are not tracked. -/
theorem C4_required_field_beyond_64_not_enforced :
    (required_fields_msgdesc 65).field_count = 65 ∧
    (required_fields_msgdesc 65).required_field_count = 65 ∧
    (field_at (List.replicate 65 0) (required_fields_msgdesc 65) (some 0) 64).tag = 65 ∧
    usr_PB_HTYPE (field_at (List.replicate 65 0) (required_fields_msgdesc 65) (some 0) 64).type
      = usr_PB_HTYPE_REQUIRED ∧
    (field_at (List.replicate 65 0) (required_fields_msgdesc 65) (some 0)
      64).required_field_index = 64 ∧
    (encode_uint_fields 64).errmsg = none ∧
    usr_pb_decode_tags (usr_pb_istream_from_buffer (encode_uint_fields 64).state)
      (required_fields_msgdesc 65) (some 0) (List.replicate 65 0) =
        (List.range 64).map (fun i => i + 1) ∧
    usr_pb_decode (usr_pb_istream_from_buffer (encode_uint_fields 64).state)
        (required_fields_msgdesc 65) (some 0) (List.replicate 65 0) =
      some (true, ⟨[], 0, none⟩, List.replicate 64 7 ++ [0]) := by
  refine ⟨by decide, by decide, by decide, by decide, by decide, by decide, by decide,
    by decide⟩

/-- C4 (amended claim). Let field number `n` of a descriptor with fewer than
65535 fields be REQUIRED, with an index among the required fields below
`usr_PB_MAX_REQUIRED_FIELDS` and below `required_field_count`, and let its tag
be none of the top-level tags that `usr_pb_decode` reads from the input. Then
`usr_pb_decode` does not return true, and whenever the run arrives at the
required-field check (no other check has failed) it returns false with the
error `missing required field` set on the stream.

Required fields with an index of `usr_PB_MAX_REQUIRED_FIELDS` or more are not
tracked: reading such a field leaves the decoder's bitmap of seen fields
unchanged, and the required-field check gives the same verdict for
`required_field_count` as for the smaller of it and
`usr_PB_MAX_REQUIRED_FIELDS`. -/
theorem C4_required_field_enforced_below_64 (stream : usr_pb_istream_t)
    (fields : usr_pb_msgdesc_t) (dest_struct : Option Nat) (mem : List usr_pb_byte_t)
    (n : Nat) (hfc : fields.field_count < 65535) (hn : n < fields.field_count)
    (hreq : usr_PB_HTYPE (field_at mem fields dest_struct n).type = usr_PB_HTYPE_REQUIRED)
    (hr : (field_at mem fields dest_struct n).required_field_index <
      usr_PB_MAX_REQUIRED_FIELDS)
    (hr2 : (field_at mem fields dest_struct n).required_field_index <
      fields.required_field_count)
    (habs : (field_at mem fields dest_struct n).tag ∉
      usr_pb_decode_tags stream fields dest_struct mem) :
    (∀ r, usr_pb_decode stream fields dest_struct mem = some r → r.1 = false) ∧
    (∀ s, usr_pb_decode_upto_required_check stream fields dest_struct mem = some s →
      usr_pb_decode stream fields dest_struct mem =
        some (false, istream_set_error s.stream "missing required field", s.mem)) ∧
    (∀ s : inner_state, usr_PB_MAX_REQUIRED_FIELDS ≤ s.iter.required_field_index →
      mark_required_seen s = s) ∧
    (∀ (fields_seen : List Nat) (count : Nat),
      required_fields_present fields_seen count =
        required_fields_present fields_seen (min count usr_PB_MAX_REQUIRED_FIELDS)) := by
  have hmark : ∀ s : inner_state, usr_PB_MAX_REQUIRED_FIELDS ≤ s.iter.required_field_index →
      mark_required_seen s = s := by
    intro s hs
    unfold mark_required_seen
    rw [if_neg (by omega)]
  have hclamp : ∀ (fields_seen : List Nat) (count : Nat),
      required_fields_present fields_seen count =
        required_fields_present fields_seen (min count usr_PB_MAX_REQUIRED_FIELDS) := by
    intro fs c
    unfold required_fields_present usr_PB_MAX_REQUIRED_FIELDS
    by_cases h : c > 64
    · have h0 : c > 0 := by omega
      rw [Nat.min_eq_right (by omega)]
      simp [h, h0]
    · rw [Nat.min_eq_left (by omega)]
  suffices hmain :
      (∀ r, usr_pb_decode stream fields dest_struct mem = some r → r.1 = false) ∧
      (∀ s, usr_pb_decode_upto_required_check stream fields dest_struct mem = some s →
        usr_pb_decode stream fields dest_struct mem =
          some (false, istream_set_error s.stream "missing required field", s.mem)) from
    ⟨hmain.1, hmain.2, hmark, hclamp⟩
  have hdec : usr_pb_decode stream fields dest_struct mem =
      decode_inner_body (decode_fns (2 * fields.depth)).1 (decode_fns (2 * fields.depth)).2 stream fields
        dest_struct 0 mem := rfl
  rw [hdec]
  unfold decode_inner_body usr_pb_decode_upto_required_check
  unfold usr_pb_decode_tags at habs
  rcases hinit : decode_inner_init (decode_fns (2 * fields.depth)).2 stream fields dest_struct 0 mem
    with _ | ⟨ok, s0⟩
  · simp
  · have hinv0 : required_unseen mem fields dest_struct
        (field_at mem fields dest_struct n).required_field_index s0 :=
      decode_inner_init_inv (by omega) (by omega) _ _ _ _ _ _ _ _ hinit
    rw [hinit] at habs
    cases ok
    · simp
    · dsimp only at habs ⊢
      rcases hloop : decode_inner_loop (decode_fns (2 * fields.depth)).1 (decode_fns (2 * fields.depth)).2 0
          (s0.stream.bytes_left + 1) s0 with _ | ⟨ok2, s1⟩
      · simp
      · cases ok2
        · simp
        · have hinv1 := decode_inner_loop_inv hfc hn hreq _ _ _ _ _ _ hinv0 habs hloop
          have hfin := decode_inner_finish_missing hinv1 hr hr2
          dsimp only
          constructor
          · intro r hr
            simp only [Option.some.injEq] at hr
            rw [← hr]
            exact hfin.1
          · intro s hs
            split_ifs at hs with hfix
            simp only [Option.some.injEq] at hs
            subst hs
            rw [hfin.2 hfix]

set_option maxRecDepth 100000 in
/-- C4 (witness of the amended claim). In the descriptor with the required
fields 1 and 2, the input `08 07` carries field 1 only: the hypotheses hold for
field number 1 (tag 2), so `usr_pb_decode` cannot return true. -/
theorem C4_required_field_enforced_below_64_witness :
    (usr_pb_decode_tags (usr_pb_istream_from_buffer [0x08, 0x07]) (required_fields_msgdesc 2)
      (some 0) [0, 0] = [1]) ∧
    (field_at [0, 0] (required_fields_msgdesc 2) (some 0) 1).tag = 2 ∧
    usr_pb_decode (usr_pb_istream_from_buffer [0x08, 0x07]) (required_fields_msgdesc 2)
        (some 0) [0, 0] =
      some (false, ⟨[], 0, some "missing required field"⟩, [7, 0]) ∧
    ((∀ r, usr_pb_decode (usr_pb_istream_from_buffer [0x08, 0x07])
        (required_fields_msgdesc 2) (some 0) [0, 0] = some r → r.1 = false) ∧
     (∀ s, usr_pb_decode_upto_required_check (usr_pb_istream_from_buffer [0x08, 0x07])
        (required_fields_msgdesc 2) (some 0) [0, 0] = some s →
      usr_pb_decode (usr_pb_istream_from_buffer [0x08, 0x07]) (required_fields_msgdesc 2)
          (some 0) [0, 0] =
        some (false, istream_set_error s.stream "missing required field", s.mem))) :=
  ⟨by decide, by decide, by decide,
    (C4_required_field_enforced_below_64 (usr_pb_istream_from_buffer [0x08, 0x07])
      (required_fields_msgdesc 2) (some 0) [0, 0] 1 (by decide) (by decide) (by decide)
      (by decide) (by decide) (by decide)).1,
    (C4_required_field_enforced_below_64 (usr_pb_istream_from_buffer [0x08, 0x07])
      (required_fields_msgdesc 2) (some 0) [0, 0] 1 (by decide) (by decide) (by decide)
      (by decide) (by decide) (by decide)).2.1⟩

/-! ## Claim C14: the zero tag -/

set_option maxRecDepth 100000 in
/-- C14 (counterexample to the claim as stated). The descriptor has one
repeated field of fixed count 2 and no required field, so the required-field
check passes on every input. On the input `08 01 00 08 02` with
`usr_PB_DECODE_NULLTERMINATED` the decoder reads field 1 once and then the zero
tag, stops there (`08 02` stays unconsumed), and fails with the error
`wrong size for fixed count field`. -/
theorem C14_nullterminated_fails_on_fixed_count :
    fixed_count_msgdesc.required_field_count = 0 ∧
    (usr_pb_decode_heads (usr_pb_istream_from_buffer [0x08, 0x01, 0x00, 0x08, 0x02])
        fixed_count_msgdesc (some 0) usr_PB_DECODE_NULLTERMINATED [9, 9]).map
      (fun s => ((usr_pb_decode_tag s.stream).ok, (usr_pb_decode_tag s.stream).tag)) =
        [(true, 1), (true, 0)] ∧
    usr_pb_decode_ex (usr_pb_istream_from_buffer [0x08, 0x01, 0x00, 0x08, 0x02])
        fixed_count_msgdesc (some 0) usr_PB_DECODE_NULLTERMINATED [9, 9] =
      some (false, ⟨[0x08, 0x02], 2, some "wrong size for fixed count field"⟩, [1, 9]) := by
  refine ⟨by decide, by decide, by decide⟩

/-- C14 (amended claim). The decode loop of `usr_pb_decode_ex` runs on `run`:
the caller's stream, or with `usr_PB_DECODE_DELIMITED` the substream that
`usr_pb_make_string_substream` makes of it, `parent` being the caller's stream
behind the length prefix. Let `s` be the state at the start of a round of
that loop in which the tag read has field number 0, and `t` the stream just
behind that tag.

Without `usr_PB_DECODE_NULLTERMINATED` the call fails with the error
`zero tag`, and so does `usr_pb_decode`; with `usr_PB_DECODE_DELIMITED` the
error arrives on the caller's stream after the rest of the length-delimited
message has been skipped.

With `usr_PB_DECODE_NULLTERMINATED` the loop stops at `t` and the call
returns what the final checks return in that state: it succeeds provided the
fixed-count check and the required-field check pass. Without
`usr_PB_DECODE_DELIMITED` the stream is left at `t`, all following bytes
unconsumed; with `usr_PB_DECODE_DELIMITED` the `bytes_left` bytes that remain of
the length-delimited message are skipped and the bytes behind the message are
left unconsumed. -/
theorem C14_zero_tag (stream : usr_pb_istream_t) (fields : usr_pb_msgdesc_t)
    (dest_struct : Option Nat) (flags : Nat) (mem : List usr_pb_byte_t) (s : inner_state)
    (parent run : usr_pb_istream_t)
    (hrun : (flags &&& usr_PB_DECODE_DELIMITED = 0 ∧ run = stream) ∨
      (flags &&& usr_PB_DECODE_DELIMITED ≠ 0 ∧
        usr_pb_make_string_substream stream = (parent, some run)))
    (hs : s ∈ usr_pb_decode_heads run fields dest_struct flags mem)
    (hok : (usr_pb_decode_tag s.stream).ok = true)
    (hz : (usr_pb_decode_tag s.stream).tag = 0) :
    (flags &&& usr_PB_DECODE_DELIMITED = 0 → flags &&& usr_PB_DECODE_NULLTERMINATED = 0 →
      usr_pb_decode_ex stream fields dest_struct flags mem =
        some (false, istream_set_error (usr_pb_decode_tag s.stream).stream "zero tag", s.mem)) ∧
    (flags = 0 →
      usr_pb_decode stream fields dest_struct mem =
        some (false, istream_set_error (usr_pb_decode_tag s.stream).stream "zero tag", s.mem)) ∧
    (flags &&& usr_PB_DECODE_DELIMITED = 0 → flags &&& usr_PB_DECODE_NULLTERMINATED ≠ 0 →
      usr_pb_decode_ex stream fields dest_struct flags mem =
        some (decode_inner_finish { s with stream := (usr_pb_decode_tag s.stream).stream }) ∧
      (¬ (s.fixed_count_field ≠ usr_PB_SIZE_MAX ∧
            s.fixed_count_size ≠ s.fixed_count_total_size) →
        required_fields_present s.fields_seen s.iter.descriptor.required_field_count = true →
        usr_pb_decode_ex stream fields dest_struct flags mem =
          some (true, (usr_pb_decode_tag s.stream).stream, s.mem))) ∧
    (flags &&& usr_PB_DECODE_DELIMITED ≠ 0 → flags &&& usr_PB_DECODE_NULLTERMINATED = 0 →
      usr_pb_decode_ex stream fields dest_struct flags mem =
        some (false,
          { parent with
              state := (usr_pb_decode_tag s.stream).stream.state.drop
                (usr_pb_decode_tag s.stream).stream.bytes_left,
              errmsg := (istream_set_error (usr_pb_decode_tag s.stream).stream
                "zero tag").errmsg },
          s.mem)) ∧
    (flags &&& usr_PB_DECODE_DELIMITED ≠ 0 → flags &&& usr_PB_DECODE_NULLTERMINATED ≠ 0 →
      usr_pb_decode_ex stream fields dest_struct flags mem =
        some ((decode_inner_finish
            { s with stream := (usr_pb_decode_tag s.stream).stream }).1,
          (usr_pb_close_string_substream parent (decode_inner_finish
            { s with stream := (usr_pb_decode_tag s.stream).stream }).2.1).1,
          (decode_inner_finish
            { s with stream := (usr_pb_decode_tag s.stream).stream }).2.2) ∧
      (¬ (s.fixed_count_field ≠ usr_PB_SIZE_MAX ∧
            s.fixed_count_size ≠ s.fixed_count_total_size) →
        required_fields_present s.fields_seen s.iter.descriptor.required_field_count = true →
        usr_pb_decode_ex stream fields dest_struct flags mem =
          some (true,
            { parent with
                state := (usr_pb_decode_tag s.stream).stream.state.drop
                  (usr_pb_decode_tag s.stream).stream.bytes_left,
                errmsg := (usr_pb_decode_tag s.stream).stream.errmsg },
            s.mem))) := by
  have hinner := decode_inner_zero_tag run fields dest_struct flags mem s hs hok hz
  have hfin : ¬ (s.fixed_count_field ≠ usr_PB_SIZE_MAX ∧
        s.fixed_count_size ≠ s.fixed_count_total_size) →
      required_fields_present s.fields_seen s.iter.descriptor.required_field_count = true →
      decode_inner_finish { s with stream := (usr_pb_decode_tag s.stream).stream } =
        (true, (usr_pb_decode_tag s.stream).stream, s.mem) := by
    intro hfix hreq
    unfold decode_inner_finish
    rw [if_neg hfix, if_neg (by rw [hreq]; simp)]
  have hplain : flags &&& usr_PB_DECODE_DELIMITED = 0 →
      usr_pb_decode_ex stream fields dest_struct flags mem =
        usr_pb_decode_inner (2 * fields.depth + 1) run fields dest_struct flags mem := by
    intro hd
    rcases hrun with ⟨_, h⟩ | ⟨h, _⟩
    · unfold usr_pb_decode_ex
      rw [if_pos hd, h]
    · exact absurd hd h
  have hdelim : flags &&& usr_PB_DECODE_DELIMITED ≠ 0 →
      usr_pb_decode_ex stream fields dest_struct flags mem =
        match usr_pb_decode_inner (2 * fields.depth + 1) run fields dest_struct flags mem with
        | none => none
        | some (status, substream, mem) =>
          some (status, (usr_pb_close_string_substream parent substream).1, mem) := by
    intro hd
    rcases hrun with ⟨h, _⟩ | ⟨_, h⟩
    · exact absurd h hd
    · unfold usr_pb_decode_ex
      rw [if_neg hd, h]
      dsimp only
      rcases usr_pb_decode_inner (2 * fields.depth + 1) run fields dest_struct flags mem
        with _ | ⟨status, substream, mem1⟩
      · rfl
      · dsimp only
        rw [close_string_substream_eq]
  refine ⟨fun hd hn => ?_, fun hf => ?_, fun hd hn => ?_, fun hd hn => ?_, fun hd hn => ?_⟩
  · rw [hplain hd, hinner, if_neg (by simpa using hn)]
  · subst hf
    have h0 : usr_pb_decode stream fields dest_struct mem =
        usr_pb_decode_ex stream fields dest_struct 0 mem := by
      unfold usr_pb_decode_ex
      rw [if_pos (Nat.zero_and _)]
      rfl
    rw [h0, hplain (Nat.zero_and _), hinner, if_neg (by simp)]
  · have h1 : usr_pb_decode_ex stream fields dest_struct flags mem =
        some (decode_inner_finish
          { s with stream := (usr_pb_decode_tag s.stream).stream }) := by
      rw [hplain hd, hinner, if_pos hn]
    exact ⟨h1, fun hfix hreq => by rw [h1, hfin hfix hreq]⟩
  · rw [hdelim hd, hinner, if_neg (by simpa using hn)]
    dsimp only
    rw [close_string_substream_eq]
    rfl
  · have h1 : usr_pb_decode_ex stream fields dest_struct flags mem =
        some ((decode_inner_finish
            { s with stream := (usr_pb_decode_tag s.stream).stream }).1,
          (usr_pb_close_string_substream parent (decode_inner_finish
            { s with stream := (usr_pb_decode_tag s.stream).stream }).2.1).1,
          (decode_inner_finish
            { s with stream := (usr_pb_decode_tag s.stream).stream }).2.2) := by
      rw [hdelim hd, hinner, if_pos hn]
    refine ⟨h1, fun hfix hreq => ?_⟩
    rw [h1, hfin hfix hreq, close_string_substream_eq]
set_option maxRecDepth 100000 in
/-- C14 (witness of the amended claim). With the required fields 1 and 2, the
input `08 07 10 07 00 55` and `usr_PB_DECODE_NULLTERMINATED`, the third round
of the loop reads the zero tag: the call succeeds and leaves `55` unread. With
`usr_PB_DECODE_DELIMITED` in addition and the input `06 08 07 10 07 00 55 66`,
whose length prefix announces the six bytes `08 07 10 07 00 55`, the call
succeeds, skips `55` and leaves `66` unread. -/
theorem C14_zero_tag_witness :
    (∃ s, s ∈ usr_pb_decode_heads (usr_pb_istream_from_buffer [0x08, 0x07, 0x10, 0x07, 0x00, 0x55])
        (required_fields_msgdesc 2) (some 0) usr_PB_DECODE_NULLTERMINATED [9, 9] ∧
      (usr_pb_decode_tag s.stream).ok = true ∧ (usr_pb_decode_tag s.stream).tag = 0 ∧
      (usr_pb_decode_tag s.stream).stream = ⟨[0x55], 1, none⟩ ∧ s.mem = [7, 7] ∧
      usr_pb_decode_ex (usr_pb_istream_from_buffer [0x08, 0x07, 0x10, 0x07, 0x00, 0x55])
        (required_fields_msgdesc 2) (some 0) usr_PB_DECODE_NULLTERMINATED [9, 9] =
        some (true, (usr_pb_decode_tag s.stream).stream, s.mem)) ∧
    (usr_pb_make_string_substream
        (usr_pb_istream_from_buffer [0x06, 0x08, 0x07, 0x10, 0x07, 0x00, 0x55, 0x66]) =
      (⟨[0x08, 0x07, 0x10, 0x07, 0x00, 0x55, 0x66], 1, none⟩,
        some ⟨[0x08, 0x07, 0x10, 0x07, 0x00, 0x55, 0x66], 6, none⟩) ∧
      ∃ s, s ∈ usr_pb_decode_heads ⟨[0x08, 0x07, 0x10, 0x07, 0x00, 0x55, 0x66], 6, none⟩
          (required_fields_msgdesc 2) (some 0)
          (usr_PB_DECODE_DELIMITED ||| usr_PB_DECODE_NULLTERMINATED) [9, 9] ∧
        (usr_pb_decode_tag s.stream).ok = true ∧ (usr_pb_decode_tag s.stream).tag = 0 ∧
        (usr_pb_decode_tag s.stream).stream = ⟨[0x55, 0x66], 1, none⟩ ∧ s.mem = [7, 7] ∧
        usr_pb_decode_ex
          (usr_pb_istream_from_buffer [0x06, 0x08, 0x07, 0x10, 0x07, 0x00, 0x55, 0x66])
          (required_fields_msgdesc 2) (some 0)
          (usr_PB_DECODE_DELIMITED ||| usr_PB_DECODE_NULLTERMINATED) [9, 9] =
          some (true, ⟨[0x66], 1, none⟩, [7, 7])) :=
  ⟨⟨(usr_pb_decode_heads (usr_pb_istream_from_buffer [0x08, 0x07, 0x10, 0x07, 0x00, 0x55])
      (required_fields_msgdesc 2) (some 0) usr_PB_DECODE_NULLTERMINATED [9, 9]).get
      ⟨2, by decide⟩,
    List.get_mem _ _ _, by decide, by decide, by decide, by decide,
    ((C14_zero_tag (usr_pb_istream_from_buffer [0x08, 0x07, 0x10, 0x07, 0x00, 0x55])
      (required_fields_msgdesc 2) (some 0) usr_PB_DECODE_NULLTERMINATED [9, 9] _
      (usr_pb_istream_from_buffer [0x08, 0x07, 0x10, 0x07, 0x00, 0x55])
      (usr_pb_istream_from_buffer [0x08, 0x07, 0x10, 0x07, 0x00, 0x55])
      (Or.inl ⟨by decide, rfl⟩)
      (List.get_mem _ _ _) (by decide) (by decide)).2.2.1 (by decide) (by decide)).2
      (by decide) (by decide)⟩,
   by decide,
   (usr_pb_decode_heads ⟨[0x08, 0x07, 0x10, 0x07, 0x00, 0x55, 0x66], 6, none⟩
      (required_fields_msgdesc 2) (some 0)
      (usr_PB_DECODE_DELIMITED ||| usr_PB_DECODE_NULLTERMINATED) [9, 9]).get ⟨2, by decide⟩,
    List.get_mem _ _ _, by decide, by decide, by decide, by decide,
    (((C14_zero_tag
      (usr_pb_istream_from_buffer [0x06, 0x08, 0x07, 0x10, 0x07, 0x00, 0x55, 0x66])
      (required_fields_msgdesc 2) (some 0)
      (usr_PB_DECODE_DELIMITED ||| usr_PB_DECODE_NULLTERMINATED) [9, 9]
      ((usr_pb_decode_heads ⟨[0x08, 0x07, 0x10, 0x07, 0x00, 0x55, 0x66], 6, none⟩
        (required_fields_msgdesc 2) (some 0)
        (usr_PB_DECODE_DELIMITED ||| usr_PB_DECODE_NULLTERMINATED) [9, 9]).get ⟨2, by decide⟩)
      ⟨[0x08, 0x07, 0x10, 0x07, 0x00, 0x55, 0x66], 1, none⟩
      ⟨[0x08, 0x07, 0x10, 0x07, 0x00, 0x55, 0x66], 6, none⟩
      (Or.inr ⟨by decide, by decide⟩)
      (List.get_mem _ _ _) (by decide) (by decide)).2.2.2.2 (by decide) (by decide)).2
      (by decide) (by decide)).trans (by decide)⟩
/-! ## Claims C18 and C19: which fields the encoder emits -/

/-- C18. For a statically allocated OPTIONAL field without presence flag
(`pSize` null) in a descriptor without default blob, `encode_field` writes
nothing when the zero check of `usr_pb_check_proto3_default_value` holds and
encodes the field (tag and value) otherwise. The zero check is: for a packable
scalar, all `data_size` bytes are zero; for BYTES, the size is 0; for STRING,
the first byte is NUL; for a submessage, every field of the submessage passes
`usr_pb_check_proto3_default_value` in turn. -/
theorem C18_proto3_zero_suppression (enc : encode_fn) (mem : List usr_pb_byte_t) (n : Nat)
    (stream : usr_pb_ostream_t) (field : usr_pb_field_iter_t) (p : Nat)
    (hs : usr_PB_ATYPE field.type = usr_PB_ATYPE_STATIC)
    (ho : usr_PB_HTYPE field.type = usr_PB_HTYPE_OPTIONAL)
    (hp : field.pSize = size_ptr.null) (hd : field.descriptor.default_value = none)
    (hpd : field.pData = some p) :
    encode_field enc (check_default_fns mem (n + 1)) mem stream field =
      (match check_singular_default (check_default_fns mem n) mem field with
        | none => none
        | some true => some (stream, field, true)
        | some false =>
          (encode_basic_field enc mem stream field).map (fun r => (r.1, field, r.2))) ∧
    (usr_PB_LTYPE field.type ≤ usr_PB_LTYPE_LAST_PACKABLE →
      check_singular_default (check_default_fns mem n) mem field =
        some (decide (∀ i, i < field.data_size → mem.getD (p + i) 0 = 0))) ∧
    (usr_PB_LTYPE field.type = usr_PB_LTYPE_BYTES →
      check_singular_default (check_default_fns mem n) mem field =
        some (decide (load_uint mem p 2 = 0))) ∧
    (usr_PB_LTYPE field.type = usr_PB_LTYPE_STRING →
      check_singular_default (check_default_fns mem n) mem field =
        some (decide (mem.getD p 0 = 0))) ∧
    (∀ d, usr_PB_LTYPE_IS_SUBMSG field.type = true → field.submsg_desc = some d →
      d.field_count < 65536 →
      (∀ i, i < d.field_count →
        ∃ b, check_default_fns mem n (field_at mem d (some p) i) = some b) →
      check_singular_default (check_default_fns mem n) mem field =
        some (decide (∀ i, i < d.field_count →
          check_default_fns mem n (field_at mem d (some p) i) = some true))) := by
  have h1 : ¬ usr_PB_HTYPE_OPTIONAL = usr_PB_HTYPE_ONEOF := by decide
  have h2 : ¬ usr_PB_HTYPE_OPTIONAL = usr_PB_HTYPE_REQUIRED := by decide
  have h3 : ¬ usr_PB_HTYPE_OPTIONAL = usr_PB_HTYPE_REPEATED := by decide
  have h4 : ¬ usr_PB_ATYPE_STATIC = usr_PB_ATYPE_CALLBACK := by decide
  refine ⟨?_, ?_, ?_, ?_, ?_⟩
  · have hc : check_default_fns mem (n + 1) field =
        check_singular_default (check_default_fns mem n) mem field := by
      show check_proto3_default_body (check_default_fns mem n) mem field = _
      unfold check_proto3_default_body
      simp [hs, ho, hp, hd, h1, h2, h3]
    unfold encode_field
    simp only [ho, h1, if_false, if_true, hp, ne_eq, not_true_eq_false, hs, hc, hpd,
      Option.isNone_some, Bool.false_eq_true, h4, h3]
    all_goals
      generalize check_singular_default (check_default_fns mem n) mem field = r
      rcases r with _ | _ | _ <;> rfl
  · intro hl
    unfold check_singular_default
    simp only [hl, if_true, hpd]
    by_cases hz : field.data_size = 0
    · simp [hz]
    · rw [if_neg hz]
      congr 1
      rw [Bool.eq_iff_iff]
      simp only [List.all_eq_true, decide_eq_true_eq, mem_read, List.mem_map, List.mem_range]
      constructor
      · intro h i hi
        exact h _ ⟨i, hi, rfl⟩
      · rintro h b ⟨i, hi, rfl⟩
        exact h i hi
  · intro hl
    have : ¬ usr_PB_LTYPE_BYTES ≤ usr_PB_LTYPE_LAST_PACKABLE := by decide
    unfold check_singular_default
    simp only [hl, this, if_false, if_true, hpd]
  · intro hl
    have ha : ¬ usr_PB_LTYPE_STRING ≤ usr_PB_LTYPE_LAST_PACKABLE := by decide
    have hb : ¬ usr_PB_LTYPE_STRING = usr_PB_LTYPE_BYTES := by decide
    unfold check_singular_default
    simp only [hl, ha, hb, if_false, if_true, hpd]
  · intro d hsub hdesc hfc hall
    have hl : usr_PB_LTYPE field.type = usr_PB_LTYPE_SUBMESSAGE ∨
        usr_PB_LTYPE field.type = usr_PB_LTYPE_SUBMSG_W_CB := by
      unfold usr_PB_LTYPE_IS_SUBMSG at hsub
      simpa using hsub
    have ha : ¬ usr_PB_LTYPE field.type ≤ usr_PB_LTYPE_LAST_PACKABLE := by
      rcases hl with h | h <;> rw [h] <;> decide
    have hb : ¬ usr_PB_LTYPE field.type = usr_PB_LTYPE_BYTES := by
      rcases hl with h | h <;> rw [h] <;> decide
    have hc : ¬ usr_PB_LTYPE field.type = usr_PB_LTYPE_STRING := by
      rcases hl with h | h <;> rw [h] <;> decide
    have he : ¬ usr_PB_LTYPE field.type = usr_PB_LTYPE_FIXED_LENGTH_BYTES := by
      rcases hl with h | h <;> rw [h] <;> decide
    unfold check_singular_default
    simp only [ha, hb, hc, he, if_false, hsub, if_true, hdesc, hpd]
    by_cases hz : d.field_count = 0
    · have hb2 : (usr_pb_field_iter_begin mem d (some p)).2 = false := by
        unfold usr_pb_field_iter_begin load_descriptor_values
        simp [hz]
      simp [hb2, hz]
    · have hb2 : (usr_pb_field_iter_begin mem d (some p)).2 = true := by
        unfold usr_pb_field_iter_begin load_descriptor_values
        have : ¬ (0 ≥ d.field_count) := by omega
        simp [this]
      rw [if_pos hb2]
      have := check_default_loop_all (check_default_fns mem n) mem d (some p) hfc
        d.field_count 0 (d.field_count + 1) (by omega) (by omega) (by omega) hall
      rw [show (usr_pb_field_iter_begin mem d (some p)).1 = field_at mem d (some p) 0 from rfl,
        this]
      congr 1
      rw [decide_eq_decide]
      constructor
      · intro h i hi; exact h i hi (Nat.zero_le i)
      · intro h i hi _; exact h i hi

set_option maxRecDepth 100000 in
/-- C18 (witness). The proto3 field `uint32 x = 1`: holding 150 it is encoded
as `08 96 01`, holding 0 nothing is written. -/
theorem C18_proto3_zero_suppression_witness :
    usr_pb_encode [150, 0, 0, 0] (usr_pb_ostream_from_buffer 16) proto3_uint32_msgdesc (some 0) =
      some (⟨true, [0x08, 0x96, 0x01], 16, 3, none⟩, true) ∧
    usr_pb_encode [0, 0, 0, 0] (usr_pb_ostream_from_buffer 16) proto3_uint32_msgdesc (some 0) =
      some (⟨true, [], 16, 0, none⟩, true) ∧
    check_singular_default (check_default_fns [0, 0, 0, 0] 0) [0, 0, 0, 0]
        (field_at [0, 0, 0, 0] proto3_uint32_msgdesc (some 0) 0) =
      some (decide (∀ i, i < (field_at [0, 0, 0, 0] proto3_uint32_msgdesc (some 0) 0).data_size →
        ([0, 0, 0, 0] : List usr_pb_byte_t).getD (0 + i) 0 = 0)) :=
  ⟨by decide, by decide,
    (C18_proto3_zero_suppression (encode_fns [0, 0, 0, 0] 0) [0, 0, 0, 0] 0
      (usr_pb_ostream_from_buffer 16) (field_at [0, 0, 0, 0] proto3_uint32_msgdesc (some 0) 0) 0
      (by decide) (by decide) (by decide) (by decide) (by decide)).2.1 (by decide)⟩

/-- C19. `encode_field` writes nothing and returns true for a ONEOF field whose
discriminator differs from the field's tag, and for an OPTIONAL field whose
presence flag (one byte, `sizeof(bool)`) is zero. When the discriminator of a
ONEOF field equals its tag, or the presence flag of an OPTIONAL field is
non-zero, a field with data (`pData` not null, no callback field) is written
as its tag followed by its value. -/
theorem C19_presence_gating (enc : encode_fn) (check : check_default_fn)
    (mem : List usr_pb_byte_t) (stream : usr_pb_ostream_t) (field : usr_pb_field_iter_t) :
    (∀ which, usr_PB_HTYPE field.type = usr_PB_HTYPE_ONEOF →
      enc_load_size mem field = some which → which ≠ field.tag →
      encode_field enc check mem stream field = some (stream, field, true)) ∧
    (∀ a, usr_PB_HTYPE field.type = usr_PB_HTYPE_OPTIONAL → field.pSize = size_ptr.mem a →
      mem.getD a 0 = 0 →
      encode_field enc check mem stream field = some (stream, field, true)) ∧
    (∀ p, field.pData = some p → usr_PB_ATYPE field.type ≠ usr_PB_ATYPE_CALLBACK →
      (usr_PB_HTYPE field.type = usr_PB_HTYPE_ONEOF ∧
          enc_load_size mem field = some field.tag) ∨
        (usr_PB_HTYPE field.type = usr_PB_HTYPE_OPTIONAL ∧
          ∃ a, field.pSize = size_ptr.mem a ∧ mem.getD a 0 ≠ 0) →
      encode_field enc check mem stream field =
        match usr_pb_encode_tag_for_field stream field with
        | (stream, false) => some (stream, field, false)
        | (stream, true) =>
          (encode_field_value enc mem stream field).map (fun r => (r.1, field, r.2))) := by
  have hne : usr_PB_HTYPE_ONEOF ≠ usr_PB_HTYPE_OPTIONAL := by decide
  have hne2 : usr_PB_HTYPE_ONEOF ≠ usr_PB_HTYPE_REPEATED := by decide
  have hne3 : usr_PB_HTYPE_OPTIONAL ≠ usr_PB_HTYPE_REPEATED := by decide
  refine ⟨?_, ?_, ?_⟩
  · intro which h1 h2 h3
    unfold encode_field
    simp [h1, h2, h3]
  · intro a h1 h2 h3
    unfold encode_field
    have : ¬ usr_PB_HTYPE_OPTIONAL = usr_PB_HTYPE_ONEOF := fun h => hne h.symm
    have h3' : mem[a]?.getD 0 = 0 := by rw [← List.getD_eq_getElem?_getD]; exact h3
    simp [h1, h2, this, safe_read_bool_size, safe_read_bool, h3']
  · intro p hp hcb hpres
    have hbasic : (encode_basic_field enc mem stream field).map (fun r => (r.1, field, r.2)) =
        match usr_pb_encode_tag_for_field stream field with
        | (stream, false) => some (stream, field, false)
        | (stream, true) =>
          (encode_field_value enc mem stream field).map (fun r => (r.1, field, r.2)) := by
      unfold encode_basic_field
      simp only [hp, Option.isNone_some, Bool.false_eq_true, if_false]
      split <;> simp_all
    rw [← hbasic]
    unfold encode_field
    rcases hpres with ⟨h1, h2⟩ | ⟨h1, a, h2, h3⟩
    · simp [h1, h2, hp, hcb, hne2]
    · have : ¬ usr_PB_HTYPE_OPTIONAL = usr_PB_HTYPE_ONEOF := fun h => hne h.symm
      have h3' : ¬ mem[a]?.getD 0 = 0 := by rw [← List.getD_eq_getElem?_getD]; exact h3
      simp [h1, h2, this, safe_read_bool_size, safe_read_bool, h3', hp, hcb, hne3]

set_option maxRecDepth 100000 in
/-- C19 (witness). In the oneof of `oneof_msgdesc` with discriminator 2 and the
string "foo", member 1 is skipped and member 2 is written as `12 03 66 6F 6F`. -/
theorem C19_presence_gating_witness :
    encode_field (encode_fns [2, 0, 0x66, 0x6F, 0x6F, 0] 0)
        (check_default_fns [2, 0, 0x66, 0x6F, 0x6F, 0] 1) [2, 0, 0x66, 0x6F, 0x6F, 0]
        (usr_pb_ostream_from_buffer 16)
        (field_at [2, 0, 0x66, 0x6F, 0x6F, 0] oneof_msgdesc (some 0) 0) =
      some (usr_pb_ostream_from_buffer 16,
        field_at [2, 0, 0x66, 0x6F, 0x6F, 0] oneof_msgdesc (some 0) 0, true) ∧
    usr_pb_encode [2, 0, 0x66, 0x6F, 0x6F, 0] (usr_pb_ostream_from_buffer 16) oneof_msgdesc
        (some 0) =
      some (⟨true, [0x12, 0x03, 0x66, 0x6F, 0x6F], 16, 5, none⟩, true) :=
  ⟨(C19_presence_gating (encode_fns [2, 0, 0x66, 0x6F, 0x6F, 0] 0)
      (check_default_fns [2, 0, 0x66, 0x6F, 0x6F, 0] 1) [2, 0, 0x66, 0x6F, 0x6F, 0]
      (usr_pb_ostream_from_buffer 16)
      (field_at [2, 0, 0x66, 0x6F, 0x6F, 0] oneof_msgdesc (some 0) 0)).1 2
      (by decide) (by decide) (by decide),
    by decide⟩

/-! ## Claim C15: sizing determinism -/

set_option maxRecDepth 100000 in
/-- C15 (counterexample to the claim as stated). The descriptor has no
callback field: its single field is a repeated `usr_PB_LTYPE_FIXED32` field
whose entries are declared with `data_size = 8`. For the message with one
entry, `usr_pb_encode` succeeds on the sizing stream and counts 6 bytes, which
`usr_pb_get_encoded_size` returns (`encode_array` takes 4 bytes per entry from
the logical type), and it succeeds on a buffer stream of 16 bytes, where it
writes 10 bytes (`usr_pb_enc_fixed` writes `data_size` bytes per entry). -/
theorem C15_sizing_differs_for_wide_fixed32 :
    (fixed_array_msgdesc usr_PB_LTYPE_FIXED32 8).field_callback = false ∧
    usr_PB_ATYPE (field_at [1, 0, 1, 2, 3, 4, 5, 6, 7, 8]
      (fixed_array_msgdesc usr_PB_LTYPE_FIXED32 8) (some 0) 0).type = usr_PB_ATYPE_STATIC ∧
    usr_pb_encode [1, 0, 1, 2, 3, 4, 5, 6, 7, 8] usr_PB_OSTREAM_SIZING
        (fixed_array_msgdesc usr_PB_LTYPE_FIXED32 8) (some 0) =
      some (⟨false, [], 0, 6, none⟩, true) ∧
    usr_pb_get_encoded_size [1, 0, 1, 2, 3, 4, 5, 6, 7, 8]
        (fixed_array_msgdesc usr_PB_LTYPE_FIXED32 8) (some 0) = some (some 6) ∧
    usr_pb_encode [1, 0, 1, 2, 3, 4, 5, 6, 7, 8] (usr_pb_ostream_from_buffer 16)
        (fixed_array_msgdesc usr_PB_LTYPE_FIXED32 8) (some 0) =
      some (⟨true, [0x0A, 0x04, 1, 2, 3, 4, 5, 6, 7, 8], 16, 10, none⟩, true) ∧
    (6 : Nat) ≠ 10 := by
  refine ⟨by decide, by decide, by decide, by decide, by decide, by decide⟩

/-- Claim C15, amended (sizing determinism). Let the descriptor be typed as the
generator types it: `field_count` is a `usr_pb_size_t` and, in the descriptor
and in the descriptors of its submessages, every `usr_PB_LTYPE_FIXED32` field
has `data_size = 4` and every `usr_PB_LTYPE_FIXED64` field has `data_size = 8`;
let the message memory be smaller than `2 ^ 63` bytes and the static bound
`size_bound` on the encoded size be below `2 ^ 63`. If `usr_pb_encode`
succeeds on the sizing stream and counts `n` bytes, then
`usr_pb_get_encoded_size` returns `n` and `usr_pb_encode` succeeds on every
buffer stream with room for `n` bytes (`bytes_written + n ≤ max_size <
2 ^ 63`), advancing `bytes_written` by `n`; and if `usr_pb_encode` succeeds on
such a buffer stream, then it succeeds on the sizing stream, counting the
number of bytes by which `bytes_written` of the buffer stream advanced, which
`usr_pb_get_encoded_size` returns. -/
theorem C15_sizing_determinism (mem : List usr_pb_byte_t) (fields : usr_pb_msgdesc_t)
    (src : Option Nat) (hmem : mem.length < 2 ^ 63)
    (hok : descriptor_ok fields.depth fields = true)
    (hsz : size_bound mem.length fields.depth fields < 2 ^ 63) :
    (∀ t, usr_pb_encode mem usr_PB_OSTREAM_SIZING fields src = some (t, true) →
      usr_pb_get_encoded_size mem fields src = some (some t.bytes_written) ∧
      ∀ s, s.callback = true → valid_ostream s →
        s.bytes_written + t.bytes_written ≤ s.max_size →
        ∃ s', usr_pb_encode mem s fields src = some (s', true) ∧
          s'.bytes_written = s.bytes_written + t.bytes_written) ∧
    (∀ s s', s.callback = true → valid_ostream s →
      usr_pb_encode mem s fields src = some (s', true) →
      ∃ t, usr_pb_encode mem usr_PB_OSTREAM_SIZING fields src = some (t, true) ∧
        s'.bytes_written = s.bytes_written + t.bytes_written ∧
        usr_pb_get_encoded_size mem fields src = some (some t.bytes_written)) := by
  have hreg := regular_usr_pb_encode mem fields src hmem hok hsz
  constructor
  · intro t ht
    obtain ⟨bs, hlen, _, hbs⟩ := emits_of_sizing hreg hsz ht
    refine ⟨by unfold usr_pb_get_encoded_size; rw [ht], fun s hc hv hroom => ?_⟩
    obtain ⟨e, he⟩ := hbs.1 s ⟨hv, fun _ => by rw [hlen]; exact hroom⟩
    refine ⟨_, he, ?_⟩
    rw [ostream_after_buffer s bs e hc, hlen]
  · intro s s' hc hv hs
    obtain ⟨bs, hl, hbs⟩ := regular_success hreg hv hs
    obtain ⟨t, ht, hb⟩ := emits_sizing hbs (by omega)
    obtain ⟨_, e, he⟩ := emits_result hbs hv hs
    refine ⟨t, ht, ?_, by unfold usr_pb_get_encoded_size; rw [ht, hb]; rw [← hb]⟩
    rw [he, ostream_after_buffer s bs e hc, hb]

set_option maxRecDepth 100000 in
/-- C15 (witness of the amended claim). The proto3 field `uint32 x = 1` with the
value 150 takes 3 bytes on the sizing stream and on a buffer of 16 bytes. -/
theorem C15_sizing_determinism_witness :
    (([150, 0, 0, 0] : List usr_pb_byte_t).length < 2 ^ 63 ∧
      descriptor_ok proto3_uint32_msgdesc.depth proto3_uint32_msgdesc = true ∧
      size_bound ([150, 0, 0, 0] : List usr_pb_byte_t).length proto3_uint32_msgdesc.depth
        proto3_uint32_msgdesc < 2 ^ 63 ∧
      usr_pb_encode [150, 0, 0, 0] usr_PB_OSTREAM_SIZING proto3_uint32_msgdesc (some 0) =
        some (⟨false, [], 0, 3, none⟩, true)) ∧
    usr_pb_get_encoded_size [150, 0, 0, 0] proto3_uint32_msgdesc (some 0) = some (some 3) ∧
    ∃ s', usr_pb_encode [150, 0, 0, 0] (usr_pb_ostream_from_buffer 16) proto3_uint32_msgdesc
        (some 0) = some (s', true) ∧ s'.bytes_written = 0 + 3 := by
  have h := (C15_sizing_determinism [150, 0, 0, 0] proto3_uint32_msgdesc (some 0)
    (by decide) (by decide) (by decide)).1 ⟨false, [], 0, 3, none⟩ (by decide)
  exact ⟨⟨by decide, by decide, by decide, by decide⟩, h.1,
    h.2 (usr_pb_ostream_from_buffer 16) rfl
      ⟨by decide, fun _ => ⟨by decide, by decide⟩⟩ (by decide)⟩
/-! ## Claim C16: submessage framing -/

set_option maxRecDepth 100000 in
/-- C16 (counterexample to the claim as stated). The submessage has no callback
field: its single field is a repeated `usr_PB_LTYPE_FIXED64` field whose
entries are declared with `data_size = 4`. For the message with one entry the
sizing pass counts 10 bytes (`encode_array` takes 8 bytes per entry from the
logical type) and `usr_pb_encode` writes the 6 bytes `0A 08 01 02 03 04` on a
buffer stream. `usr_pb_encode_submessage` on a buffer stream of 16 bytes writes
the length 10 and these 6 bytes and fails with "submsg size changed". -/
theorem C16_submsg_size_changed_for_narrow_fixed64 :
    (fixed_array_msgdesc usr_PB_LTYPE_FIXED64 4).field_callback = false ∧
    usr_PB_ATYPE (field_at [1, 0, 1, 2, 3, 4]
      (fixed_array_msgdesc usr_PB_LTYPE_FIXED64 4) (some 0) 0).type = usr_PB_ATYPE_STATIC ∧
    usr_pb_encode [1, 0, 1, 2, 3, 4] usr_PB_OSTREAM_SIZING
        (fixed_array_msgdesc usr_PB_LTYPE_FIXED64 4) (some 0) =
      some (⟨false, [], 0, 10, none⟩, true) ∧
    usr_pb_encode [1, 0, 1, 2, 3, 4] (usr_pb_ostream_from_buffer 16)
        (fixed_array_msgdesc usr_PB_LTYPE_FIXED64 4) (some 0) =
      some (⟨true, [0x0A, 0x08, 1, 2, 3, 4], 16, 6, none⟩, true) ∧
    usr_pb_encode_submessage [1, 0, 1, 2, 3, 4] (usr_pb_ostream_from_buffer 16)
        (fixed_array_msgdesc usr_PB_LTYPE_FIXED64 4) (some 0) =
      some (⟨true, [0x0A, 0x0A, 0x08, 1, 2, 3, 4], 16, 7, some "submsg size changed"⟩,
        false) := by
  refine ⟨by decide, by decide, by decide, by decide, by decide⟩

/-- Claim C16, amended (submessage framing). Let the descriptor of the
submessage be typed as the generator types it (`field_count` is a
`usr_pb_size_t`; every `usr_PB_LTYPE_FIXED32` field has `data_size = 4` and
every `usr_PB_LTYPE_FIXED64` field `data_size = 8`, also in nested
submessages), let the message memory be smaller than `2 ^ 63` bytes and the
static bound `size_bound` on the encoded size below `2 ^ 63`, and let the
first (sizing) pass of `usr_pb_encode` succeed and count `n` bytes. Then there
is a byte string `body` of `n` bytes such that on every buffer stream with
room for them (`max_size < 2 ^ 63`) `usr_pb_encode` appends `body`, and
`usr_pb_encode_submessage` appends the varint of `n` followed by `body`,
advancing `bytes_written` by the length of both. On a buffer stream without
that room (and without an earlier error) `usr_pb_encode_submessage` fails with
"stream full": the failure "submsg size changed" does not occur. -/
theorem C16_submessage_framing (mem : List usr_pb_byte_t) (fields : usr_pb_msgdesc_t)
    (src : Option Nat) (t : usr_pb_ostream_t) (hmem : mem.length < 2 ^ 63)
    (hok : descriptor_ok fields.depth fields = true)
    (hsz : size_bound mem.length fields.depth fields < 2 ^ 63)
    (hfirst : usr_pb_encode mem usr_PB_OSTREAM_SIZING fields src = some (t, true)) :
    ∃ body : List usr_pb_byte_t, body.length = t.bytes_written ∧
      (∀ s, s.callback = true → valid_ostream s →
        s.bytes_written + body.length ≤ s.max_size →
        ∃ e, usr_pb_encode mem s fields src =
          some ({ s with state := s.state ++ body,
                         bytes_written := s.bytes_written + body.length,
                         errmsg := e }, true)) ∧
      (∀ s, s.callback = true → valid_ostream s →
        s.bytes_written + ((leb128 body.length).length + body.length) ≤ s.max_size →
        ∃ e, usr_pb_encode_submessage mem s fields src =
          some ({ s with state := s.state ++ (leb128 body.length ++ body),
                         bytes_written :=
                           s.bytes_written + ((leb128 body.length).length + body.length),
                         errmsg := e }, true)) ∧
      (∀ s, s.callback = true → valid_ostream s → s.errmsg = none →
        s.bytes_written + ((leb128 body.length).length + body.length) > s.max_size →
        ∃ s', usr_pb_encode_submessage mem s fields src = some (s', false) ∧
          s'.errmsg = some "stream full") := by
  have hreg := regular_usr_pb_encode mem fields src hmem hok hsz
  obtain ⟨body, hlen, hl, hbody⟩ := emits_of_sizing hreg hsz hfirst
  have hvb : varint_bytes body.length = leb128 body.length :=
    varint_bytes_eq_leb128 _ (by omega)
  have hsub := emits_submessage_body (encode_fns mem fields.depth) fields src hbody hl
  refine ⟨body, hlen, fun s hc hv hroom => ?_, fun s hc hv hroom => ?_,
    fun s hc hv he hfull => ?_⟩
  · obtain ⟨e, he⟩ := hbody.1 s ⟨hv, fun _ => hroom⟩
    dsimp only at he
    exact ⟨e, by rw [he, ostream_after_buffer s body e hc]⟩
  · obtain ⟨e, he⟩ := hsub.1 s ⟨hv, fun _ => by
      rw [List.length_append, hvb]; exact hroom⟩
    dsimp only at he
    refine ⟨e, ?_⟩
    show encode_submessage_body (encode_fns mem fields.depth) s fields src = _
    rw [he, ostream_after_buffer s _ e hc, List.length_append, hvb]
  · rw [← hvb] at hfull
    exact submessage_body_full (encode_fns mem fields.depth) fields src hbody hl s hc hv he
      hfull

set_option maxRecDepth 100000 in
/-- C16 (witness of the amended claim). The submessage with `int32 v = 1` of
value 42 is framed as `02 08 2A`; under the outer tag 1 the message encodes as
`0A 02 08 2A`. -/
theorem C16_submessage_framing_witness :
    (([42, 0, 0, 0] : List usr_pb_byte_t).length < 2 ^ 63 ∧
      descriptor_ok inner_int32_msgdesc.depth inner_int32_msgdesc = true ∧
      size_bound ([42, 0, 0, 0] : List usr_pb_byte_t).length inner_int32_msgdesc.depth
        inner_int32_msgdesc < 2 ^ 63 ∧
      usr_pb_encode [42, 0, 0, 0] usr_PB_OSTREAM_SIZING inner_int32_msgdesc (some 0) =
        some (⟨false, [], 0, 2, none⟩, true)) ∧
    (∃ body : List usr_pb_byte_t, body.length = 2 ∧
      (∃ e, usr_pb_encode_submessage [42, 0, 0, 0] (usr_pb_ostream_from_buffer 16)
        inner_int32_msgdesc (some 0) =
          some (⟨true, [] ++ (leb128 body.length ++ body), 16,
            0 + ((leb128 body.length).length + body.length), e⟩, true))) ∧
    usr_pb_encode [42, 0, 0, 0] (usr_pb_ostream_from_buffer 16) outer_submsg_msgdesc (some 0) =
      some (⟨true, [0x0A, 0x02, 0x08, 0x2A], 16, 4, none⟩, true) := by
  obtain ⟨body, hlen, _, h2, _⟩ := C16_submessage_framing [42, 0, 0, 0] inner_int32_msgdesc
    (some 0) ⟨false, [], 0, 2, none⟩ (by decide) (by decide) (by decide) (by decide)
  refine ⟨⟨by decide, by decide, by decide, by decide⟩, ⟨body, hlen, ?_⟩, by decide⟩
  have hb : (leb128 body.length).length = 1 := by
    rw [hlen, leb128_small 2 (by decide)]
    rfl
  exact h2 (usr_pb_ostream_from_buffer 16) rfl ⟨by decide, fun _ => ⟨by decide, by decide⟩⟩
    (by rw [hb, hlen]; decide)
/-! ## Claim C17: packed array framing -/

set_option maxRecDepth 100000 in
/-- C17 (counterexample to the claim as stated). The field is a statically
allocated repeated field of the packable type `usr_PB_LTYPE_FIXED32` with
`array_size = 1`, whose entries are declared with `data_size = 8`, and the
count is 1. The encoder of a singular value writes the 8 bytes of the entry,
and `encode_array` writes on a buffer stream the tag `0A`, the length `04` and
these 8 bytes: the declared length is 4, the element bytes written are 8. On
the sizing stream it counts 6 bytes. -/
theorem C17_declared_length_differs_for_wide_fixed32 :
    usr_PB_LTYPE (field_at [1, 0, 1, 2, 3, 4, 5, 6, 7, 8]
      (fixed_array_msgdesc usr_PB_LTYPE_FIXED32 8) (some 0) 0).type ≤
        usr_PB_LTYPE_LAST_PACKABLE ∧
    usr_PB_ATYPE (field_at [1, 0, 1, 2, 3, 4, 5, 6, 7, 8]
      (fixed_array_msgdesc usr_PB_LTYPE_FIXED32 8) (some 0) 0).type = usr_PB_ATYPE_STATIC ∧
    (field_at [1, 0, 1, 2, 3, 4, 5, 6, 7, 8]
      (fixed_array_msgdesc usr_PB_LTYPE_FIXED32 8) (some 0) 0).pData = some 2 ∧
    (field_at [1, 0, 1, 2, 3, 4, 5, 6, 7, 8]
      (fixed_array_msgdesc usr_PB_LTYPE_FIXED32 8) (some 0) 0).array_size = 1 ∧
    enc_load_size [1, 0, 1, 2, 3, 4, 5, 6, 7, 8]
      (field_at [1, 0, 1, 2, 3, 4, 5, 6, 7, 8]
        (fixed_array_msgdesc usr_PB_LTYPE_FIXED32 8) (some 0) 0) = some 1 ∧
    encode_field_value (encode_fns [1, 0, 1, 2, 3, 4, 5, 6, 7, 8] 0)
        [1, 0, 1, 2, 3, 4, 5, 6, 7, 8] (usr_pb_ostream_from_buffer 16)
        (array_element (field_at [1, 0, 1, 2, 3, 4, 5, 6, 7, 8]
          (fixed_array_msgdesc usr_PB_LTYPE_FIXED32 8) (some 0) 0) 2 0) =
      some (⟨true, [1, 2, 3, 4, 5, 6, 7, 8], 16, 8, none⟩, true) ∧
    drop_iter (encode_array (encode_fns [1, 0, 1, 2, 3, 4, 5, 6, 7, 8] 0)
        [1, 0, 1, 2, 3, 4, 5, 6, 7, 8] (usr_pb_ostream_from_buffer 16)
        (field_at [1, 0, 1, 2, 3, 4, 5, 6, 7, 8]
          (fixed_array_msgdesc usr_PB_LTYPE_FIXED32 8) (some 0) 0)) =
      some (⟨true, [0x0A, 0x04, 1, 2, 3, 4, 5, 6, 7, 8], 16, 10, none⟩, true) ∧
    drop_iter (encode_array (encode_fns [1, 0, 1, 2, 3, 4, 5, 6, 7, 8] 0)
        [1, 0, 1, 2, 3, 4, 5, 6, 7, 8] usr_PB_OSTREAM_SIZING
        (field_at [1, 0, 1, 2, 3, 4, 5, 6, 7, 8]
          (fixed_array_msgdesc usr_PB_LTYPE_FIXED32 8) (some 0) 0)) =
      some (⟨false, [], 0, 6, none⟩, true) := by
  refine ⟨by decide, by decide, by decide, by decide, by decide, by decide, by decide,
    by decide⟩

/-- Claim C17, amended (packed array framing). For a repeated field of packable
type with a 16-bit tag and `array_size`, a non-null `pData = p` and a count of
`n ≤ array_size` entries, whose `data_size` fits its type (4 for `FIXED32`, 8
for `FIXED64`, otherwise 1, 2, 4 or 8; a `bool` is one byte of value 0 or 1):
with `n = 0`, `encode_array` writes nothing; with `1 ≤ n` there are `n` byte
strings `elems`, entry `i` being what the encoder of a singular value emits
for entry `i` of the array, such that `encode_array` emits the varint of the
tag with wire type 2, the varint of the total length of `elems`, and the
`elems` one after the other. Here a function emits a byte string when it
appends it on every buffer stream with room for it (`max_size < 2 ^ 63`),
counts it on the sizing stream, and succeeds on no stream without that room. -/
theorem C17_packed_array_framing (enc : encode_fn) (mem : List usr_pb_byte_t)
    (field : usr_pb_field_iter_t) (p n : Nat)
    (hpack : usr_PB_LTYPE field.type ≤ usr_PB_LTYPE_LAST_PACKABLE)
    (hp : field.pData = some p) (hcount : enc_load_size mem field = some n)
    (hn : n ≤ field.array_size) (has : field.array_size < 65536)
    (htag : field.tag < 65536)
    (h32 : usr_PB_LTYPE field.type = usr_PB_LTYPE_FIXED32 → field.data_size = 4)
    (h64 : usr_PB_LTYPE field.type = usr_PB_LTYPE_FIXED64 → field.data_size = 8)
    (hvar : usr_PB_LTYPE field.type ≠ usr_PB_LTYPE_FIXED32 →
      usr_PB_LTYPE field.type ≠ usr_PB_LTYPE_FIXED64 →
      field.data_size = 1 ∨ field.data_size = 2 ∨ field.data_size = 4 ∨ field.data_size = 8)
    (hbool : usr_PB_LTYPE field.type = usr_PB_LTYPE_BOOL →
      field.data_size = 1 ∧ ∀ i, i < n → (mem.getD (p + i) 0).val ≤ 1) :
    (n = 0 → emits (fun s => drop_iter (encode_array enc mem s field)) []) ∧
    (1 ≤ n → ∃ elems : List (List usr_pb_byte_t), elems.length = n ∧
      (∀ i (hi : i < elems.length),
        emits (fun s => encode_field_value enc mem s (array_element field p i))
          (elems.get ⟨i, hi⟩)) ∧
      emits (fun s => drop_iter (encode_array enc mem s field))
        (leb128 (field.tag * 8 + usr_PB_WT_STRING) ++
          (leb128 elems.flatten.length ++ elems.flatten))) := by
  constructor
  · intro h0
    refine emits_skip (fun s => ?_)
    unfold encode_array
    rw [hcount]
    dsimp only
    rw [if_pos h0]
    rfl
  · intro h1
    obtain ⟨elems, hlen, helems⟩ := exists_emitted_list
      (fun i s => encode_packed_element mem s (array_element field p i))
      (fun i => emits_packed_element mem field p i h32 h64 hvar) n 0
    simp only [Nat.zero_add] at helems
    have hL := emits_packed_loop mem field p elems 0 (fun i hi => by
      rw [Nat.zero_add]; exact helems i hi)
    rw [hlen, array_element_zero hp] at hL
    have hreg := regular_packed_loop mem field p n 0
      (fun i _ _ => regular_packed_element mem (array_element field p i))
    rw [array_element_zero hp] at hreg
    have hle := emits_length_le hL hreg (by omega)
    have hfix : ∀ c : Nat, field.data_size = c →
        (usr_PB_LTYPE field.type = usr_PB_LTYPE_FIXED32 ∨
          usr_PB_LTYPE field.type = usr_PB_LTYPE_FIXED64) → elems.flatten.length = c * n := by
      intro c hc hf
      have hok : fixed_size_ok field = true := by
        unfold fixed_size_ok
        simp only [Bool.and_eq_true, Bool.or_eq_true, bne_iff_ne, ne_eq, beq_iff_eq]
        exact ⟨by by_cases c : usr_PB_LTYPE field.type = usr_PB_LTYPE_FIXED32
                  · exact Or.inr (h32 c)
                  · exact Or.inl c,
               by by_cases c : usr_PB_LTYPE field.type = usr_PB_LTYPE_FIXED64
                  · exact Or.inr (h64 c)
                  · exact Or.inl c⟩
      obtain ⟨bs, hbl, hbs⟩ := emits_packed_loop_const mem field p field.data_size
        (fun i => emits_packed_element_fixed mem field p i hok hf) n 0
      rw [array_element_zero hp] at hbs
      rw [emits_unique' hbs hL (by omega)] at hbl
      rw [hbl, hc]
    refine ⟨elems, hlen, fun i hi => ?_, ?_⟩
    · refine emits_congr (fun s => ?_) (helems i hi)
      symm
      refine packed_element_eq_field_value enc mem s _ hpack (fun hb => ?_)
      obtain ⟨hds, hb01⟩ := hbool hb
      refine ⟨hds, p + i, ?_, hb01 i (by omega)⟩
      rw [array_element_pData, hds, Nat.mul_one]
    · have h := emits_encode_array_packed enc mem field n elems.flatten hcount (by omega)
        (fun c => by omega) hpack hL (by omega)
        (fun c => by rw [hfix 4 (h32 c) (Or.inl c)])
        (fun c => by rw [hfix 8 (h64 c) (Or.inr c)])
      rw [tag_value field.tag usr_PB_WT_STRING (by omega) (by decide),
        varint_bytes_eq_leb128 _ (by unfold usr_PB_WT_STRING; omega),
        varint_bytes_eq_leb128 _ (by omega)] at h
      exact h
set_option maxRecDepth 100000 in
/-- C17 (witness of the amended claim). The field `repeated int32 values = 1`
with the entries 1, 2, 3 is emitted as `0A 03 01 02 03`. -/
theorem C17_packed_array_framing_witness :
    (usr_PB_LTYPE (field_at [3, 0, 0, 0, 1, 0, 0, 0, 2, 0, 0, 0, 3, 0, 0, 0, 0, 0, 0, 0]
        int32_array_msgdesc (some 0) 0).type ≤ usr_PB_LTYPE_LAST_PACKABLE ∧
      (field_at [3, 0, 0, 0, 1, 0, 0, 0, 2, 0, 0, 0, 3, 0, 0, 0, 0, 0, 0, 0]
        int32_array_msgdesc (some 0) 0).pData = some 4 ∧
      enc_load_size [3, 0, 0, 0, 1, 0, 0, 0, 2, 0, 0, 0, 3, 0, 0, 0, 0, 0, 0, 0]
        (field_at [3, 0, 0, 0, 1, 0, 0, 0, 2, 0, 0, 0, 3, 0, 0, 0, 0, 0, 0, 0]
          int32_array_msgdesc (some 0) 0) = some 3) ∧
    (∃ elems : List (List usr_pb_byte_t), elems.length = 3 ∧
      (∀ i (hi : i < elems.length),
        emits (fun s => encode_field_value
          (encode_fns [3, 0, 0, 0, 1, 0, 0, 0, 2, 0, 0, 0, 3, 0, 0, 0, 0, 0, 0, 0] 0)
          [3, 0, 0, 0, 1, 0, 0, 0, 2, 0, 0, 0, 3, 0, 0, 0, 0, 0, 0, 0] s
          (array_element (field_at [3, 0, 0, 0, 1, 0, 0, 0, 2, 0, 0, 0, 3, 0, 0, 0, 0, 0, 0, 0]
            int32_array_msgdesc (some 0) 0) 4 i)) (elems.get ⟨i, hi⟩)) ∧
      emits (fun s => drop_iter (encode_array
          (encode_fns [3, 0, 0, 0, 1, 0, 0, 0, 2, 0, 0, 0, 3, 0, 0, 0, 0, 0, 0, 0] 0)
          [3, 0, 0, 0, 1, 0, 0, 0, 2, 0, 0, 0, 3, 0, 0, 0, 0, 0, 0, 0] s
          (field_at [3, 0, 0, 0, 1, 0, 0, 0, 2, 0, 0, 0, 3, 0, 0, 0, 0, 0, 0, 0]
            int32_array_msgdesc (some 0) 0)))
        (leb128 ((field_at [3, 0, 0, 0, 1, 0, 0, 0, 2, 0, 0, 0, 3, 0, 0, 0, 0, 0, 0, 0]
            int32_array_msgdesc (some 0) 0).tag * 8 + usr_PB_WT_STRING) ++
          (leb128 elems.flatten.length ++ elems.flatten))) ∧
    usr_pb_encode [3, 0, 0, 0, 1, 0, 0, 0, 2, 0, 0, 0, 3, 0, 0, 0, 0, 0, 0, 0]
      (usr_pb_ostream_from_buffer 16) int32_array_msgdesc (some 0) =
      some (⟨true, [0x0A, 0x03, 0x01, 0x02, 0x03], 16, 5, none⟩, true) :=
  ⟨⟨by decide, by decide, by decide⟩,
    (C17_packed_array_framing
      (encode_fns [3, 0, 0, 0, 1, 0, 0, 0, 2, 0, 0, 0, 3, 0, 0, 0, 0, 0, 0, 0] 0)
      [3, 0, 0, 0, 1, 0, 0, 0, 2, 0, 0, 0, 3, 0, 0, 0, 0, 0, 0, 0]
      (field_at [3, 0, 0, 0, 1, 0, 0, 0, 2, 0, 0, 0, 3, 0, 0, 0, 0, 0, 0, 0]
        int32_array_msgdesc (some 0) 0) 4 3
      (by decide) (by decide) (by decide) (by decide) (by decide) (by decide)
      (by decide) (by decide) (by decide) (by decide)).2 (by decide),
    by decide⟩
/-! ## Claims C21, C22 and C23: streams -/

/-- Claim C21 (substream creation). Let `usr_pb_decode_varint32` read the
length `L` from the parent and leave the parent as `s1`. If `L` exceeds
`s1.bytes_left`, `usr_pb_make_string_substream` fails and sets the error
"parent stream too short" on the parent, whose read position and
`bytes_left` stay as in `s1`. Otherwise it succeeds: the child has the read
position (and error state) of `s1` and `bytes_left = L`, the parent keeps its
read position and its `bytes_left` is reduced by `L`, so both add up to
`s1.bytes_left`. If the length cannot be read, the call fails with the
parent as `usr_pb_decode_varint32` left it. In particular, on a parent that
starts with the varint of `L < 2 ^ 32`, `s1` is the parent behind that
varint. -/
theorem C21_make_string_substream (stream : usr_pb_istream_t) :
    (∀ s1, usr_pb_decode_varint32 stream = (s1, none) →
      usr_pb_make_string_substream stream = (s1, none)) ∧
    (∀ s1 L, usr_pb_decode_varint32 stream = (s1, some L) →
      (s1.bytes_left < L →
        usr_pb_make_string_substream stream =
          (⟨s1.state, s1.bytes_left,
            some (s1.errmsg.getD "parent stream too short")⟩, none)) ∧
      (L ≤ s1.bytes_left →
        usr_pb_make_string_substream stream =
          (⟨s1.state, s1.bytes_left - L, s1.errmsg⟩, some ⟨s1.state, L, s1.errmsg⟩) ∧
        L + (s1.bytes_left - L) = s1.bytes_left)) ∧
    (∀ (L : Nat) (rest : List usr_pb_byte_t) (n : Nat) (e : Option String),
      L < 2 ^ 32 → stream = ⟨leb128 L ++ rest, n, e⟩ → (leb128 L).length ≤ n →
      usr_pb_decode_varint32 stream = (⟨rest, n - (leb128 L).length, e⟩, some L)) := by
  refine ⟨fun s1 h => ?_, fun s1 L h => ⟨fun hlt => ?_, fun hle => ⟨?_, by omega⟩⟩,
    fun L rest n e hL hs hn => ?_⟩
  · unfold usr_pb_make_string_substream
    rw [h]
  · unfold usr_pb_make_string_substream
    rw [h]
    dsimp only
    rw [if_pos hlt]
    unfold istream_set_error
    rcases s1.errmsg with _ | e <;> rfl
  · unfold usr_pb_make_string_substream
    rw [h]
    dsimp only
    rw [if_neg (by omega)]
  · subst hs
    unfold usr_pb_decode_varint32
    rw [decode_varint32_eof_leb128 L hL rest n e hn]

/-- Witness of C21: the parent `03 AA BB CC DD` gives a child of 3 bytes and
leaves 1 byte to the parent; the parent `05 AA BB` is too short. -/
theorem C21_make_string_substream_witness :
    usr_pb_decode_varint32 ⟨[0x03, 0xAA, 0xBB, 0xCC, 0xDD], 5, none⟩ =
      (⟨[0xAA, 0xBB, 0xCC, 0xDD], 4, none⟩, some 3) ∧
    (usr_pb_make_string_substream ⟨[0x03, 0xAA, 0xBB, 0xCC, 0xDD], 5, none⟩ =
        (⟨[0xAA, 0xBB, 0xCC, 0xDD], 4 - 3, none⟩, some ⟨[0xAA, 0xBB, 0xCC, 0xDD], 3, none⟩) ∧
      3 + (4 - 3) = 4) ∧
    usr_pb_make_string_substream ⟨[0x05, 0xAA, 0xBB], 3, none⟩ =
      (⟨[0xAA, 0xBB], 2, some "parent stream too short"⟩, none) :=
  ⟨by decide,
    ((C21_make_string_substream ⟨[0x03, 0xAA, 0xBB, 0xCC, 0xDD], 5, none⟩).2.1
      ⟨[0xAA, 0xBB, 0xCC, 0xDD], 4, none⟩ 3 (by decide)).2 (by decide),
    ((C21_make_string_substream ⟨[0x05, 0xAA, 0xBB], 3, none⟩).2.1
      ⟨[0xAA, 0xBB], 2, none⟩ 5 (by decide)).1 (by decide)⟩
/-- Claim C22 (read contract of a buffer input stream). `usr_pb_read` of `n`
bytes succeeds exactly if `n ≤ bytes_left`. On success the read position
advances by `n`, `bytes_left` decreases by `n`, the error state is kept and
the bytes passed over are handed to the caller (who ignores them when the
destination is null; the stream after the call is the same in both cases);
these are the next `n` bytes of a buffer that holds as many. With
`n > bytes_left` the call fails, sets the error "end-of-stream" and leaves
the read position and `bytes_left` as they were. With `n = 0` it succeeds
and changes nothing. -/
theorem C22_read_contract (stream : usr_pb_istream_t) (n : Nat) :
    ((usr_pb_read stream n).2.isSome = true ↔ n ≤ stream.bytes_left) ∧
    (n ≤ stream.bytes_left →
      usr_pb_read stream n =
        (⟨stream.state.drop n, stream.bytes_left - n, stream.errmsg⟩,
          some (stream.state.take n)) ∧
      (n ≤ stream.state.length →
        (stream.state.take n).length = n ∧
        stream.state = stream.state.take n ++ stream.state.drop n)) ∧
    (stream.bytes_left < n →
      usr_pb_read stream n =
        (⟨stream.state, stream.bytes_left, some (stream.errmsg.getD "end-of-stream")⟩,
          none)) ∧
    usr_pb_read stream 0 = (stream, some []) := by
  have hfail : stream.bytes_left < n →
      usr_pb_read stream n =
        (⟨stream.state, stream.bytes_left, some (stream.errmsg.getD "end-of-stream")⟩,
          none) := by
    intro h
    unfold usr_pb_read
    rw [if_neg (by omega), if_pos h]
    unfold istream_set_error
    rcases stream.errmsg with _ | e <;> rfl
  have hok : n ≤ stream.bytes_left →
      usr_pb_read stream n =
        (⟨stream.state.drop n, stream.bytes_left - n, stream.errmsg⟩,
          some (stream.state.take n)) := by
    intro h
    unfold usr_pb_read
    by_cases h0 : n = 0
    · subst h0
      simp
    · rw [if_neg h0, if_neg (by omega)]
      rfl
  refine ⟨⟨fun h => ?_, fun h => by rw [hok h]; rfl⟩,
    fun h => ⟨hok h, fun hl => ⟨by simp [hl], (List.take_append_drop n _).symm⟩⟩, hfail, ?_⟩
  · by_contra hlt
    rw [hfail (by omega)] at h
    simp at h
  · unfold usr_pb_read
    rw [if_pos rfl]

/-- Witness of C22: reading 2 bytes from `AA BB CC` with `bytes_left = 3`. -/
theorem C22_read_contract_witness :
    usr_pb_read ⟨[0xAA, 0xBB, 0xCC], 3, none⟩ 2 = (⟨[0xCC], 1, none⟩, some [0xAA, 0xBB]) ∧
    usr_pb_read ⟨[0xAA, 0xBB, 0xCC], 3, none⟩ 4 =
      (⟨[0xAA, 0xBB, 0xCC], 3, some "end-of-stream"⟩, none) :=
  ⟨((C22_read_contract ⟨[0xAA, 0xBB, 0xCC], 3, none⟩ 2).2.1 (by decide)).1,
    (C22_read_contract ⟨[0xAA, 0xBB, 0xCC], 3, none⟩ 4).2.2.1 (by decide)⟩
/-- Claim C23 (output stream overflow). On a stream with a callback
(`bytes_written` and `n` being values of `size_t`) and `n > 0`, `usr_pb_write`
fails exactly if `bytes_written + n` exceeds `max_size` or `2 ^ 64 - 1`; it
then sets the error "stream full" and leaves `bytes_written` and the buffer
as they were. Otherwise it stores the `n` bytes and `bytes_written` grows by
`n`. On a sizing stream (null callback) it succeeds, adds `n` to
`bytes_written` in `size_t` and stores nothing. -/
theorem C23_write_overflow (s : usr_pb_ostream_t) (buf : List usr_pb_byte_t) (n : Nat)
    (hbw : s.bytes_written < 2 ^ 64) (hn : n < 2 ^ 64) :
    (s.callback = true → 0 < n →
      ((usr_pb_write s buf n).2 = false ↔
        (s.bytes_written + n > s.max_size ∨ s.bytes_written + n ≥ 2 ^ 64)) ∧
      ((s.bytes_written + n > s.max_size ∨ s.bytes_written + n ≥ 2 ^ 64) →
        usr_pb_write s buf n =
          (⟨true, s.state, s.max_size, s.bytes_written,
            some (s.errmsg.getD "stream full")⟩, false)) ∧
      (s.bytes_written + n ≤ s.max_size → s.bytes_written + n < 2 ^ 64 →
        usr_pb_write s buf n =
          (⟨true, s.state ++ buf.take n, s.max_size, s.bytes_written + n, s.errmsg⟩,
            true))) ∧
    (s.callback = false →
      usr_pb_write s buf n =
        (⟨false, s.state, s.max_size, (s.bytes_written + n) % 2 ^ 64, s.errmsg⟩, true)) := by
  have hfull : s.callback = true → 0 < n →
      (s.bytes_written + n > s.max_size ∨ s.bytes_written + n ≥ 2 ^ 64) →
      usr_pb_write s buf n =
        (⟨true, s.state, s.max_size, s.bytes_written,
          some (s.errmsg.getD "stream full")⟩, false) := by
    intro hc h0 h
    unfold usr_pb_write
    rw [if_pos ⟨h0, hc⟩, if_pos (by unfold toSize; omega)]
    unfold ostream_set_error
    rw [← hc]
    rcases s.errmsg with _ | e <;> rfl
  have hroom : s.callback = true → 0 < n →
      s.bytes_written + n ≤ s.max_size → s.bytes_written + n < 2 ^ 64 →
      usr_pb_write s buf n =
        (⟨true, s.state ++ buf.take n, s.max_size, s.bytes_written + n, s.errmsg⟩,
          true) := by
    intro hc h0 h1 h2
    unfold usr_pb_write
    rw [if_pos ⟨h0, hc⟩, if_neg (by unfold toSize; omega)]
    unfold buf_write toSize
    dsimp only
    rw [Nat.mod_eq_of_lt h2, hc]
  refine ⟨fun hc h0 => ⟨⟨fun h => ?_, fun h => by rw [hfull hc h0 h]⟩, hfull hc h0,
    hroom hc h0⟩, fun hc => ?_⟩
  · by_contra hno
    rw [hroom hc h0 (by omega) (by omega)] at h
    simp at h
  · unfold usr_pb_write
    rw [if_neg (by rw [hc]; simp)]
    unfold toSize
    rw [← hc]

/-- Witness of C23: a 4-byte buffer holding 3 bytes takes one more byte and
refuses two. -/
theorem C23_write_overflow_witness :
    usr_pb_write ⟨true, [1, 2, 3], 4, 3, none⟩ [7] 1 =
      (⟨true, [1, 2, 3, 7], 4, 4, none⟩, true) ∧
    usr_pb_write ⟨true, [1, 2, 3], 4, 3, none⟩ [7, 8] 2 =
      (⟨true, [1, 2, 3], 4, 3, some "stream full"⟩, false) ∧
    usr_pb_write usr_PB_OSTREAM_SIZING [7, 8] 2 = (⟨false, [], 0, 2, none⟩, true) :=
  ⟨((C23_write_overflow ⟨true, [1, 2, 3], 4, 3, none⟩ [7] 1 (by decide) (by decide)).1
      rfl (by decide)).2.2 (by decide) (by decide),
    ((C23_write_overflow ⟨true, [1, 2, 3], 4, 3, none⟩ [7, 8] 2 (by decide) (by decide)).1
      rfl (by decide)).2.1 (by decide),
    (C23_write_overflow usr_PB_OSTREAM_SIZING [7, 8] 2 (by decide) (by decide)).2 rfl⟩
/-- Claim C24 (skip of one field body). `usr_pb_skip_field` on a stream with
enough `bytes_left` passes over: for `VARINT`, the bytes with the bit `0x80`
and the first byte without it; for `64BIT`, 8 bytes; for `32BIT`, 4 bytes;
for `STRING`, the varint of a length `L < 2 ^ 32` and `L` more bytes. For
every other wire type it fails with the error "invalid wire_type" and
leaves the read position and `bytes_left` as they were. It fails when the
stream ends before the body is complete: within the varint, before the 8 or
4 bytes, or before the `L` bytes of the string. -/
theorem C24_skip_field (rest : List usr_pb_byte_t) (n : Nat) (e : Option String) :
    (∀ (pre : List usr_pb_byte_t) (b : usr_pb_byte_t), (∀ x ∈ pre, 128 ≤ x.val) →
      b.val < 128 → pre.length + 1 ≤ n →
      usr_pb_skip_field ⟨pre ++ b :: rest, n, e⟩ usr_PB_WT_VARINT =
        (⟨rest, n - (pre.length + 1), e⟩, true)) ∧
    (∀ l : List usr_pb_byte_t, l.length = 8 → 8 ≤ n →
      usr_pb_skip_field ⟨l ++ rest, n, e⟩ usr_PB_WT_64BIT = (⟨rest, n - 8, e⟩, true)) ∧
    (∀ l : List usr_pb_byte_t, l.length = 4 → 4 ≤ n →
      usr_pb_skip_field ⟨l ++ rest, n, e⟩ usr_PB_WT_32BIT = (⟨rest, n - 4, e⟩, true)) ∧
    (∀ (L : Nat) (l : List usr_pb_byte_t), L < 2 ^ 32 → l.length = L →
      (leb128 L).length + L ≤ n →
      usr_pb_skip_field ⟨leb128 L ++ (l ++ rest), n, e⟩ usr_PB_WT_STRING =
        (⟨rest, n - ((leb128 L).length + L), e⟩, true)) ∧
    (∀ w, w ≠ usr_PB_WT_VARINT → w ≠ usr_PB_WT_64BIT → w ≠ usr_PB_WT_STRING →
      w ≠ usr_PB_WT_32BIT →
      usr_pb_skip_field ⟨rest, n, e⟩ w =
        (⟨rest, n, some (e.getD "invalid wire_type")⟩, false)) ∧
    (∀ pre : List usr_pb_byte_t, (∀ x ∈ pre, 128 ≤ x.val) →
      (usr_pb_skip_field ⟨pre ++ rest, pre.length, e⟩ usr_PB_WT_VARINT).2 = false) ∧
    (n < 8 → (usr_pb_skip_field ⟨rest, n, e⟩ usr_PB_WT_64BIT).2 = false) ∧
    (n < 4 → (usr_pb_skip_field ⟨rest, n, e⟩ usr_PB_WT_32BIT).2 = false) ∧
    (∀ L, L < 2 ^ 32 → (leb128 L).length ≤ n → n - (leb128 L).length < L →
      (usr_pb_skip_field ⟨leb128 L ++ rest, n, e⟩ usr_PB_WT_STRING).2 = false) := by
  have h1 : ¬ usr_PB_WT_64BIT = usr_PB_WT_VARINT := by decide
  have h2 : ¬ usr_PB_WT_STRING = usr_PB_WT_VARINT := by decide
  have h3 : ¬ usr_PB_WT_STRING = usr_PB_WT_64BIT := by decide
  have h4 : ¬ usr_PB_WT_32BIT = usr_PB_WT_VARINT := by decide
  have h5 : ¬ usr_PB_WT_32BIT = usr_PB_WT_64BIT := by decide
  have h6 : ¬ usr_PB_WT_32BIT = usr_PB_WT_STRING := by decide
  refine ⟨fun pre b hall hb hn => ?_, fun l hl hn => ?_, fun l hl hn => ?_,
    fun L l hL hl hn => ?_, fun w w1 w2 w3 w4 => ?_, fun pre hall => ?_, fun hn => ?_,
    fun hn => ?_, fun L hL hn hlt => ?_⟩
  · unfold usr_pb_skip_field usr_pb_skip_varint
    rw [if_pos rfl]
    exact skip_varint_loop_spec b rest e hb pre n (n + 1) hall hn (by omega)
  · unfold usr_pb_skip_field
    rw [if_neg h1, if_pos rfl]
    have := read_append l rest n e (by omega) (by omega)
    rw [hl] at this
    rw [this]
    rfl
  · unfold usr_pb_skip_field
    rw [if_neg h4, if_neg h5, if_neg h6, if_pos rfl]
    have := read_append l rest n e (by omega) (by omega)
    rw [hl] at this
    rw [this]
    rfl
  · unfold usr_pb_skip_field usr_pb_skip_string usr_pb_decode_varint32
    rw [if_neg h2, if_neg h3, if_pos rfl,
      decode_varint32_eof_leb128 L hL (l ++ rest) n e (by omega)]
    dsimp only
    by_cases h0 : L = 0
    · subst h0
      have : l = [] := List.length_eq_zero.mp hl
      subst this
      simp [usr_pb_read]
    · have := read_append l rest (n - (leb128 L).length) e (by omega) (by omega)
      rw [hl] at this
      rw [this]
      simp only [Option.isSome_some]
      congr 2
      omega
  · unfold usr_pb_skip_field
    rw [if_neg w1, if_neg w2, if_neg w3, if_neg w4]
    unfold istream_set_error
    rcases e with _ | e <;> rfl
  · unfold usr_pb_skip_field usr_pb_skip_varint
    rw [if_pos rfl]
    exact skip_varint_loop_eof rest e pre _ hall
  · unfold usr_pb_skip_field
    rw [if_neg h1, if_pos rfl]
    dsimp only
    rw [read_fail _ 8 hn]
    rfl
  · unfold usr_pb_skip_field
    rw [if_neg h4, if_neg h5, if_neg h6, if_pos rfl]
    dsimp only
    rw [read_fail _ 4 hn]
    rfl
  · unfold usr_pb_skip_field usr_pb_skip_string usr_pb_decode_varint32
    rw [if_neg h2, if_neg h3, if_pos rfl, decode_varint32_eof_leb128 L hL rest n e hn]
    dsimp only
    rw [read_fail _ L hlt]
    rfl

set_option maxRecDepth 100000 in
/-- Witness of C24: the varint `96 01`, a string of length 2 and the wire
type 3. -/
theorem C24_skip_field_witness :
    usr_pb_skip_field ⟨[0x96] ++ 0x01 :: [0xAA], 3, none⟩ usr_PB_WT_VARINT =
      (⟨[0xAA], 3 - (([0x96] : List usr_pb_byte_t).length + 1), none⟩, true) ∧
    usr_pb_skip_field ⟨[0x02, 0x61, 0x62, 0xAA], 4, none⟩ usr_PB_WT_STRING =
      (⟨[0xAA], 1, none⟩, true) ∧
    usr_pb_skip_field ⟨[0xAA], 3, none⟩ 3 = (⟨[0xAA], 3, some "invalid wire_type"⟩, false) ∧
    (usr_pb_skip_field ⟨[0xAA], 3, none⟩ usr_PB_WT_32BIT).2 = false :=
  ⟨(C24_skip_field [0xAA] 3 none).1 [0x96] 0x01 (by decide) (by decide) (by decide),
    by decide,
    (C24_skip_field [0xAA] 3 none).2.2.2.2.1 3 (by decide) (by decide) (by decide) (by decide),
    (C24_skip_field [0xAA] 3 none).2.2.2.2.2.2.2.1 (by decide)⟩
/-- Claim C25 (integer narrowing on decode). For a UVARINT field and the
value `value` that `usr_pb_decode_varint` reads, and for an SVARINT field
and the signed 64-bit value `svalue` that `usr_pb_decode_svarint` reads
(after zigzag decoding): with `data_size` 1, 2, 4 or 8, `usr_pb_dec_varint`
succeeds exactly if the value is representable in `data_size` bytes
(unsigned resp. two's complement) and then has stored exactly that value;
otherwise it fails with the error "integer too large", having stored the
truncated value. With every other `data_size` it fails with the error
"invalid data_size" and stores nothing. -/
theorem C25_integer_narrowing (st : decode_state) (s' : usr_pb_istream_t) (p : Nat)
    (hp : st.field.pData = some p) :
    (∀ value, usr_PB_LTYPE st.field.type = usr_PB_LTYPE_UVARINT →
      usr_pb_decode_varint st.stream = (s', some value) →
      ((st.field.data_size = 8 ∨ st.field.data_size = 4 ∨ st.field.data_size = 2 ∨
          st.field.data_size = 1) →
        (value < 2 ^ (8 * st.field.data_size) →
          usr_pb_dec_varint st =
            some (true, { st with stream := s',
                                  mem := store_uint st.mem p st.field.data_size value })) ∧
        (2 ^ (8 * st.field.data_size) ≤ value →
          usr_pb_dec_varint st =
            some (false, { st with
              stream := istream_set_error s' "integer too large",
              mem := store_uint st.mem p st.field.data_size
                (value % 2 ^ (8 * st.field.data_size)) }))) ∧
      (¬ (st.field.data_size = 8 ∨ st.field.data_size = 4 ∨ st.field.data_size = 2 ∨
          st.field.data_size = 1) →
        usr_pb_dec_varint st =
          some (false, { st with stream := istream_set_error s' "invalid data_size" }))) ∧
    (∀ svalue : Int, usr_PB_LTYPE st.field.type = usr_PB_LTYPE_SVARINT →
      usr_pb_decode_svarint st.stream = (s', some svalue) →
      -2 ^ 63 ≤ svalue → svalue < 2 ^ 63 →
      ((st.field.data_size = 8 ∨ st.field.data_size = 4 ∨ st.field.data_size = 2 ∨
          st.field.data_size = 1) →
        ((-(2 ^ (8 * st.field.data_size - 1) : Int) ≤ svalue ∧
            svalue < 2 ^ (8 * st.field.data_size - 1)) →
          usr_pb_dec_varint st =
            some (true, { st with
              stream := s',
              mem := store_uint st.mem p st.field.data_size
                (to_unsigned st.field.data_size svalue) })) ∧
        (¬ (-(2 ^ (8 * st.field.data_size - 1) : Int) ≤ svalue ∧
            svalue < 2 ^ (8 * st.field.data_size - 1)) →
          usr_pb_dec_varint st =
            some (false, { st with
              stream := istream_set_error s' "integer too large",
              mem := store_uint st.mem p st.field.data_size
                (to_unsigned st.field.data_size
                  (sign_extend st.field.data_size (to_unsigned 8 svalue))) }))) ∧
      (¬ (st.field.data_size = 8 ∨ st.field.data_size = 4 ∨ st.field.data_size = 2 ∨
          st.field.data_size = 1) →
        usr_pb_dec_varint st =
          some (false, { st with stream := istream_set_error s' "invalid data_size" }))) := by
  have hsu : ¬ usr_PB_LTYPE_SVARINT = usr_PB_LTYPE_UVARINT := by decide
  refine ⟨fun value hl hdec => ⟨fun hds => ⟨fun hv => ?_, fun hv => ?_⟩, fun hds => ?_⟩,
    fun svalue hl hdec hlo hhi => ⟨fun hds => ⟨fun hv => ?_, fun hv => ?_⟩, fun hds => ?_⟩⟩
  · unfold usr_pb_dec_varint
    rw [if_pos hl, hdec]
    dsimp only
    rw [if_pos hds, hp]
    dsimp only
    rw [Nat.mod_eq_of_lt hv, if_neg (by simp)]
  · unfold usr_pb_dec_varint
    rw [if_pos hl, hdec]
    dsimp only
    rw [if_pos hds, hp]
    dsimp only
    have : value % 2 ^ (8 * st.field.data_size) ≠ value := by
      have := Nat.mod_lt value (Nat.two_pow_pos (8 * st.field.data_size))
      omega
    rw [if_pos this]
    rfl
  · unfold usr_pb_dec_varint
    rw [if_pos hl, hdec]
    dsimp only
    rw [if_neg hds]
    rfl
  · have hiff := sign_extend_to_unsigned st.field.data_size hds svalue hlo hhi
    unfold usr_pb_dec_varint
    rw [if_neg (by rw [hl]; exact hsu), if_pos hl, hdec]
    dsimp only
    rw [if_pos hds, hp]
    dsimp only
    rw [if_neg (by rw [ne_eq, not_not]; exact hiff.mpr hv), hiff.mpr hv]
  · have hiff := sign_extend_to_unsigned st.field.data_size hds svalue hlo hhi
    unfold usr_pb_dec_varint
    rw [if_neg (by rw [hl]; exact hsu), if_pos hl, hdec]
    dsimp only
    rw [if_pos hds, hp]
    dsimp only
    rw [if_pos (fun c => hv (hiff.mp c))]
    rfl
  · unfold usr_pb_dec_varint
    rw [if_neg (by rw [hl]; exact hsu), if_pos hl, hdec]
    dsimp only
    rw [if_neg hds]
    rfl
set_option maxRecDepth 100000 in
/-- Witness of C25: a `uint8` field takes the value 7 and refuses 256. -/
theorem C25_integer_narrowing_witness :
    usr_pb_dec_varint
        (scalar_field_state (usr_PB_ATYPE_STATIC ||| usr_PB_HTYPE_REQUIRED |||
          usr_PB_LTYPE_UVARINT) 1 [0x07] [9, 9]) =
      some (true, { scalar_field_state (usr_PB_ATYPE_STATIC ||| usr_PB_HTYPE_REQUIRED |||
          usr_PB_LTYPE_UVARINT) 1 [0x07] [9, 9] with
        stream := ⟨[], 0, none⟩,
        mem := store_uint [9, 9] 0 1 7 }) ∧
    store_uint [9, 9] 0 1 7 = [7, 9] ∧
    usr_pb_dec_varint
        (scalar_field_state (usr_PB_ATYPE_STATIC ||| usr_PB_HTYPE_REQUIRED |||
          usr_PB_LTYPE_UVARINT) 1 [0x80, 0x02] [9, 9]) =
      some (false, { scalar_field_state (usr_PB_ATYPE_STATIC ||| usr_PB_HTYPE_REQUIRED |||
          usr_PB_LTYPE_UVARINT) 1 [0x80, 0x02] [9, 9] with
        stream := istream_set_error ⟨[], 0, none⟩ "integer too large",
        mem := store_uint [9, 9] 0 1 (256 % 2 ^ (8 * 1)) }) :=
  ⟨(((C25_integer_narrowing
      (scalar_field_state (usr_PB_ATYPE_STATIC ||| usr_PB_HTYPE_REQUIRED |||
        usr_PB_LTYPE_UVARINT) 1 [0x07] [9, 9]) ⟨[], 0, none⟩ 0 (by decide)).1 7
      (by decide) (by decide)).1 (by decide)).1 (by decide),
    by decide,
    (((C25_integer_narrowing
      (scalar_field_state (usr_PB_ATYPE_STATIC ||| usr_PB_HTYPE_REQUIRED |||
        usr_PB_LTYPE_UVARINT) 1 [0x80, 0x02] [9, 9]) ⟨[], 0, none⟩ 0 (by decide)).1 256
      (by decide) (by decide)).1 (by decide)).2 (by decide)⟩
/-- Claim C26 (legacy int32 sign handling). For a VARINT field with
`data_size` 4, 2 or 1 and the 64-bit value `value` that
`usr_pb_decode_varint` reads, `usr_pb_dec_varint` takes the low 32 bits of
`value` as an `int32` and narrows that to `data_size` bytes: it succeeds
exactly if the `int32` is representable in `data_size` bytes and then has
stored it (two's complement); the result depends on the low 32 bits of
`value` only. Hence the wire value `0xFFFFFFFFFFFFFFFF` decodes to -1
(`0xFFFF`) in a 2-byte field, and for a negative `int32` `v` the varint of
its 64-bit two's complement (10 bytes) and the varint of its 32-bit two's
complement (5 bytes) decode to the same result. -/
theorem C26_legacy_int32 (st : decode_state) (p : Nat)
    (hp : st.field.pData = some p)
    (hl : usr_PB_LTYPE st.field.type = usr_PB_LTYPE_VARINT)
    (hds : st.field.data_size = 4 ∨ st.field.data_size = 2 ∨ st.field.data_size = 1) :
    (∀ s' value, usr_pb_decode_varint st.stream = (s', some value) →
      sign_extend 4 value = sign_extend 4 (value % 2 ^ 32) ∧
      usr_pb_dec_varint st =
        if -(2 ^ (8 * st.field.data_size - 1) : Int) ≤ sign_extend 4 value ∧
            sign_extend 4 value < 2 ^ (8 * st.field.data_size - 1) then
          some (true, { st with
            stream := s',
            mem := store_uint st.mem p st.field.data_size
              (to_unsigned st.field.data_size (sign_extend 4 value)) })
        else
          some (false, { st with
            stream := istream_set_error s' "integer too large",
            mem := store_uint st.mem p st.field.data_size
              (to_unsigned st.field.data_size
                (sign_extend st.field.data_size
                  (to_unsigned 8 (sign_extend 4 value)))) })) ∧
    (∀ s', st.field.data_size = 2 →
      usr_pb_decode_varint st.stream = (s', some 0xFFFFFFFFFFFFFFFF) →
      usr_pb_dec_varint st =
        some (true, { st with stream := s', mem := store_uint st.mem p 2 0xFFFF })) ∧
    (∀ (v : Int) (rest : List usr_pb_byte_t) (n : Nat) (e : Option String),
      -2 ^ 31 ≤ v → v < 0 →
      (leb128 (to_unsigned 8 v)).length = 10 ∧ (leb128 (to_unsigned 4 v)).length = 5 ∧
      usr_pb_dec_varint { st with
          stream := ⟨leb128 (to_unsigned 8 v) ++ rest,
            (leb128 (to_unsigned 8 v)).length + n, e⟩ } =
        usr_pb_dec_varint { st with
          stream := ⟨leb128 (to_unsigned 4 v) ++ rest,
            (leb128 (to_unsigned 4 v)).length + n, e⟩ }) := by
  refine ⟨fun s' value hdec => ⟨?_, dec_varint_legacy st s' p value hp hl hds hdec⟩,
    fun s' h2 hdec => ?_, fun v rest n e hlo hhi => ?_⟩
  · exact sign_extend_4_mod _ _ (by rw [Nat.mod_mod])
  · rw [dec_varint_legacy st s' p _ hp hl hds hdec, h2]
    have hs : sign_extend 4 0xFFFFFFFFFFFFFFFF = -1 := by
      unfold sign_extend; norm_num
    rw [hs]
    have hu : to_unsigned 2 (-1) = 0xFFFF := by
      unfold to_unsigned; norm_num; rfl
    rw [if_pos (by norm_num), hu]
  · have h8 : to_unsigned 8 v < 2 ^ 64 := by
      unfold to_unsigned; norm_num; omega
    have h4 : to_unsigned 4 v < 2 ^ 64 := by
      unfold to_unsigned; norm_num; omega
    have hmod : to_unsigned 8 v % 2 ^ 32 = to_unsigned 4 v % 2 ^ 32 := by
      unfold to_unsigned; norm_num; omega
    refine ⟨leb128_sign_extended_length _ (by unfold to_unsigned; norm_num; omega) h8,
      leb128_length_five _ (by unfold to_unsigned; norm_num; omega)
        (by unfold to_unsigned; norm_num; omega), ?_⟩
    have hd8 := decode_varint_leb128 (to_unsigned 8 v) h8 rest
      ((leb128 (to_unsigned 8 v)).length + n) e (by omega)
    have hd4 := decode_varint_leb128 (to_unsigned 4 v) h4 rest
      ((leb128 (to_unsigned 4 v)).length + n) e (by omega)
    rw [Nat.add_sub_cancel_left] at hd8 hd4
    rw [dec_varint_legacy { st with
        stream := ⟨leb128 (to_unsigned 8 v) ++ rest,
          (leb128 (to_unsigned 8 v)).length + n, e⟩ } ⟨rest, n, e⟩ p _ hp hl hds hd8,
      dec_varint_legacy { st with
        stream := ⟨leb128 (to_unsigned 4 v) ++ rest,
          (leb128 (to_unsigned 4 v)).length + n, e⟩ } ⟨rest, n, e⟩ p _ hp hl hds hd4,
      sign_extend_4_mod _ _ hmod]

set_option maxRecDepth 100000 in
/-- Witness of C26: an `int16` field and the 10-byte varint of
`0xFFFFFFFFFFFFFFFF`. -/
theorem C26_legacy_int32_witness :
    usr_pb_decode_varint
        (scalar_field_state (usr_PB_ATYPE_STATIC ||| usr_PB_HTYPE_REQUIRED |||
          usr_PB_LTYPE_VARINT) 2
          [0xFF, 0xFF, 0xFF, 0xFF, 0xFF, 0xFF, 0xFF, 0xFF, 0xFF, 0x01] [9, 9]).stream =
      (⟨[], 0, none⟩, some 0xFFFFFFFFFFFFFFFF) ∧
    usr_pb_dec_varint
        (scalar_field_state (usr_PB_ATYPE_STATIC ||| usr_PB_HTYPE_REQUIRED |||
          usr_PB_LTYPE_VARINT) 2
          [0xFF, 0xFF, 0xFF, 0xFF, 0xFF, 0xFF, 0xFF, 0xFF, 0xFF, 0x01] [9, 9]) =
      some (true, { scalar_field_state (usr_PB_ATYPE_STATIC ||| usr_PB_HTYPE_REQUIRED |||
          usr_PB_LTYPE_VARINT) 2
          [0xFF, 0xFF, 0xFF, 0xFF, 0xFF, 0xFF, 0xFF, 0xFF, 0xFF, 0x01] [9, 9] with
        stream := ⟨[], 0, none⟩, mem := store_uint [9, 9] 0 2 0xFFFF }) ∧
    store_uint [9, 9] 0 2 0xFFFF = [0xFF, 0xFF] :=
  ⟨by decide,
    (C26_legacy_int32
      (scalar_field_state (usr_PB_ATYPE_STATIC ||| usr_PB_HTYPE_REQUIRED |||
        usr_PB_LTYPE_VARINT) 2
        [0xFF, 0xFF, 0xFF, 0xFF, 0xFF, 0xFF, 0xFF, 0xFF, 0xFF, 0x01] [9, 9]) 0
      (by decide) (by decide) (by decide)).2.1 ⟨[], 0, none⟩ (by decide) (by decide),
    by decide⟩
/-- Claim C28 (wire-type check). Whenever the wire type is not the one
required by the logical type of the field -- VARINT (or the internal packed
marker) for BOOL, VARINT, UVARINT and SVARINT, 32BIT (or the marker) for
FIXED32, 64BIT (or the marker) for FIXED64, STRING for BYTES, STRING,
SUBMESSAGE, SUBMSG_W_CB and FIXED_LENGTH_BYTES -- `decode_basic_field`
returns false, changes nothing but the error message of the stream, which
becomes "wrong wire type" unless an earlier error is recorded, and so
consumes no input. -/
theorem C28_wrong_wire_type (inner : decode_inner_fn) (st : decode_state) (wire_type : Nat)
    (h : ((usr_PB_LTYPE st.field.type = usr_PB_LTYPE_BOOL ∨
            usr_PB_LTYPE st.field.type = usr_PB_LTYPE_VARINT ∨
            usr_PB_LTYPE st.field.type = usr_PB_LTYPE_UVARINT ∨
            usr_PB_LTYPE st.field.type = usr_PB_LTYPE_SVARINT) ∧
          wire_type ≠ usr_PB_WT_VARINT ∧ wire_type ≠ usr_PB_WT_PACKED) ∨
        (usr_PB_LTYPE st.field.type = usr_PB_LTYPE_FIXED32 ∧
          wire_type ≠ usr_PB_WT_32BIT ∧ wire_type ≠ usr_PB_WT_PACKED) ∨
        (usr_PB_LTYPE st.field.type = usr_PB_LTYPE_FIXED64 ∧
          wire_type ≠ usr_PB_WT_64BIT ∧ wire_type ≠ usr_PB_WT_PACKED) ∨
        ((usr_PB_LTYPE st.field.type = usr_PB_LTYPE_BYTES ∨
            usr_PB_LTYPE st.field.type = usr_PB_LTYPE_STRING ∨
            usr_PB_LTYPE st.field.type = usr_PB_LTYPE_SUBMESSAGE ∨
            usr_PB_LTYPE st.field.type = usr_PB_LTYPE_SUBMSG_W_CB ∨
            usr_PB_LTYPE st.field.type = usr_PB_LTYPE_FIXED_LENGTH_BYTES) ∧
          wire_type ≠ usr_PB_WT_STRING)) :
    ∃ st', decode_basic_field inner st wire_type = some (false, st') ∧
      st'.stream.state = st.stream.state ∧
      st'.stream.bytes_left = st.stream.bytes_left ∧
      st'.stream.errmsg = some (st.stream.errmsg.getD "wrong wire type") ∧
      st'.mem = st.mem ∧ st'.field = st.field ∧
      st'.fixed_count_size = st.fixed_count_size := by
  have key : decode_basic_field inner st wire_type = dec_error st "wrong wire type" := by
    unfold decode_basic_field
    dsimp only
    rcases h with ⟨hl, h1, h2⟩ | ⟨hl, h1, h2⟩ | ⟨hl, h1, h2⟩ | ⟨hl, h1⟩
    · rcases hl with hl | hl | hl | hl <;> rw [hl] <;>
        simp [h1, h2, usr_PB_LTYPE_BOOL, usr_PB_LTYPE_VARINT, usr_PB_LTYPE_UVARINT,
          usr_PB_LTYPE_SVARINT]
    · rw [hl]
      simp [h1, h2, usr_PB_LTYPE_BOOL, usr_PB_LTYPE_VARINT, usr_PB_LTYPE_UVARINT,
        usr_PB_LTYPE_SVARINT, usr_PB_LTYPE_FIXED32]
    · rw [hl]
      simp [h1, h2, usr_PB_LTYPE_BOOL, usr_PB_LTYPE_VARINT, usr_PB_LTYPE_UVARINT,
        usr_PB_LTYPE_SVARINT, usr_PB_LTYPE_FIXED32, usr_PB_LTYPE_FIXED64]
    · rcases hl with hl | hl | hl | hl | hl <;> rw [hl] <;>
        simp [h1, usr_PB_LTYPE_BOOL, usr_PB_LTYPE_VARINT, usr_PB_LTYPE_UVARINT,
          usr_PB_LTYPE_SVARINT, usr_PB_LTYPE_FIXED32, usr_PB_LTYPE_FIXED64,
          usr_PB_LTYPE_BYTES, usr_PB_LTYPE_STRING, usr_PB_LTYPE_SUBMESSAGE,
          usr_PB_LTYPE_SUBMSG_W_CB, usr_PB_LTYPE_FIXED_LENGTH_BYTES]
  refine ⟨_, key, rfl, rfl, ?_, rfl, rfl, rfl⟩
  show (istream_set_error st.stream "wrong wire type").errmsg = _
  unfold istream_set_error
  cases st.stream.errmsg <;> rfl

/-- Witness of C28: a `uint32` field offered a length-delimited value. -/
theorem C28_wrong_wire_type_witness :
    ∃ st', decode_basic_field (usr_pb_decode_inner 0)
        (scalar_field_state (usr_PB_ATYPE_STATIC ||| usr_PB_HTYPE_REQUIRED |||
          usr_PB_LTYPE_UVARINT) 4 [0x01, 0x07] [9, 9, 9, 9]) usr_PB_WT_STRING =
        some (false, st') ∧
      st'.stream.state = [0x01, 0x07] ∧
      st'.stream.bytes_left = 2 ∧
      st'.stream.errmsg = some "wrong wire type" ∧
      st'.mem = [9, 9, 9, 9] ∧
      st'.field = (scalar_field_state (usr_PB_ATYPE_STATIC ||| usr_PB_HTYPE_REQUIRED |||
          usr_PB_LTYPE_UVARINT) 4 [0x01, 0x07] [9, 9, 9, 9]).field ∧
      st'.fixed_count_size = 0 :=
  C28_wrong_wire_type (usr_pb_decode_inner 0)
    (scalar_field_state (usr_PB_ATYPE_STATIC ||| usr_PB_HTYPE_REQUIRED |||
      usr_PB_LTYPE_UVARINT) 4 [0x01, 0x07] [9, 9, 9, 9]) usr_PB_WT_STRING
    (Or.inl ⟨Or.inr (Or.inr (Or.inl (by decide))), by decide, by decide⟩)
set_option maxRecDepth 100000 in
/-- Counterexample to C27 as stated: the wire length `L = 2 ^ 32 - 1` (bytes
`FF FF FF FF 0F`) has `L + 1 > data_size` for a 4-byte string buffer, but
`usr_pb_dec_string` fails with "size too large", not with "string overflow". -/
theorem C27_max_length_is_size_too_large :
    usr_pb_decode_varint32
        (scalar_field_state (usr_PB_ATYPE_STATIC ||| usr_PB_HTYPE_REQUIRED |||
          usr_PB_LTYPE_STRING) 4 [0xFF, 0xFF, 0xFF, 0xFF, 0x0F] [9, 9, 9, 9]).stream =
      (⟨[], 0, none⟩, some (2 ^ 32 - 1)) ∧
    (2 ^ 32 - 1) + 1 >
      (scalar_field_state (usr_PB_ATYPE_STATIC ||| usr_PB_HTYPE_REQUIRED |||
        usr_PB_LTYPE_STRING) 4 [0xFF, 0xFF, 0xFF, 0xFF, 0x0F] [9, 9, 9, 9]).field.data_size ∧
    (usr_pb_dec_string
        (scalar_field_state (usr_PB_ATYPE_STATIC ||| usr_PB_HTYPE_REQUIRED |||
          usr_PB_LTYPE_STRING) 4 [0xFF, 0xFF, 0xFF, 0xFF, 0x0F] [9, 9, 9, 9])).map
        (fun r => (r.1, r.2.stream.errmsg, r.2.mem)) =
      some (false, some "size too large", [9, 9, 9, 9]) ∧
    some "size too large" ≠ some "string overflow" := by
  refine ⟨by decide, by decide, ?_, by decide⟩
  rw [dec_string_too_large _ ⟨[], 0, none⟩ (by decide)]
  rfl

/-- Claim C27, amended (static string bounds and round trip). For a statically
allocated STRING field with buffer size `1 ≤ data_size` at address `p`:
every NUL-free byte string `s` with `s.length ≤ data_size - 1`, stored
NUL-terminated in the buffer, is written by `usr_pb_enc_string` as the varint
of its length followed by its bytes; from these bytes `usr_pb_dec_string`
stores `s` followed by a NUL in the buffer, changes no other byte and
consumes exactly these bytes; `usr_pb_enc_string` fails with "unterminated
string" when none of the first `data_size` bytes of the buffer is NUL;
`usr_pb_dec_string` fails with "string overflow" for every wire length
`L < 2 ^ 32 - 1` with `L + 1 > data_size`, and with "size too large" for the
wire length `2 ^ 32 - 1`. -/
theorem C27_static_string (field : usr_pb_field_iter_t) (p : Nat)
    (hA : usr_PB_ATYPE field.type = usr_PB_ATYPE_STATIC)
    (hds : 1 ≤ field.data_size) (hmax : field.data_size ≤ usr_PB_SIZE_MAX)
    (hp : field.pData = some p) :
    (∀ (mem s : List usr_pb_byte_t) (stream : usr_pb_ostream_t),
      (∀ b ∈ s, b ≠ 0) → s.length + 1 ≤ field.data_size →
      mem_read mem p (s.length + 1) = s ++ [0] →
      stream.callback = true → valid_ostream stream →
      stream.bytes_written + (leb128 s.length ++ s).length ≤ stream.max_size →
      ∃ e, usr_pb_enc_string mem stream field =
        some ({ stream with
          state := stream.state ++ (leb128 s.length ++ s),
          bytes_written := stream.bytes_written + (leb128 s.length ++ s).length,
          errmsg := e }, true)) ∧
    (∀ (st : decode_state) (s rest : List usr_pb_byte_t) (n : Nat) (e : Option String),
      st.field = field → s.length + 1 ≤ field.data_size →
      p + s.length + 1 ≤ st.mem.length →
      st.stream =
        ⟨leb128 s.length ++ s ++ rest, (leb128 s.length).length + s.length + n, e⟩ →
      ∃ st', usr_pb_dec_string st = some (true, st') ∧
        st'.stream = ⟨rest, n, e⟩ ∧
        mem_read st'.mem p (s.length + 1) = s ++ [0] ∧
        (∀ q, q < p ∨ p + s.length + 1 ≤ q → st'.mem.getD q 0 = st.mem.getD q 0) ∧
        st'.field = st.field) ∧
    (∀ (mem : List usr_pb_byte_t) (stream : usr_pb_ostream_t),
      (∀ i, i < field.data_size → mem.getD (p + i) 0 ≠ 0) →
      usr_pb_enc_string mem stream field =
        some ({ stream with errmsg := some (stream.errmsg.getD "unterminated string") },
          false)) ∧
    (∀ (st : decode_state) (s' : usr_pb_istream_t) (L : Nat),
      st.field = field → usr_pb_decode_varint32 st.stream = (s', some L) →
      L < 2 ^ 32 - 1 → L + 1 > field.data_size →
      usr_pb_dec_string st =
        some (false, { st with
          stream := { s' with errmsg := some (s'.errmsg.getD "string overflow") } })) ∧
    (∀ (st : decode_state) (s' : usr_pb_istream_t),
      st.field = field → usr_pb_decode_varint32 st.stream = (s', some (2 ^ 32 - 1)) →
      usr_pb_dec_string st =
        some (false, { st with
          stream := { s' with errmsg := some (s'.errmsg.getD "size too large") } })) := by
  have herr : ∀ (s' : usr_pb_istream_t) (msg : String),
      istream_set_error s' msg = { s' with errmsg := some (s'.errmsg.getD msg) } := by
    intro s' msg
    unfold istream_set_error
    cases s'.errmsg <;> rfl
  refine ⟨fun mem s stream hnul hlen hmem hc hv hroom => ?_,
    fun st s rest n e hf hlen hfit hstream => ?_, fun mem stream hnz => ?_,
    fun st s' L hf hdec hL hover => ?_, fun st s' hf hdec => ?_⟩
  · have hmax' : field.data_size ≤ 65535 := hmax
    have hem := emits_encode_string s (by omega)
    rw [varint_bytes_eq_leb128 _ (by omega)] at hem
    obtain ⟨e, he⟩ := hem.1 stream ⟨hv, fun _ => hroom⟩
    dsimp only at he
    refine ⟨e, ?_⟩
    rw [enc_string_static mem field p s stream hA hp hnul hlen hmem, he,
      ostream_after_buffer stream _ e hc]
  · subst hf
    obtain ⟨h1, h2⟩ := dec_string_memory st.mem p s hfit
    exact ⟨_, dec_string_ok st p s rest n e hA hp hmax hlen hstream, rfl, h1, h2, rfl⟩
  · rw [enc_string_unterminated mem field p stream hA hp hds hnz]
    unfold ostream_set_error
    cases stream.errmsg <;> rfl
  · subst hf
    rw [dec_string_overflow st s' L hA hdec hL hover, herr]
  · subst hf
    rw [dec_string_too_large st s' hdec, herr]

set_option maxRecDepth 100000 in
/-- Witness of C27: the string "abc" in a 4-byte buffer; under tag 1 the
message is `0A 03 61 62 63`, and decoding `03 61 62 63` restores the buffer. -/
theorem C27_static_string_witness :
    (∃ e, usr_pb_enc_string [0x61, 0x62, 0x63, 0] (usr_pb_ostream_from_buffer 16)
        (field_at [0x61, 0x62, 0x63, 0]
          (scalar_msgdesc (usr_PB_ATYPE_STATIC ||| usr_PB_HTYPE_REQUIRED |||
            usr_PB_LTYPE_STRING) 4) (some 0) 0) =
      some (⟨true, [] ++ (leb128 3 ++ [0x61, 0x62, 0x63]), 16,
        0 + (leb128 3 ++ [0x61, 0x62, 0x63]).length, e⟩, true)) ∧
    leb128 3 ++ [0x61, 0x62, 0x63] = ([0x03, 0x61, 0x62, 0x63] : List usr_pb_byte_t) ∧
    usr_pb_encode [0x61, 0x62, 0x63, 0] (usr_pb_ostream_from_buffer 16)
        (scalar_msgdesc (usr_PB_ATYPE_STATIC ||| usr_PB_HTYPE_REQUIRED |||
          usr_PB_LTYPE_STRING) 4) (some 0) =
      some (⟨true, [0x0A, 0x03, 0x61, 0x62, 0x63], 16, 5, none⟩, true) ∧
    (usr_pb_dec_string
        (scalar_field_state (usr_PB_ATYPE_STATIC ||| usr_PB_HTYPE_REQUIRED |||
          usr_PB_LTYPE_STRING) 4 [0x03, 0x61, 0x62, 0x63] [9, 9, 9, 9])).map
        (fun r => (r.1, r.2.stream, r.2.mem)) =
      some (true, ⟨[], 0, none⟩, [0x61, 0x62, 0x63, 0]) :=
  ⟨(C27_static_string
      (field_at [0x61, 0x62, 0x63, 0]
        (scalar_msgdesc (usr_PB_ATYPE_STATIC ||| usr_PB_HTYPE_REQUIRED |||
          usr_PB_LTYPE_STRING) 4) (some 0) 0) 0
      (by decide) (by decide) (by decide) (by decide)).1
      [0x61, 0x62, 0x63, 0] [0x61, 0x62, 0x63] (usr_pb_ostream_from_buffer 16)
      (by decide) (by decide) (by decide) rfl
      ⟨by decide, fun _ => ⟨by decide, by decide⟩⟩
      (by
        show 0 + (leb128 3 ++ [0x61, 0x62, 0x63]).length ≤ 16
        rw [leb128_small 3 (by decide)]
        decide),
    by rw [leb128_small 3 (by decide)]; rfl,
    by decide,
    by decide⟩
/-- Claim C29 (field lookup). For a descriptor with fewer than 65535 fields,
none of them an EXTENSION field, whose fields are sorted by strictly
ascending tag and whose `largest_tag` is the last tag, and for the iterator
on field `k` (as `usr_pb_field_iter_begin` and `k` calls of
`usr_pb_field_iter_next` leave it): `usr_pb_field_iter_find(tag)` returns true
iff some field has that tag; it then returns exactly the iterator that `begin`
and `next` calls reach at that field; and when it returns false the iterator
is the one on field `k`, so its index is unchanged. -/
theorem C29_field_lookup (mem : List usr_pb_byte_t) (desc : usr_pb_msgdesc_t)
    (message : Option Nat) (k tag : Nat)
    (hfc : desc.field_count < 65535)
    (hsorted : ∀ i j, i < j → j < desc.field_count →
      (field_at mem desc message i).tag < (field_at mem desc message j).tag)
    (hlargest : desc.largest_tag = (field_at mem desc message (desc.field_count - 1)).tag)
    (hnoext : ∀ i, i < desc.field_count →
      usr_PB_LTYPE (field_at mem desc message i).type ≠ usr_PB_LTYPE_EXTENSION)
    (hk : k < desc.field_count) :
    ((usr_pb_field_iter_find mem (field_at mem desc message k) tag).2 = true ↔
      ∃ j, j < desc.field_count ∧ (field_at mem desc message j).tag = tag) ∧
    (∀ j, j < desc.field_count → (field_at mem desc message j).tag = tag →
      usr_pb_field_iter_find mem (field_at mem desc message k) tag =
        (field_at mem desc message j, true)) ∧
    ((usr_pb_field_iter_find mem (field_at mem desc message k) tag).2 = false →
      (usr_pb_field_iter_find mem (field_at mem desc message k) tag).1 =
        field_at mem desc message k ∧
      (usr_pb_field_iter_find mem (field_at mem desc message k) tag).1.index = k) := by
  have hfc' : desc.field_count < 65536 := by omega
  have hidx : (field_at mem desc message k).index = k := field_at_index mem desc message hfc' k hk
  have hdesc : (field_at mem desc message k).descriptor = desc := field_at_descriptor _ _ _ _
  have hmono : ∀ i j, i ≤ j → j < desc.field_count →
      (field_at mem desc message i).tag ≤ (field_at mem desc message j).tag := by
    intro i j hij hj
    rcases Nat.eq_or_lt_of_le hij with e | l
    · rw [e]
    · exact Nat.le_of_lt (hsorted i j l hj)
  -- the two outcomes
  have main : (∀ j, j < desc.field_count → (field_at mem desc message j).tag = tag →
        usr_pb_field_iter_find mem (field_at mem desc message k) tag =
          (field_at mem desc message j, true)) ∧
      ((∀ j, j < desc.field_count → (field_at mem desc message j).tag ≠ tag) →
        usr_pb_field_iter_find mem (field_at mem desc message k) tag =
          (field_at mem desc message k, false)) := by
    by_cases c1 : (field_at mem desc message k).tag = tag
    · have e : usr_pb_field_iter_find mem (field_at mem desc message k) tag =
          (field_at mem desc message k, true) := by
        unfold usr_pb_field_iter_find
        rw [if_pos c1]
      refine ⟨fun j hj hjt => ?_, fun habs => absurd c1 (habs k hk)⟩
      have hjk : j = k := by
        rcases Nat.lt_trichotomy j k with l | e | l
        · have := hsorted j k l hk; omega
        · exact e
        · have := hsorted k j l hj; omega
      rw [e, hjk]
    · by_cases c2 : tag > (field_at mem desc message k).descriptor.largest_tag
      · have e : usr_pb_field_iter_find mem (field_at mem desc message k) tag =
            (field_at mem desc message k, false) := by
          unfold usr_pb_field_iter_find
          rw [if_neg c1, if_pos c2]
        refine ⟨fun j hj hjt => ?_, fun _ => e⟩
        rw [hdesc, hlargest] at c2
        have := hmono j (desc.field_count - 1) (by omega) (by omega)
        omega
      · rw [hdesc, hlargest] at c2
        by_cases c3 : tag < (field_at mem desc message k).tag
        · -- restart from field 0
          have hpos := at_pos_restart hfc (at_pos_field_at mem desc message k)
          have e : usr_pb_field_iter_find mem (field_at mem desc message k) tag =
              (if (field_iter_find_loop mem tag k (desc.field_count + 1)
                  { field_at mem desc message k with
                    index := (field_at mem desc message k).descriptor.field_count }).2 = true
                then field_iter_find_loop mem tag k (desc.field_count + 1)
                  { field_at mem desc message k with
                    index := (field_at mem desc message k).descriptor.field_count }
                else ((load_descriptor_values mem (field_iter_find_loop mem tag k
                  (desc.field_count + 1)
                  { field_at mem desc message k with
                    index := (field_at mem desc message k).descriptor.field_count }).1).1,
                  false)) := by
            unfold usr_pb_field_iter_find
            rw [if_neg c1, if_neg (by rw [hdesc, hlargest]; exact c2)]
            dsimp only
            rw [if_pos c3, hidx]
            dsimp only
            rw [hdesc]
          refine ⟨fun j hj hjt => ?_, fun habs => ?_⟩
          · have hjk : j < k := by
              by_contra hge
              have := hmono k j (by omega) hj
              omega
            have run := (find_loop_run hfc' tag k j (desc.field_count + 1) 0 _ (by omega) hpos
              (by omega) (fun i hi => by
                rw [Nat.zero_add, Nat.mod_eq_of_lt (by omega)]
                have := hsorted i j hi hj
                exact ⟨by omega, by omega⟩)).1
            rw [Nat.zero_add, Nat.mod_eq_of_lt hj] at run
            rw [e, run hjt (hnoext j hj)]
            rfl
          · have run := (find_loop_run hfc' tag k k (desc.field_count + 1) 0 _ (by omega) hpos
              (by omega) (fun i hi => by
                rw [Nat.zero_add, Nat.mod_eq_of_lt (by omega)]
                exact ⟨habs i (by omega), by omega⟩)).2
            rw [Nat.zero_add, Nat.mod_eq_of_lt hk] at run
            obtain ⟨it1, hp1, hr⟩ := run c1 rfl
            rw [e, hr]
            simp only [Bool.false_eq_true, if_false]
            rw [at_pos_load_eq hfc' hk hp1]
        · -- continue from field k + 1
          have hgt : (field_at mem desc message k).tag < tag := by omega
          have hk1 : k + 1 < desc.field_count := by
            by_contra hge
            have : k = desc.field_count - 1 := by omega
            rw [← this] at c2
            omega
          have hpos := at_pos_advance hfc' hk (at_pos_field_at mem desc message k)
          rw [Nat.mod_eq_of_lt hk1] at hpos
          have e : usr_pb_field_iter_find mem (field_at mem desc message k) tag =
              (if (field_iter_find_loop mem tag k (desc.field_count + 1)
                  (field_at mem desc message k)).2 = true
                then field_iter_find_loop mem tag k (desc.field_count + 1)
                  (field_at mem desc message k)
                else ((load_descriptor_values mem (field_iter_find_loop mem tag k
                  (desc.field_count + 1) (field_at mem desc message k)).1).1, false)) := by
            unfold usr_pb_field_iter_find
            rw [if_neg c1, if_neg (by rw [hdesc, hlargest]; exact c2)]
            dsimp only
            rw [if_neg c3, hidx, hdesc]
          refine ⟨fun j hj hjt => ?_, fun habs => ?_⟩
          · have hjk : k < j := by
              by_contra hge
              have := hmono j k (by omega) hk
              omega
            have run := (find_loop_run hfc' tag k (j - (k + 1)) (desc.field_count + 1) (k + 1) _
              hk1 hpos (by omega) (fun i hi => by
                rw [Nat.mod_eq_of_lt (by omega)]
                have := hsorted (k + 1 + i) j (by omega) hj
                exact ⟨by omega, by omega⟩)).1
            have hj' : k + 1 + (j - (k + 1)) = j := by omega
            rw [hj', Nat.mod_eq_of_lt hj] at run
            rw [e, run hjt (hnoext j hj)]
            rfl
          · have hwrap : (k + 1 + (desc.field_count - 1)) % desc.field_count = k := by
              have : k + 1 + (desc.field_count - 1) = k + desc.field_count := by omega
              rw [this, Nat.add_mod_right, Nat.mod_eq_of_lt hk]
            have run := (find_loop_run hfc' tag k (desc.field_count - 1) (desc.field_count + 1)
              (k + 1) _ hk1 hpos (by omega) (fun i hi => by
                refine ⟨habs _ (Nat.mod_lt _ (by omega)), ?_⟩
                by_cases hlt : k + 1 + i < desc.field_count
                · rw [Nat.mod_eq_of_lt hlt]; omega
                · rw [Nat.mod_eq_sub_mod (by omega), Nat.mod_eq_of_lt (by omega)]
                  omega)).2
            rw [hwrap] at run
            obtain ⟨it1, hp1, hr⟩ := run c1 rfl
            rw [e, hr]
            simp only [Bool.false_eq_true, if_false]
            rw [at_pos_load_eq hfc' hk hp1]
  obtain ⟨hfound, habsent⟩ := main
  refine ⟨⟨fun h => ?_, fun ⟨j, hj, hjt⟩ => by rw [hfound j hj hjt]⟩, hfound, fun h => ?_⟩
  · by_contra hex
    have habs : ∀ j, j < desc.field_count → (field_at mem desc message j).tag ≠ tag :=
      fun j hj c => hex ⟨j, hj, c⟩
    rw [habsent habs] at h
    simp at h
  · have habs : ∀ j, j < desc.field_count → (field_at mem desc message j).tag ≠ tag := by
      intro j hj c
      rw [hfound j hj c] at h
      simp at h
    rw [habsent habs]
    exact ⟨rfl, hidx⟩

set_option maxRecDepth 100000 in
/-- Witness of C29: in a message with the fields 1, 2, 3 the search for tag 1
from the last field restarts at field 0 and stops there. -/
theorem C29_field_lookup_witness :
    usr_pb_field_iter_find [0, 0, 0]
        (field_at [0, 0, 0] (required_fields_msgdesc 3) (some 0) 2) 1 =
      (field_at [0, 0, 0] (required_fields_msgdesc 3) (some 0) 0, true) ∧
    ((usr_pb_field_iter_find [0, 0, 0]
        (field_at [0, 0, 0] (required_fields_msgdesc 3) (some 0) 2) 1).1.index,
      (usr_pb_field_iter_find [0, 0, 0]
        (field_at [0, 0, 0] (required_fields_msgdesc 3) (some 0) 2) 1).1.field_info_index,
      (usr_pb_field_iter_find [0, 0, 0]
        (field_at [0, 0, 0] (required_fields_msgdesc 3) (some 0) 2) 1).1.tag,
      (usr_pb_field_iter_find [0, 0, 0]
        (field_at [0, 0, 0] (required_fields_msgdesc 3) (some 0) 2) 1).1.pData) =
      (0, 0, 1, some 0) :=
  ⟨(C29_field_lookup [0, 0, 0] (required_fields_msgdesc 3) (some 0) 2 1 (by decide)
      (by
        intro i j hij hj
        have hj3 : j < 3 := hj
        interval_cases j <;> interval_cases i <;> decide)
      (by decide)
      (by
        intro i hi
        have hi3 : i < 3 := hi
        interval_cases i <;> decide)
      (by decide)).2.1 0 (by decide) (by decide),
    by decide⟩
set_option maxRecDepth 100000 in
/-- Counterexample to C30 as stated: in a message with the field `a = 1` and
an extension placeholder of tag 4, the iterator that `begin` and one `next`
put on the placeholder is left there by `usr_pb_field_iter_find(4)`, which
returns true at once because `iter->tag == tag`. -/
theorem C30_find_true_on_extension_placeholder :
    (field_at (List.replicate 16 0) extension_msgdesc (some 0) 1).index = 1 ∧
    usr_PB_LTYPE (field_at (List.replicate 16 0) extension_msgdesc (some 0) 1).type =
      usr_PB_LTYPE_EXTENSION ∧
    (usr_pb_field_iter_find (List.replicate 16 0)
      (field_at (List.replicate 16 0) extension_msgdesc (some 0) 1) 4).2 = true ∧
    (usr_pb_field_iter_find (List.replicate 16 0)
      (field_at (List.replicate 16 0) extension_msgdesc (some 0) 1) 4).1.index = 1 ∧
    usr_PB_LTYPE (usr_pb_field_iter_find (List.replicate 16 0)
      (field_at (List.replicate 16 0) extension_msgdesc (some 0) 1) 4).1.type =
        usr_PB_LTYPE_EXTENSION := by
  decide

/-- Claim C30, amended (extension placeholders never match by tag). For every
descriptor, every position of the iterator and every tag: when
`usr_pb_field_iter_find(tag)` returns true, the iterator is on a field with
that tag, and this field does not have logical type EXTENSION unless the
iterator was on an EXTENSION field with that tag before the call. -/
theorem C30_extension_never_matches (mem : List usr_pb_byte_t) (iter : usr_pb_field_iter_t)
    (tag : Nat)
    (hstart : iter.tag = tag → usr_PB_LTYPE iter.type ≠ usr_PB_LTYPE_EXTENSION)
    (h : (usr_pb_field_iter_find mem iter tag).2 = true) :
    (usr_pb_field_iter_find mem iter tag).1.tag = tag ∧
    usr_PB_LTYPE (usr_pb_field_iter_find mem iter tag).1.type ≠ usr_PB_LTYPE_EXTENSION := by
  by_cases h1 : iter.tag = tag
  · have e : usr_pb_field_iter_find mem iter tag = (iter, true) := by
      unfold usr_pb_field_iter_find
      rw [if_pos h1]
    rw [e]
    exact ⟨h1, hstart h1⟩
  · by_cases h2 : tag > iter.descriptor.largest_tag
    · have e : usr_pb_field_iter_find mem iter tag = (iter, false) := by
        unfold usr_pb_field_iter_find
        rw [if_neg h1, if_pos h2]
      rw [e] at h
      simp at h
    · unfold usr_pb_field_iter_find at h ⊢
      rw [if_neg h1, if_neg h2] at h ⊢
      dsimp only at h ⊢
      generalize (if tag < iter.tag then
        { iter with index := iter.descriptor.field_count } else iter) = it at h ⊢
      generalize it.descriptor.field_count + 1 = fuel at h ⊢
      by_cases h3 : (field_iter_find_loop mem tag iter.index fuel it).2 = true
      · rw [if_pos h3]
        exact field_iter_find_loop_true mem tag _ _ _ h3
      · rw [if_neg h3] at h
        simp at h

set_option maxRecDepth 100000 in
/-- Witness of C30: from the extension placeholder the search for tag 1 wraps
around and stops on the field `a`. -/
theorem C30_extension_never_matches_witness :
    (usr_pb_field_iter_find (List.replicate 16 0)
      (field_at (List.replicate 16 0) extension_msgdesc (some 0) 1) 1).2 = true ∧
    (usr_pb_field_iter_find (List.replicate 16 0)
      (field_at (List.replicate 16 0) extension_msgdesc (some 0) 1) 1).1.tag = 1 ∧
    usr_PB_LTYPE (usr_pb_field_iter_find (List.replicate 16 0)
      (field_at (List.replicate 16 0) extension_msgdesc (some 0) 1) 1).1.type ≠
        usr_PB_LTYPE_EXTENSION :=
  ⟨by decide,
    C30_extension_never_matches (List.replicate 16 0)
      (field_at (List.replicate 16 0) extension_msgdesc (some 0) 1) 1 (by decide) (by decide)⟩
/-- Claim C31 (iterator traversal). For a descriptor with `N ≥ 1` fields whose
counters fit `usr_pb_size_t` (`N < 65536`, at most 65536 words of field
info): `usr_pb_field_iter_begin` returns true; after it and `k < N` calls of
`usr_pb_field_iter_next` the iterator has `index = k`, `field_info_index` the
sum of the word widths of the first `k` records, `required_field_index` the
number of REQUIRED fields and `submessage_index` the number of
submessage-typed fields among the first `k`; each of the first `N - 1` calls
returns true; the `N`-th call returns false and leaves exactly the iterator
that `begin` produced; and the loop `do ... while (next)` visits the indices
`0, 1, ..., N - 1` in this order and ends. -/
theorem C31_iterator_traversal (mem : List usr_pb_byte_t) (desc : usr_pb_msgdesc_t)
    (message : Option Nat) (h1 : 1 ≤ desc.field_count) (hfc : desc.field_count < 65536)
    (hwords : record_start desc desc.field_count ≤ 65536) :
    (usr_pb_field_iter_begin mem desc message).2 = true ∧
    (∀ k, k < desc.field_count →
      (field_at mem desc message k).index = k ∧
      (field_at mem desc message k).field_info_index = record_start desc k ∧
      (field_at mem desc message k).required_field_index = required_before desc k ∧
      (field_at mem desc message k).submessage_index = submsg_before desc k) ∧
    (∀ k, k + 1 < desc.field_count →
      usr_pb_field_iter_next mem (field_at mem desc message k) =
        (field_at mem desc message (k + 1), true)) ∧
    usr_pb_field_iter_next mem (field_at mem desc message (desc.field_count - 1)) =
      ((usr_pb_field_iter_begin mem desc message).1, false) ∧
    iter_visits mem desc.field_count (usr_pb_field_iter_begin mem desc message).1 =
      some (List.range desc.field_count) := by
  refine ⟨?_, field_at_counters mem desc message hfc hwords, fun k hk => ?_, ?_, ?_⟩
  · unfold usr_pb_field_iter_begin load_descriptor_values
    dsimp only
    rw [if_neg (by omega)]
  · rw [next_field_at mem desc message hfc k (by omega), Nat.mod_eq_of_lt hk]
    simp
  · rw [next_field_at mem desc message hfc _ (by omega)]
    have h0 : (desc.field_count - 1 + 1) % desc.field_count = 0 := by
      have : desc.field_count - 1 + 1 = desc.field_count := by omega
      rw [this, Nat.mod_self]
    rw [h0]
    simp only [ne_eq, not_true_eq_false, decide_False]
    rfl
  · have h := iter_visits_field_at mem desc message hfc (desc.field_count - 1) 0 (by omega)
    have e : desc.field_count - 1 + 1 = desc.field_count := by omega
    rw [e] at h
    show iter_visits mem desc.field_count (field_at mem desc message 0) = _
    rw [h]
    congr 1
    simp

set_option maxRecDepth 100000 in
/-- Witness of C31: the descriptor with the three required fields 1, 2, 3 in
two-word records. -/
theorem C31_iterator_traversal_witness :
    ((field_at [0, 0, 0] (required_fields_msgdesc 3) (some 0) 2).index,
      (field_at [0, 0, 0] (required_fields_msgdesc 3) (some 0) 2).field_info_index,
      (field_at [0, 0, 0] (required_fields_msgdesc 3) (some 0) 2).required_field_index,
      (field_at [0, 0, 0] (required_fields_msgdesc 3) (some 0) 2).submessage_index) =
      (2, 4, 2, 0) ∧
    usr_pb_field_iter_next [0, 0, 0]
        (field_at [0, 0, 0] (required_fields_msgdesc 3) (some 0) 2) =
      ((usr_pb_field_iter_begin [0, 0, 0] (required_fields_msgdesc 3) (some 0)).1, false) ∧
    iter_visits [0, 0, 0] 3
        (usr_pb_field_iter_begin [0, 0, 0] (required_fields_msgdesc 3) (some 0)).1 =
      some [0, 1, 2] :=
  ⟨by decide,
    (C31_iterator_traversal [0, 0, 0] (required_fields_msgdesc 3) (some 0) (by decide)
      (by decide) (by decide)).2.2.2.1,
    by decide⟩

set_option maxRecDepth 100000 in
/-- C36 (evaluation at the failing input). On a buffer stream whose error
message is already set, `usr_pb_encode_submessage` of the message
`{ v = 42 }` succeeds, writes `02 08 2A` and leaves the error message null:
the assignment `stream->errmsg = substream.errmsg` replaces the message of
the parent by that of the substream, which started with a null message. When
the sizing pass fails (here on a field of `data_size` 3), the message
of the parent is replaced by the one of the sizing stream. -/
theorem C36_encode_submessage_replaces_errmsg :
    (⟨true, [], 16, 0, some "earlier error"⟩ : usr_pb_ostream_t).errmsg =
      some "earlier error" ∧
    usr_pb_encode_submessage [42, 0, 0, 0] ⟨true, [], 16, 0, some "earlier error"⟩
        inner_int32_msgdesc (some 0) =
      some (⟨true, [0x02, 0x08, 0x2A], 16, 3, none⟩, true) ∧
    usr_pb_encode_submessage [42, 0, 0, 0] ⟨true, [], 16, 0, some "earlier error"⟩
        (scalar_msgdesc (usr_PB_ATYPE_STATIC ||| usr_PB_HTYPE_REQUIRED |||
          usr_PB_LTYPE_VARINT) 3) (some 0) =
      some (⟨true, [], 16, 0, some "invalid data_size"⟩, false) := by
  refine ⟨rfl, by decide, by decide⟩

/-- Claim C37 (zigzag law). For every `int64_t` value `x`,
`usr_pb_encode_svarint(x)` is `usr_pb_encode_varint` of
`(x << 1) XOR (x >> 63)`, computed in 64-bit two's complement with an
arithmetic right shift: on every stream both calls return the same status and
leave the same stream, so they write the same bytes. The value is `2 * x` for
`x ≥ 0` and `-2 * x - 1` for `x < 0`. -/
theorem C37_zigzag_law (x : Int) (hlo : -2 ^ 63 ≤ x) (hhi : x < 2 ^ 63) :
    (∀ stream : usr_pb_ostream_t,
      usr_pb_encode_svarint stream x = usr_pb_encode_varint stream (zigzag64 x)) ∧
    ((zigzag64 x : Nat) : Int) = (if x < 0 then -2 * x - 1 else 2 * x) := by
  have hz := zigzag64_eq x hlo hhi
  refine ⟨fun stream => by rw [encode_svarint_eq, hz], ?_⟩
  rw [hz]
  by_cases hx : x < 0
  · rw [if_pos hx, if_pos hx, zigzag_neg x hx hlo]
    omega
  · rw [if_neg hx, if_neg hx, zigzag_nonneg x (by omega) hhi]
    omega

/-- Witness of C37: the values -1 and 150 are written as the varints of 1 and
300. -/
theorem C37_zigzag_law_witness :
    ((∀ stream : usr_pb_ostream_t,
      usr_pb_encode_svarint stream (-1) = usr_pb_encode_varint stream (zigzag64 (-1))) ∧
      ((zigzag64 (-1) : Nat) : Int) = (if (-1 : Int) < 0 then -2 * (-1) - 1 else 2 * (-1))) ∧
    usr_pb_encode_svarint (usr_pb_ostream_from_buffer 16) (-1) =
      (⟨true, [0x01], 16, 1, none⟩, true) ∧
    usr_pb_encode_svarint (usr_pb_ostream_from_buffer 16) 150 =
      (⟨true, [0xAC, 0x02], 16, 2, none⟩, true) :=
  ⟨C37_zigzag_law (-1) (by decide) (by decide), by decide, by decide⟩

/-- Claim C39 (negative signed varint fields are widened to 64 bits). For a
VARINT field with non-null `pData` and `data_size` 1, 2, 4 or 8, let `v` be
the two's complement value of the `data_size` bytes of the field. If `v < 0`,
`usr_pb_enc_varint` is `usr_pb_encode_varint` of the 64-bit two's complement
`2 ^ 64 + v` of `v`, whose varint has exactly 10 bytes, the last being `0x01`;
on a buffer stream with room these 10 bytes are appended. If `v ≥ 0`, it is
`usr_pb_encode_varint` of `v`. With any other `data_size` the call fails with
the error "invalid data_size". -/
theorem C39_signed_varint_widening (mem : List usr_pb_byte_t) (field : usr_pb_field_iter_t)
    (p : Nat) (hl : usr_PB_LTYPE field.type = usr_PB_LTYPE_VARINT)
    (hp : field.pData = some p) :
    ((field.data_size = 1 ∨ field.data_size = 2 ∨ field.data_size = 4 ∨ field.data_size = 8) →
      (sign_extend field.data_size (load_uint mem p field.data_size) < 0 →
        (∀ stream, usr_pb_enc_varint mem stream field =
          some (usr_pb_encode_varint stream
            (to_unsigned 8 (sign_extend field.data_size (load_uint mem p field.data_size))))) ∧
        ((to_unsigned 8 (sign_extend field.data_size (load_uint mem p field.data_size)) : Nat)
            : Int) =
          2 ^ 64 + sign_extend field.data_size (load_uint mem p field.data_size) ∧
        (leb128 (to_unsigned 8
          (sign_extend field.data_size (load_uint mem p field.data_size)))).length = 10 ∧
        (leb128 (to_unsigned 8
          (sign_extend field.data_size (load_uint mem p field.data_size)))).getLast? =
            some 0x01 ∧
        (∀ stream : usr_pb_ostream_t, stream.callback = true → valid_ostream stream →
          stream.bytes_written + 10 ≤ stream.max_size →
          ∃ e, usr_pb_enc_varint mem stream field =
            some ({ stream with
              state := stream.state ++ leb128 (to_unsigned 8
                (sign_extend field.data_size (load_uint mem p field.data_size))),
              bytes_written := stream.bytes_written + 10,
              errmsg := e }, true))) ∧
      (0 ≤ sign_extend field.data_size (load_uint mem p field.data_size) →
        ∀ stream, usr_pb_enc_varint mem stream field =
          some (usr_pb_encode_varint stream
            (sign_extend field.data_size (load_uint mem p field.data_size)).toNat))) ∧
    (¬ (field.data_size = 1 ∨ field.data_size = 2 ∨ field.data_size = 4 ∨
        field.data_size = 8) →
      ∀ stream : usr_pb_ostream_t, usr_pb_enc_varint mem stream field =
        some ({ stream with errmsg := some (stream.errmsg.getD "invalid data_size") },
          false)) := by
  have hu : usr_PB_LTYPE field.type ≠ usr_PB_LTYPE_UVARINT := by rw [hl]; decide
  have hs : usr_PB_LTYPE field.type ≠ usr_PB_LTYPE_SVARINT := by rw [hl]; decide
  refine ⟨fun hds => ?_, fun hds stream => ?_⟩
  · have hr := sign_extend_range field.data_size hds (load_uint mem p field.data_size)
    have key : ∀ stream, usr_pb_enc_varint mem stream field =
        some (usr_pb_encode_varint stream
          (i64ToU64 (sign_extend field.data_size (load_uint mem p field.data_size)))) := by
      intro stream
      unfold usr_pb_enc_varint
      rw [if_pos hds, hp]
      dsimp only
      rw [if_neg hu, if_neg hs]
    generalize sign_extend field.data_size (load_uint mem p field.data_size) = v at hr key ⊢
    have h8 : to_unsigned 8 v = i64ToU64 v := rfl
    refine ⟨fun hneg => ?_, fun hpos stream => ?_⟩
    · have hX : 2 ^ 63 ≤ i64ToU64 v ∧ i64ToU64 v < 2 ^ 64 := by
        unfold i64ToU64; omega
      have hlen := leb128_length_ten (i64ToU64 v) hX.1 hX.2
      rw [h8]
      refine ⟨key, by unfold i64ToU64; omega, hlen.1, hlen.2, fun stream hc hv hroom => ?_⟩
      have hem := emits_encode_varint (i64ToU64 v)
      rw [varint_bytes_eq_leb128 _ hX.2] at hem
      obtain ⟨e, he⟩ := hem.1 stream ⟨hv, fun _ => by rw [hlen.1]; exact hroom⟩
      dsimp only at he
      refine ⟨e, ?_⟩
      rw [key, he, ostream_after_buffer stream _ e hc, hlen.1]
    · rw [key]
      have : i64ToU64 v = v.toNat := by unfold i64ToU64; omega
      rw [this]
  · unfold usr_pb_enc_varint
    rw [if_neg hds]
    unfold enc_error ostream_set_error
    cases stream.errmsg <;> rfl

set_option maxRecDepth 100000 in
/-- Witness of C39: an `int8` field holding -2 is written as the ten bytes
`FE FF FF FF FF FF FF FF FF 01`. -/
theorem C39_signed_varint_widening_witness :
    sign_extend 1 (load_uint [0xFE] 0 1) = -2 ∧
    (∀ stream, usr_pb_enc_varint [0xFE] stream
        (field_at [0xFE] (scalar_msgdesc (usr_PB_ATYPE_STATIC ||| usr_PB_HTYPE_REQUIRED |||
          usr_PB_LTYPE_VARINT) 1) (some 0) 0) =
      some (usr_pb_encode_varint stream (to_unsigned 8 (sign_extend 1 (load_uint [0xFE] 0 1))))) ∧
    usr_pb_enc_varint [0xFE] (usr_pb_ostream_from_buffer 16)
        (field_at [0xFE] (scalar_msgdesc (usr_PB_ATYPE_STATIC ||| usr_PB_HTYPE_REQUIRED |||
          usr_PB_LTYPE_VARINT) 1) (some 0) 0) =
      some (⟨true, [0xFE, 0xFF, 0xFF, 0xFF, 0xFF, 0xFF, 0xFF, 0xFF, 0xFF, 0x01], 16, 10, none⟩,
        true) :=
  ⟨by decide,
    (((C39_signed_varint_widening [0xFE]
      (field_at [0xFE] (scalar_msgdesc (usr_PB_ATYPE_STATIC ||| usr_PB_HTYPE_REQUIRED |||
        usr_PB_LTYPE_VARINT) 1) (some 0) 0) 0 (by decide) (by decide)).1
      (Or.inl (by decide))).1 (by decide)).1,
    by decide⟩

set_option maxRecDepth 100000 in
/-- Counterexample to C32 as stated: the arguments
`(1, STATIC | REQUIRED | UVARINT, 0, 4, 0, 0)` satisfy
`usr_PB_FIELDINFO_ASSERT_1` (`array_size = 0` fits one bit), but
`load_descriptor_values` on the word of `usr_PB_FIELDINFO_1` reports
`array_size = 1`: a one-word record does not store the array size.

The size offset of a four-word record is not recovered beyond its low eight
bits either: the arguments `(1, STATIC | OPTIONAL | UVARINT, 256, 4, 256, 1)`
satisfy `usr_PB_FIELDINFO_ASSERT_4`, which tests `(int_least8_t)size_offset`,
and `usr_PB_FIELDINFO_4` gives the same words for them as for the size offset 0,
so that `load_descriptor_values` computes `pField = message + 256` and a null
`pSize`, not `pField - 256`. -/
theorem C32_width1_array_size_not_recovered :
    usr_PB_FIELDINFO_ASSERT_1 1
      (usr_PB_ATYPE_STATIC ||| usr_PB_HTYPE_REQUIRED ||| usr_PB_LTYPE_UVARINT) 0 4 0 0 = true ∧
    (scalar_msgdesc (usr_PB_ATYPE_STATIC ||| usr_PB_HTYPE_REQUIRED ||| usr_PB_LTYPE_UVARINT)
      4).field_info =
      usr_PB_FIELDINFO_1 1
        (usr_PB_ATYPE_STATIC ||| usr_PB_HTYPE_REQUIRED ||| usr_PB_LTYPE_UVARINT) 0 4 0 0 ∧
    (usr_pb_field_iter_begin [0, 0, 0, 0]
      (scalar_msgdesc (usr_PB_ATYPE_STATIC ||| usr_PB_HTYPE_REQUIRED ||| usr_PB_LTYPE_UVARINT) 4)
      (some 0)).1.array_size = 1 ∧
    (1 : Nat) ≠ 0 ∧
    usr_PB_FIELDINFO_ASSERT_4 1
      (usr_PB_ATYPE_STATIC ||| usr_PB_HTYPE_OPTIONAL ||| usr_PB_LTYPE_UVARINT) 256 4 256 1 =
        true ∧
    usr_PB_FIELDINFO_4 1
        (usr_PB_ATYPE_STATIC ||| usr_PB_HTYPE_OPTIONAL ||| usr_PB_LTYPE_UVARINT) 256 4 256 1 =
      usr_PB_FIELDINFO_4 1
        (usr_PB_ATYPE_STATIC ||| usr_PB_HTYPE_OPTIONAL ||| usr_PB_LTYPE_UVARINT) 256 4 0 1 ∧
    (usr_pb_field_iter_begin []
      (usr_pb_msgdesc_t.mk
        (usr_PB_FIELDINFO_4 1
          (usr_PB_ATYPE_STATIC ||| usr_PB_HTYPE_OPTIONAL ||| usr_PB_LTYPE_UVARINT) 256 4 256 1)
        [] none false 1 0 1) (some 0)).1.pField = some 256 ∧
    (usr_pb_field_iter_begin []
      (usr_pb_msgdesc_t.mk
        (usr_PB_FIELDINFO_4 1
          (usr_PB_ATYPE_STATIC ||| usr_PB_HTYPE_OPTIONAL ||| usr_PB_LTYPE_UVARINT) 256 4 256 1)
        [] none false 1 0 1) (some 0)).1.pSize = size_ptr.null ∧
    pSize_of (usr_PB_ATYPE_STATIC ||| usr_PB_HTYPE_OPTIONAL ||| usr_PB_LTYPE_UVARINT) 256 256 =
      size_ptr.mem 0 := by
  refine ⟨by decide, by decide, by decide, by decide, by decide, by decide, by decide,
    by decide, by decide⟩

/-- Claim C32, amended (descriptor record round trip). For each width
`n` in {1, 2, 4, 8}, all arguments `(tag, type, data_offset, data_size,
size_offset, array_size)` that are 32-bit values with a type byte and satisfy
`usr_PB_FIELDINFO_ASSERT_n` (16-bit `usr_pb_size_t`), and an iterator with a
non-null message on a record made of the words of `usr_PB_FIELDINFO_n`:
`load_descriptor_values` succeeds, recovers `tag`, `type` and `data_size`, and
computes `pField = message + data_offset`. For the widths 1 and 2 it computes
`pSize = pField - size_offset`. For the widths 4 and 8 the record keeps the
low eight bits of `size_offset` only, which the assertion requires to be
below 128, and it computes `pSize = pField - size_offset % 256`, which is
`pField - size_offset` when `size_offset < 256`. In both
cases a size offset of 0 (for the widths 4 and 8: low eight bits 0) gives the
address of `iter->array_size` for a fixed-count array and a null `pSize`
otherwise. It recovers `array_size` for the widths 2, 4 and 8 and reports
`array_size = 1` for width 1. -/
theorem C32_descriptor_record_round_trip (mem : List usr_pb_byte_t)
    (it : usr_pb_field_iter_t) (m tag type data_offset data_size size_offset array_size : Nat)
    (hi : it.index < it.descriptor.field_count) (hm : it.message = some m)
    (htag : tag < 2 ^ 32) (hdo : data_offset < 2 ^ 32) (hds : data_size < 2 ^ 32)
    (hso : size_offset < 2 ^ 32) (has : array_size < 2 ^ 32) (hty : type < 256) :
    (usr_PB_FIELDINFO_ASSERT_1 tag type data_offset data_size size_offset array_size = true →
      holds_record it
        (usr_PB_FIELDINFO_1 tag type data_offset data_size size_offset array_size) →
      loads_as mem it tag type data_size 1 (m + data_offset)
        (pSize_of type (m + data_offset) size_offset)) ∧
    (usr_PB_FIELDINFO_ASSERT_2 tag type data_offset data_size size_offset array_size = true →
      holds_record it
        (usr_PB_FIELDINFO_2 tag type data_offset data_size size_offset array_size) →
      loads_as mem it tag type data_size array_size (m + data_offset)
        (pSize_of type (m + data_offset) size_offset)) ∧
    (usr_PB_FIELDINFO_ASSERT_4 tag type data_offset data_size size_offset array_size = true →
      holds_record it
        (usr_PB_FIELDINFO_4 tag type data_offset data_size size_offset array_size) →
      size_offset % 256 < 128 ∧
      loads_as mem it tag type data_size array_size (m + data_offset)
        (pSize_of type (m + data_offset) (size_offset % 256)) ∧
      (size_offset < 256 →
        loads_as mem it tag type data_size array_size (m + data_offset)
          (pSize_of type (m + data_offset) size_offset))) ∧
    (usr_PB_FIELDINFO_ASSERT_8 tag type data_offset data_size size_offset array_size = true →
      holds_record it
        (usr_PB_FIELDINFO_8 tag type data_offset data_size size_offset array_size) →
      size_offset % 256 < 128 ∧
      loads_as mem it tag type data_size array_size (m + data_offset)
        (pSize_of type (m + data_offset) (size_offset % 256)) ∧
      (size_offset < 256 →
        loads_as mem it tag type data_size array_size (m + data_offset)
          (pSize_of type (m + data_offset) size_offset))) := by
  have hok := load_ok mem it hi
  refine ⟨fun ha hr => ?_, fun ha hr => ?_, fun ha hr => ?_, fun ha hr => ?_⟩
  · unfold usr_PB_FIELDINFO_ASSERT_1 at ha
    simp only [Bool.and_eq_true] at ha
    obtain ⟨⟨⟨⟨a1, a2⟩, a3⟩, a4⟩, _⟩ := ha
    have b1 := fits_lt _ _ htag (by decide) a1
    have b2 := fits_lt _ _ hdo (by decide) a2
    have b3 := fits_lt _ _ hso (by decide) a3
    have b4 := fits_lt _ _ hds (by decide) a4
    have hw := holds_record_word it _ hr 0 
      (by simp [usr_PB_FIELDINFO_1, usr_PB_FIELDINFO_2, usr_PB_FIELDINFO_4, usr_PB_FIELDINFO_8]) _
      (fieldinfo_word0_1 tag type data_offset data_size size_offset b1 hty b2 b3 b4) (by omega)
    exact ⟨hok, load_fieldinfo_1 mem it m tag type data_offset data_size size_offset hi hm
      b1 hty b2 b3 b4 hw⟩
  · unfold usr_PB_FIELDINFO_ASSERT_2 at ha
    simp only [Bool.and_eq_true] at ha
    obtain ⟨⟨⟨⟨a1, a2⟩, a3⟩, a4⟩, a5⟩ := ha
    have b1 := fits_lt _ _ htag (by decide) a1
    have b2 := fits_lt _ _ hdo (by decide) a2
    have b3 := fits_lt _ _ hso (by decide) a3
    have b4 := fits_lt _ _ hds (by decide) a4
    have b5 := fits_lt _ _ has (by decide) a5
    have hw0 := holds_record_word it _ hr 0 
      (by simp [usr_PB_FIELDINFO_1, usr_PB_FIELDINFO_2, usr_PB_FIELDINFO_4, usr_PB_FIELDINFO_8]) _
      (fieldinfo_word0_2 tag type array_size size_offset hty b5 b3) (by omega)
    have hw1 := holds_record_word it _ hr 1 
      (by simp [usr_PB_FIELDINFO_1, usr_PB_FIELDINFO_2, usr_PB_FIELDINFO_4, usr_PB_FIELDINFO_8]) _
      (fieldinfo_word1_2 tag data_offset data_size b1 b2 b4) (by omega)
    exact ⟨hok, load_fieldinfo_2 mem it m tag type data_offset data_size size_offset array_size
      hi hm b1 hty b2 b3 b4 b5 hw0 hw1⟩
  · unfold usr_PB_FIELDINFO_ASSERT_4 at ha
    simp only [Bool.and_eq_true] at ha
    obtain ⟨⟨⟨⟨a1, a2⟩, a3⟩, a4⟩, a5⟩ := ha
    have b1 := fits_lt _ _ htag (by decide) a1
    have b2 := fits_lt _ _ hdo (by decide) a2
    have b3 := (u32_of_int8_fits size_offset a3).1
    have b4 := fits_lt _ _ hds (by decide) a4
    have b5 := fits_lt _ _ has (by decide) a5
    have hw0 := holds_record_word it _ hr 0 
      (by simp [usr_PB_FIELDINFO_1, usr_PB_FIELDINFO_2, usr_PB_FIELDINFO_4, usr_PB_FIELDINFO_8]) _
      (fieldinfo_word0_4 tag type array_size hty b5) (by omega)
    have hw1 := holds_record_word it _ hr 1 
      (by simp [usr_PB_FIELDINFO_1, usr_PB_FIELDINFO_2, usr_PB_FIELDINFO_4, usr_PB_FIELDINFO_8]) _
      (fieldinfo_word1_wide tag size_offset b1 a3) (by omega)
    have hw2 := holds_record_word it _ hr 2 
      (by simp [usr_PB_FIELDINFO_1, usr_PB_FIELDINFO_2, usr_PB_FIELDINFO_4, usr_PB_FIELDINFO_8]) data_offset rfl hdo
    have hw3 := holds_record_word it _ hr 3 
      (by simp [usr_PB_FIELDINFO_1, usr_PB_FIELDINFO_2, usr_PB_FIELDINFO_4, usr_PB_FIELDINFO_8]) data_size rfl hds
    have hl : loads_as mem it tag type data_size array_size (m + data_offset)
        (pSize_of type (m + data_offset) (size_offset % 256)) :=
      ⟨hok, load_fieldinfo_wide mem it m 2 tag type data_offset data_size
        (size_offset % 256) array_size array_size hi hm (Or.inl rfl) b1 hty b3 b4 b5 b5 hw0 hw1
        hw2 hw3 (by rw [if_pos rfl])⟩
    exact ⟨b3, hl, fun h => by rw [Nat.mod_eq_of_lt h] at hl; exact hl⟩
  · unfold usr_PB_FIELDINFO_ASSERT_8 at ha
    simp only [Bool.and_eq_true] at ha
    obtain ⟨⟨⟨⟨a1, a2⟩, a3⟩, a4⟩, a5⟩ := ha
    have b1 := fits_lt _ _ htag (by decide) a1
    have b2 := fits_lt _ _ hdo (by decide) a2
    have b3 := (u32_of_int8_fits size_offset a3).1
    have b4 := fits_lt _ _ hds (by decide) a4
    have b5 := fits_lt _ _ has (by decide) a5
    have hw0 := holds_record_word it _ hr 0 
      (by simp [usr_PB_FIELDINFO_1, usr_PB_FIELDINFO_2, usr_PB_FIELDINFO_4, usr_PB_FIELDINFO_8]) _
      (fieldinfo_word0_8 tag type hty) (by omega)
    have hw1 := holds_record_word it _ hr 1 
      (by simp [usr_PB_FIELDINFO_1, usr_PB_FIELDINFO_2, usr_PB_FIELDINFO_4, usr_PB_FIELDINFO_8]) _
      (fieldinfo_word1_wide tag size_offset b1 a3) (by omega)
    have hw2 := holds_record_word it _ hr 2 
      (by simp [usr_PB_FIELDINFO_1, usr_PB_FIELDINFO_2, usr_PB_FIELDINFO_4, usr_PB_FIELDINFO_8]) data_offset rfl hdo
    have hw3 := holds_record_word it _ hr 3 
      (by simp [usr_PB_FIELDINFO_1, usr_PB_FIELDINFO_2, usr_PB_FIELDINFO_4, usr_PB_FIELDINFO_8]) data_size rfl hds
    have hw4 := holds_record_word it _ hr 4 
      (by simp [usr_PB_FIELDINFO_1, usr_PB_FIELDINFO_2, usr_PB_FIELDINFO_4, usr_PB_FIELDINFO_8]) array_size rfl has
    have hl : loads_as mem it tag type data_size array_size (m + data_offset)
        (pSize_of type (m + data_offset) (size_offset % 256)) :=
      ⟨hok, load_fieldinfo_wide mem it m 3 tag type data_offset data_size
        (size_offset % 256) array_size 0 hi hm (Or.inr rfl) b1 hty b3 b4 b5 (by decide) hw0 hw1
        hw2 hw3 (by rw [if_neg (by decide)]; exact hw4)⟩
    exact ⟨b3, hl, fun h => by rw [Nat.mod_eq_of_lt h] at hl; exact hl⟩

set_option maxRecDepth 100000 in
/-- Witness of C32: the two-word record of `repeated uint32 values = 1` with
the count 2 bytes before the array of 4 one-byte entries. -/
theorem C32_descriptor_record_round_trip_witness :
    loads_as [0, 0, 0, 0, 0, 0] (field_at [0, 0, 0, 0, 0, 0] uint8_array_msgdesc (some 0) 0)
      1 (usr_PB_ATYPE_STATIC ||| usr_PB_HTYPE_REPEATED ||| usr_PB_LTYPE_UVARINT) 1 4 (0 + 2)
      (pSize_of (usr_PB_ATYPE_STATIC ||| usr_PB_HTYPE_REPEATED ||| usr_PB_LTYPE_UVARINT)
        (0 + 2) 2) ∧
    pSize_of (usr_PB_ATYPE_STATIC ||| usr_PB_HTYPE_REPEATED ||| usr_PB_LTYPE_UVARINT)
      (0 + 2) 2 = size_ptr.mem 0 :=
  ⟨(C32_descriptor_record_round_trip [0, 0, 0, 0, 0, 0]
      (field_at [0, 0, 0, 0, 0, 0] uint8_array_msgdesc (some 0) 0) 0 1
      (usr_PB_ATYPE_STATIC ||| usr_PB_HTYPE_REPEATED ||| usr_PB_LTYPE_UVARINT) 2 1 2 4
      (by decide) (by decide) (by decide) (by decide) (by decide) (by decide) (by decide)
      (by decide)).2.1 (by decide)
      (by
        intro j hj
        have h2 : j < 2 := hj
        interval_cases j <;> rfl),
    by decide⟩

/-- Claim C35 (UTF-8 validator). On a byte string `bytes` without NUL that is
followed by a NUL and arbitrary further bytes `rest`, `usr_pb_validate_utf8`
returns, and it returns true iff `bytes` is a concatenation of shortest-form
UTF-8 encodings of code points in U+0001..U+10FFFF other than the surrogates
U+D800..U+DFFF and other than U+FFFE and U+FFFF. The result does not depend
on the bytes after the terminating NUL. The overlong sequence `C0 80` is
rejected. -/
theorem C35_validate_utf8 (bytes rest : List usr_pb_byte_t) (hnul : ∀ b ∈ bytes, b ≠ 0) :
    (usr_pb_validate_utf8 (bytes ++ 0 :: rest) = some true ∨
      usr_pb_validate_utf8 (bytes ++ 0 :: rest) = some false) ∧
    (usr_pb_validate_utf8 (bytes ++ 0 :: rest) = some true ↔
      ∃ cs : List Nat, (∀ c ∈ cs, utf8_code_point c) ∧ bytes = cs.flatMap utf8_encode) ∧
    (∀ rest2 : List usr_pb_byte_t,
      usr_pb_validate_utf8 (bytes ++ 0 :: rest2) = usr_pb_validate_utf8 (bytes ++ 0 :: rest)) ∧
    usr_pb_validate_utf8 (0xC0 :: 0x80 :: 0 :: rest) = some false := by
  have tot : ∀ r : List usr_pb_byte_t,
      usr_pb_validate_utf8 (bytes ++ 0 :: r) = some true ∨
        usr_pb_validate_utf8 (bytes ++ 0 :: r) = some false :=
    fun r => validate_utf8_loop_total _ _ (le_refl _)
  have iff : ∀ r : List usr_pb_byte_t,
      usr_pb_validate_utf8 (bytes ++ 0 :: r) = some true ↔
        ∃ cs : List Nat, (∀ c ∈ cs, utf8_code_point c) ∧ bytes = cs.flatMap utf8_encode := by
    intro r
    constructor
    · exact validate_utf8_loop_decoded r _ bytes hnul
    · rintro ⟨cs, hcs, rfl⟩
      exact validate_utf8_loop_encoded r cs hcs _
        (by rw [List.length_append]; simp only [List.length_cons]; omega)
  refine ⟨tot rest, iff rest, fun rest2 => ?_, ?_⟩
  · rcases tot rest2 with h2 | h2
    · rw [h2, (iff rest).mpr ((iff rest2).mp h2)]
    · rcases tot rest with h1 | h1
      · have := (iff rest2).mpr ((iff rest).mp h1)
        rw [h2] at this
        simp at this
      · rw [h1, h2]
  · show validate_utf8_loop (rest.length + 3 + 1) (0xC0 :: 0x80 :: 0 :: rest) = some false
    have hh : ((0xC0 :: 0x80 :: 0 :: rest : List usr_pb_byte_t).getD 0 0).val ≠ 0 := by
      rw [getD_0]; decide
    have hs : validate_utf8_step (0xC0 :: 0x80 :: 0 :: rest) = none := by
      rw [validate_utf8_step_ranges]
      simp only [getD_0, getD_1]
      rw [if_neg (by decide), if_pos (by decide), if_neg (by decide), if_pos (by decide)]
    unfold validate_utf8_loop
    rw [if_pos hh, hs]

set_option maxRecDepth 100000 in
/-- Witness of C35: the string `C3 A9` (U+00E9) followed by NUL and `41`. -/
theorem C35_validate_utf8_witness :
    usr_pb_validate_utf8 ([0xC3, 0xA9] ++ 0 :: [0x41]) = some true ∧
    (∃ cs : List Nat, (∀ c ∈ cs, utf8_code_point c) ∧
      ([0xC3, 0xA9] : List usr_pb_byte_t) = cs.flatMap utf8_encode) ∧
    utf8_encode 0xE9 = [0xC3, 0xA9] :=
  ⟨by decide,
    ((C35_validate_utf8 [0xC3, 0xA9] [0x41] (by decide)).2.1).mp (by decide),
    by decide⟩

/-! ## Claim C38: the count of a static array after "array overflow" -/

set_option maxRecDepth 100000 in
/-- C38 (evaluation at the failing input). The descriptor has one statically
allocated repeated field of capacity 4, its count stored in the two bytes
before the four one-byte elements. With the count at 4 (which is
`≤ array_size`) and the elements 1, 2, 3, 4 in place, `decode_static_field` is
called for a fifth unpacked element (`05`, wire type varint). The call returns
false with `array overflow` and writes no element, yet it leaves the count at
5, above `array_size`: the test `(*size)++ >= field->array_size` increments
the count before it fails. The same happens through `usr_pb_decode` on five
unpacked elements. A packed fifth element (`01 05`) is rejected with the count
left at 4. -/
theorem C38_array_overflow_increments_count :
    (field_at [4, 0, 1, 2, 3, 4] uint8_array_msgdesc (some 0) 0).array_size = 4 ∧
    load_size ⟨⟨[0x05], 1, none⟩,
        field_at [4, 0, 1, 2, 3, 4] uint8_array_msgdesc (some 0) 0,
        [4, 0, 1, 2, 3, 4], 0⟩ = some 4 ∧
    (decode_static_field (decode_fns 1).1 (decode_fns 1).2
        ⟨⟨[0x05], 1, none⟩,
          field_at [4, 0, 1, 2, 3, 4] uint8_array_msgdesc (some 0) 0,
          [4, 0, 1, 2, 3, 4], 0⟩ usr_PB_WT_VARINT).map
      (fun r => (r.1, r.2.stream, r.2.mem, load_size r.2)) =
      some (false, ⟨[0x05], 1, some "array overflow"⟩, [5, 0, 1, 2, 3, 4], some 5) ∧
    usr_pb_decode
        (usr_pb_istream_from_buffer [0x08, 1, 0x08, 2, 0x08, 3, 0x08, 4, 0x08, 5])
        uint8_array_msgdesc (some 0) [0, 0, 0, 0, 0, 0] =
      some (false, ⟨[0x05], 1, some "array overflow"⟩, [5, 0, 1, 2, 3, 4]) ∧
    (decode_static_field (decode_fns 1).1 (decode_fns 1).2
        ⟨⟨[0x01, 0x05], 2, none⟩,
          field_at [4, 0, 1, 2, 3, 4] uint8_array_msgdesc (some 0) 0,
          [4, 0, 1, 2, 3, 4], 0⟩ usr_PB_WT_STRING).map
      (fun r => (r.1, r.2.stream.errmsg, r.2.mem, load_size r.2)) =
      some (false, some "array overflow", [4, 0, 1, 2, 3, 4], some 4) := by
  refine ⟨by decide, by decide, by decide, by decide, by decide⟩
/-! ## Claim C40: the decoder terminates -/

/-- Claim C40 (decode terminates). For every callback-free descriptor
(`decodable`: no field callback, no extension placeholder, no message
callback, every oneof with its `which` member, through all nested
descriptors) `usr_pb_decode` returns on every input stream, destination and
memory, and so does `usr_pb_decode_inner` with every larger recursion bound.
Each round of the field loop of `usr_pb_decode_inner` that does not return
leaves `bytes_left` strictly smaller, so the loop ends within `bytes_left`
rounds whatever its bound. The substream that `usr_pb_make_string_substream`
sets up is strictly shorter than the stream it is taken from; within a round
`usr_pb_decode_inner` is called for a submessage only on a stream strictly
shorter than the stream of the round was before the tag; and a packed array is
decoded by the packed loop from such a substream, which the loop never
lengthens and on which it ends within `bytes_left` rounds. -/
theorem C40_decode_terminates (fields : usr_pb_msgdesc_t)
    (h : decodable fields.depth fields = true) :
    (∀ stream dest mem, ∃ r, usr_pb_decode stream fields (some dest) mem = some r) ∧
    (∀ n, 2 * fields.depth ≤ n → ∀ stream dest flags mem,
      ∃ r, usr_pb_decode_inner n stream fields (some dest) flags mem = some r) ∧
    (∀ inner defaults flags s s',
      decode_inner_step inner defaults flags s = some (loop_step.next s') →
      s'.stream.bytes_left < s.stream.bytes_left) ∧
    (∀ inner defaults flags s fuel, s.stream.bytes_left < fuel →
      decode_inner_loop inner defaults flags fuel s =
        decode_inner_loop inner defaults flags (s.stream.bytes_left + 1) s) ∧
    (∀ stream parent sub, usr_pb_make_string_substream stream = (parent, some sub) →
      sub.bytes_left < stream.bytes_left ∧
      parent.bytes_left + sub.bytes_left < stream.bytes_left) ∧
    (∀ inner defaults flags s,
      decode_inner_step (on_shorter s.stream.bytes_left inner) defaults flags s =
        decode_inner_step inner defaults flags s) ∧
    (∀ inner defaults st size pField parent sub,
      usr_PB_HTYPE st.field.type = usr_PB_HTYPE_REPEATED →
      usr_PB_LTYPE st.field.type ≤ usr_PB_LTYPE_LAST_PACKABLE →
      load_size st = some size → st.field.pField = some pField →
      usr_pb_make_string_substream st.stream = (parent, some sub) →
      sub.bytes_left < st.stream.bytes_left ∧
      decode_static_field inner defaults st usr_PB_WT_STRING =
        (decode_packed_loop inner (sub.bytes_left + 1)
          { st with stream := sub,
                    field := { st.field with
                      pData := some (pField + st.field.data_size * size) } }).bind
          (fun r =>
            if r.2.stream.bytes_left ≠ 0 then
              dec_error { r.2 with stream := parent } "array overflow"
            else
              match usr_pb_close_string_substream parent r.2.stream with
              | (stream, false) => some (false, { r.2 with stream := stream })
              | (stream, true) => some (r.1, { r.2 with stream := stream }))) ∧
    (∀ inner fuel st, st.stream.bytes_left < fuel →
      decode_packed_loop inner fuel st =
        decode_packed_loop inner (st.stream.bytes_left + 1) st) ∧
    (∀ inner fuel st ok st', decode_packed_loop inner fuel st = some (ok, st') →
      st'.stream.bytes_left ≤ st.stream.bytes_left) := by
  refine ⟨?_, ?_, ?_, ?_, ?_, ?_, ?_, ?_, ?_⟩
  · intro stream dest mem
    exact some_of_isSome (usr_pb_decode_total fields h stream dest mem)
  · intro n hn stream dest flags mem
    exact some_of_isSome ((decode_fns_total fields.depth).1 n hn fields h stream dest flags mem)
  · intro inner defaults flags s s' hs
    exact decode_inner_step_bytes_left hs
  · intro inner defaults flags s fuel hf
    exact decode_inner_loop_fuel inner defaults flags fuel _ s hf (Nat.lt_succ_self _)
  · intro stream parent sub hm
    have := substream_lt hm
    exact ⟨by omega, this⟩
  · intro inner defaults flags s
    exact decode_inner_step_on_shorter inner defaults flags s
  · intro inner defaults st size pField parent sub hh hl hs hp hm
    exact decode_static_field_packed inner defaults st size pField parent sub hh hl hs hp hm
  · intro inner fuel st hf
    exact decode_packed_loop_fuel inner fuel _ st hf (Nat.lt_succ_self _)
  · intro inner fuel st ok st' hl
    exact decode_packed_loop_bytes_left inner fuel st st' ok hl

set_option maxRecDepth 100000 in
/-- Witness of C40: the descriptor of a message with a required submessage is
callback-free, so `usr_pb_decode` returns on every input for it; on the input
`0A 02 08 2A` it returns true with the submessage field set to 42. -/
theorem C40_decode_terminates_witness :
    decodable outer_submsg_msgdesc.depth outer_submsg_msgdesc = true ∧
    (∀ stream dest mem,
      ∃ r, usr_pb_decode stream outer_submsg_msgdesc (some dest) mem = some r) ∧
    usr_pb_decode (usr_pb_istream_from_buffer [0x0A, 0x02, 0x08, 0x2A]) outer_submsg_msgdesc
        (some 0) [0, 0, 0, 0] =
      some (true, ⟨[], 0, none⟩, [0x2A, 0, 0, 0]) :=
  ⟨by decide, (C40_decode_terminates outer_submsg_msgdesc (by decide)).1, by decide⟩
end Nanopb
